import Mathlib

/-! # TLSF allocator (`ugi::TLSF`): shallow embedding and verification

The definitions below follow `src/tlsf/TLSF.cpp`, `src/tlsf/TLSF.h`,
`src/tlsf/TLSFUtility.h` and `src/tlsf/fls.h`.

Modelling conventions.

* Pointers are natural numbers, `0` is the null pointer.  Pointer arithmetic is
  arithmetic on `Nat` (a pool is assumed to fit in the address space).
* The heap is a map from addresses to `AllocHeader` records.  The two free-list
  links of a header occupy the first 16 bytes of the payload; since every block
  has a payload of at least 16 bytes, headers of distinct blocks never overlap,
  so the links are modelled as fields of the record stored at the header address.
* `size_t` arithmetic is arithmetic modulo `2 ^ 64`, `uint16_t` arithmetic is
  modulo `2 ^ 16`, the `size : 31` bit-field stores values modulo `2 ^ 31`.
* A failed `assert`, an out-of-range table index or an out-of-range shift makes
  an operation return `none`.
-/

namespace ugi

/-! ## Machine arithmetic -/

/-- Addition of two `size_t` values. -/
def add64 (a b : Nat) : Nat := (a + b) % 2 ^ 64

/-- Subtraction of two `size_t` values (wraps around on underflow). -/
def sub64 (a b : Nat) : Nat := (a + (2 ^ 64 - b % 2 ^ 64)) % 2 ^ 64

/-- Multiplication of two `size_t` values. -/
def mul64 (a b : Nat) : Nat := (a * b) % 2 ^ 64

/-- Conversion of an `int` to `uint16_t`. -/
def toU16 (i : Int) : Nat := (i % 65536).toNat

/-- Decrement of a `uint16_t`. -/
def dec16 (a : Nat) : Nat := (a + 65535) % 65536

/-- Increment of a `uint16_t`. -/
def inc16 (a : Nat) : Nat := (a + 1) % 65536

/-- Subtraction of two `uint16_t`-range values, stored back into a `uint16_t`. -/
def sub16 (a b : Nat) : Nat := (a + (65536 - b % 65536)) % 65536

/-- Store into the 31-bit bit-field `size`. -/
def toSize31 (a : Nat) : Nat := a % 2 ^ 31

/-! ## `fls.h` -/

/-- One step of the binary search of `tlsf_fls_generic`:
`if (!(word & mask)) { word <<= shift; bit -= shift; }` on a 32-bit word. -/
def flsStep (mask shift : Nat) (p : Nat × Int) : Nat × Int :=
  if p.1 &&& mask = 0 then ((p.1 <<< shift) % 2 ^ 32, p.2 - shift) else p

/-- The generic bit scan `tlsf_fls_generic` on a 32-bit word. -/
def tlsf_fls_generic (word : Nat) : Int :=
  let bit : Int := if word = 0 then 32 - 1 else 32
  (flsStep 0x80000000 1 (flsStep 0xc0000000 2 (flsStep 0xf0000000 4
    (flsStep 0xff000000 8 (flsStep 0xffff0000 16 (word, bit)))))).2

/-- Bit scan reverse on a 32-bit word: index of the highest set bit, `-1` for `0`. -/
def tlsf_fls (word : Nat) : Int := tlsf_fls_generic word - 1

/-- The 64-bit variant `tlsf_fls_sizet`. -/
def tlsf_fls_sizet (size : Nat) : Int :=
  let high := (size >>> 32) % 2 ^ 32
  if high ≠ 0 then 32 + tlsf_fls high else tlsf_fls (size % 2 ^ 32)

/-! ## Constants of `class TLSF` -/

def MinimiumAllocationSize : Nat := 16
def FLC : Nat := 31
def SLI : Nat := 5
def SLC : Nat := 1 <<< SLI
def FLM : Nat := MinimiumAllocationSize <<< SLI
def BasePowLevel : Nat := (tlsf_fls_sizet FLM).toNat

/-! ## `TLSFUtility.h` -/

/-- A pool descriptor `TLSFPool`: `_memptr` and `_capacity`. -/
structure TLSFPool where
  memptr : Nat
  capacity : Nat
deriving DecidableEq, Repr

namespace TLSFPool

def check_next_contains (pool : TLSFPool) (ptr : Nat) : Bool :=
  decide (ptr < pool.memptr + pool.capacity)

def contains (pool : TLSFPool) (ptr : Nat) : Bool :=
  decide (ptr ≥ pool.memptr) && decide (ptr < pool.memptr + pool.capacity)

def ptr (pool : TLSFPool) : Nat := pool.memptr

def endPtr (pool : TLSFPool) : Nat := pool.memptr + pool.capacity

end TLSFPool

/-- A block header `AllocHeader`. -/
structure AllocHeader where
  prevPhyAlloc : Nat
  size : Nat
  free : Bool
  prevFreeAlloc : Nat
  nextFreeAlloc : Nat
deriving DecidableEq, Repr

namespace AllocHeader

def TrueSize : Nat := 16
def FullSize : Nat := 32

end AllocHeader

/-- The heap: the header record stored at each address. -/
abbrev Heap := Nat → AllocHeader

namespace Heap

def setPrevPhyAlloc (h : Heap) (a v : Nat) : Heap :=
  fun x => if x = a then { h x with prevPhyAlloc := v } else h x

def setSize (h : Heap) (a v : Nat) : Heap :=
  fun x => if x = a then { h x with size := toSize31 v } else h x

def setFree (h : Heap) (a : Nat) (v : Bool) : Heap :=
  fun x => if x = a then { h x with free := v } else h x

def setPrevFreeAlloc (h : Heap) (a v : Nat) : Heap :=
  fun x => if x = a then { h x with prevFreeAlloc := v } else h x

def setNextFreeAlloc (h : Heap) (a v : Nat) : Heap :=
  fun x => if x = a then { h x with nextFreeAlloc := v } else h x

/-- The pointer `allocation->ptr()`. -/
def ptr (allocation : Nat) : Nat := allocation + AllocHeader.TrueSize

/-- The pointer `allocation->nextPhyAllocation()`. -/
def nextPhyAllocation (h : Heap) (allocation : Nat) : Nat :=
  allocation + AllocHeader.TrueSize + (h allocation).size

/-- The pointer `AllocHeader::fromPtr(ptr)`. -/
def fromPtr (ptr : Nat) : Nat := ptr - AllocHeader.TrueSize

end Heap

/-! ## `TLSF.h` -/

/-- A pair `TLSF::BitmapLevel` of two `uint16_t`. -/
structure BitmapLevel where
  firstLevel : Nat
  secondLevel : Nat
deriving DecidableEq, Repr

namespace BitmapLevel

/-- The default constructor: `val = 0xffffffff`. -/
def invalid : BitmapLevel := ⟨65535, 65535⟩

/-- The test `val != 0xffffffff`. -/
def valid (level : BitmapLevel) : Bool :=
  decide (level.firstLevel + 65536 * level.secondLevel ≠ 4294967295)

/-- Both indices are inside the 31-entry and 31x32 tables. -/
def inTable (level : BitmapLevel) : Bool :=
  decide (level.firstLevel < 31) && decide (level.secondLevel < 32)

end BitmapLevel

/-- The allocator state, together with the heap it manages. -/
structure TLSF where
  firstLevelBitmap : Nat
  secondLevelBitmap : Nat → Nat
  allocationLinkTable : Nat → Nat → Nat
  memoryPools : List TLSFPool
  heap : Heap

namespace TLSF

/-- The constructor `TLSF()`, on a heap with arbitrary contents. -/
def new (heap : Heap) : TLSF :=
  { firstLevelBitmap := 0
    secondLevelBitmap := fun _ => 0
    allocationLinkTable := fun _ _ => 0
    memoryPools := []
    heap := heap }

def setHead (t : TLSF) (level : BitmapLevel) (v : Nat) : TLSF :=
  { t with allocationLinkTable := fun f s =>
      if f = level.firstLevel ∧ s = level.secondLevel then v else t.allocationLinkTable f s }

def head (t : TLSF) (level : BitmapLevel) : Nat :=
  t.allocationLinkTable level.firstLevel level.secondLevel

def withHeap (t : TLSF) (h : Heap) : TLSF := { t with heap := h }

/-! ## `TLSF.cpp`: the size-class mapper -/

def queryBitmapLevelForAlloc (size : Nat) : BitmapLevel :=
  if size ≤ FLM then
    let secondLevel := (size / MinimiumAllocationSize) % 65536
    if size &&& (MinimiumAllocationSize - 1) = 0 then
      ⟨0, dec16 secondLevel⟩
    else
      ⟨0, secondLevel⟩
  else
    let firstLevel := toU16 (tlsf_fls_sizet size)
    let levelMin := 1 <<< firstLevel
    let segmentSize := levelMin >>> SLI
    let size := add64 size (sub64 segmentSize 1)
    let alignSize := 1 <<< (firstLevel - SLI)
    let secondLevel := (sub64 size levelMin / alignSize) % 65536
    if secondLevel ≠ 0 then
      ⟨sub16 firstLevel (BasePowLevel - 1), dec16 secondLevel⟩
    else
      ⟨sub16 (dec16 firstLevel) (BasePowLevel - 1), SLC - 1⟩

def queryBitmapLevelForInsert (size : Nat) : BitmapLevel :=
  if size ≤ FLM then
    ⟨0, dec16 ((size / MinimiumAllocationSize) % 65536)⟩
  else
    let firstLevel := toU16 (tlsf_fls_sizet size)
    let levelMin := 1 <<< firstLevel
    let secondLevel := (sub64 size levelMin / (levelMin >>> SLI)) % 65536
    let level : BitmapLevel :=
      if secondLevel = 0 then ⟨dec16 firstLevel, SLC - 1⟩ else ⟨firstLevel, dec16 secondLevel⟩
    let firstLevel := sub16 level.firstLevel (if level.secondLevel = 0 then 1 else 0)
    let secondLevel := dec16 level.secondLevel
    let secondLevel := secondLevel &&& (SLC - 1)
    ⟨sub16 firstLevel (BasePowLevel - 1), secondLevel⟩

def queryLevelSize (level : BitmapLevel) : Nat :=
  if level.firstLevel ≠ 0 then
    let firstLevelSize := 1 <<< (level.firstLevel + BasePowLevel - 1)
    add64 firstLevelSize (mul64 (firstLevelSize >>> SLI) (level.secondLevel + 1))
  else
    mul64 (level.secondLevel + 1) MinimiumAllocationSize

def queryAlignedLevelSize (size : Nat) : Nat :=
  queryLevelSize (queryBitmapLevelForAlloc size)

/-! ## `TLSF.cpp`: the index and the free lists -/

/-- The locator of a block: the last pool of `_memoryPools` that contains it
(the loop of `locatePool`, `free` and `realloc`), `none` when the `assert` fails. -/
def locatePool (t : TLSF) (allocation : Nat) : Option TLSFPool :=
  t.memoryPools.foldl (fun allocPool pool => if pool.contains allocation then some pool else allocPool) none

/-- The test `queryFreeStatus`, with the source's operator precedence:
`!_firstLevelBitmap & (1 << level.firstLevel)`. -/
def queryFreeStatus (t : TLSF) (level : BitmapLevel) : Option Bool :=
  if level.firstLevel ≥ 31 then none
  else if (if t.firstLevelBitmap = 0 then 1 else 0) &&& (1 <<< level.firstLevel) ≠ 0 then some false
  else if level.secondLevel ≥ 32 then none
  else some (decide (t.secondLevelBitmap level.firstLevel &&& (1 <<< level.secondLevel) ≠ 0))

/-- The statements `_secondLevelBitmap[fl] &= ~(1 << sl);`
`if (0 == _secondLevelBitmap[fl]) _firstLevelBitmap &= ~(1 << fl);`
shared by the three removal paths. -/
def clearLevelBit (t : TLSF) (level : BitmapLevel) : TLSF :=
  let second := t.secondLevelBitmap level.firstLevel &&& (4294967295 ^^^ (1 <<< level.secondLevel))
  let first :=
    if second = 0 then t.firstLevelBitmap &&& (4294967295 ^^^ (1 <<< level.firstLevel))
    else t.firstLevelBitmap
  { t with
    firstLevelBitmap := first
    secondLevelBitmap := fun f => if f = level.firstLevel then second else t.secondLevelBitmap f }

/-- The statements `_secondLevelBitmap[fl] |= 1 << sl; _firstLevelBitmap |= 1 << fl;`. -/
def setLevelBit (t : TLSF) (level : BitmapLevel) : TLSF :=
  { t with
    firstLevelBitmap := t.firstLevelBitmap ||| (1 <<< level.firstLevel)
    secondLevelBitmap := fun f =>
      if f = level.firstLevel then t.secondLevelBitmap f ||| (1 <<< level.secondLevel)
      else t.secondLevelBitmap f }

/-- The inner loop of `findLevelForSplit`: `count` iterations from `secondLevel`. -/
def findSecondLevel (t : TLSF) (firstLevel : Nat) : Nat → Nat → Option (Option BitmapLevel)
  | _, 0 => some none
  | secondLevel, count + 1 =>
    match queryFreeStatus t ⟨firstLevel, secondLevel⟩ with
    | none => none
    | some true => some (some ⟨firstLevel, secondLevel⟩)
    | some false => findSecondLevel t firstLevel (secondLevel + 1) count

/-- The outer loop of `findLevelForSplit`: `count` iterations from `firstLevel`;
`baseSecondLevel` is the current value of `baseLevel.secondLevel`. -/
def findFirstLevel (t : TLSF) : Nat → Nat → Nat → Option BitmapLevel
  | _, _, 0 => some BitmapLevel.invalid
  | baseSecondLevel, firstLevel, count + 1 =>
    if t.firstLevelBitmap &&& (1 <<< firstLevel) = 0 then
      findFirstLevel t 0 (firstLevel + 1) count
    else
      match findSecondLevel t firstLevel baseSecondLevel (SLC - baseSecondLevel) with
      | none => none
      | some (some acquiredLevel) => some acquiredLevel
      | some none => findFirstLevel t baseSecondLevel (firstLevel + 1) count

def findLevelForSplit (t : TLSF) (baseLevel : BitmapLevel) : Option BitmapLevel :=
  findFirstLevel t baseLevel.secondLevel baseLevel.firstLevel (FLC - baseLevel.firstLevel)

def queryAllocationWithFreeLevel (t : TLSF) (level : BitmapLevel) : Option (TLSF × Nat) :=
  if ¬ level.inTable then none
  else
    let originHeader := t.head level
    if originHeader = 0 then none
    else
      let nextFreeAlloc := (t.heap originHeader).nextFreeAlloc
      let t := t.setHead level nextFreeAlloc
      if nextFreeAlloc ≠ 0 then
        some (t.withHeap (t.heap.setPrevFreeAlloc nextFreeAlloc 0), originHeader)
      else
        some (clearLevelBit t level, originHeader)

/-- The overload `removeFreeAllocationAndUpdateBitmap(allocation, level)`. -/
def removeFreeAllocationAndUpdateBitmapLevel (t : TLSF) (allocation : Nat) (level : BitmapLevel) :
    Option TLSF :=
  if ¬ level.inTable then none
  else
    let nextFreeAlloc := (t.heap allocation).nextFreeAlloc
    let prevFreeAlloc := (t.heap allocation).prevFreeAlloc
    let t :=
      if prevFreeAlloc ≠ 0 then t.withHeap (t.heap.setNextFreeAlloc prevFreeAlloc nextFreeAlloc)
      else t.setHead level nextFreeAlloc
    let t :=
      if nextFreeAlloc ≠ 0 then t.withHeap (t.heap.setPrevFreeAlloc nextFreeAlloc prevFreeAlloc)
      else t
    if t.head level = 0 then some (clearLevelBit t level) else some t

/-- The overload `removeFreeAllocationAndUpdateBitmap(allocation)`. -/
def removeFreeAllocationAndUpdateBitmap (t : TLSF) (allocation : Nat) : Option TLSF :=
  removeFreeAllocationAndUpdateBitmapLevel t allocation
    (queryBitmapLevelForInsert (t.heap allocation).size)

/-- The tail of `insertFreeAllocation`: push `allocation` on the list of its class. -/
def pushFreeAllocation (t : TLSF) (allocation : Nat) : Option TLSF :=
  let level := queryBitmapLevelForInsert (t.heap allocation).size
  if ¬ level.inTable then none
  else
    let originHeader := t.head level
    let t := t.setHead level allocation
    let t := t.withHeap ((t.heap.setNextFreeAlloc allocation originHeader).setPrevFreeAlloc allocation 0)
    if originHeader = 0 then some (setLevelBit t level)
    else some (t.withHeap (t.heap.setPrevFreeAlloc originHeader allocation))

/-- The first half of the `mergeCheck` block of `insertFreeAllocation`:
absorb `allocation` into its free physical predecessor. -/
def mergePrevPhyAlloc (t : TLSF) (allocation : Nat) : Option (TLSF × Nat) :=
  let prevPhyAlloc := (t.heap allocation).prevPhyAlloc
  if prevPhyAlloc ≠ 0 ∧ (t.heap prevPhyAlloc).free = true then
    match removeFreeAllocationAndUpdateBitmap t prevPhyAlloc with
    | none => none
    | some t =>
      some (t.withHeap (t.heap.setSize prevPhyAlloc
        (add64 (t.heap prevPhyAlloc).size (add64 (t.heap allocation).size AllocHeader.TrueSize))),
        prevPhyAlloc)
  else some (t, allocation)

/-- The second half of the `mergeCheck` block of `insertFreeAllocation`:
absorb the free physical successor `nextPhyAlloc`, or patch its back link. -/
def mergeNextPhyAlloc (t : TLSF) (allocation nextPhyAlloc : Nat) (pool : TLSFPool) : Option TLSF :=
  if pool.check_next_contains nextPhyAlloc then
    if (t.heap nextPhyAlloc).free = true then
      match removeFreeAllocationAndUpdateBitmap t nextPhyAlloc with
      | none => none
      | some t =>
        let t := t.withHeap (t.heap.setSize allocation
          (add64 (t.heap allocation).size (add64 (t.heap nextPhyAlloc).size AllocHeader.TrueSize)))
        let nextNextAlloc := t.heap.nextPhyAllocation nextPhyAlloc
        if pool.check_next_contains nextNextAlloc then
          let t := t.withHeap (t.heap.setPrevPhyAlloc nextNextAlloc allocation)
          if (t.heap nextNextAlloc).free = true then none
          else if t.heap.nextPhyAllocation allocation ≠ nextNextAlloc then none
          else some t
        else some t
    else some (t.withHeap (t.heap.setPrevPhyAlloc nextPhyAlloc allocation))
  else some t

def insertFreeAllocation (t : TLSF) (allocation : Nat) (mergeCheck : Bool)
    (pool : Option TLSFPool) : Option TLSF :=
  if mergeCheck then
    match pool with
    | none => none
    | some pool =>
      let nextPhyAlloc := t.heap.nextPhyAllocation allocation
      match mergePrevPhyAlloc t allocation with
      | none => none
      | some (t, allocation) =>
        match mergeNextPhyAlloc t allocation nextPhyAlloc pool with
        | none => none
        | some t => pushFreeAllocation t allocation
  else pushFreeAllocation t allocation

/-! ## `TLSF.cpp`: the allocator core -/

def splitAllocation (t : TLSF) (level : BitmapLevel) (size : Nat) : Option (TLSF × Nat) :=
  match queryAllocationWithFreeLevel t level with
  | none => none
  | some (t, targetAlloc) =>
    if targetAlloc = 0 then none
    else if ¬ ((t.heap targetAlloc).size ≥ size) then none
    else
      match removeFreeAllocationAndUpdateBitmapLevel t targetAlloc level with
      | none => none
      | some t =>
        if sub64 (t.heap targetAlloc).size size < AllocHeader.TrueSize + MinimiumAllocationSize then
          some (t, targetAlloc)
        else
          let nextNextPhyAlloc := t.heap.nextPhyAllocation targetAlloc
          match locatePool t targetAlloc with
          | none => none
          | some pool =>
            let splitedSize := sub64 (sub64 (t.heap targetAlloc).size size) AllocHeader.TrueSize
            let t := t.withHeap (t.heap.setSize targetAlloc size)
            let nextAlloc := t.heap.nextPhyAllocation targetAlloc
            let t := t.withHeap (t.heap.setSize nextAlloc splitedSize)
            let t := t.withHeap (t.heap.setFree nextAlloc true)
            let t := t.withHeap (t.heap.setPrevPhyAlloc nextAlloc targetAlloc)
            let t :=
              if pool.check_next_contains nextNextPhyAlloc then
                t.withHeap (t.heap.setPrevPhyAlloc nextNextPhyAlloc nextAlloc)
              else t
            match insertFreeAllocation t nextAlloc false none with
            | none => none
            | some t => some (t, targetAlloc)

def queryFreeAllocation (t : TLSF) (size : Nat) : Option (TLSF × Nat) :=
  let level := queryBitmapLevelForAlloc size
  match queryFreeStatus t level with
  | none => none
  | some true => queryAllocationWithFreeLevel t level
  | some false =>
    let size := queryLevelSize level
    let level : BitmapLevel :=
      if inc16 level.secondLevel ≥ SLC then ⟨inc16 level.firstLevel, 0⟩
      else ⟨level.firstLevel, inc16 level.secondLevel⟩
    match findLevelForSplit t level with
    | none => none
    | some splitLevel =>
      if ¬ splitLevel.valid then some (t, 0)
      else splitAllocation t splitLevel size

/-- The method `TLSF::initialize(pool)` (renamed, the source name is reserved). -/
def initializePool (t : TLSF) (pool : TLSFPool) : Option (TLSF × Bool) :=
  let capacity := pool.capacity
  let allocation := pool.ptr
  let t := t.withHeap (t.heap.setSize allocation (sub64 capacity AllocHeader.TrueSize))
  let t := t.withHeap (t.heap.setFree allocation true)
  let t := t.withHeap (t.heap.setPrevPhyAlloc allocation 0)
  match insertFreeAllocation t allocation false none with
  | none => none
  | some t => some ({ t with memoryPools := t.memoryPools ++ [pool] }, true)

def alloc (t : TLSF) (size : Nat) : Option (TLSF × Nat) :=
  match queryFreeAllocation t size with
  | none => none
  | some (t, allocation) =>
    if allocation = 0 then some (t, 0)
    else some (t.withHeap (t.heap.setFree allocation false), Heap.ptr allocation)

def free (t : TLSF) (ptr : Nat) : Option TLSF :=
  let allocation := Heap.fromPtr ptr
  let t := t.withHeap (t.heap.setFree allocation true)
  match locatePool t allocation with
  | none => none
  | some allocPool => insertFreeAllocation t allocation true (some allocPool)

/-- The method `TLSF::realloc(ptr, size)`.  The two nested tests of the source, which share
the fall-through to the last two statements, are one conjunction here; `none` stands for the
failed `assert(allocPool)`. -/
def realloc (t : TLSF) (ptr size : Nat) : Option (TLSF × Nat) :=
  let allocation := Heap.fromPtr ptr
  match locatePool t allocation with
  | none => none
  | some allocPool =>
    let nextPhyAlloc := t.heap.nextPhyAllocation allocation
    let nextPhyAlloc := if nextPhyAlloc ≥ allocPool.endPtr then 0 else nextPhyAlloc
    let alignedLevelSize := queryAlignedLevelSize size
    let mergedSize :=
      add64 (add64 (t.heap nextPhyAlloc).size AllocHeader.TrueSize) (t.heap allocation).size
    if (nextPhyAlloc ≠ 0 ∧ (t.heap nextPhyAlloc).free = true) ∧
        (mergedSize ≥ size ∧ mergedSize < alignedLevelSize) then
      match removeFreeAllocationAndUpdateBitmap t nextPhyAlloc with
      | none => none
      | some t => some (t.withHeap (t.heap.setSize allocation mergedSize), ptr)
    else
      match insertFreeAllocation t allocation true (some allocPool) with
      | none => none
      | some t => alloc t size

/-- The walk of `dump` over one pool: the headers visited, `count` steps at most. -/
def walkPool (h : Heap) (pool : TLSFPool) : Nat → Nat → List Nat
  | _, 0 => []
  | a, count + 1 =>
    if pool.check_next_contains a then a :: walkPool h pool (h.nextPhyAllocation a) count else []

end TLSF

open TLSF

/-! ## Specification vocabulary

The predicates below describe the data structure that the allocator maintains.
They mention two ghost objects: for every pool the list of the headers of its
physical blocks, in address order, and for every class the list of the headers
on its free list, in list order. -/

namespace BitmapLevel

/-- Lexicographic order on classes. -/
def le (a b : BitmapLevel) : Prop :=
  a.firstLevel < b.firstLevel ∨ (a.firstLevel = b.firstLevel ∧ a.secondLevel ≤ b.secondLevel)

/-- Strict lexicographic order on classes. -/
def lt (a b : BitmapLevel) : Prop :=
  a.firstLevel < b.firstLevel ∨ (a.firstLevel = b.firstLevel ∧ a.secondLevel < b.secondLevel)

end BitmapLevel

/-- The class that `queryFreeAllocation` hands to `findLevelForSplit`: the class after `level`. -/
def nextLevel (level : BitmapLevel) : BitmapLevel :=
  if inc16 level.secondLevel ≥ SLC then ⟨inc16 level.firstLevel, 0⟩
  else ⟨level.firstLevel, inc16 level.secondLevel⟩

/-- A segment of a doubly linked free list: starting at `a`, whose predecessor is `prev`,
the headers `l` are linked by `nextFreeAlloc` and `prevFreeAlloc`, and the last
`nextFreeAlloc` is `e`. -/
def DSeg (h : Heap) : Nat → Nat → List Nat → Nat → Prop
  | _, a, [], e => a = e
  | prev, a, x :: xs, e =>
    a = x ∧ x ≠ 0 ∧ (h x).prevFreeAlloc = prev ∧ DSeg h x (h x).nextFreeAlloc xs e

/-- A segment of the physical chain of a pool: starting at address `a`, whose
predecessor is `prev`, the blocks `l` follow each other without gap up to address `e`,
each with a payload of at least 16 bytes and a correct `prevPhyAlloc`. -/
def PSeg (h : Heap) : Nat → Nat → List Nat → Nat → Prop
  | _, a, [], e => a = e
  | prev, a, x :: xs, e =>
    a = x ∧ (h x).prevPhyAlloc = prev ∧ 16 ≤ (h x).size ∧
      PSeg h x (x + 16 + (h x).size) xs e

/-- Point update of the ghost free lists. -/
def updLists (lists : Nat → Nat → List Nat) (level : BitmapLevel) (l : List Nat) :
    Nat → Nat → List Nat :=
  fun f s => if f = level.firstLevel ∧ s = level.secondLevel then l else lists f s

/-- Point update of the ghost block lists. -/
def updBlocks (blocks : TLSFPool → List Nat) (pool : TLSFPool) (l : List Nat) :
    TLSFPool → List Nat :=
  fun p => if p = pool then l else blocks p

/-- Two heaps agree on the physical fields of every header. -/
def PhysEq (h h' : Heap) : Prop :=
  ∀ x, (h' x).size = (h x).size ∧ (h' x).free = (h x).free ∧
    (h' x).prevPhyAlloc = (h x).prevPhyAlloc

/-- Two heaps agree on the free-list links of every header. -/
def LinkEq (h h' : Heap) : Prop :=
  ∀ x, (h' x).prevFreeAlloc = (h x).prevFreeAlloc ∧ (h' x).nextFreeAlloc = (h x).nextFreeAlloc

/-- The index invariant: the table of heads, the links and the two bitmaps describe
the ghost free lists `lists`. -/
structure LinkInv (t : TLSF) (lists : Nat → Nat → List Nat) : Prop where
  seg : ∀ fl sl, DSeg t.heap 0 (t.allocationLinkTable fl sl) (lists fl sl) 0
  outside : ∀ fl sl, ¬ (fl < 31 ∧ sl < 32) → lists fl sl = []
  nodup : ∀ fl sl, (lists fl sl).Nodup
  disjoint : ∀ fl sl fl' sl' x, x ∈ lists fl sl → x ∈ lists fl' sl' → fl = fl' ∧ sl = sl'
  second : ∀ fl sl, (t.secondLevelBitmap fl).testBit sl = true ↔ lists fl sl ≠ []
  first : ∀ fl, t.firstLevelBitmap.testBit fl = true ↔ ∃ sl, lists fl sl ≠ []

/-- A pool that `initialize` may attach: non-null, large enough for one block,
small enough for the 31-bit size field, and disjoint from the pools already attached. -/
def ValidPool (t : TLSF) (pool : TLSFPool) : Prop :=
  pool.memptr ≠ 0 ∧ 32 ≤ pool.capacity ∧ pool.capacity - 16 < 2 ^ 31 ∧
    ∀ q ∈ t.memoryPools,
      pool.memptr + pool.capacity ≤ q.memptr ∨ q.memptr + q.capacity ≤ pool.memptr

/-- The allocator invariant.  `live` lists the pointers handed out and not yet freed,
each with the size that was requested. -/
structure Inv (t : TLSF) (live : List (Nat × Nat)) (blocks : TLSFPool → List Nat)
    (lists : Nat → Nat → List Nat) : Prop where
  pools_ok : ∀ p ∈ t.memoryPools, p.memptr ≠ 0 ∧ 32 ≤ p.capacity ∧ p.capacity - 16 < 2 ^ 31
  pools_disj : t.memoryPools.Pairwise
    (fun p q => p.memptr + p.capacity ≤ q.memptr ∨ q.memptr + q.capacity ≤ p.memptr)
  chain : ∀ p ∈ t.memoryPools, PSeg t.heap 0 p.memptr (blocks p) (p.memptr + p.capacity)
  align : ∀ p ∈ t.memoryPools, ∀ x ∈ blocks p, (x - p.memptr) % 16 = 0
  noAdj : ∀ p ∈ t.memoryPools,
    (blocks p).Chain' (fun x y => ¬ ((t.heap x).free = true ∧ (t.heap y).free = true))
  link : LinkInv t lists
  free_listed : ∀ p ∈ t.memoryPools, ∀ x ∈ blocks p, (t.heap x).free = true →
    x ∈ lists (queryBitmapLevelForInsert (t.heap x).size).firstLevel
      (queryBitmapLevelForInsert (t.heap x).size).secondLevel
  listed_free : ∀ fl sl x, x ∈ lists fl sl →
    (∃ p ∈ t.memoryPools, x ∈ blocks p) ∧ (t.heap x).free = true ∧
      queryBitmapLevelForInsert (t.heap x).size = ⟨fl, sl⟩
  live_block : ∀ q n, (q, n) ∈ live →
    16 ≤ q ∧ (∃ p ∈ t.memoryPools, q - 16 ∈ blocks p) ∧ (t.heap (q - 16)).free = false ∧
      1 ≤ n ∧ queryAlignedLevelSize n ≤ (t.heap (q - 16)).size ∧
      (n ≤ 512 → (queryBitmapLevelForInsert (t.heap (q - 16)).size).firstLevel = 0 ∧
        (queryBitmapLevelForAlloc n).secondLevel ≤
          (queryBitmapLevelForInsert (t.heap (q - 16)).size).secondLevel)
  block_live : ∀ p ∈ t.memoryPools, ∀ x ∈ blocks p, (t.heap x).free = false →
    ∃ n, (x + 16, n) ∈ live
  live_nodup : (live.map Prod.fst).Nodup

/-- The states reachable by `initialize`, `alloc` and `free` from a newly constructed
allocator, with the list of live pointers: `initialize` attaches valid pools, `alloc`
is called with `1 ≤ size ≤ 2 ^ 39`, `free` is called on live pointers. -/
inductive Reachable : TLSF → List (Nat × Nat) → Prop
  | new (heap : Heap) : Reachable (TLSF.new heap) []
  | init {t t' : TLSF} {live : List (Nat × Nat)} (pool : TLSFPool) (r : Bool) :
      Reachable t live → ValidPool t pool → initializePool t pool = some (t', r) →
      Reachable t' live
  | allocSome {t t' : TLSF} {live : List (Nat × Nat)} (n p : Nat) :
      Reachable t live → 1 ≤ n → n ≤ 2 ^ 39 → alloc t n = some (t', p) → p ≠ 0 →
      Reachable t' ((p, n) :: live)
  | allocNull {t t' : TLSF} {live : List (Nat × Nat)} (n : Nat) :
      Reachable t live → 1 ≤ n → n ≤ 2 ^ 39 → alloc t n = some (t', 0) →
      Reachable t' live
  | free {t t' : TLSF} {live : List (Nat × Nat)} (p n : Nat) :
      Reachable t live → (p, n) ∈ live → TLSF.free t p = some t' →
      Reachable t' (live.filter (fun e => decide (e.1 ≠ p)))

/-- Membership in the free list that starts at `a`: `x` is reached from `a` by following
`nextFreeAlloc` through non-null headers. -/
inductive FreeReach (h : Heap) : Nat → Nat → Prop
  | here (a : Nat) : a ≠ 0 → FreeReach h a a
  | next (a x : Nat) : a ≠ 0 → FreeReach h (h a).nextFreeAlloc x → FreeReach h a x

/-- The header `x` is on the free list of class `level`. -/
def OnFreeList (t : TLSF) (level : BitmapLevel) (x : Nat) : Prop :=
  FreeReach t.heap (t.allocationLinkTable level.firstLevel level.secondLevel) x

/-- The physical predecessor of the block `b` exists and is free, so that `free` absorbs
`b` into it. -/
def mergesPrev (t : TLSF) (b : Nat) : Prop :=
  (t.heap b).prevPhyAlloc ≠ 0 ∧ (t.heap (t.heap b).prevPhyAlloc).free = true

instance (t : TLSF) (b : Nat) : Decidable (mergesPrev t b) := by
  unfold mergesPrev; infer_instance

/-- The physical successor of the block `b` lies inside `pool` and is free, so that `free`
absorbs it. -/
def mergesNext (t : TLSF) (pool : TLSFPool) (b : Nat) : Prop :=
  b + 16 + (t.heap b).size < pool.memptr + pool.capacity ∧
    (t.heap (b + 16 + (t.heap b).size)).free = true

instance (t : TLSF) (pool : TLSFPool) (b : Nat) : Decidable (mergesNext t pool b) := by
  unfold mergesNext; infer_instance

/-- The header at which the block released by `free` starts after coalescing. -/
def mergedStart (t : TLSF) (b : Nat) : Nat :=
  if mergesPrev t b then (t.heap b).prevPhyAlloc else b

/-- The payload size of the block released by `free` after coalescing: the sizes of the
merged blocks plus 16 for every absorbed header. -/
def mergedSize (t : TLSF) (pool : TLSFPool) (b : Nat) : Nat :=
  (if mergesPrev t b then (t.heap (t.heap b).prevPhyAlloc).size + 16 else 0) +
    (t.heap b).size +
    (if mergesNext t pool b then (t.heap (b + 16 + (t.heap b).size)).size + 16 else 0)

/-- The in-place test of `realloc`: the physical successor of the block `b` lies inside
`pool` and is free, and the size `merged` of the two blocks with the header between them
satisfies `n ≤ merged < class_size(class_for_alloc(n))`. -/
def growsInPlace (t : TLSF) (pool : TLSFPool) (b n : Nat) : Prop :=
  mergesNext t pool b ∧
    n ≤ (t.heap (b + 16 + (t.heap b).size)).size + 16 + (t.heap b).size ∧
    (t.heap (b + 16 + (t.heap b).size)).size + 16 + (t.heap b).size < queryAlignedLevelSize n

instance (t : TLSF) (pool : TLSFPool) (b n : Nat) : Decidable (growsInPlace t pool b n) := by
  unfold growsInPlace; infer_instance

/-- The heap `h` with the `free` bit of every header replaced by `F`. -/
def Heap.withFreeBits (h : Heap) (F : Nat → Bool) : Heap := fun x => { h x with free := F x }

/-- The state `t` with the `free` bit of every header replaced by `F`. -/
def TLSF.withFreeBits (t : TLSF) (F : Nat → Bool) : TLSF := t.withHeap (t.heap.withFreeBits F)

/-- Index consistency, invariants 1 and 2 of the specification: for every first-level
index `i < 31`, bit `i` of the first-level bitmap is set iff `second_bitmap[i]` is not
zero, and for every second-level index `j < 32`, bit `j` of `second_bitmap[i]` is set iff
the head of the list of class `(i, j)` is not null. -/
def IndexConsistent (t : TLSF) : Prop :=
  (∀ i, i < 31 → (t.firstLevelBitmap.testBit i = true ↔ t.secondLevelBitmap i ≠ 0)) ∧
    ∀ i, i < 31 → ∀ j, j < 32 →
      ((t.secondLevelBitmap i).testBit j = true ↔ t.allocationLinkTable i j ≠ 0)

instance (t : TLSF) : Decidable (IndexConsistent t) := by
  unfold IndexConsistent; infer_instance

/-- The decrement of a `uint16_t` index, `none` when it wraps below zero. -/
def checkedDec16 (a : Nat) : Option Nat := if a = 0 then none else some (a - 1)

/-- The subtraction of `uint16_t`-range values, `none` when it wraps below zero. -/
def checkedSub16 (a b : Nat) : Option Nat := if a < b then none else some (a - b)

/-- The mapper `queryBitmapLevelForAlloc` with every decrement of a 16-bit index and every
subtraction from one checked: the same statements, `none` when one of them wraps below
zero. -/
def queryBitmapLevelForAllocChecked (size : Nat) : Option BitmapLevel :=
  if size ≤ FLM then
    let secondLevel := (size / MinimiumAllocationSize) % 65536
    if size &&& (MinimiumAllocationSize - 1) = 0 then
      (checkedDec16 secondLevel).map fun secondLevel => ⟨0, secondLevel⟩
    else
      some ⟨0, secondLevel⟩
  else
    let firstLevel := toU16 (tlsf_fls_sizet size)
    let levelMin := 1 <<< firstLevel
    let segmentSize := levelMin >>> SLI
    let size := add64 size (sub64 segmentSize 1)
    let alignSize := 1 <<< (firstLevel - SLI)
    let secondLevel := (sub64 size levelMin / alignSize) % 65536
    if secondLevel ≠ 0 then
      (checkedDec16 secondLevel).bind fun secondLevel =>
        (checkedSub16 firstLevel (BasePowLevel - 1)).map fun firstLevel =>
          ⟨firstLevel, secondLevel⟩
    else
      (checkedDec16 firstLevel).bind fun firstLevel =>
        (checkedSub16 firstLevel (BasePowLevel - 1)).map fun firstLevel =>
          ⟨firstLevel, SLC - 1⟩

/-- The mapper `queryBitmapLevelForInsert` with every decrement of a 16-bit index and every
subtraction from one checked: the same statements, `none` when one of them wraps below
zero. -/
def queryBitmapLevelForInsertChecked (size : Nat) : Option BitmapLevel :=
  if size ≤ FLM then
    (checkedDec16 ((size / MinimiumAllocationSize) % 65536)).map fun secondLevel =>
      ⟨0, secondLevel⟩
  else
    let firstLevel := toU16 (tlsf_fls_sizet size)
    let levelMin := 1 <<< firstLevel
    let secondLevel := (sub64 size levelMin / (levelMin >>> SLI)) % 65536
    (if secondLevel = 0 then
      (checkedDec16 firstLevel).map fun firstLevel => (⟨firstLevel, SLC - 1⟩ : BitmapLevel)
    else
      (checkedDec16 secondLevel).map fun secondLevel => ⟨firstLevel, secondLevel⟩).bind
    fun level =>
      (checkedSub16 level.firstLevel (if level.secondLevel = 0 then 1 else 0)).bind
      fun firstLevel =>
        (checkedDec16 level.secondLevel).bind fun secondLevel =>
          (checkedSub16 firstLevel (BasePowLevel - 1)).map fun firstLevel =>
            ⟨firstLevel, secondLevel &&& (SLC - 1)⟩

/-- The test that the specification gives as the corrected form of `queryFreeStatus`:
`(first_bitmap & (1 << fl)) != 0` and `(second_bitmap[fl] & (1 << sl)) != 0`. -/
def queryFreeStatusCorrected (t : TLSF) (level : BitmapLevel) : Bool :=
  decide (t.firstLevelBitmap &&& (1 <<< level.firstLevel) ≠ 0) &&
    decide (t.secondLevelBitmap level.firstLevel &&& (1 <<< level.secondLevel) ≠ 0)

/-- The address at which the walk of `dump` over one pool stops, `count` steps at most. -/
def walkEnd (h : Heap) (pool : TLSFPool) : Nat → Nat → Nat
  | a, 0 => a
  | a, count + 1 =>
    if pool.check_next_contains a then walkEnd h pool (h.nextPhyAllocation a) count else a

/-- Tiling, invariant 7 of the specification: for every pool the blocks reached from the
base by repeatedly stepping `16 + size` end exactly at `base + capacity`, and the sum of
`16 + size` over these blocks is the capacity. -/
def Tiles (t : TLSF) : Prop :=
  ∀ pool ∈ t.memoryPools,
    walkEnd t.heap pool pool.memptr pool.capacity = pool.memptr + pool.capacity ∧
      ((walkPool t.heap pool pool.memptr pool.capacity).map
        (fun x => 16 + (t.heap x).size)).sum = pool.capacity

/-- The coalescing invariant, invariant 5 of the specification: no block with `free = 1`
has a physical successor inside the same pool with `free = 1`. -/
def NoAdjacentFree (t : TLSF) : Prop :=
  ∀ pool ∈ t.memoryPools, ∀ b ∈ walkPool t.heap pool pool.memptr pool.capacity,
    (t.heap b).free = true →
      b + 16 + (t.heap b).size < pool.memptr + pool.capacity →
      (t.heap (b + 16 + (t.heap b).size)).free = false

/-- Class membership, invariant 6 of the specification: every block reachable from
`heads[fl][sl]` via `next_free` has `class_for_insert(size) = (fl, sl)`. -/
def ListsClassified (t : TLSF) : Prop :=
  ∀ L x, OnFreeList t L x → queryBitmapLevelForInsert (t.heap x).size = L

/-- The header `c` is the physical predecessor of the block `x` of `pool`: a block of the
pool that ends where the header `x` starts. -/
def PhysPredecessor (t : TLSF) (pool : TLSFPool) (c x : Nat) : Prop :=
  c ∈ walkPool t.heap pool pool.memptr pool.capacity ∧ c + 16 + (t.heap c).size = x

instance (t : TLSF) (pool : TLSFPool) (c x : Nat) : Decidable (PhysPredecessor t pool c x) := by
  unfold PhysPredecessor; infer_instance

/-! ## Scenarios of the driver

The driver `main.cpp` attaches one pool to a new allocator and then calls `alloc` and
`free`.  The states below are states of such a run, for a pool at address 4096 in a
heap whose headers are all zero. -/

/-- A heap whose headers are all zero. -/
def zeroHeap : Heap := fun _ => ⟨0, 0, false, 0, 0⟩

/-- The pool of the scenarios. -/
def demoPool (capacity : Nat) : TLSFPool := ⟨4096, capacity⟩

/-- The state after `initialize` on a new allocator. -/
def demoInit (capacity : Nat) : TLSF :=
  ((initializePool (TLSF.new zeroHeap) (demoPool capacity)).map Prod.fst).getD
    (TLSF.new zeroHeap)

/-- The state after one call of `alloc`. -/
def afterAlloc (t : TLSF) (size : Nat) : TLSF := ((alloc t size).map Prod.fst).getD t

/-- The state after one call of `free`. -/
def afterFree (t : TLSF) (ptr : Nat) : TLSF := (TLSF.free t ptr).getD t

/-- The commented-out scenario of `main.cpp` on a pool of 256 bytes, after
`alloc(128)`: the pointer returned is 4112. -/
def demo1 : TLSF := afterAlloc (demoInit 256) 128

/-- Then after `alloc(48)`, which returns 4256; the following `alloc(56)` returns null. -/
def demo2 : TLSF := afterAlloc demo1 48

/-- Then after `alloc(16)`, which returns 4320; the following `alloc(55)` returns null. -/
def demo4 : TLSF := afterAlloc demo2 16

/-- Then after `free(p2)`. -/
def demo6 : TLSF := afterFree demo4 4256

/-- Then after `free(p4)`. -/
def demo7 : TLSF := afterFree demo6 4320

/-- Then after `free(p1)`. -/
def demo8 : TLSF := afterFree demo7 4112

/-- A pool of 576 bytes after `alloc(528)`, which returns 4112, and `alloc(16)`, which
returns 4656. -/
def demo576 : TLSF := afterAlloc (afterAlloc (demoInit 576) 528) 16

/-- The state after one call of `realloc`. -/
def afterRealloc (t : TLSF) (ptr size : Nat) : TLSF :=
  ((realloc t ptr size).map Prod.fst).getD t

/-- The state after attaching a second pool, at address 8192, to the allocator whose first
pool has 48 bytes. -/
def demoTwo (capacity : Nat) : TLSF :=
  ((initializePool (demoInit 48) ⟨8192, capacity⟩).map Prod.fst).getD (demoInit 48)

/-- The pool of 256 bytes after `alloc(16)`, which returns 4112, `alloc(100)`, which returns
4144, and `free(4112)`: the block of 4144 has 112 bytes and lies between two free blocks. -/
def demoGap : TLSF := afterFree (afterAlloc (afterAlloc (demoInit 256) 16) 100) 4112

/-- The pool of 256 bytes after `alloc(100)`, which returns 4112. -/
def demo100 : TLSF := afterAlloc (demoInit 256) 100

/-- A pool of 1152 bytes after `alloc(1025)`, which returns 4112: the block has 1056 bytes
and is followed by a free block of 64 bytes. -/
def demo1152 : TLSF := afterAlloc (demoInit 1152) 1025

/-- A pool of 656 bytes after `alloc(48)`, which returns 4112, `alloc(16)`, which returns
4176, and `free(4112)`: the free blocks are one of 48 bytes, in class `(0, 2)`, and one of
544 bytes, in class `(1, 0)`. -/
def demoStale : TLSF := afterFree (afterAlloc (afterAlloc (demoInit 656) 48) 16) 4112

/-- A pool of 2048 bytes after `alloc(1025)`, which returns 4112, `alloc(32)`, which returns
5184, `alloc(16)`, which returns 5232, and `free(5184)`: the block at 4096 has 1056 bytes,
its successor at 5168 is free and has 32 bytes, and the block at 5216 follows. -/
def demoChain : TLSF :=
  afterFree (afterAlloc (afterAlloc (afterAlloc (demoInit 2048) 1025) 32) 16) 5184

/-- The pool of 256 bytes after three calls `alloc(16)`, which return 4112, 4144 and 4176,
and `free(4112)`: the free blocks are the one of 16 bytes at 4096 and the one of 144 bytes
at 4192, which follows the block of 4176. -/
def demoThree : TLSF :=
  afterFree (afterAlloc (afterAlloc (afterAlloc (demoInit 256) 16) 16) 16) 4112

/-- The pool of 256 bytes after four calls `alloc(16)`, which return 4112, 4144, 4176 and
4208, `free(4112)` and `free(4176)`: the free list of class `(0, 0)` holds the two blocks of
16 bytes, 4160 first and 4096 after it. -/
def demoPair : TLSF :=
  afterFree (afterFree
    (afterAlloc (afterAlloc (afterAlloc (afterAlloc (demoInit 256) 16) 16) 16) 16) 4112) 4176

/-! # Verification -/

theorem and_high_mask (w k : Nat) (hk : k ≤ 32) (hw : w < 2 ^ 32) :
    w &&& (2 ^ 32 - 2 ^ k) = 0 ↔ w < 2 ^ k := by
  have hmask : ∀ i, (2 ^ 32 - 2 ^ k).testBit i = (decide (k ≤ i) && decide (i < 32)) := by
    intro i
    have : 2 ^ 32 - 2 ^ k = (2 ^ (32 - k) - 1) <<< k := by
      rw [Nat.shiftLeft_eq, Nat.sub_mul, ← Nat.pow_add, Nat.sub_add_cancel hk, Nat.one_mul]
    rw [this, Nat.testBit_shiftLeft, Nat.testBit_two_pow_sub_one]
    by_cases h1 : k ≤ i
    · simp [h1]; omega
    · simp [h1]
  constructor
  · intro h
    apply Nat.lt_pow_two_of_testBit
    intro i hi
    by_cases h32 : i < 32
    · have := congrArg (fun x => x.testBit i) h
      simp only [Nat.testBit_and, hmask, Nat.zero_testBit] at this
      simpa [hi, h32] using this
    · exact Nat.testBit_lt_two_pow (lt_of_lt_of_le hw (Nat.pow_le_pow_right (by norm_num) (by omega)))
  · intro h
    apply Nat.eq_of_testBit_eq
    intro i
    simp only [Nat.testBit_and, hmask, Nat.zero_testBit]
    by_cases h1 : k ≤ i
    · have : w.testBit i = false :=
        Nat.testBit_lt_two_pow (lt_of_lt_of_le h (Nat.pow_le_pow_right (by norm_num) h1))
      simp [this]
    · simp [h1]


theorem flsStep_inv (sh : Nat) (hsh : 2 * sh ≤ 32) (w : Nat) (p : Nat × Int)
    (hp : ∃ s : Nat, p.1 = w * 2 ^ s ∧ p.2 = 32 - (s : Int) ∧ p.1 < 2 ^ 32 ∧ 2 ^ (32 - 2 * sh) ≤ p.1) :
    ∃ s : Nat, (flsStep (2 ^ 32 - 2 ^ (32 - sh)) sh p).1 = w * 2 ^ s ∧
      (flsStep (2 ^ 32 - 2 ^ (32 - sh)) sh p).2 = 32 - (s : Int) ∧
      (flsStep (2 ^ 32 - 2 ^ (32 - sh)) sh p).1 < 2 ^ 32 ∧
      2 ^ (32 - sh) ≤ (flsStep (2 ^ 32 - 2 ^ (32 - sh)) sh p).1 := by
  obtain ⟨s, h1, h2, h3, h4⟩ := hp
  unfold flsStep
  simp only [and_high_mask p.1 (32 - sh) (by omega) h3]
  have e1 : (2 : Nat) ^ (32 - sh) * 2 ^ sh = 2 ^ 32 := by
    rw [← Nat.pow_add]; congr 1; omega
  have e2 : (2 : Nat) ^ (32 - 2 * sh) * 2 ^ sh = 2 ^ (32 - sh) := by
    rw [← Nat.pow_add]; congr 1; omega
  have hpos : 0 < 2 ^ sh := Nat.pow_pos (by norm_num)
  by_cases hc : p.1 < 2 ^ (32 - sh)
  · rw [if_pos hc]
    have hlt : p.1 * 2 ^ sh < 2 ^ 32 := by
      rw [← e1]; exact Nat.mul_lt_mul_of_pos_right hc hpos
    refine ⟨s + sh, ?_, ?_, ?_, ?_⟩
    · show p.1 <<< sh % 2 ^ 32 = w * 2 ^ (s + sh)
      rw [Nat.shiftLeft_eq, Nat.mod_eq_of_lt hlt, h1, Nat.pow_add, Nat.mul_assoc]
    · simp only [h2]; push_cast; ring
    · exact Nat.mod_lt _ (by norm_num)
    · simp only [Nat.shiftLeft_eq, Nat.mod_eq_of_lt hlt]
      rw [← e2]; exact Nat.mul_le_mul_right _ h4
  · rw [if_neg hc]
    exact ⟨s, h1, h2, h3, by omega⟩

theorem tlsf_fls_spec (w : Nat) (h0 : 0 < w) (hw : w < 2 ^ 32) :
    ∃ k : Nat, tlsf_fls w = (k : Int) ∧ k < 32 ∧ 2 ^ k ≤ w ∧ w < 2 ^ (k + 1) := by
  unfold tlsf_fls tlsf_fls_generic
  have e16 : (0xffff0000 : Nat) = 2 ^ 32 - 2 ^ (32 - 16) := by norm_num
  have e8 : (0xff000000 : Nat) = 2 ^ 32 - 2 ^ (32 - 8) := by norm_num
  have e4 : (0xf0000000 : Nat) = 2 ^ 32 - 2 ^ (32 - 4) := by norm_num
  have e2 : (0xc0000000 : Nat) = 2 ^ 32 - 2 ^ (32 - 2) := by norm_num
  have e1 : (0x80000000 : Nat) = 2 ^ 32 - 2 ^ (32 - 1) := by norm_num
  rw [e16, e8, e4, e2, e1, if_neg (by omega : ¬ w = 0)]
  dsimp only
  have s16 := flsStep_inv 16 (by norm_num) w (w, 32) ⟨0, by simp, by simp, hw, by simpa using h0⟩
  have s8 := flsStep_inv 8 (by norm_num) w _ s16
  have s4 := flsStep_inv 4 (by norm_num) w _ s8
  have s2 := flsStep_inv 2 (by norm_num) w _ s4
  obtain ⟨s, h1, h2, h3, h4⟩ := flsStep_inv 1 (by norm_num) w _ s2
  rw [h2]
  rw [h1] at h3 h4
  have hs : s < 32 := by
    by_contra hn
    have : (2 : Nat) ^ 32 ≤ 2 ^ s := Nat.pow_le_pow_right (by norm_num) (by omega)
    have : 2 ^ s ≤ w * 2 ^ s := Nat.le_mul_of_pos_left _ h0
    omega
  refine ⟨31 - s, by omega, by omega, ?_, ?_⟩
  · have e : (2 : Nat) ^ (32 - 1) = 2 ^ (31 - s) * 2 ^ s := by
      rw [← Nat.pow_add]; congr 1; omega
    rw [e] at h4
    exact Nat.le_of_mul_le_mul_right h4 (Nat.pow_pos (by norm_num))
  · have e : (2 : Nat) ^ 32 = 2 ^ (31 - s + 1) * 2 ^ s := by
      rw [← Nat.pow_add]; congr 1; omega
    rw [e] at h3
    exact Nat.lt_of_mul_lt_mul_right h3

theorem tlsf_fls_sizet_spec (size : Nat) (h0 : 0 < size) (hs : size < 2 ^ 64) :
    ∃ k : Nat, tlsf_fls_sizet size = (k : Int) ∧ k < 64 ∧ 2 ^ k ≤ size ∧ size < 2 ^ (k + 1) := by
  unfold tlsf_fls_sizet
  dsimp only
  have hhi : size >>> 32 < 2 ^ 32 := by
    rw [Nat.shiftRight_eq_div_pow]
    exact Nat.div_lt_of_lt_mul (by rw [← Nat.pow_add]; exact hs)
  rw [Nat.mod_eq_of_lt hhi]
  by_cases hc : size >>> 32 ≠ 0
  · rw [if_pos hc]
    obtain ⟨k, hk, hk32, hlo, hup⟩ := tlsf_fls_spec (size >>> 32) (by omega) hhi
    rw [Nat.shiftRight_eq_div_pow] at hlo hup
    refine ⟨32 + k, by rw [hk]; push_cast; ring, by omega, ?_, ?_⟩
    · rw [Nat.pow_add, Nat.mul_comm]
      exact (Nat.le_div_iff_mul_le (by norm_num)).mp hlo
    · have : (2:Nat) ^ (32 + k + 1) = 2 ^ (k + 1) * 2 ^ 32 := by
        rw [← Nat.pow_add]; congr 1; omega
      rw [this]
      exact (Nat.div_lt_iff_lt_mul (by norm_num)).mp hup
  · rw [if_neg hc]
    have hlt : size < 2 ^ 32 := by
      rw [Nat.shiftRight_eq_div_pow] at hc
      have : size / 2 ^ 32 = 0 := by omega
      exact (Nat.div_eq_zero_iff (by norm_num)).mp this
    rw [Nat.mod_eq_of_lt hlt]
    obtain ⟨k, hk, hk32, hlo, hup⟩ := tlsf_fls_spec size h0 hlt
    exact ⟨k, hk, by omega, hlo, hup⟩

theorem BasePowLevel_eq : BasePowLevel = 9 := by decide

theorem SLC_eq : SLC = 32 := by decide

theorem FLM_eq : FLM = 512 := by decide

theorem and_31 (x : Nat) : x &&& 31 = x % 32 := Nat.and_pow_two_sub_one_eq_mod x 5

theorem and_SLC_pred (x : Nat) : x &&& (SLC - 1) = x % 32 := and_31 x

theorem and_15 (x : Nat) : x &&& 15 = x % 16 := Nat.and_pow_two_sub_one_eq_mod x 4

theorem toU16_natCast (k : Nat) (h : k < 65536) : toU16 (k : Int) = k := by
  unfold toU16
  have : ((k : Int) % 65536) = ((k % 65536 : Nat) : Int) := by push_cast; rfl
  rw [this, Int.toNat_ofNat, Nat.mod_eq_of_lt h]

/-- The class computed by `queryBitmapLevelForInsert` for a block size above `FLM`,
in terms of `k = fls size`. -/
theorem insert_large (s k : Nat) (hk : tlsf_fls_sizet s = (k : Int)) (h512 : 512 < s) (h64 : k < 64)
    (hlo : 2 ^ k ≤ s) (hup : s < 2 ^ (k + 1)) :
    queryBitmapLevelForInsert s =
      (let q := (s - 2 ^ k) / 2 ^ (k - 5)
       if q = 0 then ⟨k - 9, 30⟩ else if q = 1 then ⟨k - 9, 31⟩ else ⟨k - 8, q - 2⟩) := by
  have hs : ¬ s ≤ FLM := by rw [FLM_eq]; omega
  have h9 : 9 ≤ k := by
    by_contra hn
    have : (2:Nat) ^ (k + 1) ≤ 2 ^ 9 := Nat.pow_le_pow_right (by norm_num) (by omega)
    norm_num at this; omega
  have h2k : (2:Nat) ^ (k + 1) ≤ 2 ^ 64 := Nat.pow_le_pow_right (by norm_num) (by omega)
  have e32 : (2:Nat) ^ k = 32 * 2 ^ (k - 5) := by
    rw [show (32:Nat) = 2 ^ 5 by norm_num, ← Nat.pow_add]; congr 1; omega
  have hq : (s - 2 ^ k) / 2 ^ (k - 5) < 32 := by
    apply Nat.div_lt_of_lt_mul
    rw [Nat.pow_succ] at hup
    omega
  unfold queryBitmapLevelForInsert
  rw [if_neg hs, hk, toU16_natCast k (by omega)]
  simp only [and_SLC_pred]
  simp only [Nat.one_shiftLeft, Nat.shiftRight_eq_div_pow, SLI, SLC_eq, BasePowLevel_eq]
  have e1 : sub64 s (2 ^ k) = s - 2 ^ k := by
    unfold sub64
    rw [Nat.pow_succ] at h2k
    rw [Nat.mod_eq_of_lt (by omega : 2 ^ k < 2 ^ 64)]
    omega
  have e2 : (2:Nat) ^ k / 2 ^ 5 = 2 ^ (k - 5) := by
    rw [e32]; norm_num
  rw [e1, e2]
  generalize (s - 2 ^ k) / 2 ^ (k - 5) = q at hq ⊢
  clear e1 e2 e32 hs hlo hup h2k hk h512
  simp only [dec16, sub16]
  split_ifs <;> simp only [BitmapLevel.mk.injEq] at * <;> (try simp only [and_true, true_and]) <;> omega


theorem insert_small (s : Nat) (h16 : 16 ≤ s) (h512 : s ≤ 512) :
    queryBitmapLevelForInsert s = ⟨0, s / 16 - 1⟩ := by
  unfold queryBitmapLevelForInsert
  rw [if_pos (by rw [FLM_eq]; exact h512)]
  simp only [MinimiumAllocationSize, dec16, BitmapLevel.mk.injEq, true_and]
  omega

theorem alloc_small (n : Nat) (h1 : 1 ≤ n) (h512 : n ≤ 512) :
    queryBitmapLevelForAlloc n = ⟨0, (n + 15) / 16 - 1⟩ := by
  unfold queryBitmapLevelForAlloc
  rw [if_pos (by rw [FLM_eq]; exact h512)]
  have e : ∀ x, x &&& (MinimiumAllocationSize - 1) = x % 16 := and_15
  simp only [e]
  simp only [MinimiumAllocationSize, dec16]
  split_ifs <;> simp only [BitmapLevel.mk.injEq, true_and] <;> omega

/-- The class computed by `queryBitmapLevelForAlloc` for a request above `FLM`,
in terms of `k = fls size`. -/
theorem alloc_large (n k : Nat) (hk : tlsf_fls_sizet n = (k : Int)) (h512 : 512 < n) (h63 : k < 63)
    (hlo : 2 ^ k ≤ n) (hup : n < 2 ^ (k + 1)) :
    queryBitmapLevelForAlloc n =
      (let q := (n + 2 ^ (k - 5) - 1 - 2 ^ k) / 2 ^ (k - 5)
       if q = 0 then ⟨k - 9, 31⟩ else ⟨k - 8, q - 1⟩) := by
  have hs : ¬ n ≤ FLM := by rw [FLM_eq]; omega
  have h9 : 9 ≤ k := by
    by_contra hn
    have : (2:Nat) ^ (k + 1) ≤ 2 ^ 9 := Nat.pow_le_pow_right (by norm_num) (by omega)
    norm_num at this; omega
  have h2k : (2:Nat) ^ (k + 1) ≤ 2 ^ 63 := Nat.pow_le_pow_right (by norm_num) (by omega)
  have e32 : (2:Nat) ^ k = 32 * 2 ^ (k - 5) := by
    rw [show (32:Nat) = 2 ^ 5 by norm_num, ← Nat.pow_add]; congr 1; omega
  have hpos : 0 < 2 ^ (k - 5) := Nat.pow_pos (by norm_num)
  have hq : (n + 2 ^ (k - 5) - 1 - 2 ^ k) / 2 ^ (k - 5) < 33 := by
    apply Nat.div_lt_of_lt_mul
    rw [Nat.pow_succ] at hup
    omega
  unfold queryBitmapLevelForAlloc
  rw [if_neg hs, hk, toU16_natCast k (by omega)]
  simp only [Nat.one_shiftLeft, Nat.shiftRight_eq_div_pow, SLI, SLC_eq, BasePowLevel_eq]
  have e2 : (2:Nat) ^ k / 2 ^ 5 = 2 ^ (k - 5) := by
    rw [e32]; norm_num
  rw [e2]
  have e1 : sub64 (add64 n (sub64 (2 ^ (k - 5)) 1)) (2 ^ k) = n + 2 ^ (k - 5) - 1 - 2 ^ k := by
    unfold sub64 add64
    rw [Nat.pow_succ] at h2k hup
    norm_num at h2k ⊢
    omega
  rw [e1]
  generalize (n + 2 ^ (k - 5) - 1 - 2 ^ k) / 2 ^ (k - 5) = q at hq ⊢
  clear e1 e2 e32 hs hlo hup h2k hk h512 hpos
  simp only [dec16, sub16]
  split_ifs <;> simp only [BitmapLevel.mk.injEq] at * <;> (try simp only [and_true, true_and]) <;> omega

theorem levelSize_zero (sl : Nat) (h : sl < 65536) : queryLevelSize ⟨0, sl⟩ = 16 * (sl + 1) := by
  unfold queryLevelSize mul64
  simp only [MinimiumAllocationSize]
  rw [if_neg (by simp)]
  omega

theorem levelSize_pos (fl sl : Nat) (h1 : 1 ≤ fl) (h2 : fl ≤ 31) (h3 : sl ≤ 31) :
    queryLevelSize ⟨fl, sl⟩ = 2 ^ (fl + 8) + 2 ^ (fl + 3) * (sl + 1) := by
  unfold queryLevelSize
  rw [if_pos (by simp; omega)]
  simp only [BasePowLevel_eq, Nat.one_shiftLeft, Nat.shiftRight_eq_div_pow, SLI]
  have e1 : fl + 9 - 1 = fl + 8 := by omega
  have e2 : (2:Nat) ^ (fl + 8) / 2 ^ 5 = 2 ^ (fl + 3) := by
    rw [show fl + 8 = (fl + 3) + 5 by omega, Nat.pow_add]; norm_num
  rw [e1, e2]
  have b1 : (2:Nat) ^ (fl + 8) ≤ 2 ^ 39 := Nat.pow_le_pow_right (by norm_num) (by omega)
  have b2 : (2:Nat) ^ (fl + 3) ≤ 2 ^ 34 := Nat.pow_le_pow_right (by norm_num) (by omega)
  have b3 : 2 ^ (fl + 3) * (sl + 1) ≤ 2 ^ 34 * 32 := Nat.mul_le_mul b2 (by omega)
  unfold add64 mul64
  norm_num at b1 b3
  have c1 : 2 ^ (fl + 3) * (sl + 1) < 2 ^ 64 := by norm_num; omega
  have c2 : 2 ^ (fl + 8) + 2 ^ (fl + 3) * (sl + 1) < 2 ^ 64 := by norm_num; omega
  rw [Nat.mod_eq_of_lt c1, Nat.mod_eq_of_lt c2]

theorem levelSize_eq (fl sl : Nat) (h2 : fl ≤ 31) (h3 : sl ≤ 31) :
    queryLevelSize ⟨fl, sl⟩ =
      if fl = 0 then 16 * (sl + 1) else 2 ^ (fl + 8) + 2 ^ (fl + 3) * (sl + 1) := by
  by_cases h : fl = 0
  · subst h; rw [if_pos rfl]; exact levelSize_zero sl (by omega)
  · rw [if_neg h]; exact levelSize_pos fl sl (by omega) h2 h3

theorem log_range (s k lo hi : Nat) (hlo : 2 ^ k ≤ s) (hup : s < 2 ^ (k + 1))
    (h1 : 2 ^ lo ≤ s) (h2 : s < 2 ^ hi) : lo ≤ k ∧ k < hi := by
  constructor
  · by_contra hn
    have : (2:Nat) ^ (k + 1) ≤ 2 ^ lo := Nat.pow_le_pow_right (by norm_num) (by omega)
    omega
  · by_contra hn
    have : (2:Nat) ^ hi ≤ 2 ^ k := Nat.pow_le_pow_right (by norm_num) (by omega)
    omega

theorem level_fact (fl sl s : Nat) (hfl : fl ≤ 22) (hsl : sl ≤ 31)
    (h : (if fl = 0 then 16 * (sl + 1) else 2 ^ (fl + 8) + 2 ^ (fl + 3) * (sl + 1)) ≤ s) :
    (⟨fl, sl⟩ : BitmapLevel).firstLevel ≤ 22 ∧ (⟨fl, sl⟩ : BitmapLevel).secondLevel ≤ 31 ∧
      queryLevelSize ⟨fl, sl⟩ ≤ s := by
  rw [levelSize_eq fl sl (by omega) hsl]
  exact ⟨hfl, hsl, h⟩

/-- For every block size the class of `queryBitmapLevelForInsert` lies in the tables and
its minimum size does not exceed the block size. -/
theorem insert_class_spec (s : Nat) (h16 : 16 ≤ s) (h31 : s < 2 ^ 31) :
    (queryBitmapLevelForInsert s).firstLevel ≤ 22 ∧
    (queryBitmapLevelForInsert s).secondLevel ≤ 31 ∧
    queryLevelSize (queryBitmapLevelForInsert s) ≤ s := by
  by_cases h512 : s ≤ 512
  · rw [insert_small s h16 h512]
    refine level_fact _ _ _ (by omega) (by omega) ?_
    rw [if_pos rfl]; omega
  · obtain ⟨k, hk, hk64, hlo, hup⟩ := tlsf_fls_sizet_spec s (by omega) (by
      have : (2:Nat)^31 ≤ 2^64 := by norm_num
      omega)
    have hr := log_range s k 9 31 hlo hup (by norm_num; omega) h31
    rw [insert_large s k hk (by omega) hk64 hlo hup]
    obtain ⟨hr1, hr2⟩ := hr
    generalize hq : (s - 2 ^ k) / 2 ^ (k - 5) = q
    dsimp only
    clear hk
    interval_cases k <;> simp only [Nat.reducePow, Nat.reduceSub, Nat.reduceAdd] at hlo hup hq ⊢ <;>
      split_ifs <;>
      refine level_fact _ _ _ (by omega) (by omega) ?_ <;>
      simp only [Nat.reducePow, Nat.reduceAdd,
        Nat.reduceSub, Nat.reduceMul, OfNat.ofNat_ne_zero, ↓reduceIte, OfNat.zero_ne_ofNat, one_ne_zero] <;>
      omega

/-! ## Heap updates -/

@[simp] theorem setPrevPhyAlloc_prevPhyAlloc (h : Heap) (a : Nat) (v : Nat) (x : Nat) :
    (h.setPrevPhyAlloc a v x).prevPhyAlloc = if x = a then v else (h x).prevPhyAlloc := by
  unfold Heap.setPrevPhyAlloc; split_ifs <;> rfl

@[simp] theorem setPrevPhyAlloc_size (h : Heap) (a : Nat) (v : Nat) (x : Nat) :
    (h.setPrevPhyAlloc a v x).size = (h x).size := by
  unfold Heap.setPrevPhyAlloc; split_ifs <;> rfl

@[simp] theorem setPrevPhyAlloc_free (h : Heap) (a : Nat) (v : Nat) (x : Nat) :
    (h.setPrevPhyAlloc a v x).free = (h x).free := by
  unfold Heap.setPrevPhyAlloc; split_ifs <;> rfl

@[simp] theorem setPrevPhyAlloc_prevFreeAlloc (h : Heap) (a : Nat) (v : Nat) (x : Nat) :
    (h.setPrevPhyAlloc a v x).prevFreeAlloc = (h x).prevFreeAlloc := by
  unfold Heap.setPrevPhyAlloc; split_ifs <;> rfl

@[simp] theorem setPrevPhyAlloc_nextFreeAlloc (h : Heap) (a : Nat) (v : Nat) (x : Nat) :
    (h.setPrevPhyAlloc a v x).nextFreeAlloc = (h x).nextFreeAlloc := by
  unfold Heap.setPrevPhyAlloc; split_ifs <;> rfl

@[simp] theorem setSize_prevPhyAlloc (h : Heap) (a : Nat) (v : Nat) (x : Nat) :
    (h.setSize a v x).prevPhyAlloc = (h x).prevPhyAlloc := by
  unfold Heap.setSize; split_ifs <;> rfl

@[simp] theorem setSize_size (h : Heap) (a : Nat) (v : Nat) (x : Nat) :
    (h.setSize a v x).size = if x = a then toSize31 v else (h x).size := by
  unfold Heap.setSize; split_ifs <;> rfl

@[simp] theorem setSize_free (h : Heap) (a : Nat) (v : Nat) (x : Nat) :
    (h.setSize a v x).free = (h x).free := by
  unfold Heap.setSize; split_ifs <;> rfl

@[simp] theorem setSize_prevFreeAlloc (h : Heap) (a : Nat) (v : Nat) (x : Nat) :
    (h.setSize a v x).prevFreeAlloc = (h x).prevFreeAlloc := by
  unfold Heap.setSize; split_ifs <;> rfl

@[simp] theorem setSize_nextFreeAlloc (h : Heap) (a : Nat) (v : Nat) (x : Nat) :
    (h.setSize a v x).nextFreeAlloc = (h x).nextFreeAlloc := by
  unfold Heap.setSize; split_ifs <;> rfl

@[simp] theorem setFree_prevPhyAlloc (h : Heap) (a : Nat) (v : Bool) (x : Nat) :
    (h.setFree a v x).prevPhyAlloc = (h x).prevPhyAlloc := by
  unfold Heap.setFree; split_ifs <;> rfl

@[simp] theorem setFree_size (h : Heap) (a : Nat) (v : Bool) (x : Nat) :
    (h.setFree a v x).size = (h x).size := by
  unfold Heap.setFree; split_ifs <;> rfl

@[simp] theorem setFree_free (h : Heap) (a : Nat) (v : Bool) (x : Nat) :
    (h.setFree a v x).free = if x = a then v else (h x).free := by
  unfold Heap.setFree; split_ifs <;> rfl

@[simp] theorem setFree_prevFreeAlloc (h : Heap) (a : Nat) (v : Bool) (x : Nat) :
    (h.setFree a v x).prevFreeAlloc = (h x).prevFreeAlloc := by
  unfold Heap.setFree; split_ifs <;> rfl

@[simp] theorem setFree_nextFreeAlloc (h : Heap) (a : Nat) (v : Bool) (x : Nat) :
    (h.setFree a v x).nextFreeAlloc = (h x).nextFreeAlloc := by
  unfold Heap.setFree; split_ifs <;> rfl

@[simp] theorem setPrevFreeAlloc_prevPhyAlloc (h : Heap) (a : Nat) (v : Nat) (x : Nat) :
    (h.setPrevFreeAlloc a v x).prevPhyAlloc = (h x).prevPhyAlloc := by
  unfold Heap.setPrevFreeAlloc; split_ifs <;> rfl

@[simp] theorem setPrevFreeAlloc_size (h : Heap) (a : Nat) (v : Nat) (x : Nat) :
    (h.setPrevFreeAlloc a v x).size = (h x).size := by
  unfold Heap.setPrevFreeAlloc; split_ifs <;> rfl

@[simp] theorem setPrevFreeAlloc_free (h : Heap) (a : Nat) (v : Nat) (x : Nat) :
    (h.setPrevFreeAlloc a v x).free = (h x).free := by
  unfold Heap.setPrevFreeAlloc; split_ifs <;> rfl

@[simp] theorem setPrevFreeAlloc_prevFreeAlloc (h : Heap) (a : Nat) (v : Nat) (x : Nat) :
    (h.setPrevFreeAlloc a v x).prevFreeAlloc = if x = a then v else (h x).prevFreeAlloc := by
  unfold Heap.setPrevFreeAlloc; split_ifs <;> rfl

@[simp] theorem setPrevFreeAlloc_nextFreeAlloc (h : Heap) (a : Nat) (v : Nat) (x : Nat) :
    (h.setPrevFreeAlloc a v x).nextFreeAlloc = (h x).nextFreeAlloc := by
  unfold Heap.setPrevFreeAlloc; split_ifs <;> rfl

@[simp] theorem setNextFreeAlloc_prevPhyAlloc (h : Heap) (a : Nat) (v : Nat) (x : Nat) :
    (h.setNextFreeAlloc a v x).prevPhyAlloc = (h x).prevPhyAlloc := by
  unfold Heap.setNextFreeAlloc; split_ifs <;> rfl

@[simp] theorem setNextFreeAlloc_size (h : Heap) (a : Nat) (v : Nat) (x : Nat) :
    (h.setNextFreeAlloc a v x).size = (h x).size := by
  unfold Heap.setNextFreeAlloc; split_ifs <;> rfl

@[simp] theorem setNextFreeAlloc_free (h : Heap) (a : Nat) (v : Nat) (x : Nat) :
    (h.setNextFreeAlloc a v x).free = (h x).free := by
  unfold Heap.setNextFreeAlloc; split_ifs <;> rfl

@[simp] theorem setNextFreeAlloc_prevFreeAlloc (h : Heap) (a : Nat) (v : Nat) (x : Nat) :
    (h.setNextFreeAlloc a v x).prevFreeAlloc = (h x).prevFreeAlloc := by
  unfold Heap.setNextFreeAlloc; split_ifs <;> rfl

@[simp] theorem setNextFreeAlloc_nextFreeAlloc (h : Heap) (a : Nat) (v : Nat) (x : Nat) :
    (h.setNextFreeAlloc a v x).nextFreeAlloc = if x = a then v else (h x).nextFreeAlloc := by
  unfold Heap.setNextFreeAlloc; split_ifs <;> rfl

/-! ## Bit operations on the bitmaps -/

theorem and_shift_ne_zero_iff (x i : Nat) : x &&& (1 <<< i) ≠ 0 ↔ x.testBit i = true := by
  rw [Nat.one_shiftLeft]
  constructor
  · intro h
    obtain ⟨j, hj⟩ := Nat.ne_zero_implies_bit_true h
    rw [Nat.testBit_and, Nat.testBit_two_pow] at hj
    simp only [Bool.and_eq_true, decide_eq_true_eq] at hj
    obtain ⟨h1, h2⟩ := hj
    subst h2
    exact h1
  · intro h h0
    have := congrArg (fun y => y.testBit i) h0
    simp only [Nat.testBit_and, Nat.testBit_two_pow, h, decide_True, Bool.and_self,
      Nat.zero_testBit] at this
    exact Bool.noConfusion this

theorem and_shift_eq_zero_iff (x i : Nat) : x &&& (1 <<< i) = 0 ↔ x.testBit i = false := by
  have := and_shift_ne_zero_iff x i
  constructor
  · intro h
    by_contra hc
    exact (this.mpr (by simpa using hc)) h
  · intro h
    by_contra hc
    rw [this.mp hc] at h
    exact Bool.noConfusion h

theorem testBit_setBit (x i j : Nat) :
    (x ||| (1 <<< i)).testBit j = (x.testBit j || decide (i = j)) := by
  rw [Nat.testBit_or, Nat.one_shiftLeft, Nat.testBit_two_pow]

theorem testBit_clearBit (x i j : Nat) :
    (x &&& (4294967295 ^^^ (1 <<< i))).testBit j =
      (x.testBit j && (decide (j < 32) != decide (i = j))) := by
  have e : (4294967295 : Nat) = 2 ^ 32 - 1 := by norm_num
  rw [Nat.testBit_and, Nat.testBit_xor, Nat.one_shiftLeft, Nat.testBit_two_pow, e,
    Nat.testBit_two_pow_sub_one]

theorem eq_zero_iff_testBit (x : Nat) : x = 0 ↔ ∀ j, x.testBit j = false := by
  constructor
  · intro h j; rw [h]; exact Nat.zero_testBit j
  · intro h
    by_contra hc
    obtain ⟨j, hj⟩ := Nat.ne_zero_implies_bit_true hc
    rw [h j] at hj
    exact Bool.noConfusion hj

/-! ## Doubly linked segments -/

theorem getLastD_cons (x : Nat) (xs : List Nat) (p : Nat) :
    (x :: xs).getLast?.getD p = xs.getLast?.getD x := by
  cases xs with
  | nil => simp
  | cons y ys =>
    rw [List.getLast?_cons_cons, List.getLast?_eq_getLast (y :: ys) (by simp)]
    simp

theorem getLastD_mem (l : List Nat) (p : Nat) (hne : l ≠ []) : l.getLast?.getD p ∈ l := by
  rw [List.getLast?_eq_getLast l hne]
  simp only [Option.getD_some]
  exact List.getLast_mem _

theorem DSeg_congr (h h' : Heap) (l : List Nat) :
    ∀ (prev a e : Nat),
      (∀ x ∈ l, (h' x).prevFreeAlloc = (h x).prevFreeAlloc ∧
        (h' x).nextFreeAlloc = (h x).nextFreeAlloc) →
      DSeg h prev a l e → DSeg h' prev a l e := by
  induction l with
  | nil => intro prev a e _ hs; exact hs
  | cons x xs ih =>
    intro prev a e hx hs
    obtain ⟨h1, h2, h3, h4⟩ := hs
    have hxx := hx x (List.mem_cons_self _ _)
    refine ⟨h1, h2, by rw [hxx.1]; exact h3, ?_⟩
    rw [hxx.2]
    exact ih _ _ _ (fun y hy => hx y (List.mem_cons_of_mem _ hy)) h4

theorem DSeg_ne_zero (h : Heap) (l : List Nat) :
    ∀ (prev a e : Nat), DSeg h prev a l e → ∀ x ∈ l, x ≠ 0 := by
  induction l with
  | nil => intro _ _ _ _ x hx; exact absurd hx (List.not_mem_nil _)
  | cons y ys ih =>
    intro prev a e hs x hx
    obtain ⟨_, h2, _, h4⟩ := hs
    rcases List.mem_cons.mp hx with rfl | hx'
    · exact h2
    · exact ih _ _ _ h4 x hx'

theorem DSeg_append (h : Heap) (xs ys : List Nat) :
    ∀ (prev a e : Nat), DSeg h prev a (xs ++ ys) e ↔
      ∃ m, DSeg h prev a xs m ∧ DSeg h (xs.getLast?.getD prev) m ys e := by
  induction xs with
  | nil =>
    intro prev a e
    simp only [List.nil_append, DSeg, List.getLast?_nil, Option.getD_none]
    constructor
    · intro hs; exact ⟨a, rfl, hs⟩
    · rintro ⟨m, rfl, hs⟩; exact hs
  | cons x xs ih =>
    intro prev a e
    simp only [List.cons_append, DSeg]
    rw [getLastD_cons]
    constructor
    · rintro ⟨h1, h2, h3, h4⟩
      obtain ⟨m, hm1, hm2⟩ := (ih _ _ _).mp h4
      exact ⟨m, ⟨h1, h2, h3, hm1⟩, hm2⟩
    · rintro ⟨m, ⟨h1, h2, h3, hm1⟩, hm2⟩
      exact ⟨h1, h2, h3, (ih _ _ _).mpr ⟨m, hm1, hm2⟩⟩

theorem DSeg_head (h : Heap) (l : List Nat) (prev a e : Nat) (hs : DSeg h prev a l e) :
    a = l.head?.getD e := by
  cases l with
  | nil => exact hs
  | cons x xs => exact hs.1

/-- Rewriting the back link of the first header of a segment. -/
theorem DSeg_set_prev (h : Heap) (l : List Nat) (prev prev' a e : Nat) (hn : l.Nodup)
    (hs : DSeg h prev a l e) : DSeg (h.setPrevFreeAlloc a prev') prev' a l e := by
  cases l with
  | nil => exact hs
  | cons x xs =>
    obtain ⟨h1, h2, h3, h4⟩ := hs
    subst h1
    refine ⟨rfl, h2, by simp, ?_⟩
    have hx : a ∉ xs := (List.nodup_cons.mp hn).1
    simp only [setPrevFreeAlloc_nextFreeAlloc]
    refine DSeg_congr h _ xs _ _ _ ?_ h4
    intro y hy
    have : y ≠ a := fun hc => hx (hc ▸ hy)
    simp [this]

/-- Rewriting the forward link of the last header of a segment. -/
theorem DSeg_set_next (h : Heap) (l : List Nat) :
    ∀ (prev a e e' : Nat), l.Nodup → l ≠ [] → DSeg h prev a l e →
      DSeg (h.setNextFreeAlloc (l.getLast?.getD 0) e') prev a l e' := by
  induction l with
  | nil => intro _ _ _ _ _ hne; exact absurd rfl hne
  | cons x xs ih =>
    intro prev a e e' hn _ hs
    obtain ⟨h1, h2, h3, h4⟩ := hs
    have hx : x ∉ xs := (List.nodup_cons.mp hn).1
    cases xs with
    | nil =>
      simp only [DSeg] at h4 ⊢
      simp [h1, h2, h3]
    | cons y ys =>
      have hl : (x :: y :: ys).getLast?.getD 0 = (y :: ys).getLast?.getD 0 := by
        rw [List.getLast?_cons_cons]
      rw [hl]
      have hlast : (y :: ys).getLast?.getD 0 ∈ y :: ys := getLastD_mem _ _ (by simp)
      have hne : x ≠ (y :: ys).getLast?.getD 0 := fun hc => hx (hc ▸ hlast)
      refine ⟨h1, h2, by simpa using h3, ?_⟩
      have := ih x (h x).nextFreeAlloc e e' (List.nodup_cons.mp hn).2 (by simp) h4
      simpa [hne] using this

/-! ## The index invariant under the free-list operations -/

@[simp] theorem updLists_apply (lists : Nat → Nat → List Nat) (L : BitmapLevel) (l : List Nat)
    (f s : Nat) :
    updLists lists L l f s = if f = L.firstLevel ∧ s = L.secondLevel then l else lists f s := rfl

theorem inTable_iff (L : BitmapLevel) :
    L.inTable = true ↔ L.firstLevel < 31 ∧ L.secondLevel < 32 := by
  unfold BitmapLevel.inTable
  simp

theorem PhysEq.refl (h : Heap) : PhysEq h h := fun _ => ⟨rfl, rfl, rfl⟩

theorem PhysEq.trans_phys {h1 h2 h3 : Heap} (a : PhysEq h1 h2) (b : PhysEq h2 h3) : PhysEq h1 h3 :=
  fun x => ⟨(b x).1.trans (a x).1, (b x).2.1.trans (a x).2.1, (b x).2.2.trans (a x).2.2⟩

theorem PhysEq_setPrevFree (h : Heap) (a v : Nat) : PhysEq h (h.setPrevFreeAlloc a v) :=
  fun x => by simp

theorem PhysEq_setNextFree (h : Heap) (a v : Nat) : PhysEq h (h.setNextFreeAlloc a v) :=
  fun x => by simp

theorem LinkEq_setSize (h : Heap) (a v : Nat) : LinkEq h (h.setSize a v) := fun x => by simp

theorem LinkEq_setFree (h : Heap) (a : Nat) (v : Bool) : LinkEq h (h.setFree a v) :=
  fun x => by simp

theorem LinkEq_setPrevPhy (h : Heap) (a v : Nat) : LinkEq h (h.setPrevPhyAlloc a v) :=
  fun x => by simp

theorem LinkEq.trans_link {h1 h2 h3 : Heap} (a : LinkEq h1 h2) (b : LinkEq h2 h3) : LinkEq h1 h3 :=
  fun x => ⟨(b x).1.trans (a x).1, (b x).2.trans (a x).2⟩

/-- The index invariant only depends on the links of the heap. -/
theorem LinkInv.withHeap {t : TLSF} {lists : Nat → Nat → List Nat} (hI : LinkInv t lists)
    (h' : Heap) (he : LinkEq t.heap h') : LinkInv (t.withHeap h') lists where
  seg := fun fl sl => DSeg_congr t.heap h' _ _ _ _ (fun x _ => he x) (hI.seg fl sl)
  outside := hI.outside
  nodup := hI.nodup
  disjoint := hI.disjoint
  second := hI.second
  first := hI.first

theorem LinkInv.head_eq {t : TLSF} {lists : Nat → Nat → List Nat} (hI : LinkInv t lists)
    (fl sl : Nat) : t.allocationLinkTable fl sl = (lists fl sl).head?.getD 0 :=
  DSeg_head _ _ _ _ _ (hI.seg fl sl)

theorem LinkInv.mem_ne_zero {t : TLSF} {lists : Nat → Nat → List Nat} (hI : LinkInv t lists)
    {fl sl x : Nat} (hx : x ∈ lists fl sl) : x ≠ 0 :=
  DSeg_ne_zero _ _ _ _ _ (hI.seg fl sl) x hx

theorem LinkInv.head_eq_zero_iff {t : TLSF} {lists : Nat → Nat → List Nat} (hI : LinkInv t lists)
    (fl sl : Nat) : t.allocationLinkTable fl sl = 0 ↔ lists fl sl = [] := by
  rw [hI.head_eq fl sl]
  cases hl : lists fl sl with
  | nil => simp
  | cons x xs =>
    have : x ≠ 0 := hI.mem_ne_zero (by rw [hl]; exact List.mem_cons_self _ _)
    simp [this]


theorem LinkInv.not_mem_of_ne {t : TLSF} {lists : Nat → Nat → List Nat} (hI : LinkInv t lists)
    {fl sl fl' sl' x : Nat} (hx : x ∈ lists fl sl) (hne : ¬ (fl' = fl ∧ sl' = sl)) :
    x ∉ lists fl' sl' := by
  intro hx'
  have := hI.disjoint fl sl fl' sl' x hx hx'
  exact hne ⟨this.1.symm, this.2.symm⟩

/-- Pushing a fresh header on the free list of its class. -/
theorem push_spec {t : TLSF} {lists : Nat → Nat → List Nat} (hI : LinkInv t lists) (a : Nat)
    (ha : a ≠ 0) (hfresh : ∀ fl sl, a ∉ lists fl sl) (L : BitmapLevel)
    (hL : queryBitmapLevelForInsert (t.heap a).size = L) (hT : L.inTable = true) :
    ∃ t', pushFreeAllocation t a = some t' ∧
      LinkInv t' (updLists lists L (a :: lists L.firstLevel L.secondLevel)) ∧
      PhysEq t.heap t'.heap ∧ t'.memoryPools = t.memoryPools := by
  obtain ⟨hfl, hsl⟩ := (inTable_iff L).mp hT
  unfold pushFreeAllocation
  simp only [hL, hT, not_true_eq_false, if_false]
  have hhead := hI.head_eq L.firstLevel L.secondLevel
  have hseg := hI.seg L.firstLevel L.secondLevel
  cases hl : lists L.firstLevel L.secondLevel with
  | nil =>
    have ho : t.head L = 0 := (hI.head_eq_zero_iff _ _).mpr hl
    simp only [ho, if_true]
    refine ⟨_, rfl, ?_, ?_, rfl⟩
    · constructor
      · intro fl sl
        by_cases hc : fl = L.firstLevel ∧ sl = L.secondLevel
        · simp only [setLevelBit, setHead, withHeap, hc, and_self, if_true, updLists_apply, DSeg]
          simp [ha]
        · simp only [setLevelBit, setHead, withHeap, hc, if_false, updLists_apply]
          refine DSeg_congr t.heap _ _ _ _ _ ?_ (hI.seg fl sl)
          intro x hx
          have : x ≠ a := fun h => hfresh fl sl (h ▸ hx)
          simp [this]
      · intro fl sl hout
        have : ¬ (fl = L.firstLevel ∧ sl = L.secondLevel) := by
          rintro ⟨rfl, rfl⟩; exact hout ⟨hfl, hsl⟩
        simp only [updLists_apply, this, if_false]
        exact hI.outside fl sl hout
      · intro fl sl
        by_cases hc : fl = L.firstLevel ∧ sl = L.secondLevel
        · simp [hc]
        · simp only [updLists_apply, hc, if_false]; exact hI.nodup fl sl
      · intro fl sl fl' sl' x hx hx'
        simp only [updLists_apply] at hx hx'
        split_ifs at hx hx' with h1 h2 h2
        · exact ⟨h1.1.trans h2.1.symm, h1.2.trans h2.2.symm⟩
        · simp only [List.mem_singleton] at hx
          exact absurd (hx ▸ hx') (hfresh _ _)
        · simp only [List.mem_singleton] at hx'
          exact absurd (hx' ▸ hx) (hfresh _ _)
        · exact hI.disjoint _ _ _ _ x hx hx'
      · intro fl sl
        simp only [setLevelBit, setHead, withHeap, updLists_apply]
        by_cases h1 : fl = L.firstLevel
        · subst h1
          simp only [if_true, testBit_setBit, Bool.or_eq_true, decide_eq_true_eq, true_and]
          by_cases h2 : sl = L.secondLevel
          · subst h2; simp
          · have h2' : ¬ L.secondLevel = sl := fun h => h2 h.symm
            simp only [h2, h2', or_false, if_false]
            exact hI.second _ _
        · simp only [h1, false_and, if_false]
          exact hI.second _ _
      · intro fl
        simp only [setLevelBit, setHead, withHeap, updLists_apply, testBit_setBit, Bool.or_eq_true,
          decide_eq_true_eq]
        constructor
        · rintro (h | h)
          · obtain ⟨sl, hs⟩ := (hI.first fl).mp h
            refine ⟨sl, ?_⟩
            split_ifs
            · simp
            · exact hs
          · exact ⟨L.secondLevel, by simp [h]⟩
        · rintro ⟨sl, hs⟩
          by_cases hc : fl = L.firstLevel ∧ sl = L.secondLevel
          · exact Or.inr hc.1.symm
          · simp only [hc, if_false] at hs
            exact Or.inl ((hI.first fl).mpr ⟨sl, hs⟩)
    · intro x
      simp [setLevelBit, setHead, withHeap]
  | cons o rest =>
    rw [hl] at hhead hseg
    have ho : t.head L = o := by simpa [TLSF.head] using hhead
    have ho' : t.allocationLinkTable L.firstLevel L.secondLevel = o := ho
    rw [ho'] at hseg
    have homem : o ∈ lists L.firstLevel L.secondLevel := by rw [hl]; exact List.mem_cons_self _ _
    have ho0 : o ≠ 0 := hI.mem_ne_zero homem
    have hao : a ≠ o := fun h => hfresh _ _ (h ▸ homem)
    simp only [ho, ho0, if_false]
    refine ⟨_, rfl, ?_, ?_, rfl⟩
    · constructor
      · intro fl sl
        by_cases hc : fl = L.firstLevel ∧ sl = L.secondLevel
        · simp only [setHead, withHeap, hc, and_self, if_true, updLists_apply]
          refine ⟨rfl, ha, by simp [hao], ?_⟩
          have e : ((((t.heap.setNextFreeAlloc a o).setPrevFreeAlloc a 0).setPrevFreeAlloc o a) a).nextFreeAlloc
              = o := by simp
          rw [e]
          refine DSeg_set_prev _ _ 0 a o 0 (hl ▸ hI.nodup _ _) ?_
          refine DSeg_congr t.heap _ _ _ _ _ ?_ hseg
          intro x hx
          have : x ≠ a := fun h => hfresh L.firstLevel L.secondLevel (by rw [hl]; exact h ▸ hx)
          simp [this]
        · simp only [setHead, withHeap, hc, if_false, updLists_apply]
          refine DSeg_congr t.heap _ _ _ _ _ ?_ (hI.seg fl sl)
          intro x hx
          have h1 : x ≠ a := fun h => hfresh fl sl (h ▸ hx)
          have h2 : x ≠ o := fun h => hI.not_mem_of_ne homem hc (h ▸ hx)
          simp [h1, h2]
      · intro fl sl hout
        have : ¬ (fl = L.firstLevel ∧ sl = L.secondLevel) := by
          rintro ⟨rfl, rfl⟩; exact hout ⟨hfl, hsl⟩
        simp only [updLists_apply, this, if_false]
        exact hI.outside fl sl hout
      · intro fl sl
        by_cases hc : fl = L.firstLevel ∧ sl = L.secondLevel
        · simp only [updLists_apply, hc, and_self, if_true]
          refine List.nodup_cons.mpr ⟨?_, hl ▸ hI.nodup _ _⟩
          rw [← hl]; exact hfresh _ _
        · simp only [updLists_apply, hc, if_false]; exact hI.nodup fl sl
      · intro fl sl fl' sl' x hx hx'
        simp only [updLists_apply] at hx hx'
        split_ifs at hx hx' with h1 h2 h2
        · exact ⟨h1.1.trans h2.1.symm, h1.2.trans h2.2.symm⟩
        · rcases List.mem_cons.mp hx with rfl | hx
          · exact absurd hx' (hfresh _ _)
          · exact absurd hx' (hI.not_mem_of_ne (hl ▸ hx) h2)
        · rcases List.mem_cons.mp hx' with rfl | hx'
          · exact absurd hx (hfresh _ _)
          · exact absurd hx (hI.not_mem_of_ne (hl ▸ hx') h1)
        · exact hI.disjoint _ _ _ _ x hx hx'
      · intro fl sl
        simp only [setHead, withHeap, updLists_apply]
        by_cases hc : fl = L.firstLevel ∧ sl = L.secondLevel
        · obtain ⟨rfl, rfl⟩ := hc
          simp only [and_self, if_true]
          have := (hI.second L.firstLevel L.secondLevel).mpr (by rw [hl]; simp)
          simp [this]
        · simp only [hc, if_false]
          exact hI.second _ _
      · intro fl
        simp only [setHead, withHeap, updLists_apply]
        rw [hI.first fl]
        constructor
        · rintro ⟨sl, hs⟩
          refine ⟨sl, ?_⟩
          split_ifs
          · simp
          · exact hs
        · rintro ⟨sl, hs⟩
          by_cases hc : fl = L.firstLevel ∧ sl = L.secondLevel
          · obtain ⟨rfl, rfl⟩ := hc
            exact ⟨L.secondLevel, by rw [hl]; simp⟩
          · simp only [hc, if_false] at hs
            exact ⟨sl, hs⟩
    · intro x
      simp [setHead, withHeap]

theorem clearLevelBit_heap (t : TLSF) (L : BitmapLevel) : (clearLevelBit t L).heap = t.heap := rfl

theorem clearLevelBit_heads (t : TLSF) (L : BitmapLevel) :
    (clearLevelBit t L).allocationLinkTable = t.allocationLinkTable := rfl

theorem clearLevelBit_pools (t : TLSF) (L : BitmapLevel) :
    (clearLevelBit t L).memoryPools = t.memoryPools := rfl

/-- Clearing the bit of a class whose list became empty keeps the bitmaps in step
with the lists. -/
theorem clear_bits (t : TLSF) (lists : Nat → Nat → List Nat) (L : BitmapLevel)
    (hsl : L.secondLevel < 32) (hfl : L.firstLevel < 31)
    (hout : ∀ fl sl, ¬ (fl < 31 ∧ sl < 32) → lists fl sl = [])
    (hsec : ∀ fl sl, (t.secondLevelBitmap fl).testBit sl = true ↔ lists fl sl ≠ [])
    (hfirst : ∀ fl, t.firstLevelBitmap.testBit fl = true ↔ ∃ sl, lists fl sl ≠ []) :
    (∀ fl sl, ((clearLevelBit t L).secondLevelBitmap fl).testBit sl = true ↔
      updLists lists L [] fl sl ≠ []) ∧
    (∀ fl, (clearLevelBit t L).firstLevelBitmap.testBit fl = true ↔
      ∃ sl, updLists lists L [] fl sl ≠ []) := by
  have hsec' : ∀ fl sl, ((clearLevelBit t L).secondLevelBitmap fl).testBit sl = true ↔
      updLists lists L [] fl sl ≠ [] := by
    intro fl sl
    simp only [clearLevelBit, updLists_apply]
    by_cases h1 : fl = L.firstLevel
    · subst h1
      simp only [if_true, testBit_clearBit, Bool.and_eq_true, bne_iff_ne, ne_eq, true_and]
      by_cases h2 : sl = L.secondLevel
      · subst h2; simp [hsl]
      · have h2' : ¬ L.secondLevel = sl := fun h => h2 h.symm
        simp only [h2, h2', if_false, decide_False]
        rw [hsec]
        constructor
        · exact fun h => h.1
        · intro h
          refine ⟨h, ?_⟩
          have : sl < 32 := by
            by_contra hc
            exact h (hout _ _ (fun hh => hc hh.2))
          simp [this]
    · simp only [h1, false_and, if_false]
      exact hsec _ _
  refine ⟨hsec', ?_⟩
  intro fl
  have hz : ((clearLevelBit t L).secondLevelBitmap L.firstLevel = 0) ↔
      ∀ sl, updLists lists L [] L.firstLevel sl = [] := by
    rw [eq_zero_iff_testBit]
    constructor
    · intro h sl
      by_contra hc
      have := (hsec' L.firstLevel sl).mpr hc
      rw [h sl] at this
      exact Bool.noConfusion this
    · intro h sl
      by_contra hc
      have hc' : ((clearLevelBit t L).secondLevelBitmap L.firstLevel).testBit sl = true := by
        simpa using hc
      exact (hsec' L.firstLevel sl).mp hc' (h sl)
  have hz' : (t.secondLevelBitmap L.firstLevel &&& (4294967295 ^^^ (1 <<< L.secondLevel)) = 0) ↔
      ∀ sl, updLists lists L [] L.firstLevel sl = [] := by
    have : (clearLevelBit t L).secondLevelBitmap L.firstLevel =
        t.secondLevelBitmap L.firstLevel &&& (4294967295 ^^^ (1 <<< L.secondLevel)) := by
      simp [clearLevelBit]
    rw [← this]; exact hz
  have hupd : ∀ sl, fl ≠ L.firstLevel → updLists lists L [] fl sl = lists fl sl := by
    intro sl hne
    simp [updLists_apply, hne]
  by_cases hc : t.secondLevelBitmap L.firstLevel &&& (4294967295 ^^^ (1 <<< L.secondLevel)) = 0
  · have hall := hz'.mp hc
    simp only [clearLevelBit, hc, if_true, testBit_clearBit, Bool.and_eq_true, bne_iff_ne, ne_eq]
    by_cases h1 : fl = L.firstLevel
    · subst h1
      constructor
      · rintro ⟨_, h2⟩
        exact absurd h2 (by simp [show L.firstLevel < 32 by omega])
      · rintro ⟨sl, hs⟩
        exact absurd (hall sl) hs
    · have h1' : ¬ L.firstLevel = fl := fun h => h1 h.symm
      rw [hfirst]
      constructor
      · rintro ⟨⟨sl, hs⟩, _⟩
        exact ⟨sl, by rw [hupd sl h1]; exact hs⟩
      · rintro ⟨sl, hs⟩
        rw [hupd sl h1] at hs
        refine ⟨⟨sl, hs⟩, ?_⟩
        have : fl < 32 := by
          by_contra hcc
          exact hs (hout _ _ (fun hh => hcc (by omega)))
        simp [this, h1']
  · have hex : ∃ sl, updLists lists L [] L.firstLevel sl ≠ [] := by
      by_contra hn
      exact hc (hz'.mpr (fun sl => by
        by_contra hcc
        exact hn ⟨sl, hcc⟩))
    simp only [clearLevelBit, hc, if_false]
    rw [hfirst]
    by_cases h1 : fl = L.firstLevel
    · subst h1
      constructor
      · intro _; exact hex
      · rintro ⟨sl, hs⟩
        simp only [updLists_apply] at hs
        split_ifs at hs
        · exact absurd rfl hs
        · exact ⟨sl, hs⟩
    · constructor
      · rintro ⟨sl, hs⟩; exact ⟨sl, by rw [hupd sl h1]; exact hs⟩
      · rintro ⟨sl, hs⟩; exact ⟨sl, by rw [hupd sl h1] at hs; exact hs⟩


/-- Replacing a non-empty list by a non-empty list needs no bitmap update. -/
theorem keep_bits (t : TLSF) (lists : Nat → Nat → List Nat) (L : BitmapLevel) (l' : List Nat)
    (hne : lists L.firstLevel L.secondLevel ≠ []) (hne' : l' ≠ [])
    (hsec : ∀ fl sl, (t.secondLevelBitmap fl).testBit sl = true ↔ lists fl sl ≠ [])
    (hfirst : ∀ fl, t.firstLevelBitmap.testBit fl = true ↔ ∃ sl, lists fl sl ≠ []) :
    (∀ fl sl, (t.secondLevelBitmap fl).testBit sl = true ↔ updLists lists L l' fl sl ≠ []) ∧
    (∀ fl, t.firstLevelBitmap.testBit fl = true ↔ ∃ sl, updLists lists L l' fl sl ≠ []) := by
  have key : ∀ fl sl, updLists lists L l' fl sl ≠ [] ↔ lists fl sl ≠ [] := by
    intro fl sl
    simp only [updLists_apply]
    split_ifs with hc
    · obtain ⟨rfl, rfl⟩ := hc
      exact ⟨fun _ => hne, fun _ => hne'⟩
    · exact Iff.rfl
  refine ⟨fun fl sl => by rw [key]; exact hsec fl sl, fun fl => ?_⟩
  rw [hfirst]
  exact ⟨fun ⟨sl, hs⟩ => ⟨sl, (key fl sl).mpr hs⟩, fun ⟨sl, hs⟩ => ⟨sl, (key fl sl).mp hs⟩⟩

/-- The index invariant after one list was replaced by a sublist of itself. -/
theorem LinkInv.replace {t t' : TLSF} {lists : Nat → Nat → List Nat} (hI : LinkInv t lists)
    (L : BitmapLevel) (l' : List Nat)
    (hsub : ∀ x ∈ l', x ∈ lists L.firstLevel L.secondLevel) (hnd : l'.Nodup)
    (hseg : DSeg t'.heap 0 (t'.allocationLinkTable L.firstLevel L.secondLevel) l' 0)
    (hheads : ∀ fl sl, ¬ (fl = L.firstLevel ∧ sl = L.secondLevel) →
      t'.allocationLinkTable fl sl = t.allocationLinkTable fl sl)
    (hlinks : ∀ x, x ∉ lists L.firstLevel L.secondLevel →
      (t'.heap x).prevFreeAlloc = (t.heap x).prevFreeAlloc ∧
        (t'.heap x).nextFreeAlloc = (t.heap x).nextFreeAlloc)
    (hsec : ∀ fl sl, (t'.secondLevelBitmap fl).testBit sl = true ↔ updLists lists L l' fl sl ≠ [])
    (hfirst : ∀ fl, t'.firstLevelBitmap.testBit fl = true ↔ ∃ sl, updLists lists L l' fl sl ≠ []) :
    LinkInv t' (updLists lists L l') where
  seg := by
    intro fl sl
    by_cases hc : fl = L.firstLevel ∧ sl = L.secondLevel
    · obtain ⟨rfl, rfl⟩ := hc
      simpa using hseg
    · simp only [updLists_apply, hc, if_false]
      rw [hheads fl sl hc]
      refine DSeg_congr t.heap _ _ _ _ _ ?_ (hI.seg fl sl)
      intro x hx
      exact hlinks x (fun hx' => hc (hI.disjoint _ _ _ _ x hx hx'))
  outside := by
    intro fl sl hout
    simp only [updLists_apply]
    split_ifs with hc
    · obtain ⟨rfl, rfl⟩ := hc
      cases hl : l' with
      | nil => rfl
      | cons y ys =>
        have := hsub y (by rw [hl]; exact List.mem_cons_self _ _)
        rw [hI.outside _ _ hout] at this
        exact absurd this (List.not_mem_nil _)
    · exact hI.outside fl sl hout
  nodup := by
    intro fl sl
    simp only [updLists_apply]
    split_ifs
    · exact hnd
    · exact hI.nodup fl sl
  disjoint := by
    intro fl sl fl' sl' x hx hx'
    simp only [updLists_apply] at hx hx'
    split_ifs at hx hx' with h1 h2 h2
    · exact ⟨h1.1.trans h2.1.symm, h1.2.trans h2.2.symm⟩
    · have := hI.disjoint _ _ _ _ x (hsub x hx) hx'
      exact absurd ⟨this.1.symm, this.2.symm⟩ h2
    · have := hI.disjoint _ _ _ _ x hx (hsub x hx')
      exact absurd this h1
    · exact hI.disjoint _ _ _ _ x hx hx'
  second := hsec
  first := hfirst

/-- Unlinking the header `a` from a doubly linked list, as the removal paths do. -/
theorem DSeg_unlink (h : Heap) (pre post : List Nat) (a hd : Nat)
    (hn : (pre ++ a :: post).Nodup) (hs : DSeg h 0 hd (pre ++ a :: post) 0) :
    (h a).prevFreeAlloc = pre.getLast?.getD 0 ∧
    (h a).nextFreeAlloc = post.head?.getD 0 ∧
    ((h a).prevFreeAlloc = 0 ↔ pre = []) ∧
    ((h a).nextFreeAlloc = 0 ↔ post = []) ∧
    (pre = [] → hd = a) ∧
    ∀ h1 : Heap,
      (h1 = if (h a).prevFreeAlloc ≠ 0 then
          h.setNextFreeAlloc (h a).prevFreeAlloc (h a).nextFreeAlloc else h) →
      DSeg (if (h a).nextFreeAlloc ≠ 0 then
          h1.setPrevFreeAlloc (h a).nextFreeAlloc (h a).prevFreeAlloc else h1) 0
        (if (h a).prevFreeAlloc ≠ 0 then hd else (h a).nextFreeAlloc) (pre ++ post) 0 := by
  obtain ⟨m, hpre, hrest⟩ := (DSeg_append h pre (a :: post) 0 hd 0).mp hs
  obtain ⟨hm, ha0, hprev, hpost⟩ := hrest
  subst hm
  have hnz := DSeg_ne_zero h _ _ _ _ hs
  have hnpre : pre.Nodup := (List.nodup_append.mp hn).1
  have hnpost : post.Nodup := (List.nodup_cons.mp (List.nodup_append.mp hn).2.1).2
  have hdisj : ∀ x, x ∈ pre → x ∈ post → False := by
    intro x hx hy
    exact (List.nodup_append.mp hn).2.2 hx (List.mem_cons_of_mem _ hy)
  have hnext : (h m).nextFreeAlloc = post.head?.getD 0 := DSeg_head _ _ _ _ _ hpost
  have hpv0 : (h m).prevFreeAlloc = 0 ↔ pre = [] := by
    rw [hprev]
    cases hp : pre with
    | nil => simp
    | cons y ys =>
      have hmem := getLastD_mem pre 0 (by rw [hp]; simp)
      rw [hp] at hmem
      have : (y :: ys).getLast?.getD 0 ≠ 0 :=
        hnz _ (List.mem_append_left _ (hp ▸ hmem))
      simp [this]
  have hnx0 : (h m).nextFreeAlloc = 0 ↔ post = [] := by
    rw [hnext]
    cases hp : post with
    | nil => simp
    | cons y ys =>
      have : y ≠ 0 := hnz y (List.mem_append_right _ (List.mem_cons_of_mem _ (by rw [hp]; simp)))
      simp [this]
  refine ⟨hprev, hnext, hpv0, hnx0, ?_, ?_⟩
  · intro hp; subst hp; exact hpre
  · intro h1 hh1
    rw [DSeg_append]
    -- the prefix, after the forward link of its last header was redirected
    have hpre1 : DSeg h1 0 (if (h m).prevFreeAlloc ≠ 0 then hd else (h m).nextFreeAlloc) pre
        (h m).nextFreeAlloc := by
      by_cases hp : pre = []
      · have h0 := hpv0.mpr hp
        subst hp
        simp only [h0, ne_eq, not_true_eq_false, if_false]
        rfl
      · have h0 : (h m).prevFreeAlloc ≠ 0 := fun hc => hp (hpv0.mp hc)
        simp only [h0, ne_eq, not_false_eq_true, if_true] at hh1 ⊢
        rw [hh1, hprev]
        exact DSeg_set_next h pre 0 hd m _ hnpre hp hpre
    have hpost1 : DSeg h1 m (h m).nextFreeAlloc post 0 := by
      refine DSeg_congr h h1 post _ _ _ ?_ hpost
      intro x hx
      rw [hh1]
      split_ifs with hc
      · have hp : pre ≠ [] := fun hp => hc (hpv0.mpr hp)
        have hmem := getLastD_mem pre 0 hp
        rw [← hprev] at hmem
        have : x ≠ (h m).prevFreeAlloc := fun hxx => hdisj _ hmem (hxx ▸ hx)
        simp [this]
      · exact ⟨rfl, rfl⟩
    by_cases hq : post = []
    · have h0 := hnx0.mpr hq
      subst hq
      simp only [h0, ne_eq, not_true_eq_false, if_false]
      refine ⟨0, ?_, rfl⟩
      rw [h0] at hpre1
      exact hpre1
    · have h0 : (h m).nextFreeAlloc ≠ 0 := fun hc => hq (hnx0.mp hc)
      simp only [h0, ne_eq, not_false_eq_true, if_true]
      refine ⟨(h m).nextFreeAlloc, ?_, ?_⟩
      · refine DSeg_congr h1 _ pre _ _ _ ?_ hpre1
        intro x hx
        have hmem : (h m).nextFreeAlloc ∈ post := by
          rw [hnext]
          cases hp : post with
          | nil => exact absurd hp hq
          | cons y ys => simp
        have : x ≠ (h m).nextFreeAlloc := fun hxx => hdisj _ hx (hxx ▸ hmem)
        simp [this]
      · rw [← hprev]
        exact DSeg_set_prev h1 post m _ _ 0 hnpost hpost1

/-- Removing a header from the free list of its class. -/
theorem remove_spec {t : TLSF} {lists : Nat → Nat → List Nat} (hI : LinkInv t lists) (a : Nat)
    (L : BitmapLevel) (hT : L.inTable = true) (ha : a ∈ lists L.firstLevel L.secondLevel) :
    ∃ t', removeFreeAllocationAndUpdateBitmapLevel t a L = some t' ∧
      LinkInv t' (updLists lists L ((lists L.firstLevel L.secondLevel).erase a)) ∧
      PhysEq t.heap t'.heap ∧ t'.memoryPools = t.memoryPools := by
  obtain ⟨hfl, hsl⟩ := (inTable_iff L).mp hT
  obtain ⟨pre, post, hl⟩ := List.append_of_mem ha
  have hnd := hI.nodup L.firstLevel L.secondLevel
  rw [hl] at hnd
  have hapre : a ∉ pre := fun hx =>
    (List.nodup_append.mp hnd).2.2 hx (List.mem_cons_self _ _)
  have herase : (lists L.firstLevel L.secondLevel).erase a = pre ++ post := by
    rw [hl, List.erase_append_right _ hapre, List.erase_cons_head]
  rw [herase]
  have hseg := hI.seg L.firstLevel L.secondLevel
  rw [hl] at hseg
  obtain ⟨hpv, hnx, hpv0, hnx0, hhd, hun⟩ := DSeg_unlink t.heap pre post a _ hnd hseg
  have hnd' : (pre ++ post).Nodup := by
    have := List.nodup_append.mp hnd
    refine List.nodup_append.mpr ⟨this.1, (List.nodup_cons.mp this.2.1).2, ?_⟩
    intro x hx hy
    exact this.2.2 hx (List.mem_cons_of_mem _ hy)
  have hsub : ∀ x ∈ pre ++ post, x ∈ lists L.firstLevel L.secondLevel := by
    intro x hx
    rw [hl]
    rcases List.mem_append.mp hx with h | h
    · exact List.mem_append_left _ h
    · exact List.mem_append_right _ (List.mem_cons_of_mem _ h)
  have hpvmem : (t.heap a).prevFreeAlloc ≠ 0 →
      (t.heap a).prevFreeAlloc ∈ lists L.firstLevel L.secondLevel := by
    intro h0
    have hp : pre ≠ [] := fun hp => h0 (hpv0.mpr hp)
    rw [hl, hpv]
    exact List.mem_append_left _ (getLastD_mem pre 0 hp)
  have hnxmem : (t.heap a).nextFreeAlloc ≠ 0 →
      (t.heap a).nextFreeAlloc ∈ lists L.firstLevel L.secondLevel := by
    intro h0
    have hp : post ≠ [] := fun hp => h0 (hnx0.mpr hp)
    rw [hl, hnx]
    refine List.mem_append_right _ (List.mem_cons_of_mem _ ?_)
    cases hq : post with
    | nil => exact absurd hq hp
    | cons y ys => simp
  -- the state before the bitmap update
  generalize hh1 : (if (t.heap a).prevFreeAlloc ≠ 0 then
      t.heap.setNextFreeAlloc (t.heap a).prevFreeAlloc (t.heap a).nextFreeAlloc else t.heap) = h1
  have hseg2 := hun h1 hh1.symm
  generalize hh2 : (if (t.heap a).nextFreeAlloc ≠ 0 then
      h1.setPrevFreeAlloc (t.heap a).nextFreeAlloc (t.heap a).prevFreeAlloc else h1) = h2 at hseg2
  generalize hhd2 : (if (t.heap a).prevFreeAlloc ≠ 0 then
      t.allocationLinkTable L.firstLevel L.secondLevel else (t.heap a).nextFreeAlloc) = hd2 at hseg2
  have hstate : ∃ t2 : TLSF, t2.heap = h2 ∧ t2.allocationLinkTable L.firstLevel L.secondLevel = hd2 ∧
      (∀ fl sl, ¬ (fl = L.firstLevel ∧ sl = L.secondLevel) →
        t2.allocationLinkTable fl sl = t.allocationLinkTable fl sl) ∧
      t2.firstLevelBitmap = t.firstLevelBitmap ∧ t2.secondLevelBitmap = t.secondLevelBitmap ∧
      t2.memoryPools = t.memoryPools ∧
      removeFreeAllocationAndUpdateBitmapLevel t a L =
        if t2.head L = 0 then some (clearLevelBit t2 L) else some t2 := by
    unfold removeFreeAllocationAndUpdateBitmapLevel
    simp only [hT, not_true_eq_false, if_false]
    refine ⟨_, ?_, ?_, ?_, ?_, ?_, ?_, rfl⟩
    · rw [← hh2, ← hh1]
      split_ifs <;> rfl
    · rw [← hhd2]
      split_ifs <;> simp [setHead, withHeap]
    · intro fl sl hc
      split_ifs <;> simp [setHead, withHeap, hc]
    · split_ifs <;> rfl
    · split_ifs <;> rfl
    · split_ifs <;> rfl
  obtain ⟨t2, e1, e2, e3, e4, e5, e6, e7⟩ := hstate
  have hlinks : ∀ x, x ∉ lists L.firstLevel L.secondLevel →
      (h2 x).prevFreeAlloc = (t.heap x).prevFreeAlloc ∧
        (h2 x).nextFreeAlloc = (t.heap x).nextFreeAlloc := by
    intro x hx
    rw [← hh2, ← hh1]
    split_ifs with c1 c2 c2
    · have n1 : x ≠ (t.heap a).nextFreeAlloc := fun h => hx (h ▸ hnxmem c1)
      have n2 : x ≠ (t.heap a).prevFreeAlloc := fun h => hx (h ▸ hpvmem c2)
      simp [n1, n2]
    · have n1 : x ≠ (t.heap a).nextFreeAlloc := fun h => hx (h ▸ hnxmem c1)
      simp [n1]
    · have n2 : x ≠ (t.heap a).prevFreeAlloc := fun h => hx (h ▸ hpvmem c2)
      simp [n2]
    · exact ⟨rfl, rfl⟩
  have hphys : PhysEq t.heap h2 := by
    intro x
    rw [← hh2, ← hh1]
    split_ifs <;> simp
  have hhead0 : t2.head L = 0 ↔ pre ++ post = [] := by
    have := DSeg_head _ _ _ _ _ hseg2
    show t2.allocationLinkTable L.firstLevel L.secondLevel = 0 ↔ _
    rw [e2, this]
    cases hq : pre ++ post with
    | nil => simp
    | cons y ys =>
      have hy : y ∈ lists L.firstLevel L.secondLevel := hsub y (by rw [hq]; simp)
      have : y ≠ 0 := hI.mem_ne_zero hy
      simp [this]
  have hne : lists L.firstLevel L.secondLevel ≠ [] := by rw [hl]; simp
  by_cases hemp : pre ++ post = []
  · rw [e7, if_pos (hhead0.mpr hemp)]
    refine ⟨_, rfl, ?_, ?_, ?_⟩
    · have hb := clear_bits t2 lists L hsl hfl hI.outside (by rw [e5]; exact hI.second)
        (by rw [e4]; exact hI.first)
      rw [hemp]
      refine hI.replace L [] (by simp) List.nodup_nil ?_ ?_ ?_ hb.1 hb.2
      · rw [clearLevelBit_heap, clearLevelBit_heads, e1, e2]
        rw [hemp] at hseg2; exact hseg2
      · intro fl sl hc; rw [clearLevelBit_heads]; exact e3 fl sl hc
      · intro x hx; rw [clearLevelBit_heap, e1]; exact hlinks x hx
    · rw [clearLevelBit_heap, e1]; exact hphys
    · rw [clearLevelBit_pools, e6]
  · rw [e7, if_neg (fun h => hemp (hhead0.mp h))]
    refine ⟨_, rfl, ?_, ?_, e6⟩
    · have hb := keep_bits t2 lists L (pre ++ post) hne hemp (by rw [e5]; exact hI.second)
        (by rw [e4]; exact hI.first)
      refine hI.replace L (pre ++ post) hsub hnd' ?_ e3 ?_ hb.1 hb.2
      · rw [e1, e2]; exact hseg2
      · intro x hx; rw [e1]; exact hlinks x hx
    · rw [e1]; exact hphys

theorem TLSF.eq_of_fields (t t' : TLSF) (h1 : t.firstLevelBitmap = t'.firstLevelBitmap)
    (h2 : t.secondLevelBitmap = t'.secondLevelBitmap)
    (h3 : t.allocationLinkTable = t'.allocationLinkTable)
    (h4 : t.memoryPools = t'.memoryPools) (h5 : t.heap = t'.heap) : t = t' := by
  cases t; cases t'
  simp only at h1 h2 h3 h4 h5
  subst h1 h2 h3 h4 h5
  rfl

theorem setHead_same (t : TLSF) (L : BitmapLevel) (v : Nat) (h : t.head L = v) :
    t.setHead L v = t := by
  apply TLSF.eq_of_fields <;> try rfl
  funext f s
  simp only [setHead]
  split_ifs with hc
  · obtain ⟨rfl, rfl⟩ := hc; exact h.symm
  · rfl

theorem setPrevFreeAlloc_same (h : Heap) (a v : Nat) (hv : (h a).prevFreeAlloc = v) :
    h.setPrevFreeAlloc a v = h := by
  funext x
  unfold Heap.setPrevFreeAlloc
  split_ifs with hc
  · subst hc; subst hv; rfl
  · rfl

theorem withHeap_same (t : TLSF) : t.withHeap t.heap = t := rfl

theorem clearLevelBit_idem (t : TLSF) (L : BitmapLevel) :
    clearLevelBit (clearLevelBit t L) L = clearLevelBit t L := by
  have hm : ∀ x m : Nat, x &&& m &&& m = x &&& m := by
    intro x m; rw [Nat.and_assoc, Nat.and_self]
  apply TLSF.eq_of_fields <;> try rfl
  · simp only [clearLevelBit, if_true, hm]
    split_ifs <;> simp [hm]
  · funext f
    simp only [clearLevelBit]
    split_ifs <;> simp [hm]

/-- Popping the head of the free list of a class; the removal that `splitAllocation`
performs next on the popped header changes nothing. -/
theorem pop_spec {t : TLSF} {lists : Nat → Nat → List Nat} (hI : LinkInv t lists)
    (L : BitmapLevel) (hT : L.inTable = true) (a : Nat) (rest : List Nat)
    (hl : lists L.firstLevel L.secondLevel = a :: rest) :
    ∃ t', queryAllocationWithFreeLevel t L = some (t', a) ∧
      LinkInv t' (updLists lists L rest) ∧ PhysEq t.heap t'.heap ∧
      t'.memoryPools = t.memoryPools ∧
      removeFreeAllocationAndUpdateBitmapLevel t' a L = some t' := by
  obtain ⟨hfl, hsl⟩ := (inTable_iff L).mp hT
  have hseg := hI.seg L.firstLevel L.secondLevel
  rw [hl] at hseg
  obtain ⟨hhd, ha0, hprev, hrest⟩ := hseg
  have hhead : t.head L = a := hhd
  have hnd := hI.nodup L.firstLevel L.secondLevel
  rw [hl] at hnd
  have hne : lists L.firstLevel L.secondLevel ≠ [] := by rw [hl]; simp
  have hsub : ∀ x ∈ rest, x ∈ lists L.firstLevel L.secondLevel := by
    intro x hx; rw [hl]; exact List.mem_cons_of_mem _ hx
  unfold queryAllocationWithFreeLevel
  simp only [hT, not_true_eq_false, if_false, hhead, ha0]
  cases hr : rest with
  | nil =>
    rw [hr] at hrest
    have hnx : (t.heap a).nextFreeAlloc = 0 := hrest
    simp only [hnx, ne_eq, not_true_eq_false, if_false]
    refine ⟨_, rfl, ?_, ?_, rfl, ?_⟩
    · have hb := clear_bits (t.setHead L 0) lists L hsl hfl hI.outside hI.second hI.first
      refine hI.replace L [] (by simp) List.nodup_nil ?_ ?_ ?_ hb.1 hb.2
      · simp [clearLevelBit_heads, setHead, DSeg]
      · intro fl sl hc; simp [clearLevelBit_heads, setHead, hc]
      · intro x _; exact ⟨rfl, rfl⟩
    · exact PhysEq.refl _
    · unfold removeFreeAllocationAndUpdateBitmapLevel
      have e1 : ((clearLevelBit (t.setHead L 0) L).heap a).nextFreeAlloc = 0 := hnx
      have e2 : ((clearLevelBit (t.setHead L 0) L).heap a).prevFreeAlloc = 0 := hprev
      simp only [hT, not_true_eq_false, if_false, e1, e2, ne_eq]
      have e3 : (clearLevelBit (t.setHead L 0) L).setHead L 0 = clearLevelBit (t.setHead L 0) L := by
        apply setHead_same
        simp [TLSF.head, clearLevelBit_heads, setHead]
      rw [e3]
      have e4 : (clearLevelBit (t.setHead L 0) L).head L = 0 := by
        simp [TLSF.head, clearLevelBit_heads, setHead]
      rw [if_pos e4, clearLevelBit_idem]
  | cons y ys =>
    rw [hr] at hrest hnd hsub
    obtain ⟨hnx, hy0, hyprev, hrest'⟩ := hrest
    have hay : a ≠ y := fun h => (List.nodup_cons.mp hnd).1 (h ▸ List.mem_cons_self _ _)
    simp only [hnx, hy0, ne_eq, not_false_eq_true, if_true]
    refine ⟨_, rfl, ?_, ?_, rfl, ?_⟩
    · have hb := keep_bits t lists L (y :: ys) hne (by simp) hI.second hI.first
      refine hI.replace L (y :: ys) hsub (List.nodup_cons.mp hnd).2 ?_ ?_ ?_ hb.1 hb.2
      · simp only [setHead, withHeap, and_self, if_true]
        have := DSeg_set_prev t.heap (y :: ys) a 0 y 0 (List.nodup_cons.mp hnd).2
          ⟨rfl, hy0, hyprev, hrest'⟩
        exact this
      · intro fl sl hc; simp [setHead, withHeap, hc]
      · intro x hx
        have : x ≠ y := fun h => hx (by rw [hl, hr, h]; simp)
        simp [setHead, withHeap, this]
    · intro x; simp [setHead, withHeap]
    · unfold removeFreeAllocationAndUpdateBitmapLevel
      have e1 : ((((t.setHead L y).withHeap ((t.setHead L y).heap.setPrevFreeAlloc y 0)).heap) a).nextFreeAlloc
          = y := by simp [setHead, withHeap, hnx]
      have e2 : ((((t.setHead L y).withHeap ((t.setHead L y).heap.setPrevFreeAlloc y 0)).heap) a).prevFreeAlloc
          = 0 := by simp [setHead, withHeap, hay, hprev]
      simp only [hT, not_true_eq_false, if_false, e1, e2, ne_eq, hy0, not_false_eq_true, if_true]
      have e3 : ((t.setHead L y).withHeap ((t.setHead L y).heap.setPrevFreeAlloc y 0)).setHead L y =
          (t.setHead L y).withHeap ((t.setHead L y).heap.setPrevFreeAlloc y 0) := by
        apply setHead_same
        simp [TLSF.head, setHead, withHeap]
      rw [e3]
      have e4 : ((t.setHead L y).withHeap ((t.setHead L y).heap.setPrevFreeAlloc y 0)).withHeap
          (((t.setHead L y).withHeap ((t.setHead L y).heap.setPrevFreeAlloc y 0)).heap.setPrevFreeAlloc y 0)
          = (t.setHead L y).withHeap ((t.setHead L y).heap.setPrevFreeAlloc y 0) := by
        have : (((t.setHead L y).withHeap ((t.setHead L y).heap.setPrevFreeAlloc y 0)).heap.setPrevFreeAlloc y 0)
            = ((t.setHead L y).withHeap ((t.setHead L y).heap.setPrevFreeAlloc y 0)).heap := by
          apply setPrevFreeAlloc_same
          simp [withHeap]
        rw [this]; rfl
      rw [e4]
      have e5 : ((t.setHead L y).withHeap ((t.setHead L y).heap.setPrevFreeAlloc y 0)).head L ≠ 0 := by
        simp [TLSF.head, setHead, withHeap, hy0]
      rw [if_neg e5]

/-! ## The search for a free class -/

theorem LinkInv.first_eq_zero {t : TLSF} {lists : Nat → Nat → List Nat} (hI : LinkInv t lists)
    (h0 : t.firstLevelBitmap = 0) (fl sl : Nat) : lists fl sl = [] := by
  by_contra hc
  have := (hI.first fl).mpr ⟨sl, hc⟩
  rw [h0, Nat.zero_testBit] at this
  exact Bool.noConfusion this

/-- Under the index invariant `queryFreeStatus` tells whether the list of the class is
non-empty, the operator-precedence slip notwithstanding. -/
theorem queryFreeStatus_spec {t : TLSF} {lists : Nat → Nat → List Nat} (hI : LinkInv t lists)
    (fl sl : Nat) (hfl : fl < 31) (hsl : sl < 32) :
    queryFreeStatus t ⟨fl, sl⟩ = some (decide (lists fl sl ≠ [])) := by
  unfold queryFreeStatus
  simp only [ge_iff_le, show ¬ 31 ≤ fl by omega, show ¬ 32 ≤ sl by omega, if_false]
  by_cases h0 : t.firstLevelBitmap = 0
  · have hl := hI.first_eq_zero h0 fl sl
    simp only [h0, if_true, hl, ne_eq, not_true_eq_false, decide_False]
    split_ifs with hc
    · have hs : (t.secondLevelBitmap fl).testBit sl = false := by
        by_contra hcc
        exact (hI.second fl sl).mp (by simpa using hcc) hl
      have := (and_shift_eq_zero_iff (t.secondLevelBitmap fl) sl).mpr hs
      simp [this]
    · rfl
  · have e : (0 : Nat) &&& (1 <<< fl) = 0 := Nat.zero_and _
    simp only [h0, if_false, e, ne_eq, not_true_eq_false]
    congr 1
    by_cases hl : lists fl sl = []
    · have hs : (t.secondLevelBitmap fl).testBit sl = false := by
        by_contra hcc
        exact (hI.second fl sl).mp (by simpa using hcc) hl
      have := (and_shift_eq_zero_iff (t.secondLevelBitmap fl) sl).mpr hs
      simp [this, hl]
    · have hs := (hI.second fl sl).mpr hl
      have := (and_shift_ne_zero_iff (t.secondLevelBitmap fl) sl).mpr hs
      simp [this, hl]

/-- The inner loop of `findLevelForSplit` returns the first non-empty class of the
first level at or after `sl`, if there is one among the `count` classes scanned. -/
theorem findSecondLevel_spec {t : TLSF} {lists : Nat → Nat → List Nat} (hI : LinkInv t lists)
    (fl : Nat) (hfl : fl < 31) (count : Nat) :
    ∀ sl, sl + count ≤ 32 →
      (findSecondLevel t fl sl count = some none ∧
        ∀ s, sl ≤ s → s < sl + count → lists fl s = []) ∨
      (∃ s, findSecondLevel t fl sl count = some (some ⟨fl, s⟩) ∧ sl ≤ s ∧ s < sl + count ∧
        lists fl s ≠ [] ∧ ∀ s', sl ≤ s' → s' < s → lists fl s' = []) := by
  induction count with
  | zero =>
    intro sl _
    left
    exact ⟨rfl, fun s h1 h2 => by omega⟩
  | succ c ih =>
    intro sl hle
    unfold findSecondLevel
    rw [queryFreeStatus_spec hI fl sl hfl (by omega)]
    by_cases hl : lists fl sl = []
    · simp only [hl, ne_eq, not_true_eq_false, decide_False]
      rcases ih (sl + 1) (by omega) with ⟨h1, h2⟩ | ⟨s, h1, h2, h3, h4, h5⟩
      · left
        refine ⟨h1, fun s hs1 hs2 => ?_⟩
        by_cases he : s = sl
        · subst he; exact hl
        · exact h2 s (by omega) (by omega)
      · right
        refine ⟨s, h1, by omega, by omega, h4, fun s' hs1 hs2 => ?_⟩
        by_cases he : s' = sl
        · subst he; exact hl
        · exact h5 s' (by omega) hs2
    · simp only [hl, ne_eq, not_false_eq_true, decide_True]
      right
      exact ⟨sl, rfl, le_refl _, by omega, hl, fun s' h1 h2 => by omega⟩

theorem invalid_not_valid : BitmapLevel.invalid.valid = false := by decide

theorem valid_of_lt (fl sl : Nat) (hfl : fl < 31) : (⟨fl, sl⟩ : BitmapLevel).valid = true := by
  unfold BitmapLevel.valid
  simp only [decide_eq_true_eq, ne_eq]
  omega

/-- The outer loop of `findLevelForSplit`: every class it returns is non-empty and not
before the start class; when it fails, the classes of the start first level at or after
the start second level are all empty. -/
theorem findFirstLevel_spec {t : TLSF} {lists : Nat → Nat → List Nat} (hI : LinkInv t lists)
    (count : Nat) :
    ∀ bs fl, fl + count ≤ 31 →
      (findFirstLevel t bs fl count = some BitmapLevel.invalid ∧
        (1 ≤ count → ∀ s, bs ≤ s → s < 32 → lists fl s = [])) ∨
      (∃ fl' sl', findFirstLevel t bs fl count = some ⟨fl', sl'⟩ ∧ fl ≤ fl' ∧ fl' < fl + count ∧
        sl' < 32 ∧ lists fl' sl' ≠ [] ∧ (fl' = fl → bs ≤ sl')) := by
  induction count with
  | zero =>
    intro bs fl _
    left
    exact ⟨rfl, fun h => by omega⟩
  | succ c ih =>
    intro bs fl hle
    unfold findFirstLevel
    by_cases hb : t.firstLevelBitmap &&& (1 <<< fl) = 0
    · rw [if_pos hb]
      have hbit := (and_shift_eq_zero_iff _ _).mp hb
      have hemp : ∀ s, lists fl s = [] := by
        intro s
        by_contra hc
        have := (hI.first fl).mpr ⟨s, hc⟩
        rw [hbit] at this
        exact Bool.noConfusion this
      rcases ih 0 (fl + 1) (by omega) with ⟨h1, _⟩ | ⟨fl', sl', h1, h2, h3, h4, h5, _⟩
      · left
        exact ⟨h1, fun _ s _ _ => hemp s⟩
      · right
        exact ⟨fl', sl', h1, by omega, by omega, h4, h5, fun h => by omega⟩
    · rw [if_neg hb]
      by_cases hbs : bs ≤ 32
      · rcases findSecondLevel_spec hI fl (by omega) (SLC - bs) bs (by rw [SLC_eq]; omega) with
          ⟨h1, h2⟩ | ⟨s, h1, h2, h3, h4, _⟩
        · rw [h1]
          simp only
          rcases ih bs (fl + 1) (by omega) with ⟨g1, _⟩ | ⟨fl', sl', g1, g2, g3, g4, g5, _⟩
          · left
            refine ⟨g1, fun _ s hs1 hs2 => h2 s hs1 (by rw [SLC_eq]; omega)⟩
          · right
            exact ⟨fl', sl', g1, by omega, by omega, g4, g5, fun h => by omega⟩
        · rw [h1]
          simp only
          right
          rw [SLC_eq] at h3
          exact ⟨fl, s, rfl, le_refl _, by omega, by omega, h4, fun _ => h2⟩
      · have hz : SLC - bs = 0 := by rw [SLC_eq]; omega
        rw [hz]
        simp only [findSecondLevel]
        rcases ih bs (fl + 1) (by omega) with ⟨g1, _⟩ | ⟨fl', sl', g1, g2, g3, g4, g5, _⟩
        · left
          exact ⟨g1, fun _ s hs1 hs2 => by omega⟩
        · right
          exact ⟨fl', sl', g1, by omega, by omega, g4, g5, fun h => by omega⟩

/-! ## Physical chains -/

theorem PSeg_congr (h h' : Heap) (l : List Nat) :
    ∀ (prev a e : Nat),
      (∀ x ∈ l, (h' x).size = (h x).size ∧ (h' x).prevPhyAlloc = (h x).prevPhyAlloc) →
      PSeg h prev a l e → PSeg h' prev a l e := by
  induction l with
  | nil => intro prev a e _ hs; exact hs
  | cons x xs ih =>
    intro prev a e hx hs
    obtain ⟨h1, h2, h3, h4⟩ := hs
    have hxx := hx x (List.mem_cons_self _ _)
    refine ⟨h1, by rw [hxx.2]; exact h2, by rw [hxx.1]; exact h3, ?_⟩
    rw [hxx.1]
    exact ih _ _ _ (fun y hy => hx y (List.mem_cons_of_mem _ hy)) h4

theorem PSeg_append (h : Heap) (xs ys : List Nat) :
    ∀ (prev a e : Nat), PSeg h prev a (xs ++ ys) e ↔
      ∃ m, PSeg h prev a xs m ∧ PSeg h (xs.getLast?.getD prev) m ys e := by
  induction xs with
  | nil =>
    intro prev a e
    simp only [List.nil_append, PSeg, List.getLast?_nil, Option.getD_none]
    constructor
    · intro hs; exact ⟨a, rfl, hs⟩
    · rintro ⟨m, rfl, hs⟩; exact hs
  | cons x xs ih =>
    intro prev a e
    simp only [List.cons_append, PSeg]
    rw [getLastD_cons]
    constructor
    · rintro ⟨h1, h2, h3, h4⟩
      obtain ⟨m, hm1, hm2⟩ := (ih _ _ _).mp h4
      exact ⟨m, ⟨h1, h2, h3, hm1⟩, hm2⟩
    · rintro ⟨m, ⟨h1, h2, h3, hm1⟩, hm2⟩
      exact ⟨h1, h2, h3, (ih _ _ _).mpr ⟨m, hm1, hm2⟩⟩

theorem PSeg_bounds (h : Heap) (l : List Nat) :
    ∀ (prev a e : Nat), PSeg h prev a l e →
      a ≤ e ∧ ∀ x ∈ l, a ≤ x ∧ x + 16 + (h x).size ≤ e := by
  induction l with
  | nil =>
    intro prev a e hs
    exact ⟨le_of_eq hs, fun x hx => absurd hx (List.not_mem_nil _)⟩
  | cons y ys ih =>
    intro prev a e hs
    obtain ⟨h1, _, _, h4⟩ := hs
    obtain ⟨g1, g2⟩ := ih _ _ _ h4
    subst h1
    refine ⟨by omega, fun x hx => ?_⟩
    rcases List.mem_cons.mp hx with rfl | hx'
    · exact ⟨le_refl _, g1⟩
    · have := g2 x hx'
      exact ⟨by omega, this.2⟩

theorem PSeg_size (h : Heap) (l : List Nat) :
    ∀ (prev a e : Nat), PSeg h prev a l e → ∀ x ∈ l, 16 ≤ (h x).size := by
  induction l with
  | nil => intro _ _ _ _ x hx; exact absurd hx (List.not_mem_nil _)
  | cons y ys ih =>
    intro prev a e hs x hx
    obtain ⟨_, _, h3, h4⟩ := hs
    rcases List.mem_cons.mp hx with rfl | hx'
    · exact h3
    · exact ih _ _ _ h4 x hx'

/-- In a chain `xs ++ ys` the blocks of `xs` end before the blocks of `ys` start. -/
theorem PSeg_split_bounds (h : Heap) (xs ys : List Nat) (prev a e : Nat)
    (hs : PSeg h prev a (xs ++ ys) e) :
    ∃ m, PSeg h prev a xs m ∧ PSeg h (xs.getLast?.getD prev) m ys e ∧
      (∀ x ∈ xs, x + 16 + (h x).size ≤ m) ∧ (∀ y ∈ ys, m ≤ y) := by
  obtain ⟨m, h1, h2⟩ := (PSeg_append h xs ys prev a e).mp hs
  exact ⟨m, h1, h2, fun x hx => ((PSeg_bounds h xs _ _ _ h1).2 x hx).2,
    fun y hy => ((PSeg_bounds h ys _ _ _ h2).2 y hy).1⟩

theorem PSeg_nodup (h : Heap) (l : List Nat) :
    ∀ (prev a e : Nat), PSeg h prev a l e → l.Nodup := by
  induction l with
  | nil => intro _ _ _ _; exact List.nodup_nil
  | cons y ys ih =>
    intro prev a e hs
    obtain ⟨_, _, _, h4⟩ := hs
    refine List.nodup_cons.mpr ⟨fun hy => ?_, ih _ _ _ h4⟩
    have := ((PSeg_bounds h ys _ _ _ h4).2 y hy).1
    omega

theorem PSeg_last (h : Heap) (l : List Nat) :
    ∀ (prev a e : Nat), PSeg h prev a l e → l ≠ [] →
      (l.getLast?.getD 0) + 16 + (h (l.getLast?.getD 0)).size = e := by
  induction l with
  | nil => intro _ _ _ _ hne; exact absurd rfl hne
  | cons y ys ih =>
    intro prev a e hs _
    obtain ⟨_, _, _, h4⟩ := hs
    cases ys with
    | nil => exact h4
    | cons z zs =>
      rw [List.getLast?_cons_cons]
      exact ih _ _ _ h4 (by simp)

/-! ## Pools -/

theorem contains_iff (pool : TLSFPool) (x : Nat) :
    pool.contains x = true ↔ pool.memptr ≤ x ∧ x < pool.memptr + pool.capacity := by
  unfold TLSFPool.contains
  simp

theorem check_next_contains_iff (pool : TLSFPool) (x : Nat) :
    pool.check_next_contains x = true ↔ x < pool.memptr + pool.capacity := by
  unfold TLSFPool.check_next_contains
  simp

theorem foldl_locate (pools : List TLSFPool) (x : Nat) :
    ∀ (acc : Option TLSFPool) (pool : TLSFPool),
      pools.Pairwise (fun p q => p.memptr + p.capacity ≤ q.memptr ∨
        q.memptr + q.capacity ≤ p.memptr) →
      (pool ∈ pools ∨ acc = some pool) → pool.contains x = true →
      (∀ q ∈ pools, q ≠ pool → q.contains x = false) →
      pools.foldl (fun allocPool p => if p.contains x then some p else allocPool) acc =
        some pool := by
  induction pools with
  | nil =>
    intro acc pool _ hm _ _
    rcases hm with hm | hm
    · exact absurd hm (List.not_mem_nil _)
    · exact hm
  | cons q qs ih =>
    intro acc pool hp hm hc hother
    simp only [List.foldl_cons]
    have hp' := (List.pairwise_cons.mp hp).2
    by_cases hq : q = pool
    · subst hq
      rw [if_pos hc]
      exact ih _ q hp' (Or.inr rfl) hc (fun r hr hne => hother r (List.mem_cons_of_mem _ hr) hne)
    · have : q.contains x = false := hother q (List.mem_cons_self _ _) hq
      rw [this]
      simp only [Bool.false_eq_true, if_false]
      refine ih _ pool hp' ?_ hc (fun r hr hne => hother r (List.mem_cons_of_mem _ hr) hne)
      rcases hm with hm | hm
      · rcases List.mem_cons.mp hm with h | h
        · exact absurd h.symm hq
        · exact Or.inl h
      · exact Or.inr hm

theorem pools_disjoint_of_mem (pools : List TLSFPool)
    (hd : pools.Pairwise (fun p q => p.memptr + p.capacity ≤ q.memptr ∨
      q.memptr + q.capacity ≤ p.memptr))
    (p q : TLSFPool) (hp : p ∈ pools) (hq : q ∈ pools) (hne : p ≠ q) :
    p.memptr + p.capacity ≤ q.memptr ∨ q.memptr + q.capacity ≤ p.memptr := by
  induction pools with
  | nil => exact absurd hp (List.not_mem_nil _)
  | cons r rs ih =>
    obtain ⟨h1, h2⟩ := List.pairwise_cons.mp hd
    rcases List.mem_cons.mp hp with rfl | hp'
    · rcases List.mem_cons.mp hq with rfl | hq'
      · exact absurd rfl hne
      · exact h1 q hq'
    · rcases List.mem_cons.mp hq with rfl | hq'
      · exact (h1 p hp').symm
      · exact ih h2 hp' hq'

/-- With disjoint pools, `locatePool` finds the pool that contains the address. -/
theorem locatePool_spec (t : TLSF)
    (hd : t.memoryPools.Pairwise (fun p q => p.memptr + p.capacity ≤ q.memptr ∨
      q.memptr + q.capacity ≤ p.memptr))
    (pool : TLSFPool) (hp : pool ∈ t.memoryPools) (x : Nat) (hc : pool.contains x = true) :
    locatePool t x = some pool := by
  unfold locatePool
  refine foldl_locate _ x none pool hd (Or.inl hp) hc ?_
  intro q hq hne
  have hc' := (contains_iff pool x).mp hc
  by_contra hcon
  have hcq := (contains_iff q x).mp (by simpa using hcon)
  have := pools_disjoint_of_mem _ hd q pool hq hp hne
  omega

/-! ## Facts about the size classes -/

theorem level_fact_alloc (fl sl n : Nat) (hfl : fl ≤ 30) (hsl : sl ≤ 31)
    (h : n ≤ (if fl = 0 then 16 * (sl + 1) else 2 ^ (fl + 8) + 2 ^ (fl + 3) * (sl + 1))) :
    (⟨fl, sl⟩ : BitmapLevel).firstLevel ≤ 30 ∧ (⟨fl, sl⟩ : BitmapLevel).secondLevel ≤ 31 ∧
      n ≤ queryLevelSize ⟨fl, sl⟩ := by
  rw [levelSize_eq fl sl (by omega) hsl]
  exact ⟨hfl, hsl, h⟩

/-- For every request size the class of `queryBitmapLevelForAlloc` lies in the tables and
its minimum size is at least the request. -/
theorem alloc_class_spec (n : Nat) (h1 : 1 ≤ n) (h39 : n ≤ 2 ^ 39) :
    (queryBitmapLevelForAlloc n).firstLevel ≤ 30 ∧
    (queryBitmapLevelForAlloc n).secondLevel ≤ 31 ∧
    n ≤ queryLevelSize (queryBitmapLevelForAlloc n) := by
  by_cases h512 : n ≤ 512
  · rw [alloc_small n h1 h512]
    refine level_fact_alloc _ _ _ (by omega) (by omega) ?_
    rw [if_pos rfl]; omega
  · obtain ⟨k, hk, hk64, hlo, hup⟩ := tlsf_fls_sizet_spec n (by omega) (by
      have : (2:Nat)^39 < 2^64 := by norm_num
      omega)
    have hr := log_range n k 9 40 hlo hup (by norm_num; omega) (by
      have : (2:Nat)^39 < 2^40 := by norm_num
      omega)
    rw [alloc_large n k hk (by omega) (by omega) hlo hup]
    obtain ⟨hr1, hr2⟩ := hr
    generalize hq : (n + 2 ^ (k - 5) - 1 - 2 ^ k) / 2 ^ (k - 5) = q
    dsimp only
    clear hk
    interval_cases k <;> simp only [Nat.reducePow, Nat.reduceSub, Nat.reduceAdd] at hlo hup hq h39 ⊢ <;>
      split_ifs <;>
      refine level_fact_alloc _ _ _ (by omega) (by omega) ?_ <;>
      simp only [Nat.reducePow, Nat.reduceAdd,
        Nat.reduceSub, Nat.reduceMul, OfNat.ofNat_ne_zero, ↓reduceIte, OfNat.zero_ne_ofNat,
        one_ne_zero] <;>
      omega

theorem levelSize_mod (fl sl : Nat) (hfl : fl ≤ 31) (hsl : sl ≤ 31) :
    queryLevelSize ⟨fl, sl⟩ % 16 = 0 ∧ 16 ≤ queryLevelSize ⟨fl, sl⟩ := by
  rw [levelSize_eq fl sl hfl hsl]
  split_ifs with h
  · omega
  · have e1 : (2:Nat) ^ (fl + 8) = 16 * 2 ^ (fl + 4) := by
      rw [show fl + 8 = 4 + (fl + 4) by omega, Nat.pow_add]
    have e2 : (2:Nat) ^ (fl + 3) = 16 * 2 ^ (fl - 1) := by
      rw [show fl + 3 = 4 + (fl - 1) by omega, Nat.pow_add]
    have p1 : 0 < 2 ^ (fl + 4) := Nat.pow_pos (by norm_num)
    rw [e1, e2, Nat.mul_assoc, ← Nat.mul_add]
    constructor
    · exact Nat.mul_mod_right _ _
    · have : 1 ≤ 2 ^ (fl + 4) + 2 ^ (fl - 1) * (sl + 1) := by omega
      calc 16 = 16 * 1 := by norm_num
        _ ≤ 16 * (2 ^ (fl + 4) + 2 ^ (fl - 1) * (sl + 1)) := Nat.mul_le_mul_left _ this

theorem levelSize_range (fl sl : Nat) (hfl : fl ≤ 31) (hsl : sl ≤ 31) (h1 : 1 ≤ fl) :
    2 ^ (fl + 8) < queryLevelSize ⟨fl, sl⟩ ∧ queryLevelSize ⟨fl, sl⟩ ≤ 2 ^ (fl + 9) := by
  rw [levelSize_pos fl sl h1 hfl hsl]
  have e1 : (2:Nat) ^ (fl + 8) = 32 * 2 ^ (fl + 3) := by
    rw [show fl + 8 = 5 + (fl + 3) by omega, Nat.pow_add]
  have e2 : (2:Nat) ^ (fl + 9) = 64 * 2 ^ (fl + 3) := by
    rw [show fl + 9 = 6 + (fl + 3) by omega, Nat.pow_add]
  have p1 : 0 < 2 ^ (fl + 3) := Nat.pow_pos (by norm_num)
  have b1 : 2 ^ (fl + 3) * (sl + 1) ≤ 2 ^ (fl + 3) * 32 := Nat.mul_le_mul_left _ (by omega)
  have b2 : 2 ^ (fl + 3) * 1 ≤ 2 ^ (fl + 3) * (sl + 1) := Nat.mul_le_mul_left _ (by omega)
  rw [e1, e2]
  generalize 2 ^ (fl + 3) * (sl + 1) = X at b1 b2
  omega

/-- The minimum size of a class grows with the class. -/
theorem levelSize_mono (a b : BitmapLevel) (ha1 : a.firstLevel ≤ 31) (ha2 : a.secondLevel ≤ 31)
    (hb1 : b.firstLevel ≤ 31) (hb2 : b.secondLevel ≤ 31) (hle : a.le b) :
    queryLevelSize a ≤ queryLevelSize b := by
  obtain ⟨af, as⟩ := a
  obtain ⟨bf, bs⟩ := b
  simp only [BitmapLevel.le] at hle ha1 ha2 hb1 hb2
  rcases hle with hlt | ⟨heq, hsl⟩
  · have hb := levelSize_range bf bs hb1 hb2 (by omega)
    by_cases h0 : af = 0
    · subst h0
      rw [levelSize_zero as (by omega)]
      have : (2:Nat) ^ 9 ≤ 2 ^ (bf + 8) := Nat.pow_le_pow_right (by norm_num) (by omega)
      norm_num at this
      omega
    · have ha := levelSize_range af as ha1 ha2 (by omega)
      have : (2:Nat) ^ (af + 9) ≤ 2 ^ (bf + 8) := Nat.pow_le_pow_right (by norm_num) (by omega)
      omega
  · subst heq
    rw [levelSize_eq af as ha1 ha2, levelSize_eq af bs hb1 hb2]
    split_ifs
    · omega
    · have := Nat.mul_le_mul_left (2 ^ (af + 3)) (show as + 1 ≤ bs + 1 by omega)
      omega

theorem nextLevel_eq (L : BitmapLevel) (hfl : L.firstLevel ≤ 30) (hsl : L.secondLevel ≤ 31) :
    nextLevel L = if L.secondLevel = 31 then ⟨L.firstLevel + 1, 0⟩
      else ⟨L.firstLevel, L.secondLevel + 1⟩ := by
  unfold nextLevel inc16
  rw [SLC_eq]
  by_cases h : L.secondLevel = 31
  · rw [if_pos h, if_pos (by omega)]
    simp only [BitmapLevel.mk.injEq, and_true]
    omega
  · rw [if_neg h, if_neg (by omega)]
    simp only [BitmapLevel.mk.injEq, true_and]
    omega

theorem nextLevel_spec (L : BitmapLevel) (hfl : L.firstLevel ≤ 30) (hsl : L.secondLevel ≤ 31) :
    (nextLevel L).firstLevel ≤ 31 ∧ (nextLevel L).secondLevel ≤ 31 ∧ L.lt (nextLevel L) ∧
      (L.secondLevel < 31 → nextLevel L = ⟨L.firstLevel, L.secondLevel + 1⟩) := by
  rw [nextLevel_eq L hfl hsl]
  unfold BitmapLevel.lt
  by_cases h : L.secondLevel = 31
  · rw [if_pos h]
    refine ⟨by simp only; omega, by simp only; omega, Or.inl (by simp only; omega),
      fun hh => by omega⟩
  · rw [if_neg h]
    refine ⟨by simp only; omega, by simp only; omega, Or.inr ⟨rfl, by simp only; omega⟩,
      fun _ => rfl⟩

theorem le_of_lt_of_le (a b c : BitmapLevel) (h1 : a.lt b) (h2 : b.le c) : a.le c := by
  unfold BitmapLevel.lt at h1
  unfold BitmapLevel.le at h2 ⊢
  omega

theorem lt_mk (a b c d : Nat) (h : a < c ∨ (a = c ∧ b < d)) :
    BitmapLevel.lt ⟨a, b⟩ ⟨c, d⟩ := h

theorem insert_eq_alloc (s : Nat) (h16 : 16 ≤ s) (h512 : s ≤ 512) (hm : s % 16 = 0) :
    queryBitmapLevelForAlloc s = queryBitmapLevelForInsert s := by
  rw [alloc_small s (by omega) h512, insert_small s h16 h512]
  simp only [BitmapLevel.mk.injEq, true_and]
  omega

/-- Apart from the multiples of 16 up to `FLM`, a block is filed strictly below the class
that a request of its own size maps to. -/
theorem insert_lt_alloc (s : Nat) (h16 : 16 ≤ s) (h31 : s < 2 ^ 31)
    (hne : ¬ (s ≤ 512 ∧ s % 16 = 0)) :
    (queryBitmapLevelForInsert s).lt (queryBitmapLevelForAlloc s) := by
  by_cases h512 : s ≤ 512
  · rw [alloc_small s (by omega) h512, insert_small s h16 h512]
    refine lt_mk _ _ _ _ ?_
    omega
  · obtain ⟨k, hk, hk64, hlo, hup⟩ := tlsf_fls_sizet_spec s (by omega) (by
      have : (2:Nat)^31 ≤ 2^64 := by norm_num
      omega)
    have hr := log_range s k 9 31 hlo hup (by norm_num; omega) h31
    rw [insert_large s k hk (by omega) hk64 hlo hup, alloc_large s k hk (by omega) (by omega) hlo hup]
    obtain ⟨hr1, hr2⟩ := hr
    generalize hq : (s - 2 ^ k) / 2 ^ (k - 5) = q
    generalize hq' : (s + 2 ^ (k - 5) - 1 - 2 ^ k) / 2 ^ (k - 5) = q'
    dsimp only
    clear hk
    interval_cases k <;> simp only [Nat.reducePow, Nat.reduceSub, Nat.reduceAdd] at hlo hup hq hq' ⊢ <;>
      split_ifs <;> refine lt_mk _ _ _ _ ?_ <;> omega

/-- The class of a block of fewer than 544 bytes lies in the first level 0. -/
theorem insert_lt_544 (b : Nat) (h16 : 16 ≤ b) (h544 : b < 544) :
    queryBitmapLevelForInsert b =
      ⟨0, if b ≤ 512 then b / 16 - 1 else if b < 528 then 30 else 31⟩ := by
  by_cases h512 : b ≤ 512
  · rw [insert_small b h16 h512, if_pos h512]
  · obtain ⟨k, hk, hk64, hlo, hup⟩ := tlsf_fls_sizet_spec b (by omega) (by
      have : (544:Nat) ≤ 2^64 := by norm_num
      omega)
    have hr := log_range b k 9 10 hlo hup (by norm_num; omega) (by norm_num; omega)
    have hk9 : k = 9 := by omega
    subst hk9
    rw [insert_large b 9 hk (by omega) hk64 hlo hup, if_neg h512]
    generalize hq : (b - 2 ^ 9) / 2 ^ (9 - 5) = q
    dsimp only
    simp only [Nat.reducePow, Nat.reduceSub] at hq
    split_ifs <;> simp only [BitmapLevel.mk.injEq] <;> omega

/-- A block handed out whole for a request of at most `FLM` bytes is filed, once freed, in
the first level 0 at or after the class of the request. -/
theorem small_request_class (n b : Nat) (h1 : 1 ≤ n) (h512 : n ≤ 512) (hb : b < 2 ^ 31)
    (hlo : queryAlignedLevelSize n ≤ b) (hup : b < queryAlignedLevelSize n + 32)
    (hcase : queryBitmapLevelForInsert b = queryBitmapLevelForAlloc n ∨
      b = queryAlignedLevelSize n ∨
      (nextLevel (queryBitmapLevelForAlloc n)).le (queryBitmapLevelForInsert b)) :
    (queryBitmapLevelForInsert b).firstLevel = 0 ∧
      (queryBitmapLevelForAlloc n).secondLevel ≤ (queryBitmapLevelForInsert b).secondLevel := by
  unfold queryAlignedLevelSize at hlo hup hcase
  have ha := alloc_small n h1 h512
  rw [ha] at hlo hup hcase ⊢
  rw [levelSize_zero _ (by omega)] at hlo hup hcase
  have hi := insert_lt_544 b (by omega) (by omega)
  rcases hcase with h | h | h
  · rw [h]; exact ⟨rfl, le_refl _⟩
  · rw [hi]
    refine ⟨rfl, ?_⟩
    show (n + 15) / 16 - 1 ≤ (if b ≤ 512 then b / 16 - 1 else if b < 528 then 30 else 31)
    split_ifs <;> omega
  · rw [nextLevel_eq _ (by simp) (by simp only; omega)] at h
    rw [hi] at h ⊢
    refine ⟨rfl, ?_⟩
    show (n + 15) / 16 - 1 ≤ (if b ≤ 512 then b / 16 - 1 else if b < 528 then 30 else 31)
    by_cases h31 : (n + 15) / 16 - 1 = 31
    · rw [if_pos h31] at h
      rcases h with h | ⟨h, _⟩
      · exact absurd h (by simp)
      · exact absurd h (by simp)
    · rw [if_neg h31] at h
      rcases h with h | ⟨_, h⟩
      · exact absurd h (by simp)
      · have h' : (n + 15) / 16 - 1 + 1 ≤
            (if b ≤ 512 then b / 16 - 1 else if b < 528 then 30 else 31) := h
        omega

/-! ## Consequences of the allocator invariant -/

theorem Inv.block_bounds {t : TLSF} {live : List (Nat × Nat)} {blocks : TLSFPool → List Nat}
    {lists : Nat → Nat → List Nat} (hI : Inv t live blocks lists) {p : TLSFPool}
    (hp : p ∈ t.memoryPools) {x : Nat} (hx : x ∈ blocks p) :
    p.memptr ≤ x ∧ x + 16 + (t.heap x).size ≤ p.memptr + p.capacity ∧ 16 ≤ (t.heap x).size ∧
      (t.heap x).size < 2 ^ 31 ∧ x ≠ 0 ∧ p.contains x = true := by
  have hc := hI.chain p hp
  have hb := (PSeg_bounds _ _ _ _ _ hc).2 x hx
  have hs := PSeg_size _ _ _ _ _ hc x hx
  have hpo := hI.pools_ok p hp
  refine ⟨hb.1, hb.2, hs, by omega, by omega, ?_⟩
  rw [contains_iff]
  omega

theorem Inv.pool_unique {t : TLSF} {live : List (Nat × Nat)} {blocks : TLSFPool → List Nat}
    {lists : Nat → Nat → List Nat} (hI : Inv t live blocks lists) {p q : TLSFPool}
    (hp : p ∈ t.memoryPools) (hq : q ∈ t.memoryPools) {x : Nat} (hx : x ∈ blocks p)
    (hy : x ∈ blocks q) : p = q := by
  by_contra hne
  have h1 := hI.block_bounds hp hx
  have h2 := hI.block_bounds hq hy
  have := pools_disjoint_of_mem _ hI.pools_disj p q hp hq hne
  omega

/-- A header inside another pool's address range is not a block of this pool. -/
theorem Inv.not_mem_other {t : TLSF} {live : List (Nat × Nat)} {blocks : TLSFPool → List Nat}
    {lists : Nat → Nat → List Nat} (hI : Inv t live blocks lists) {p q : TLSFPool}
    (hp : p ∈ t.memoryPools) (hq : q ∈ t.memoryPools) (hne : q ≠ p) {x : Nat}
    (hx : p.memptr ≤ x ∧ x < p.memptr + p.capacity) : x ∉ blocks q := by
  intro hy
  have h2 := hI.block_bounds hq hy
  have := pools_disjoint_of_mem _ hI.pools_disj p q hp hq (fun h => hne h.symm)
  omega

theorem Inv.class_inTable {t : TLSF} {live : List (Nat × Nat)} {blocks : TLSFPool → List Nat}
    {lists : Nat → Nat → List Nat} (hI : Inv t live blocks lists) {p : TLSFPool}
    (hp : p ∈ t.memoryPools) {x : Nat} (hx : x ∈ blocks p) :
    (queryBitmapLevelForInsert (t.heap x).size).inTable = true ∧
      queryLevelSize (queryBitmapLevelForInsert (t.heap x).size) ≤ (t.heap x).size := by
  have hb := hI.block_bounds hp hx
  have := insert_class_spec (t.heap x).size hb.2.2.1 hb.2.2.2.1
  rw [inTable_iff]
  omega

theorem noAdj_congr (h h' : Heap) (l : List Nat)
    (hc : l.Chain' (fun x y => ¬ ((h x).free = true ∧ (h y).free = true)))
    (hf : ∀ x ∈ l, (h' x).free = true → (h x).free = true) :
    l.Chain' (fun x y => ¬ ((h' x).free = true ∧ (h' y).free = true)) := by
  rw [List.Chain'.iff_mem] at hc ⊢
  refine hc.imp ?_
  rintro a b ⟨ha, hb, hr⟩
  exact ⟨ha, hb, fun ⟨h1, h2⟩ => hr ⟨hf a ha h1, hf b hb h2⟩⟩

/-- Handing out a whole block that was taken off the free list of class `C`. -/
theorem take_whole {t t1 : TLSF} {live : List (Nat × Nat)} {blocks : TLSFPool → List Nat}
    {lists : Nat → Nat → List Nat} (hI : Inv t live blocks lists) (C : BitmapLevel)
    (b : Nat) (rest : List Nat) (hl : lists C.firstLevel C.secondLevel = b :: rest)
    (hL1 : LinkInv t1 (updLists lists C rest)) (hP : PhysEq t.heap t1.heap)
    (hpools : t1.memoryPools = t.memoryPools) (n : Nat) (h1 : 1 ≤ n)
    (hsz : queryAlignedLevelSize n ≤ (t.heap b).size)
    (hsmall : n ≤ 512 → (queryBitmapLevelForInsert (t.heap b).size).firstLevel = 0 ∧
      (queryBitmapLevelForAlloc n).secondLevel ≤
        (queryBitmapLevelForInsert (t.heap b).size).secondLevel) :
    Inv (t1.withHeap (t1.heap.setFree b false)) ((b + 16, n) :: live) blocks
      (updLists lists C rest) := by
  have hbmem : b ∈ lists C.firstLevel C.secondLevel := by rw [hl]; exact List.mem_cons_self _ _
  obtain ⟨⟨pb, hpb, hbb⟩, hbfree, hbclass⟩ := hI.listed_free _ _ b hbmem
  have hnd := hI.link.nodup C.firstLevel C.secondLevel
  rw [hl] at hnd
  have hbrest : b ∉ rest := (List.nodup_cons.mp hnd).1
  have hsize : ∀ x, ((t1.heap.setFree b false) x).size = (t.heap x).size := by
    intro x; simp [(hP x).1]
  have hprev : ∀ x, ((t1.heap.setFree b false) x).prevPhyAlloc = (t.heap x).prevPhyAlloc := by
    intro x; simp [(hP x).2.2]
  have hfree : ∀ x, ((t1.heap.setFree b false) x).free = if x = b then false else (t.heap x).free := by
    intro x; simp [(hP x).2.1]
  have hnotin : ∀ fl sl, b ∉ updLists lists C rest fl sl := by
    intro fl sl hx
    simp only [updLists_apply] at hx
    split_ifs at hx with hc
    · exact hbrest hx
    · have := hI.link.disjoint _ _ _ _ b hbmem hx
      exact hc ⟨this.1.symm, this.2.symm⟩
  constructor
  · intro p hp; exact hI.pools_ok p (hpools ▸ hp)
  · show t1.memoryPools.Pairwise _
    rw [hpools]; exact hI.pools_disj
  · intro p hp
    refine PSeg_congr t.heap _ _ _ _ _ (fun x _ => ⟨hsize x, hprev x⟩) (hI.chain p (hpools ▸ hp))
  · intro p hp; exact hI.align p (hpools ▸ hp)
  · intro p hp
    refine noAdj_congr t.heap _ _ (hI.noAdj p (hpools ▸ hp)) ?_
    intro x _ hx
    have hx' : ((t1.heap.setFree b false) x).free = true := hx
    rw [hfree x] at hx'
    split_ifs at hx' with hxb
    exact hx'
  · exact hL1.withHeap _ (LinkEq_setFree _ _ _)
  · intro p hp x hx hf
    have hfx : ((t1.heap.setFree b false) x).free = true := hf
    rw [hfree x] at hfx
    have hxb : x ≠ b := by
      intro hxb; rw [if_pos hxb] at hfx; exact absurd hfx (by simp)
    rw [if_neg hxb] at hfx
    have := hI.free_listed p (hpools ▸ hp) x hx hfx
    show x ∈ updLists lists C rest _ _
    have hsx : ((t1.withHeap (t1.heap.setFree b false)).heap x).size = (t.heap x).size := hsize x
    rw [hsx]
    simp only [updLists_apply]
    split_ifs with hc
    · rw [hc.1, hc.2, hl] at this
      rcases List.mem_cons.mp this with h | h
      · exact absurd h hxb
      · exact h
    · exact this
  · intro fl sl x hx
    have hxm : x ∈ lists fl sl := by
      simp only [updLists_apply] at hx
      split_ifs at hx with hc
      · rw [hc.1, hc.2, hl]; exact List.mem_cons_of_mem _ hx
      · exact hx
    obtain ⟨⟨p, hp, hxp⟩, hxf, hxc⟩ := hI.listed_free fl sl x hxm
    have hxb : x ≠ b := fun h => hnotin fl sl (h ▸ hx)
    refine ⟨⟨p, hpools ▸ hp, hxp⟩, ?_, ?_⟩
    · show ((t1.heap.setFree b false) x).free = true
      rw [hfree x, if_neg hxb]; exact hxf
    · show queryBitmapLevelForInsert ((t1.heap.setFree b false) x).size = _
      rw [hsize x]; exact hxc
  · intro q m hq
    rcases List.mem_cons.mp hq with h | h
    · obtain ⟨rfl, rfl⟩ := Prod.mk.inj h
      have e : b + 16 - 16 = b := by omega
      rw [e]
      refine ⟨by omega, ⟨pb, hpools ▸ hpb, hbb⟩, ?_, h1, ?_, ?_⟩
      · show ((t1.heap.setFree b false) b).free = false
        rw [hfree b, if_pos rfl]
      · show _ ≤ ((t1.heap.setFree b false) b).size
        rw [hsize b]; exact hsz
      · show m ≤ 512 → (queryBitmapLevelForInsert ((t1.heap.setFree b false) b).size).firstLevel = 0 ∧ _ ≤ (queryBitmapLevelForInsert ((t1.heap.setFree b false) b).size).secondLevel
        rw [hsize b]; exact hsmall
    · obtain ⟨g1, ⟨p, hp, g2⟩, g3, g4, g5, g6⟩ := hI.live_block q m h
      have hqb : q - 16 ≠ b := by
        intro hqb; rw [hqb, hbfree] at g3; exact absurd g3 (by simp)
      refine ⟨g1, ⟨p, hpools ▸ hp, g2⟩, ?_, g4, ?_, ?_⟩
      · show ((t1.heap.setFree b false) (q - 16)).free = false
        rw [hfree, if_neg hqb]; exact g3
      · show _ ≤ ((t1.heap.setFree b false) (q - 16)).size
        rw [hsize]; exact g5
      · show m ≤ 512 → (queryBitmapLevelForInsert ((t1.heap.setFree b false) (q - 16)).size).firstLevel = 0 ∧ _ ≤ (queryBitmapLevelForInsert ((t1.heap.setFree b false) (q - 16)).size).secondLevel
        rw [hsize]; exact g6
  · intro p hp x hx hf
    have hfx : ((t1.heap.setFree b false) x).free = false := hf
    rw [hfree x] at hfx
    by_cases hxb : x = b
    · exact ⟨n, by rw [hxb]; exact List.mem_cons_self _ _⟩
    · rw [if_neg hxb] at hfx
      obtain ⟨m, hm⟩ := hI.block_live p (hpools ▸ hp) x hx hfx
      exact ⟨m, List.mem_cons_of_mem _ hm⟩
  · show ((b + 16) :: live.map Prod.fst).Nodup
    refine List.nodup_cons.mpr ⟨?_, hI.live_nodup⟩
    intro hm
    obtain ⟨⟨q, m⟩, hqm, hq⟩ := List.mem_map.mp hm
    have hq' : q = b + 16 := hq
    have := (hI.live_block q m hqm).2.2.1
    have e : q - 16 = b := by omega
    rw [e, hbfree] at this
    exact absurd this (by simp)

@[simp] theorem updBlocks_apply (blocks : TLSFPool → List Nat) (pool : TLSFPool) (l : List Nat)
    (p : TLSFPool) : updBlocks blocks pool l p = if p = pool then l else blocks p := rfl

/-- Position of a block in the chain of its pool. -/
theorem Inv.chain_at {t : TLSF} {live : List (Nat × Nat)} {blocks : TLSFPool → List Nat}
    {lists : Nat → Nat → List Nat} (hI : Inv t live blocks lists) {pool : TLSFPool}
    (hp : pool ∈ t.memoryPools) {pre post : List Nat} {b : Nat}
    (hb : blocks pool = pre ++ b :: post) :
    PSeg t.heap 0 pool.memptr pre b ∧ (t.heap b).prevPhyAlloc = pre.getLast?.getD 0 ∧
      PSeg t.heap b (b + 16 + (t.heap b).size) post (pool.memptr + pool.capacity) ∧
      (∀ x ∈ pre, x + 16 + (t.heap x).size ≤ b) ∧
      (∀ y ∈ post, b + 16 + (t.heap b).size ≤ y) ∧
      (post = [] ↔ ¬ b + 16 + (t.heap b).size < pool.memptr + pool.capacity) ∧
      (∀ y ∈ post.head?, y = b + 16 + (t.heap b).size) := by
  have hc := hI.chain pool hp
  rw [hb] at hc
  obtain ⟨m, h1, h2, h3, _⟩ := PSeg_split_bounds _ _ _ _ _ _ hc
  obtain ⟨hm, g2, _, g4⟩ := h2
  subst hm
  have hbp := PSeg_bounds _ _ _ _ _ g4
  refine ⟨h1, g2, g4, h3, fun y hy => (hbp.2 y hy).1, ?_, ?_⟩
  · cases hq : post with
    | nil =>
      rw [hq] at g4
      have : m + 16 + (t.heap m).size = pool.memptr + pool.capacity := g4
      simp; omega
    | cons y ys =>
      rw [hq] at g4
      have := (PSeg_bounds _ _ _ _ _ g4).2 y (List.mem_cons_self _ _)
      have hy : m + 16 + (t.heap m).size = y := g4.1
      simp; omega
  · intro y hy
    cases hq : post with
    | nil => rw [hq] at hy; simp at hy
    | cons z zs =>
      rw [hq] at hy g4
      simp only [List.head?_cons, Option.mem_def, Option.some.injEq] at hy
      rw [← hy]; exact g4.1.symm


set_option maxHeartbeats 1000000 in
/-- The invariant after a free block was split for an allocation: `b` keeps the first
`n'` bytes and is handed out, the new block `r` takes the rest and is filed as free. -/
theorem split_inv {t t8 : TLSF} {live : List (Nat × Nat)} {blocks : TLSFPool → List Nat}
    {lists : Nat → Nat → List Nat} (hI : Inv t live blocks lists) (C : BitmapLevel)
    (b : Nat) (rest : List Nat) (hl : lists C.firstLevel C.secondLevel = b :: rest)
    (pool : TLSFPool) (hpool : pool ∈ t.memoryPools) (pre post : List Nat)
    (hblocks : blocks pool = pre ++ b :: post)
    (n n' : Nat) (h1 : 1 ≤ n) (hn' : queryAlignedLevelSize n = n') (h16 : 16 ≤ n')
    (hmod : n' % 16 = 0) (hbig : n' + 32 ≤ (t.heap b).size)
    (hpools : t8.memoryPools = t.memoryPools)
    (hsize : ∀ x, (t8.heap x).size = if x = b then n' else
      if x = b + 16 + n' then (t.heap b).size - n' - 16 else (t.heap x).size)
    (hfree : ∀ x, (t8.heap x).free = if x = b then false else
      if x = b + 16 + n' then true else (t.heap x).free)
    (hprev : ∀ x, (t8.heap x).prevPhyAlloc = if x = b + 16 + n' then b else
      if x = b + 16 + (t.heap b).size ∧
        b + 16 + (t.heap b).size < pool.memptr + pool.capacity then b + 16 + n'
      else (t.heap x).prevPhyAlloc)
    (hL : LinkInv t8 (updLists (updLists lists C rest)
      (queryBitmapLevelForInsert ((t.heap b).size - n' - 16))
      ((b + 16 + n') :: updLists lists C rest
        (queryBitmapLevelForInsert ((t.heap b).size - n' - 16)).firstLevel
        (queryBitmapLevelForInsert ((t.heap b).size - n' - 16)).secondLevel))) :
    Inv t8 ((b + 16, n) :: live) (updBlocks blocks pool (pre ++ b :: (b + 16 + n') :: post))
      (updLists (updLists lists C rest) (queryBitmapLevelForInsert ((t.heap b).size - n' - 16))
        ((b + 16 + n') :: updLists lists C rest
          (queryBitmapLevelForInsert ((t.heap b).size - n' - 16)).firstLevel
          (queryBitmapLevelForInsert ((t.heap b).size - n' - 16)).secondLevel)) := by
  have hbmem : b ∈ lists C.firstLevel C.secondLevel := by rw [hl]; exact List.mem_cons_self _ _
  obtain ⟨_, hbfree, hbclass⟩ := hI.listed_free _ _ b hbmem
  have hbin : b ∈ blocks pool := by rw [hblocks]; simp
  have hbb := hI.block_bounds hpool hbin
  obtain ⟨c1, c2, c3, c4, c5, c6, c7⟩ := hI.chain_at hpool hblocks
  have hnd := hI.link.nodup C.firstLevel C.secondLevel
  rw [hl] at hnd
  have hbrest : b ∉ rest := (List.nodup_cons.mp hnd).1
  generalize hr : b + 16 + n' = r at *
  generalize hrs : (t.heap b).size - n' - 16 = rs at *
  generalize hnn : b + 16 + (t.heap b).size = nn at *
  generalize hCr : queryBitmapLevelForInsert rs = Cr at *
  have hrb : r ≠ b := by omega
  have hnnb : nn ≠ b := by omega
  have hnnr : nn ≠ r := by omega
  have hmem_cases : ∀ x, x ∈ blocks pool → (x ∈ pre ∧ x + 16 + (t.heap x).size ≤ b) ∨ x = b ∨
      (x ∈ post ∧ nn ≤ x) := by
    intro x hx
    rw [hblocks] at hx
    rcases List.mem_append.mp hx with h | h
    · exact Or.inl ⟨h, c4 x h⟩
    · rcases List.mem_cons.mp h with h | h
      · exact Or.inr (Or.inl h)
      · exact Or.inr (Or.inr ⟨h, c5 x h⟩)
  have hr_not_block : ∀ p ∈ t.memoryPools, r ∉ blocks p := by
    intro p hp hx
    by_cases hpp : p = pool
    · subst hpp
      rcases hmem_cases r hx with ⟨_, h⟩ | h | ⟨_, h⟩ <;> omega
    · exact hI.not_mem_other hpool hp hpp (x := r) (by omega) hx
  have hother : ∀ p ∈ t.memoryPools, ∀ x ∈ blocks p, x ≠ b → x ≠ r ∧
      (t8.heap x).size = (t.heap x).size ∧ (t8.heap x).free = (t.heap x).free := by
    intro p hp x hx hxb
    have hxr : x ≠ r := fun h => hr_not_block p hp (h ▸ hx)
    refine ⟨hxr, ?_, ?_⟩
    · rw [hsize x, if_neg hxb, if_neg hxr]
    · rw [hfree x, if_neg hxb, if_neg hxr]
  have hsub1 : ∀ fl sl x, x ∈ updLists lists C rest fl sl → x ∈ lists fl sl ∧ x ≠ b := by
    intro fl sl x hx
    simp only [updLists_apply] at hx
    split_ifs at hx with hc
    · refine ⟨by rw [hc.1, hc.2, hl]; exact List.mem_cons_of_mem _ hx, fun h => hbrest (h ▸ hx)⟩
    · refine ⟨hx, fun h => ?_⟩
      have := hI.link.disjoint _ _ _ _ b hbmem (h ▸ hx)
      exact hc ⟨this.1.symm, this.2.symm⟩
  have hsup1 : ∀ fl sl x, x ∈ lists fl sl → x ≠ b → x ∈ updLists lists C rest fl sl := by
    intro fl sl x hx hxb
    simp only [updLists_apply]
    split_ifs with hc
    · rw [hc.1, hc.2, hl] at hx
      rcases List.mem_cons.mp hx with h | h
      · exact absurd h hxb
      · exact h
    · exact hx
  have hrs16 : 16 ≤ rs := by omega
  generalize hlists1 : updLists lists C rest = lists1 at hL hsub1 hsup1 ⊢
  constructor
  · intro p hp; exact hI.pools_ok p (hpools ▸ hp)
  · show t8.memoryPools.Pairwise _
    rw [hpools]; exact hI.pools_disj
  · -- the physical chains
    intro p hp
    have hp' : p ∈ t.memoryPools := hpools ▸ hp
    by_cases hpp : p = pool
    · subst hpp
      simp only [updBlocks_apply, if_true]
      rw [PSeg_append]
      refine ⟨b, ?_, ?_⟩
      · refine PSeg_congr t.heap _ _ _ _ _ ?_ c1
        intro x hx
        have hx1 := c4 x hx
        have hxs := PSeg_size _ _ _ _ _ c1 x hx
        rw [hsize x, hprev x, if_neg (by omega), if_neg (by omega), if_neg (by omega),
          if_neg (by omega)]
        exact ⟨rfl, rfl⟩
      · refine ⟨rfl, ?_, ?_, ?_, ?_, ?_, ?_⟩
        · rw [hprev b, if_neg (by omega), if_neg (by omega)]; exact c2
        · rw [hsize b, if_pos rfl]; exact h16
        · rw [hsize b, if_pos rfl]; exact hr
        · rw [hprev r, if_pos rfl]
        · rw [hsize r, if_neg hrb, if_pos rfl]; exact hrs16
        · have e : r + 16 + (t8.heap r).size = nn := by
            rw [hsize r, if_neg hrb, if_pos rfl]; omega
          rw [e]
          cases hq : post with
          | nil =>
            rw [hq] at c3; exact c3
          | cons y ys =>
            rw [hq] at c3 c5
            obtain ⟨g1, g2, g3, g4⟩ := c3
            have hlt : nn < p.memptr + p.capacity := by
              by_contra hcon
              have := c6.mpr hcon
              rw [hq] at this; exact absurd this (by simp)
            refine ⟨g1, ?_, ?_, ?_⟩
            · rw [hprev y, if_neg (by omega), if_pos ⟨g1.symm, hlt⟩]
            · rw [hsize y, if_neg (by omega), if_neg (by omega)]; exact g3
            · rw [hsize y, if_neg (by omega), if_neg (by omega)]
              refine PSeg_congr t.heap _ _ _ _ _ ?_ g4
              intro x hx
              have hx1 := (PSeg_bounds _ _ _ _ _ g4).2 x hx
              rw [hsize x, hprev x, if_neg (by omega), if_neg (by omega), if_neg (by omega),
                if_neg (by omega)]
              exact ⟨rfl, rfl⟩
    · simp only [updBlocks_apply, hpp, if_false]
      refine PSeg_congr t.heap _ _ _ _ _ ?_ (hI.chain p hp')
      intro x hx
      have hxb := hI.block_bounds hp' hx
      have hdis := pools_disjoint_of_mem _ hI.pools_disj p pool hp' hpool hpp
      rw [hsize x, hprev x, if_neg (by omega), if_neg (by omega), if_neg (by omega),
        if_neg (by omega)]
      exact ⟨rfl, rfl⟩
  · -- alignment
    intro p hp x hx
    have hp' : p ∈ t.memoryPools := hpools ▸ hp
    simp only [updBlocks_apply] at hx
    split_ifs at hx with hpp
    · subst hpp
      have hal := hI.align p hp'
      have : x = r ∨ x ∈ blocks p := by
        rw [hblocks]
        simp only [List.mem_append, List.mem_cons] at hx ⊢
        tauto
      rcases this with h | h
      · have := hal b hbin
        rw [h]
        omega
      · exact hal x h
    · exact hI.align p hp' x hx
  · -- no two adjacent free blocks
    intro p hp
    have hp' : p ∈ t.memoryPools := hpools ▸ hp
    by_cases hpp : p = pool
    · subst hpp
      simp only [updBlocks_apply, if_true]
      have hna := hI.noAdj p hp'
      rw [hblocks] at hna
      have hfb : (t8.heap b).free = false := by rw [hfree b, if_pos rfl]
      have hpre : (pre ++ [b]).Chain' (fun x y => ¬ ((t8.heap x).free = true ∧
          (t8.heap y).free = true)) := by
        rw [List.chain'_append]
        refine ⟨?_, List.chain'_singleton _, ?_⟩
        · refine noAdj_congr t.heap _ _ (List.Chain'.left_of_append hna) ?_
          intro x hx hf
          have hx1 := c4 x hx
          rw [hfree x, if_neg (by omega), if_neg (by omega)] at hf
          exact hf
        · intro x _ y hy
          simp only [List.head?_cons, Option.mem_def, Option.some.injEq] at hy
          subst hy
          rw [hfb]; simp
      have hpost : (r :: post).Chain' (fun x y => ¬ ((t8.heap x).free = true ∧
          (t8.heap y).free = true)) := by
        rw [List.chain'_cons']
        constructor
        · intro y hy
          have hy1 := c7 y hy
          have hna2 := (List.chain'_split.mp hna).2
          have hyf : (t.heap y).free = false := by
            have := (List.chain'_cons'.mp hna2).1 y hy
            simp only [hbfree, true_and, Bool.not_eq_true] at this
            exact this
          rw [hfree y, if_neg (by omega), if_neg (by omega), hyf]
          simp
        · refine noAdj_congr t.heap _ _ (List.chain'_split.mp hna).2.tail ?_
          intro x hx hf
          have hx1 := c5 x hx
          rw [hfree x, if_neg (by omega), if_neg (by omega)] at hf
          exact hf
      have : pre ++ b :: r :: post = (pre ++ [b]) ++ (r :: post) := by simp
      rw [this, List.chain'_append]
      refine ⟨hpre, hpost, ?_⟩
      intro x hx y _
      have : x = b := by
        simp at hx
        exact hx.symm
      rw [this, hfb]; simp
    · simp only [updBlocks_apply, hpp, if_false]
      refine noAdj_congr t.heap _ _ (hI.noAdj p hp') ?_
      intro x hx hf
      have hxb : x ≠ b := fun h => hpp (hI.pool_unique hp' hpool hx (h ▸ hbin))
      rw [← (hother p hp' x hx hxb).2.2]; exact hf
  · exact hL
  · -- every free block is on the list of its class
    intro p hp x hx hf
    have hp' : p ∈ t.memoryPools := hpools ▸ hp
    have hxcases : x = r ∨ x ∈ blocks p := by
      simp only [updBlocks_apply] at hx
      split_ifs at hx with hpp
      · subst hpp
        rw [hblocks]
        simp only [List.mem_append, List.mem_cons] at hx ⊢
        tauto
      · exact Or.inr hx
    rcases hxcases with h | h
    · subst h
      rw [hsize x, if_neg hrb, if_pos rfl, hCr]
      simp
    · have hxb : x ≠ b := by
        intro hxb; rw [hfree x, if_pos hxb] at hf; exact absurd hf (by simp)
      obtain ⟨hxr, e1, e2⟩ := hother p hp' x h hxb
      rw [e1]
      rw [e2] at hf
      have := hsup1 _ _ x (hI.free_listed p hp' x h hf) hxb
      simp only [updLists_apply]
      split_ifs with hc
      · rw [hc.1, hc.2] at this
        exact List.mem_cons_of_mem _ this
      · exact this
  · -- every listed header is a free block of its class
    intro fl sl x hx
    have hxcases : (x = r ∧ (⟨fl, sl⟩ : BitmapLevel) = Cr) ∨ x ∈ lists1 fl sl := by
      simp only [updLists_apply] at hx
      split_ifs at hx with hc
      · rcases List.mem_cons.mp hx with h | h
        · left; exact ⟨h, by rw [hc.1, hc.2]⟩
        · right
          rw [hc.1, hc.2]
          exact h
      · right; exact hx
    rcases hxcases with ⟨h, hc⟩ | h
    · subst h
      refine ⟨⟨pool, hpools ▸ hpool, by simp⟩, ?_, ?_⟩
      · rw [hfree x, if_neg hrb, if_pos rfl]
      · rw [hsize x, if_neg hrb, if_pos rfl, hCr, hc]
    · obtain ⟨hxm, hxb⟩ := hsub1 fl sl x h
      obtain ⟨⟨p, hp, hxp⟩, hxf, hxc⟩ := hI.listed_free fl sl x hxm
      obtain ⟨hxr, e1, e2⟩ := hother p hp x hxp hxb
      refine ⟨⟨p, hpools ▸ hp, ?_⟩, by rw [e2]; exact hxf, by rw [e1]; exact hxc⟩
      simp only [updBlocks_apply]
      split_ifs with hpp
      · subst hpp
        rw [hblocks] at hxp
        simp only [List.mem_append, List.mem_cons] at hxp ⊢
        tauto
      · exact hxp
  · -- live pointers
    intro q m hq
    rcases List.mem_cons.mp hq with h | h
    · obtain ⟨rfl, rfl⟩ := Prod.mk.inj h
      have e : b + 16 - 16 = b := by omega
      rw [e]
      have esz : (t8.heap b).size = n' := by rw [hsize b, if_pos rfl]
      refine ⟨by omega, ⟨pool, hpools ▸ hpool, by simp⟩, by rw [hfree b, if_pos rfl], h1, ?_, ?_⟩
      · rw [esz, hn']
      · rw [esz]
        intro hm
        exact small_request_class m n' h1 hm (by omega) (by rw [hn']) (by rw [hn']; omega)
          (Or.inr (Or.inl hn'.symm))
    · obtain ⟨g1, ⟨p, hp, g2⟩, g3, g4, g5, g6⟩ := hI.live_block q m h
      have hqb : q - 16 ≠ b := by
        intro hqb; rw [hqb, hbfree] at g3; exact absurd g3 (by simp)
      obtain ⟨hxr, e1, e2⟩ := hother p hp _ g2 hqb
      refine ⟨g1, ⟨p, hpools ▸ hp, ?_⟩, by rw [e2]; exact g3, g4, by rw [e1]; exact g5,
        by rw [e1]; exact g6⟩
      simp only [updBlocks_apply]
      split_ifs with hpp
      · subst hpp
        rw [hblocks] at g2
        simp only [List.mem_append, List.mem_cons] at g2 ⊢
        tauto
      · exact g2
  · intro p hp x hx hf
    have hp' : p ∈ t.memoryPools := hpools ▸ hp
    have hxcases : x = r ∨ x ∈ blocks p := by
      simp only [updBlocks_apply] at hx
      split_ifs at hx with hpp
      · subst hpp
        rw [hblocks]
        simp only [List.mem_append, List.mem_cons] at hx ⊢
        tauto
      · exact Or.inr hx
    rcases hxcases with h | h
    · rw [h, hfree r, if_neg hrb, if_pos rfl] at hf
      exact absurd hf (by simp)
    · by_cases hxb : x = b
      · exact ⟨n, by rw [hxb]; exact List.mem_cons_self _ _⟩
      · obtain ⟨hxr, e1, e2⟩ := hother p hp' x h hxb
        rw [e2] at hf
        obtain ⟨m, hm⟩ := hI.block_live p hp' x h hf
        exact ⟨m, List.mem_cons_of_mem _ hm⟩
  · show ((b + 16) :: live.map Prod.fst).Nodup
    refine List.nodup_cons.mpr ⟨?_, hI.live_nodup⟩
    intro hm
    obtain ⟨⟨q, m⟩, hqm, hq⟩ := List.mem_map.mp hm
    have hq' : q = b + 16 := hq
    have := (hI.live_block q m hqm).2.2.1
    have e : q - 16 = b := by omega
    rw [e, hbfree] at this
    exact absurd this (by simp)

theorem sub64_eq (a b : Nat) (h : b ≤ a) (ha : a < 2 ^ 64) : sub64 a b = a - b := by
  unfold sub64
  have : b % 2 ^ 64 = b := Nat.mod_eq_of_lt (by omega)
  rw [this]
  omega

theorem toSize31_eq (a : Nat) (h : a < 2 ^ 31) : toSize31 a = a := Nat.mod_eq_of_lt h

theorem pow31_lt_pow64 : (2:Nat) ^ 31 < 2 ^ 64 := by norm_num

/-- An address strictly inside a block is not the header of a block. -/
theorem Inv.interior_not_block {t : TLSF} {live : List (Nat × Nat)}
    {blocks : TLSFPool → List Nat} {lists : Nat → Nat → List Nat} (hI : Inv t live blocks lists)
    {pool : TLSFPool} (hpool : pool ∈ t.memoryPools) {b : Nat} (hbin : b ∈ blocks pool) {r : Nat}
    (h1 : b < r) (h2 : r < b + 16 + (t.heap b).size) :
    ∀ p ∈ t.memoryPools, r ∉ blocks p := by
  intro p hp hx
  have hbb := hI.block_bounds hpool hbin
  by_cases hpp : p = pool
  · subst hpp
    obtain ⟨pre, post, hblocks⟩ := List.append_of_mem hbin
    obtain ⟨c1, c2, c3, c4, c5, c6, c7⟩ := hI.chain_at hpool hblocks
    rw [hblocks] at hx
    rcases List.mem_append.mp hx with h | h
    · have := c4 r h; omega
    · rcases List.mem_cons.mp h with h | h
      · omega
      · have := c5 r h; omega
  · exact hI.not_mem_other hpool hp hpp (x := r) (by omega) hx

set_option maxHeartbeats 1000000 in
/-- The outcomes of `splitAllocation` on a non-empty class whose head is large enough. -/
theorem splitAllocation_spec {t : TLSF} {live : List (Nat × Nat)} {blocks : TLSFPool → List Nat}
    {lists : Nat → Nat → List Nat} (hI : Inv t live blocks lists) (C : BitmapLevel)
    (hCT : C.inTable = true) (b : Nat) (rest : List Nat)
    (hl : lists C.firstLevel C.secondLevel = b :: rest) (n' : Nat) (h16 : 16 ≤ n')
    (hle : n' ≤ (t.heap b).size) (pool : TLSFPool) (hpool : pool ∈ t.memoryPools)
    (hbin : b ∈ blocks pool) :
    ((t.heap b).size < n' + 32 →
      ∃ t1, splitAllocation t C n' = some (t1, b) ∧ LinkInv t1 (updLists lists C rest) ∧
        PhysEq t.heap t1.heap ∧ t1.memoryPools = t.memoryPools) ∧
    (n' + 32 ≤ (t.heap b).size →
      ∃ t7, splitAllocation t C n' = some (t7, b) ∧ t7.memoryPools = t.memoryPools ∧
        LinkInv t7 (updLists (updLists lists C rest)
          (queryBitmapLevelForInsert ((t.heap b).size - n' - 16))
          ((b + 16 + n') :: updLists lists C rest
            (queryBitmapLevelForInsert ((t.heap b).size - n' - 16)).firstLevel
            (queryBitmapLevelForInsert ((t.heap b).size - n' - 16)).secondLevel)) ∧
        (∀ x, (t7.heap x).size = if x = b then n' else
          if x = b + 16 + n' then (t.heap b).size - n' - 16 else (t.heap x).size) ∧
        (∀ x, (t7.heap x).free = if x = b + 16 + n' then true else (t.heap x).free) ∧
        (∀ x, (t7.heap x).prevPhyAlloc = if x = b + 16 + n' then b else
          if x = b + 16 + (t.heap b).size ∧
            b + 16 + (t.heap b).size < pool.memptr + pool.capacity then b + 16 + n'
          else (t.heap x).prevPhyAlloc)) := by
  obtain ⟨t1, hpop, hL1, hP1, hpools1, hnoop⟩ := pop_spec hI.link C hCT b rest hl
  have hbmem : b ∈ lists C.firstLevel C.secondLevel := by rw [hl]; exact List.mem_cons_self _ _
  have hb0 : b ≠ 0 := hI.link.mem_ne_zero hbmem
  have hbb := hI.block_bounds hpool hbin
  have hsz1 : (t1.heap b).size = (t.heap b).size := (hP1 b).1
  have hlt64 : (t.heap b).size < 2 ^ 64 := lt_trans hbb.2.2.2.1 pow31_lt_pow64
  have hsub : sub64 (t.heap b).size n' = (t.heap b).size - n' := sub64_eq _ _ hle hlt64
  have hn31 : n' < 2 ^ 31 := by omega
  constructor
  · intro hsmall
    refine ⟨t1, ?_, hL1, hP1, hpools1⟩
    unfold splitAllocation
    rw [hpop]
    simp only [hb0, if_false, hsz1, ge_iff_le, hle, not_true_eq_false, hnoop, hsub]
    rw [if_pos (by simp only [AllocHeader.TrueSize, MinimiumAllocationSize]; omega)]
  · intro hbig
    have hloc : locatePool t1 b = some pool :=
      locatePool_spec t1 (hpools1 ▸ hI.pools_disj) pool (hpools1 ▸ hpool) b hbb.2.2.2.2.2
    unfold splitAllocation
    rw [hpop]
    simp only [hb0, if_false, hsz1, ge_iff_le, hle, not_true_eq_false, hnoop, hsub]
    rw [if_neg (by simp only [AllocHeader.TrueSize, MinimiumAllocationSize]; omega)]
    simp only [hloc, Heap.nextPhyAllocation, AllocHeader.TrueSize, withHeap, setSize_size, if_true,
      toSize31_eq n' hn31, hsz1, insertFreeAllocation, Bool.false_eq_true, if_false,
      check_next_contains_iff]
    have hrs : sub64 ((t.heap b).size - n') 16 = (t.heap b).size - n' - 16 :=
      sub64_eq _ _ (by omega) (by omega)
    rw [hrs]
    generalize hr : b + 16 + n' = r
    generalize hrsd : (t.heap b).size - n' - 16 = rs
    generalize hnn : b + 16 + (t.heap b).size = nn
    have hrs31 : rs < 2 ^ 31 := by omega
    have hrb : r ≠ b := by omega
    have hnnb : nn ≠ b := by omega
    have hnnr : nn ≠ r := by omega
    generalize hh6 : (if nn < pool.memptr + pool.capacity then
        ((((t1.heap.setSize b n').setSize r rs).setFree r true).setPrevPhyAlloc r b).setPrevPhyAlloc
          nn r
      else (((t1.heap.setSize b n').setSize r rs).setFree r true).setPrevPhyAlloc r b) = h6
    have hX : (if nn < pool.memptr + pool.capacity then
          ({ firstLevelBitmap := t1.firstLevelBitmap, secondLevelBitmap := t1.secondLevelBitmap,
             allocationLinkTable := t1.allocationLinkTable, memoryPools := t1.memoryPools,
             heap := ((((t1.heap.setSize b n').setSize r rs).setFree r true).setPrevPhyAlloc r
                b).setPrevPhyAlloc nn r } : TLSF)
        else
          { firstLevelBitmap := t1.firstLevelBitmap, secondLevelBitmap := t1.secondLevelBitmap,
            allocationLinkTable := t1.allocationLinkTable, memoryPools := t1.memoryPools,
            heap := (((t1.heap.setSize b n').setSize r rs).setFree r true).setPrevPhyAlloc r b }) =
        t1.withHeap h6 := by
      rw [← hh6]
      split_ifs <;> rfl
    rw [hX]
    have hlink : LinkEq t1.heap h6 := by
      intro x
      rw [← hh6]
      split_ifs <;> simp
    have e31 := toSize31_eq n' hn31
    have e31' := toSize31_eq rs hrs31
    have hbr : b ≠ r := Ne.symm hrb
    have hbnn : b ≠ nn := Ne.symm hnnb
    have hrnn : r ≠ nn := Ne.symm hnnr
    have hsize6 : ∀ x, (h6 x).size = if x = b then n' else if x = r then rs else (t.heap x).size := by
      intro x
      rw [← hh6]
      by_cases hc : nn < pool.memptr + pool.capacity
      · rw [if_pos hc]
        by_cases h1 : x = b
        · rw [h1, if_pos rfl]; simp [hbr, e31]
        · by_cases h2 : x = r
          · rw [h2, if_neg hrb, if_pos rfl]; simp [e31']
          · rw [if_neg h1, if_neg h2]; simp [h1, h2, (hP1 x).1]
      · rw [if_neg hc]
        by_cases h1 : x = b
        · rw [h1, if_pos rfl]; simp [hbr, e31]
        · by_cases h2 : x = r
          · rw [h2, if_neg hrb, if_pos rfl]; simp [e31']
          · rw [if_neg h1, if_neg h2]; simp [h1, h2, (hP1 x).1]
    have hfree6 : ∀ x, (h6 x).free = if x = r then true else (t.heap x).free := by
      intro x
      rw [← hh6]
      by_cases hc : nn < pool.memptr + pool.capacity
      · rw [if_pos hc]
        by_cases h2 : x = r
        · rw [h2, if_pos rfl]; simp
        · rw [if_neg h2]; simp [h2, (hP1 x).2.1]
      · rw [if_neg hc]
        by_cases h2 : x = r
        · rw [h2, if_pos rfl]; simp
        · rw [if_neg h2]; simp [h2, (hP1 x).2.1]
    have hprev6 : ∀ x, (h6 x).prevPhyAlloc = if x = r then b else
        if x = nn ∧ nn < pool.memptr + pool.capacity then r else (t.heap x).prevPhyAlloc := by
      intro x
      rw [← hh6]
      by_cases hc : nn < pool.memptr + pool.capacity
      · rw [if_pos hc]
        by_cases h2 : x = r
        · rw [h2, if_pos rfl]; simp [hrnn]
        · by_cases h3 : x = nn
          · rw [h3, if_neg hnnr, if_pos ⟨rfl, hc⟩]; simp
          · rw [if_neg h2, if_neg (fun h => h3 h.1)]; simp [h2, h3, (hP1 x).2.2]
      · rw [if_neg hc]
        by_cases h2 : x = r
        · rw [h2, if_pos rfl]; simp
        · rw [if_neg h2, if_neg (fun h => hc h.2)]; simp [h2, (hP1 x).2.2]
    have hL6 := hL1.withHeap h6 hlink
    have hfresh : ∀ fl sl, r ∉ updLists lists C rest fl sl := by
      intro fl sl hx
      have hxm : r ∈ lists fl sl := by
        simp only [updLists_apply] at hx
        split_ifs at hx with hc
        · rw [hc.1, hc.2, hl]; exact List.mem_cons_of_mem _ hx
        · exact hx
      obtain ⟨⟨p, hp, hxp⟩, _, _⟩ := hI.listed_free fl sl r hxm
      exact hI.interior_not_block hpool hbin (by omega) (by omega) p hp hxp
    have hcls : queryBitmapLevelForInsert (((t1.withHeap h6).heap r).size) =
        queryBitmapLevelForInsert rs := by
      show queryBitmapLevelForInsert (h6 r).size = _
      rw [hsize6 r, if_neg hrb, if_pos rfl]
    have hT : (queryBitmapLevelForInsert rs).inTable = true := by
      have := insert_class_spec rs (by omega) hrs31
      rw [inTable_iff]; omega
    obtain ⟨t7, hpush, hL7, hP7, hpools7⟩ :=
      push_spec hL6 r (by omega) hfresh (queryBitmapLevelForInsert rs) hcls hT
    refine ⟨t7, by rw [hpush], by rw [hpools7]; exact hpools1, hL7, ?_, ?_, ?_⟩
    · intro x; rw [(hP7 x).1]; exact hsize6 x
    · intro x; rw [(hP7 x).2.1]; exact hfree6 x
    · intro x; rw [(hP7 x).2.2]; exact hprev6 x

set_option maxHeartbeats 1000000 in
/-- The outcomes of `alloc` in a state that satisfies the invariant: either no class at or
after the start of the search in its first level is non-empty and `alloc` returns null
without changing the state, or the head `b` of a class `C` is handed out, whole or split. -/
theorem alloc_spec {t : TLSF} {live : List (Nat × Nat)} {blocks : TLSFPool → List Nat}
    {lists : Nat → Nat → List Nat} (hI : Inv t live blocks lists) (n : Nat) (h1 : 1 ≤ n)
    (h39 : n ≤ 2 ^ 39) :
    (alloc t n = some (t, 0) ∧
      lists (queryBitmapLevelForAlloc n).firstLevel (queryBitmapLevelForAlloc n).secondLevel = [] ∧
      ∀ s, (nextLevel (queryBitmapLevelForAlloc n)).secondLevel ≤ s → s < 32 →
        lists (nextLevel (queryBitmapLevelForAlloc n)).firstLevel s = []) ∨
    ∃ t' b C rest pool pre post,
      alloc t n = some (t', b + 16) ∧ C.inTable = true ∧
      lists C.firstLevel C.secondLevel = b :: rest ∧
      (C = queryBitmapLevelForAlloc n ∨
        (lists (queryBitmapLevelForAlloc n).firstLevel
            (queryBitmapLevelForAlloc n).secondLevel = [] ∧
          (nextLevel (queryBitmapLevelForAlloc n)).le C)) ∧
      pool ∈ t.memoryPools ∧ blocks pool = pre ++ b :: post ∧
      t'.memoryPools = t.memoryPools ∧ queryAlignedLevelSize n ≤ (t.heap b).size ∧
      (((C = queryBitmapLevelForAlloc n ∨ (t.heap b).size < queryAlignedLevelSize n + 32) ∧
          PhysEq (t.heap.setFree b false) t'.heap ∧
          Inv t' ((b + 16, n) :: live) blocks (updLists lists C rest)) ∨
        (C ≠ queryBitmapLevelForAlloc n ∧ queryAlignedLevelSize n + 32 ≤ (t.heap b).size ∧
          (∀ x, (t'.heap x).size = if x = b then queryAlignedLevelSize n else
            if x = b + 16 + queryAlignedLevelSize n then
              (t.heap b).size - queryAlignedLevelSize n - 16 else (t.heap x).size) ∧
          (∀ x, (t'.heap x).free = if x = b then false else
            if x = b + 16 + queryAlignedLevelSize n then true else (t.heap x).free) ∧
          (∀ x, (t'.heap x).prevPhyAlloc = if x = b + 16 + queryAlignedLevelSize n then b else
            if x = b + 16 + (t.heap b).size ∧
              b + 16 + (t.heap b).size < pool.memptr + pool.capacity then
              b + 16 + queryAlignedLevelSize n
            else (t.heap x).prevPhyAlloc) ∧
          Inv t' ((b + 16, n) :: live)
            (updBlocks blocks pool (pre ++ b :: (b + 16 + queryAlignedLevelSize n) :: post))
            (updLists (updLists lists C rest)
              (queryBitmapLevelForInsert ((t.heap b).size - queryAlignedLevelSize n - 16))
              ((b + 16 + queryAlignedLevelSize n) :: updLists lists C rest
                (queryBitmapLevelForInsert
                  ((t.heap b).size - queryAlignedLevelSize n - 16)).firstLevel
                (queryBitmapLevelForInsert
                  ((t.heap b).size - queryAlignedLevelSize n - 16)).secondLevel)))) := by
  obtain ⟨hLf, hLs, hLn⟩ := alloc_class_spec n h1 h39
  have hLmod := levelSize_mod (queryBitmapLevelForAlloc n).firstLevel
    (queryBitmapLevelForAlloc n).secondLevel (by omega) hLs
  have hndef : queryAlignedLevelSize n = queryLevelSize (queryBitmapLevelForAlloc n) := rfl
  generalize hL : queryBitmapLevelForAlloc n = L at *
  generalize hn' : queryAlignedLevelSize n = n' at *
  have hLeta : (⟨L.firstLevel, L.secondLevel⟩ : BitmapLevel) = L := rfl
  rw [hLeta, ← hndef] at hLmod
  obtain ⟨hSf, hSs, hSlt, _⟩ := nextLevel_spec L hLf hLs
  have hLT : L.inTable = true := by rw [inTable_iff]; omega
  have hstatus := queryFreeStatus_spec hI.link L.firstLevel L.secondLevel (by omega) (by omega)
  rw [hLeta] at hstatus
  -- a block taken from a class at or after the class of the request is large enough
  have hlarge : ∀ (C : BitmapLevel) (b : Nat), C.inTable = true →
      b ∈ lists C.firstLevel C.secondLevel → L.le C → n' ≤ (t.heap b).size ∧
      ∃ pool ∈ t.memoryPools, b ∈ blocks pool := by
    intro C b hCT hb hle
    obtain ⟨⟨p, hp, hbp⟩, _, hbc⟩ := hI.listed_free _ _ b hb
    have hcl := (hI.class_inTable hp hbp).2
    rw [hbc] at hcl
    have hCT' := (inTable_iff C).mp hCT
    have := levelSize_mono L C (by omega) hLs (by omega) (by omega) hle
    have e : (⟨C.firstLevel, C.secondLevel⟩ : BitmapLevel) = C := rfl
    rw [e] at hcl
    exact ⟨by omega, p, hp, hbp⟩
  by_cases hLl : lists L.firstLevel L.secondLevel = []
  · -- the class of the request is empty: search from the next class
    have hq : queryFreeAllocation t n =
        match findLevelForSplit t (nextLevel L) with
        | none => none
        | some splitLevel =>
          if ¬ splitLevel.valid then some (t, 0) else splitAllocation t splitLevel n' := by
      unfold queryFreeAllocation
      simp only [hL, hstatus, hLl, ne_eq, not_true_eq_false, decide_False]
      rw [hndef]
      rfl
    have hfind := findFirstLevel_spec hI.link (FLC - (nextLevel L).firstLevel)
      (nextLevel L).secondLevel (nextLevel L).firstLevel (by unfold FLC; omega)
    rcases hfind with ⟨hf1, hf2⟩ | ⟨fl', sl', hf1, hf2, hf3, hf4, hf5, hf6⟩
    · left
      refine ⟨?_, hLl, ?_⟩
      · unfold alloc
        rw [hq]
        unfold findLevelForSplit
        rw [hf1]
        simp [invalid_not_valid]
      · intro s hs1 hs2
        by_cases hc : 1 ≤ FLC - (nextLevel L).firstLevel
        · exact hf2 hc s hs1 hs2
        · exact hI.link.outside _ _ (fun h => hc (by unfold FLC; omega))
    · right
      have hfl' : fl' < 31 := by unfold FLC at hf3; omega
      have hCT : (⟨fl', sl'⟩ : BitmapLevel).inTable = true := by
        rw [inTable_iff]; exact ⟨hfl', hf4⟩
      have hSC : (nextLevel L).le ⟨fl', sl'⟩ := by
        unfold BitmapLevel.le
        simp only
        by_cases he : fl' = (nextLevel L).firstLevel
        · exact Or.inr ⟨he.symm, hf6 he⟩
        · exact Or.inl (by omega)
      have hLC : L.le ⟨fl', sl'⟩ := le_of_lt_of_le _ _ _ hSlt hSC
      have hCne : (⟨fl', sl'⟩ : BitmapLevel) ≠ L := by
        intro h
        rw [← h] at hLl
        exact hf5 hLl
      obtain ⟨b, rest, hl⟩ : ∃ b rest, lists fl' sl' = b :: rest := by
        cases hc : lists fl' sl' with
        | nil => exact absurd hc hf5
        | cons b rest => exact ⟨b, rest, rfl⟩
      have hbmem : b ∈ lists fl' sl' := by rw [hl]; exact List.mem_cons_self _ _
      obtain ⟨hsz, pool, hpool, hbin⟩ := hlarge ⟨fl', sl'⟩ b hCT hbmem hLC
      obtain ⟨pre, post, hblocks⟩ := List.append_of_mem hbin
      have hb0 : b ≠ 0 := hI.link.mem_ne_zero hbmem
      obtain ⟨hw, hs⟩ := splitAllocation_spec hI ⟨fl', sl'⟩ hCT b rest hl n' hLmod.2 hsz pool hpool hbin
      have hq' : queryFreeAllocation t n = splitAllocation t ⟨fl', sl'⟩ n' := by
        rw [hq]
        unfold findLevelForSplit
        rw [hf1]
        simp [valid_of_lt fl' sl' hfl']
      by_cases hbig : n' + 32 ≤ (t.heap b).size
      · obtain ⟨t7, h7, hpools7, hL7, hsize7, hfree7, hprev7⟩ := hs hbig
        refine ⟨t7.withHeap (t7.heap.setFree b false), b, ⟨fl', sl'⟩, rest, pool, pre, post, ?_, hCT,
          hl, Or.inr ⟨hLl, hSC⟩, hpool, hblocks, hpools7, hsz, Or.inr ?_⟩
        · unfold alloc
          rw [hq', h7]
          simp [hb0, Heap.ptr, AllocHeader.TrueSize]
        · have hsize8 : ∀ x, ((t7.withHeap (t7.heap.setFree b false)).heap x).size =
              if x = b then n' else if x = b + 16 + n' then (t.heap b).size - n' - 16
              else (t.heap x).size := by
            intro x
            show ((t7.heap.setFree b false) x).size = _
            rw [setFree_size]; exact hsize7 x
          have hfree8 : ∀ x, ((t7.withHeap (t7.heap.setFree b false)).heap x).free =
              if x = b then false else if x = b + 16 + n' then true else (t.heap x).free := by
            intro x
            show ((t7.heap.setFree b false) x).free = _
            rw [setFree_free]
            by_cases hc : x = b
            · rw [if_pos hc, if_pos hc]
            · rw [if_neg hc, if_neg hc, hfree7 x]
          have hprev8 : ∀ x, ((t7.withHeap (t7.heap.setFree b false)).heap x).prevPhyAlloc =
              if x = b + 16 + n' then b else
              if x = b + 16 + (t.heap b).size ∧
                b + 16 + (t.heap b).size < pool.memptr + pool.capacity then b + 16 + n'
              else (t.heap x).prevPhyAlloc := by
            intro x
            show ((t7.heap.setFree b false) x).prevPhyAlloc = _
            rw [setFree_prevPhyAlloc]; exact hprev7 x
          refine ⟨hCne, hbig, hsize8, hfree8, hprev8, ?_⟩
          exact split_inv hI ⟨fl', sl'⟩ b rest hl pool hpool pre post hblocks n n' h1 hn'
            hLmod.2 hLmod.1 hbig hpools7 hsize8 hfree8 hprev8
            (hL7.withHeap _ (LinkEq_setFree _ _ _))
      · obtain ⟨t1, h1', hL1, hP1, hpools1⟩ := hw (by omega)
        refine ⟨t1.withHeap (t1.heap.setFree b false), b, ⟨fl', sl'⟩, rest, pool, pre, post, ?_, hCT,
          hl, Or.inr ⟨hLl, hSC⟩, hpool, hblocks, hpools1, hsz, Or.inl ⟨Or.inr (by omega), ?_, ?_⟩⟩
        · unfold alloc
          rw [hq', h1']
          simp [hb0, Heap.ptr, AllocHeader.TrueSize]
        · intro x
          show ((t1.heap.setFree b false) x).size = ((t.heap.setFree b false) x).size ∧
            ((t1.heap.setFree b false) x).free = ((t.heap.setFree b false) x).free ∧
            ((t1.heap.setFree b false) x).prevPhyAlloc = ((t.heap.setFree b false) x).prevPhyAlloc
          simp [(hP1 x).1, (hP1 x).2.1, (hP1 x).2.2]
        · refine take_whole hI ⟨fl', sl'⟩ b rest hl hL1 hP1 hpools1 n h1 (by rw [hn']; exact hsz) ?_
          intro hn512
          have hbb := hI.block_bounds hpool hbin
          obtain ⟨_, _, hbc⟩ := hI.listed_free _ _ b hbmem
          refine small_request_class n (t.heap b).size h1 hn512 hbb.2.2.2.1
            (by rw [hn']; exact hsz) (by rw [hn']; omega) (Or.inr (Or.inr ?_))
          rw [hbc, hL]; exact hSC
  · -- the class of the request has a free block: hand out its head
    right
    obtain ⟨b, rest, hl⟩ : ∃ b rest, lists L.firstLevel L.secondLevel = b :: rest := by
      cases hc : lists L.firstLevel L.secondLevel with
      | nil => exact absurd hc hLl
      | cons b rest => exact ⟨b, rest, rfl⟩
    have hbmem : b ∈ lists L.firstLevel L.secondLevel := by rw [hl]; exact List.mem_cons_self _ _
    have hLL : L.le L := Or.inr ⟨rfl, le_refl _⟩
    obtain ⟨hsz, pool, hpool, hbin⟩ := hlarge L b hLT hbmem hLL
    obtain ⟨pre, post, hblocks⟩ := List.append_of_mem hbin
    have hb0 : b ≠ 0 := hI.link.mem_ne_zero hbmem
    obtain ⟨t1, hpop, hL1, hP1, hpools1, _⟩ := pop_spec hI.link L hLT b rest hl
    refine ⟨t1.withHeap (t1.heap.setFree b false), b, L, rest, pool, pre, post, ?_, hLT,
      hl, Or.inl rfl, hpool, hblocks, hpools1, hsz, Or.inl ⟨Or.inl rfl, ?_, ?_⟩⟩
    · unfold alloc queryFreeAllocation
      simp only [hL, hstatus, hLl, ne_eq, not_false_eq_true, decide_True, hpop]
      simp [hb0, Heap.ptr, AllocHeader.TrueSize]
    · intro x
      show ((t1.heap.setFree b false) x).size = ((t.heap.setFree b false) x).size ∧
        ((t1.heap.setFree b false) x).free = ((t.heap.setFree b false) x).free ∧
        ((t1.heap.setFree b false) x).prevPhyAlloc = ((t.heap.setFree b false) x).prevPhyAlloc
      simp [(hP1 x).1, (hP1 x).2.1, (hP1 x).2.2]
    · refine take_whole hI L b rest hl hL1 hP1 hpools1 n h1 (by rw [hn']; exact hsz) ?_
      intro hn512
      obtain ⟨_, _, hbc⟩ := hI.listed_free _ _ b hbmem
      rw [hbc, hL]
      refine ⟨?_, le_refl _⟩
      have := alloc_small n h1 hn512
      rw [hL] at this
      rw [this]

/-- The end of a segment is determined by its start and its blocks. -/
theorem PSeg_end_unique (h : Heap) (l : List Nat) :
    ∀ (prev prev' a e e' : Nat), PSeg h prev a l e → PSeg h prev' a l e' → e = e' := by
  induction l with
  | nil =>
    intro prev prev' a e e' h1 h2
    have e1 : a = e := h1
    have e2 : a = e' := h2
    omega
  | cons x xs ih =>
    intro prev prev' a e e' h1 h2
    exact ih _ _ _ _ _ h1.2.2.2 h2.2.2.2

/-- A segment does not depend on the predecessor passed for an empty list, and for a
non-empty list the predecessor is the back link of the first block. -/
theorem PSeg_head (h : Heap) (x : Nat) (xs : List Nat) (prev a e : Nat)
    (hs : PSeg h prev a (x :: xs) e) :
    a = x ∧ (h x).prevPhyAlloc = prev ∧ 16 ≤ (h x).size ∧
      PSeg h x (x + 16 + (h x).size) xs e := hs

set_option maxHeartbeats 1000000 in
/-- Replacing a run `mid` of physically consecutive blocks, all free except the block `a`
that is being released, by one free block that starts where the run starts and ends where
it ends, preserves the invariant. -/
theorem merge_inv {t t' : TLSF} {live : List (Nat × Nat)} {blocks : TLSFPool → List Nat}
    {lists : Nat → Nat → List Nat} (hI : Inv t live blocks lists) (pool : TLSFPool)
    (hpool : pool ∈ t.memoryPools) (pre mt post : List Nat) (m a S n : Nat)
    (hblocks : blocks pool = pre ++ ((m :: mt) ++ post)) (ha : a ∈ m :: mt)
    (hlive : (a + 16, n) ∈ live)
    (hmidfree : ∀ z ∈ m :: mt, z ≠ a → (t.heap z).free = true)
    (hpre : ∀ z ∈ pre.getLast?, (t.heap z).free = false)
    (hpost : ∀ z ∈ post.head?, (t.heap z).free = false)
    (hS : PSeg t.heap (pre.getLast?.getD 0) m (m :: mt) (m + 16 + S))
    (hpools : t'.memoryPools = t.memoryPools)
    (hsize : ∀ z, (t'.heap z).size = if z = m then S else (t.heap z).size)
    (hfree : ∀ z, (t'.heap z).free = if z = a then true else (t.heap z).free)
    (hprev : ∀ z, (t'.heap z).prevPhyAlloc =
      if z = m + 16 + S ∧ m + 16 + S < pool.memptr + pool.capacity then m
      else (t.heap z).prevPhyAlloc)
    (lists' : Nat → Nat → List Nat) (hL : LinkInv t' lists')
    (hmem : ∀ fl sl z, z ∈ lists' fl sl ↔
      (z = m ∧ queryBitmapLevelForInsert S = ⟨fl, sl⟩) ∨ (z ∈ lists fl sl ∧ z ∉ m :: mt)) :
    Inv t' (live.filter (fun e => decide (e.1 ≠ a + 16)))
      (updBlocks blocks pool (pre ++ m :: post)) lists' := by
  have hc := hI.chain pool hpool
  rw [hblocks] at hc
  have hnd := PSeg_nodup _ _ _ _ _ hc
  obtain ⟨m0, hc1, hc2, hb1, hb2⟩ := PSeg_split_bounds _ _ _ _ _ _ hc
  obtain ⟨e1, hc3, hc4, hb3, hb4⟩ := PSeg_split_bounds _ _ _ _ _ _ hc2
  have hm0 : m0 = m := hc3.1
  subst hm0
  have he1 : e1 = m0 + 16 + S := PSeg_end_unique _ _ _ _ _ _ _ hc3 hS
  subst he1
  have hmS : (t.heap m0).size ≤ S := by
    have := hb3 m0 (List.mem_cons_self _ _)
    omega
  have hm16 : 16 ≤ (t.heap m0).size := hc3.2.2.1
  have hmprev : (t.heap m0).prevPhyAlloc = pre.getLast?.getD 0 := hc3.2.1
  have hendle : m0 + 16 + S ≤ pool.memptr + pool.capacity := (PSeg_bounds _ _ _ _ _ hc4).1
  -- membership facts
  have hsubset : ∀ x, x ∈ pre ++ m0 :: post → x ∈ blocks pool := by
    intro x hx
    rw [hblocks]
    simp only [List.mem_append, List.mem_cons] at hx ⊢
    tauto
  have hmidblock : ∀ x ∈ m0 :: mt, x ∈ blocks pool := by
    intro x hx
    rw [hblocks]
    simp only [List.mem_append] at hx ⊢
    exact Or.inr (Or.inl hx)
  have hablock := hmidblock a ha
  obtain ⟨_, _, hafree, _⟩ := hI.live_block _ _ hlive
  have ea : a + 16 - 16 = a := by omega
  rw [ea] at hafree
  have hnd' : (pre ++ (m0 :: mt ++ post)).Nodup := hnd
  have hpre_mid : ∀ x ∈ pre, x ∉ m0 :: mt := by
    intro x hx hx'
    have := (List.nodup_append.mp hnd').2.2
    exact this hx (List.mem_append_left _ hx')
  have hpost_mid : ∀ x ∈ post, x ∉ m0 :: mt := by
    intro x hx hx'
    have := (List.nodup_append.mp (List.nodup_append.mp hnd').2.1).2.2
    exact this hx' hx
  have hnew_mid : ∀ x ∈ pre ++ m0 :: post, x ≠ m0 → x ∉ m0 :: mt := by
    intro x hx hne
    simp only [List.mem_append, List.mem_cons] at hx
    rcases hx with h | h | h
    · exact hpre_mid x h
    · exact absurd h hne
    · exact hpost_mid x h
  have hne_a : ∀ x, x ∉ m0 :: mt → x ≠ a := by
    intro x hx h
    rw [h] at hx
    exact hx ha
  have hmfree' : (t'.heap m0).free = true := by
    rw [hfree]
    by_cases h : m0 = a
    · rw [if_pos h]
    · rw [if_neg h]; exact hmidfree m0 (List.mem_cons_self _ _) h
  have hother : ∀ p ∈ t.memoryPools, p ≠ pool → ∀ x ∈ blocks p,
      x ∉ m0 :: mt ∧ ¬ (x = m0 + 16 + S ∧ m0 + 16 + S < pool.memptr + pool.capacity) := by
    intro p hp hne x hx
    refine ⟨fun hx' => hne (hI.pool_unique hp hpool hx (hmidblock x hx')), ?_⟩
    rintro ⟨rfl, hlt⟩
    have hb := hI.block_bounds hpool (hmidblock m0 (List.mem_cons_self _ _))
    exact hI.not_mem_other hpool hp hne ⟨by omega, hlt⟩ hx
  have hpre_lt : ∀ x ∈ pre, x < m0 := by
    intro x hx
    have := hb1 x hx
    omega
  have hpost_ge : ∀ x ∈ post, m0 + 16 + S ≤ x := hb4
  constructor
  · intro p hp; exact hI.pools_ok p (hpools ▸ hp)
  · show t'.memoryPools.Pairwise _
    rw [hpools]; exact hI.pools_disj
  · intro p hp
    rw [hpools] at hp
    simp only [updBlocks_apply]
    split_ifs with hpp
    · subst hpp
      rw [PSeg_append]
      refine ⟨m0, ?_, ?_⟩
      · refine PSeg_congr t.heap _ _ _ _ _ ?_ hc1
        intro x hx
        have := hpre_lt x hx
        rw [hsize, hprev, if_neg (by omega), if_neg (by omega)]
        exact ⟨rfl, rfl⟩
      · refine ⟨rfl, ?_, ?_, ?_⟩
        · rw [hprev, if_neg (by omega)]; exact hmprev
        · rw [hsize, if_pos rfl]; omega
        · rw [hsize, if_pos rfl]
          cases hq : post with
          | nil =>
            rw [hq] at hc4
            exact hc4
          | cons y ys =>
            rw [hq] at hc4
            obtain ⟨g1, g2, g3, g4⟩ := hc4
            have hyb := (PSeg_bounds _ _ _ _ _ g4).1
            have hys : ∀ z ∈ ys, y < z := by
              intro z hz
              have := ((PSeg_bounds _ _ _ _ _ g4).2 z hz).1
              omega
            refine ⟨g1, ?_, ?_, ?_⟩
            · rw [hprev, if_pos ⟨g1.symm, by omega⟩]
            · rw [hsize, if_neg (by omega)]; exact g3
            · rw [hsize, if_neg (by omega)]
              refine PSeg_congr t.heap _ _ _ _ _ ?_ g4
              intro z hz
              have := hys z hz
              rw [hsize, hprev, if_neg (by omega), if_neg (by omega)]
              exact ⟨rfl, rfl⟩
    · refine PSeg_congr t.heap _ _ _ _ _ ?_ (hI.chain p hp)
      intro x hx
      obtain ⟨g1, g2⟩ := hother p hp hpp x hx
      have hxm : x ≠ m0 := fun h => g1 (h ▸ List.mem_cons_self _ _)
      rw [hsize, hprev, if_neg hxm, if_neg g2]
      exact ⟨rfl, rfl⟩
  · intro p hp x hx
    rw [hpools] at hp
    simp only [updBlocks_apply] at hx
    split_ifs at hx with hpp
    · subst hpp; exact hI.align p hp x (hsubset x hx)
    · exact hI.align p hp x hx
  · intro p hp
    rw [hpools] at hp
    simp only [updBlocks_apply]
    have hold := hI.noAdj p hp
    split_ifs with hpp
    · subst hpp
      rw [hblocks] at hold
      rw [List.chain'_append] at hold
      obtain ⟨o1, o2, o3⟩ := hold
      rw [List.chain'_append] at o2
      obtain ⟨o4, o5, o6⟩ := o2
      rw [List.chain'_append]
      refine ⟨?_, ?_, ?_⟩
      · refine noAdj_congr t.heap _ _ o1 ?_
        intro x hx hf
        rw [hfree, if_neg (hne_a _ (hpre_mid x hx))] at hf
        exact hf
      · rw [List.chain'_cons']
        refine ⟨?_, ?_⟩
        · intro y hy hh
          have := hpost y hy
          have hy' : y ∈ post := List.mem_of_mem_head? hy
          have h2 := hh.2
          rw [hfree, if_neg (hne_a _ (hpost_mid y hy')), this] at h2
          exact absurd h2 (by simp)
        · refine noAdj_congr t.heap _ _ o5 ?_
          intro x hx hf
          rw [hfree, if_neg (hne_a _ (hpost_mid x hx))] at hf
          exact hf
      · intro x hx y hy hh
        have := hpre x hx
        have hx' : x ∈ pre := List.mem_of_mem_getLast? hx
        have h1 := hh.1
        rw [hfree, if_neg (hne_a _ (hpre_mid x hx')), this] at h1
        exact absurd h1 (by simp)
    · refine noAdj_congr t.heap _ _ hold ?_
      intro x hx hf
      have g1 := (hother p hp hpp x hx).1
      rw [hfree, if_neg (hne_a _ g1)] at hf
      exact hf
  · exact hL
  · intro p hp x hx hf
    rw [hpools] at hp
    rw [hmem]
    by_cases hxm : x = m0
    · left
      refine ⟨hxm, ?_⟩
      rw [hsize, if_pos hxm]
    · right
      have hxmid : x ∉ m0 :: mt := by
        simp only [updBlocks_apply] at hx
        split_ifs at hx with hpp
        · exact hnew_mid x hx hxm
        · exact (hother p hp hpp x hx).1
      have hxa : x ≠ a := fun h => hxmid (h ▸ ha)
      have hxb : x ∈ blocks p := by
        simp only [updBlocks_apply] at hx
        split_ifs at hx with hpp
        · subst hpp; exact hsubset x hx
        · exact hx
      rw [hfree, if_neg hxa] at hf
      rw [hsize, if_neg hxm]
      exact ⟨hI.free_listed p hp x hxb hf, hxmid⟩
  · intro fl sl x hx
    rw [hmem] at hx
    rcases hx with ⟨rfl, hcl⟩ | ⟨hx, hxmid⟩
    · refine ⟨⟨pool, hpools ▸ hpool, ?_⟩, hmfree', ?_⟩
      · simp only [updBlocks_apply, if_true]
        exact List.mem_append_right _ (List.mem_cons_self _ _)
      · rw [hsize, if_pos rfl]; exact hcl
    · obtain ⟨⟨p, hp, hxp⟩, hxf, hxc⟩ := hI.listed_free fl sl x hx
      have hxa : x ≠ a := fun h => hxmid (h ▸ ha)
      have hxm : x ≠ m0 := fun h => hxmid (h ▸ List.mem_cons_self _ _)
      refine ⟨⟨p, hpools ▸ hp, ?_⟩, ?_, ?_⟩
      · simp only [updBlocks_apply]
        split_ifs with hpp
        · subst hpp
          rw [hblocks] at hxp
          simp only [List.mem_append, List.mem_cons] at hxp hxmid ⊢
          tauto
        · exact hxp
      · rw [hfree, if_neg hxa]; exact hxf
      · rw [hsize, if_neg hxm]; exact hxc
  · intro q k hq
    obtain ⟨hq1, hq2⟩ := List.mem_filter.mp hq
    have hqa : q ≠ a + 16 := by simpa using hq2
    obtain ⟨g1, ⟨p, hp, g2⟩, g3, g4, g5, g6⟩ := hI.live_block q k hq1
    have hqa' : q - 16 ≠ a := by omega
    have hqmid : q - 16 ∉ m0 :: mt := by
      intro h
      have := hmidfree _ h hqa'
      rw [this] at g3
      exact absurd g3 (by simp)
    have hqm : q - 16 ≠ m0 := fun h => hqmid (h ▸ List.mem_cons_self _ _)
    refine ⟨g1, ⟨p, hpools ▸ hp, ?_⟩, ?_, g4, ?_, ?_⟩
    · simp only [updBlocks_apply]
      split_ifs with hpp
      · subst hpp
        rw [hblocks] at g2
        simp only [List.mem_append, List.mem_cons] at g2 hqmid ⊢
        tauto
      · exact g2
    · rw [hfree, if_neg hqa']; exact g3
    · rw [hsize, if_neg hqm]; exact g5
    · rw [hsize, if_neg hqm]; exact g6
  · intro p hp x hx hf
    rw [hpools] at hp
    have hxm : x ≠ m0 := by
      intro h; rw [h, hmfree'] at hf; exact absurd hf (by simp)
    have hxa : x ≠ a := by
      intro h; rw [hfree, if_pos h] at hf; exact absurd hf (by simp)
    rw [hfree, if_neg hxa] at hf
    have hxb : x ∈ blocks p := by
      simp only [updBlocks_apply] at hx
      split_ifs at hx with hpp
      · subst hpp; exact hsubset x hx
      · exact hx
    obtain ⟨k, hk⟩ := hI.block_live p hp x hxb hf
    refine ⟨k, List.mem_filter.mpr ⟨hk, ?_⟩⟩
    simp only [ne_eq, decide_eq_true_eq]
    omega
  · exact (List.Nodup.sublist ((List.filter_sublist _).map _) hI.live_nodup)

theorem add64_eq (a b : Nat) (h : a + b < 2 ^ 64) : add64 a b = a + b := Nat.mod_eq_of_lt h

/-- `mergePrevPhyAlloc` when the physical predecessor is null or in use. -/
theorem mergePrev_skip (t : TLSF) (a : Nat)
    (h : ¬ ((t.heap a).prevPhyAlloc ≠ 0 ∧ (t.heap (t.heap a).prevPhyAlloc).free = true)) :
    mergePrevPhyAlloc t a = some (t, a) := by
  unfold mergePrevPhyAlloc
  simp only []
  rw [if_neg h]

/-- `mergePrevPhyAlloc` when the physical predecessor `x` is free: `x` leaves its free
list and grows by the header and the payload of `a`. -/
theorem mergePrev_absorb {t : TLSF} {lists : Nat → Nat → List Nat} (hL : LinkInv t lists)
    (a x : Nat) (hx : (t.heap a).prevPhyAlloc = x) (hx0 : x ≠ 0)
    (hf : (t.heap x).free = true) (C : BitmapLevel)
    (hC : queryBitmapLevelForInsert (t.heap x).size = C) (hT : C.inTable = true)
    (hmem : x ∈ lists C.firstLevel C.secondLevel)
    (hbound : (t.heap x).size + (t.heap a).size + 16 < 2 ^ 31) :
    ∃ t', mergePrevPhyAlloc t a = some (t', x) ∧
      LinkInv t' (updLists lists C ((lists C.firstLevel C.secondLevel).erase x)) ∧
      t'.memoryPools = t.memoryPools ∧
      (∀ z, (t'.heap z).size =
        if z = x then (t.heap x).size + (t.heap a).size + 16 else (t.heap z).size) ∧
      (∀ z, (t'.heap z).free = (t.heap z).free) ∧
      (∀ z, (t'.heap z).prevPhyAlloc = (t.heap z).prevPhyAlloc) := by
  obtain ⟨t1, h1, hL1, hP1, hpools1⟩ := remove_spec hL x C hT hmem
  have h64 := pow31_lt_pow64
  have e1 : add64 (t1.heap x).size (add64 (t1.heap a).size AllocHeader.TrueSize) =
      (t.heap x).size + (t.heap a).size + 16 := by
    rw [(hP1 x).1, (hP1 a).1]
    show add64 _ (add64 _ 16) = _
    rw [add64_eq (t.heap a).size 16 (by omega), add64_eq _ _ (by omega)]
    omega
  refine ⟨t1.withHeap (t1.heap.setSize x ((t.heap x).size + (t.heap a).size + 16)), ?_,
    hL1.withHeap _ (LinkEq_setSize _ _ _), hpools1, ?_, ?_, ?_⟩
  · unfold mergePrevPhyAlloc removeFreeAllocationAndUpdateBitmap
    simp only [hx]
    rw [if_pos ⟨hx0, hf⟩, hC, h1]
    simp only [e1]
  · intro z
    show ((t1.heap.setSize x _) z).size = _
    rw [setSize_size]
    by_cases hz : z = x
    · rw [if_pos hz, if_pos hz, toSize31_eq _ hbound]
    · rw [if_neg hz, if_neg hz, (hP1 z).1]
  · intro z
    show ((t1.heap.setSize x _) z).free = _
    rw [setSize_free, (hP1 z).2.1]
  · intro z
    show ((t1.heap.setSize x _) z).prevPhyAlloc = _
    rw [setSize_prevPhyAlloc, (hP1 z).2.2]

/-- `mergeNextPhyAlloc` when the block ends at the end of the pool. -/
theorem mergeNext_none (t : TLSF) (m y : Nat) (pool : TLSFPool)
    (h : ¬ y < pool.memptr + pool.capacity) : mergeNextPhyAlloc t m y pool = some t := by
  unfold mergeNextPhyAlloc
  have : ¬ pool.check_next_contains y = true := by rw [check_next_contains_iff]; exact h
  rw [if_neg this]

/-- `mergeNextPhyAlloc` when the physical successor is in use: its back link is set. -/
theorem mergeNext_patch (t : TLSF) (m y : Nat) (pool : TLSFPool)
    (h : y < pool.memptr + pool.capacity) (hf : (t.heap y).free = false) :
    mergeNextPhyAlloc t m y pool = some (t.withHeap (t.heap.setPrevPhyAlloc y m)) := by
  unfold mergeNextPhyAlloc
  have : pool.check_next_contains y = true := by rw [check_next_contains_iff]; exact h
  rw [if_pos this, if_neg (by rw [hf]; simp)]

/-- `mergeNextPhyAlloc` when the physical successor `y` is free: `y` leaves its free list,
the block `m` grows by the header and the payload of `y`, and the block after `y` gets
`m` as its back link. -/
theorem mergeNext_absorb {t : TLSF} {lists : Nat → Nat → List Nat} (hL : LinkInv t lists)
    (m y : Nat) (pool : TLSFPool) (hy : y < pool.memptr + pool.capacity)
    (hf : (t.heap y).free = true) (C : BitmapLevel)
    (hC : queryBitmapLevelForInsert (t.heap y).size = C) (hT : C.inTable = true)
    (hmem : y ∈ lists C.firstLevel C.secondLevel) (hmy : m ≠ y)
    (hbound : (t.heap m).size + (t.heap y).size + 16 < 2 ^ 31)
    (hend : m + 16 + (t.heap m).size = y)
    (hnn : y + 16 + (t.heap y).size < pool.memptr + pool.capacity →
      (t.heap (y + 16 + (t.heap y).size)).free = false) :
    ∃ t', mergeNextPhyAlloc t m y pool = some t' ∧
      LinkInv t' (updLists lists C ((lists C.firstLevel C.secondLevel).erase y)) ∧
      t'.memoryPools = t.memoryPools ∧
      (∀ z, (t'.heap z).size =
        if z = m then (t.heap m).size + (t.heap y).size + 16 else (t.heap z).size) ∧
      (∀ z, (t'.heap z).free = (t.heap z).free) ∧
      (∀ z, (t'.heap z).prevPhyAlloc =
        if z = y + 16 + (t.heap y).size ∧
          y + 16 + (t.heap y).size < pool.memptr + pool.capacity then m
        else (t.heap z).prevPhyAlloc) := by
  obtain ⟨t1, h1, hL1, hP1, hpools1⟩ := remove_spec hL y C hT hmem
  have h64 := pow31_lt_pow64
  have e1 : add64 (t1.heap m).size (add64 (t1.heap y).size AllocHeader.TrueSize) =
      (t.heap m).size + (t.heap y).size + 16 := by
    rw [(hP1 m).1, (hP1 y).1]
    show add64 _ (add64 _ 16) = _
    rw [add64_eq (t.heap y).size 16 (by omega), add64_eq _ _ (by omega)]
    omega
  have hc : pool.check_next_contains y = true := by rw [check_next_contains_iff]; exact hy
  have hf1 : (t1.heap y).free = true := by rw [(hP1 y).2.1]; exact hf
  have hnext : (t1.withHeap (t1.heap.setSize m
      ((t.heap m).size + (t.heap y).size + 16))).heap.nextPhyAllocation y =
      y + 16 + (t.heap y).size := by
    show y + 16 + ((t1.heap.setSize m _) y).size = _
    rw [setSize_size, if_neg (Ne.symm hmy), (hP1 y).1]
  have hstep : mergeNextPhyAlloc t m y pool =
      (let t2 := t1.withHeap (t1.heap.setSize m ((t.heap m).size + (t.heap y).size + 16))
       let nextNextAlloc := y + 16 + (t.heap y).size
       if pool.check_next_contains nextNextAlloc then
          let t3 := t2.withHeap (t2.heap.setPrevPhyAlloc nextNextAlloc m)
          if (t3.heap nextNextAlloc).free = true then none
          else if t3.heap.nextPhyAllocation m ≠ nextNextAlloc then none
          else some t3
        else some t2) := by
    unfold mergeNextPhyAlloc removeFreeAllocationAndUpdateBitmap
    rw [if_pos hc, if_pos hf, hC, h1]
    simp only [e1, hnext]
  by_cases hlt : y + 16 + (t.heap y).size < pool.memptr + pool.capacity
  · have hc2 : pool.check_next_contains (y + 16 + (t.heap y).size) = true := by
      rw [check_next_contains_iff]; exact hlt
    have hnm : y + 16 + (t.heap y).size ≠ m := by omega
    refine ⟨(t1.withHeap (t1.heap.setSize m ((t.heap m).size + (t.heap y).size + 16))).withHeap
      ((t1.heap.setSize m ((t.heap m).size + (t.heap y).size + 16)).setPrevPhyAlloc
        (y + 16 + (t.heap y).size) m), ?_, ?_, hpools1, ?_, ?_, ?_⟩
    · rw [hstep]
      simp only []
      rw [if_pos hc2]
      have g1 : ((((t1.withHeap (t1.heap.setSize m ((t.heap m).size + (t.heap y).size + 16))).withHeap
          ((t1.withHeap (t1.heap.setSize m ((t.heap m).size + (t.heap y).size + 16))).heap.setPrevPhyAlloc
            (y + 16 + (t.heap y).size) m)).heap (y + 16 + (t.heap y).size)).free = true) = False := by
        show ((((t1.heap.setSize m _).setPrevPhyAlloc _ m) (y + 16 + (t.heap y).size)).free = true) = False
        rw [setPrevPhyAlloc_free, setSize_free, (hP1 _).2.1, hnn hlt]
        simp
      have g2 : (((t1.withHeap (t1.heap.setSize m ((t.heap m).size + (t.heap y).size + 16))).withHeap
          ((t1.withHeap (t1.heap.setSize m ((t.heap m).size + (t.heap y).size + 16))).heap.setPrevPhyAlloc
            (y + 16 + (t.heap y).size) m)).heap.nextPhyAllocation m) = y + 16 + (t.heap y).size := by
        show m + 16 + (((t1.heap.setSize m _).setPrevPhyAlloc _ m) m).size = _
        rw [setPrevPhyAlloc_size, setSize_size, if_pos rfl, toSize31_eq _ hbound]
        omega
      rw [if_neg (by rw [g1]; exact not_false), if_neg (by rw [g2]; simp)]
      rfl
    · exact (hL1.withHeap _ (LinkEq_setSize _ _ _)).withHeap _ (LinkEq_setPrevPhy _ _ _)
    · intro z
      show (((t1.heap.setSize m _).setPrevPhyAlloc _ m) z).size = _
      rw [setPrevPhyAlloc_size, setSize_size]
      by_cases hz : z = m
      · rw [if_pos hz, if_pos hz, toSize31_eq _ hbound]
      · rw [if_neg hz, if_neg hz, (hP1 z).1]
    · intro z
      show (((t1.heap.setSize m _).setPrevPhyAlloc _ m) z).free = _
      rw [setPrevPhyAlloc_free, setSize_free, (hP1 z).2.1]
    · intro z
      show (((t1.heap.setSize m _).setPrevPhyAlloc _ m) z).prevPhyAlloc = _
      rw [setPrevPhyAlloc_prevPhyAlloc]
      by_cases hz : z = y + 16 + (t.heap y).size
      · rw [if_pos hz, if_pos ⟨hz, hlt⟩]
      · rw [if_neg hz, if_neg (fun h => hz h.1), setSize_prevPhyAlloc, (hP1 z).2.2]
  · have hc2 : ¬ pool.check_next_contains (y + 16 + (t.heap y).size) = true := by
      rw [check_next_contains_iff]; exact hlt
    refine ⟨t1.withHeap (t1.heap.setSize m ((t.heap m).size + (t.heap y).size + 16)), ?_, ?_,
      hpools1, ?_, ?_, ?_⟩
    · rw [hstep]
      simp only []
      rw [if_neg hc2]
    · exact hL1.withHeap _ (LinkEq_setSize _ _ _)
    · intro z
      show ((t1.heap.setSize m _) z).size = _
      rw [setSize_size]
      by_cases hz : z = m
      · rw [if_pos hz, if_pos hz, toSize31_eq _ hbound]
      · rw [if_neg hz, if_neg hz, (hP1 z).1]
    · intro z
      show ((t1.heap.setSize m _) z).free = _
      rw [setSize_free, (hP1 z).2.1]
    · intro z
      show ((t1.heap.setSize m _) z).prevPhyAlloc = _
      rw [if_neg (fun h => hlt h.2), setSize_prevPhyAlloc, (hP1 z).2.2]

/-- Membership in the free lists after one header was erased from the list of its class. -/
theorem mem_updLists_erase {t : TLSF} {lists : Nat → Nat → List Nat} (hL : LinkInv t lists)
    (C : BitmapLevel) (x : Nat) (hx : x ∈ lists C.firstLevel C.secondLevel) (fl sl z : Nat) :
    z ∈ updLists lists C ((lists C.firstLevel C.secondLevel).erase x) fl sl ↔
      z ∈ lists fl sl ∧ z ≠ x := by
  simp only [updLists_apply]
  split_ifs with hc
  · rw [hc.1, hc.2, (hL.nodup _ _).mem_erase_iff]
    tauto
  · constructor
    · intro hz
      refine ⟨hz, ?_⟩
      rintro rfl
      have := hL.disjoint _ _ _ _ z hz hx
      exact hc this
    · exact fun h => h.1

/-- Membership in the free lists after one header was pushed on the list of a class. -/
theorem mem_updLists_cons (lists : Nat → Nat → List Nat) (C : BitmapLevel) (x : Nat)
    (fl sl z : Nat) :
    z ∈ updLists lists C (x :: lists C.firstLevel C.secondLevel) fl sl ↔
      (z = x ∧ C = ⟨fl, sl⟩) ∨ z ∈ lists fl sl := by
  simp only [updLists_apply]
  have hC : C = ⟨fl, sl⟩ ↔ fl = C.firstLevel ∧ sl = C.secondLevel := by
    cases C
    simp only [BitmapLevel.mk.injEq]
    constructor
    · rintro ⟨rfl, rfl⟩; exact ⟨rfl, rfl⟩
    · rintro ⟨rfl, rfl⟩; exact ⟨rfl, rfl⟩
  rw [hC]
  split_ifs with hc
  · rw [List.mem_cons, hc.1, hc.2]
    tauto
  · tauto

set_option maxHeartbeats 2000000 in
/-- The first phase of `free` in a state that satisfies the invariant: the free physical
predecessor, if there is one, leaves its list and absorbs the released block. -/
theorem freePrev_spec {t : TLSF} {live : List (Nat × Nat)} {blocks : TLSFPool → List Nat}
    {lists : Nat → Nat → List Nat} (hI : Inv t live blocks lists) (pool : TLSFPool)
    (hpool : pool ∈ t.memoryPools) (pre post : List Nat) (b : Nat)
    (hblocks : blocks pool = pre ++ b :: post) :
    ∃ t1 m pre' xs lists1 S1,
      mergePrevPhyAlloc (t.withHeap (t.heap.setFree b true)) b = some (t1, m) ∧
      pre = pre' ++ xs ∧
      (if mergesPrev t b then pre.dropLast else pre) = pre' ∧ mergedStart t b = m ∧
      ((xs = [] ∧ m = b ∧ S1 = (t.heap b).size ∧ ¬ mergesPrev t b) ∨
        (xs = [m] ∧ m = (t.heap b).prevPhyAlloc ∧ m + 16 + (t.heap m).size = b ∧
          (t.heap m).free = true ∧ S1 = (t.heap m).size + 16 + (t.heap b).size ∧
          mergesPrev t b)) ∧
      (∀ z ∈ pre'.getLast?, (t.heap z).free = false) ∧
      LinkInv t1 lists1 ∧ (∀ fl sl z, z ∈ lists1 fl sl ↔ z ∈ lists fl sl ∧ z ∉ xs) ∧
      t1.memoryPools = t.memoryPools ∧
      (∀ z, (t1.heap z).size = if z = m then S1 else (t.heap z).size) ∧
      (∀ z, (t1.heap z).free = if z = b then true else (t.heap z).free) ∧
      (∀ z, (t1.heap z).prevPhyAlloc = (t.heap z).prevPhyAlloc) := by
  have hbin : b ∈ blocks pool := by rw [hblocks]; exact List.mem_append_right _ (List.mem_cons_self _ _)
  obtain ⟨c1, c2, c3, c4, c5, c6, c7⟩ := hI.chain_at hpool hblocks
  have hbb := hI.block_bounds hpool hbin
  have hpok := hI.pools_ok pool hpool
  have hnd : (pre ++ b :: post).Nodup := hblocks ▸ PSeg_nodup _ _ _ _ _ (hI.chain pool hpool)
  have hnoadj := hI.noAdj pool hpool
  rw [hblocks] at hnoadj
  have hL0 : LinkInv (t.withHeap (t.heap.setFree b true)) lists :=
    hI.link.withHeap _ (LinkEq_setFree _ _ _)
  have hsize0 : ∀ z, ((t.withHeap (t.heap.setFree b true)).heap z).size = (t.heap z).size :=
    fun z => setFree_size _ _ _ _
  have hfree0 : ∀ z, ((t.withHeap (t.heap.setFree b true)).heap z).free =
      if z = b then true else (t.heap z).free := fun z => setFree_free _ _ _ _
  have hprev0 : ∀ z, ((t.withHeap (t.heap.setFree b true)).heap z).prevPhyAlloc =
      (t.heap z).prevPhyAlloc := fun z => setFree_prevPhyAlloc _ _ _ _
  rcases List.eq_nil_or_concat pre with hpre | ⟨pre0, x, hpre⟩
  · subst hpre
    have hx0 : (t.heap b).prevPhyAlloc = 0 := c2
    have hnmp : ¬ mergesPrev t b := by
      unfold mergesPrev; rw [hx0]; simp
    refine ⟨_, b, [], [], lists, (t.heap b).size, mergePrev_skip _ b ?_, rfl, ?_, ?_,
      Or.inl ⟨rfl, rfl, rfl, hnmp⟩, ?_, hL0, ?_, rfl, ?_, hfree0, hprev0⟩
    · rw [hprev0, hx0]; simp
    · rw [if_neg hnmp]
    · unfold mergedStart; rw [if_neg hnmp]
    · intro z hz; simp at hz
    · intro fl sl z; simp
    · intro z
      rw [hsize0]
      split_ifs with h
      · rw [h]
      · rfl
  · rw [List.concat_eq_append] at hpre
    subst hpre
    have hx : (t.heap b).prevPhyAlloc = x := by
      rw [c2, List.getLast?_concat]; rfl
    have hxin : x ∈ blocks pool := by
      rw [hblocks]; simp
    have hxb := hI.block_bounds hpool hxin
    have hxend : x + 16 + (t.heap x).size = b := by
      obtain ⟨m', _, g2⟩ := (PSeg_append _ _ _ _ _ _).mp c1
      exact g2.2.2.2
    have hxneb : x ≠ b := by omega
    by_cases hxf : (t.heap x).free = true
    · have hmp : mergesPrev t b := by
        unfold mergesPrev; rw [hx]; exact ⟨hxb.2.2.2.2.1, hxf⟩
      have hxl := hI.free_listed pool hpool x hxin hxf
      have hxT := (hI.class_inTable hpool hxin).1
      obtain ⟨t1, h1, hL1, hpools1, hs1, hf1, hp1⟩ := mergePrev_absorb hL0 b x
        (by rw [hprev0]; exact hx) hxb.2.2.2.2.1 (by rw [hfree0, if_neg hxneb]; exact hxf)
        (queryBitmapLevelForInsert (t.heap x).size) (by rw [hsize0]) hxT hxl
        (by rw [hsize0, hsize0]; omega)
      refine ⟨t1, x, pre0, [x], _, (t.heap x).size + 16 + (t.heap b).size, h1, rfl, ?_, ?_,
        Or.inr ⟨rfl, hx.symm, hxend, hxf, rfl, hmp⟩, ?_, hL1, ?_, hpools1, ?_, ?_, ?_⟩
      · rw [if_pos hmp, List.dropLast_concat]
      · unfold mergedStart; rw [if_pos hmp, hx]
      · intro z hz
        rw [List.append_assoc, List.chain'_append] at hnoadj
        have := hnoadj.2.2 z hz x (by simp)
        by_contra hc
        exact this ⟨by simpa using hc, hxf⟩
      · intro fl sl z
        rw [mem_updLists_erase hI.link _ x hxl]
        simp
      · intro z
        rw [hs1, hsize0, hsize0, hsize0]
        split_ifs <;> omega
      · intro z; rw [hf1, hfree0]
      · intro z; rw [hp1, hprev0]
    · have hnmp : ¬ mergesPrev t b := by
        unfold mergesPrev; rw [hx]; exact fun h => hxf h.2
      refine ⟨_, b, pre0 ++ [x], [], lists, (t.heap b).size, mergePrev_skip _ b ?_, by simp, ?_, ?_,
        Or.inl ⟨rfl, rfl, rfl, hnmp⟩, ?_, hL0, ?_, rfl, ?_, hfree0, hprev0⟩
      · rw [hprev0, hx, hfree0, if_neg hxneb]; exact fun h => hxf h.2
      · rw [if_neg hnmp]
      · unfold mergedStart; rw [if_neg hnmp]
      · intro z hz
        rw [List.getLast?_concat] at hz
        have : z = x := by simpa using hz.symm
        rw [this]; simpa using hxf
      · intro fl sl z; simp
      · intro z
        rw [hsize0]
        split_ifs with h
        · rw [h]
        · rfl

set_option maxHeartbeats 2000000 in
/-- The second phase of `free` in a state that satisfies the invariant: the free physical
successor, if there is one inside the pool, leaves its list and is absorbed, and the
block that follows gets the merged block as its back link. -/
theorem freeNext_spec {t t1 : TLSF} {live : List (Nat × Nat)} {blocks : TLSFPool → List Nat}
    {lists lists1 : Nat → Nat → List Nat} (hI : Inv t live blocks lists) (pool : TLSFPool)
    (hpool : pool ∈ t.memoryPools) (pre post : List Nat) (b : Nat)
    (hblocks : blocks pool = pre ++ b :: post) (m S1 : Nat) (xs : List Nat)
    (hm : m + 16 + S1 = b + 16 + (t.heap b).size) (hmp : pool.memptr ≤ m)
    (hL1 : LinkInv t1 lists1)
    (hmem1 : ∀ fl sl z, z ∈ lists1 fl sl ↔ z ∈ lists fl sl ∧ z ∉ xs)
    (hxs : ∀ z ∈ xs, z < b) (hpools1 : t1.memoryPools = t.memoryPools)
    (hsize1 : ∀ z, (t1.heap z).size = if z = m then S1 else (t.heap z).size)
    (hfree1 : ∀ z, (t1.heap z).free = if z = b then true else (t.heap z).free)
    (hprev1 : ∀ z, (t1.heap z).prevPhyAlloc = (t.heap z).prevPhyAlloc) :
    ∃ t2 post' ys lists2 S,
      mergeNextPhyAlloc t1 m (b + 16 + (t.heap b).size) pool = some t2 ∧
      post = ys ++ post' ∧
      (if mergesNext t pool b then post.tail else post) = post' ∧
      ((ys = [] ∧ S = S1 ∧ ¬ mergesNext t pool b) ∨
        (ys = [b + 16 + (t.heap b).size] ∧ (t.heap (b + 16 + (t.heap b).size)).free = true ∧
          S = S1 + (t.heap (b + 16 + (t.heap b).size)).size + 16 ∧ mergesNext t pool b)) ∧
      (∀ z ∈ post'.head?, (t.heap z).free = false) ∧
      LinkInv t2 lists2 ∧ (∀ fl sl z, z ∈ lists2 fl sl ↔ z ∈ lists1 fl sl ∧ z ∉ ys) ∧
      t2.memoryPools = t.memoryPools ∧
      (∀ z, (t2.heap z).size = if z = m then S else (t.heap z).size) ∧
      (∀ z, (t2.heap z).free = if z = b then true else (t.heap z).free) ∧
      (∀ z, (t2.heap z).prevPhyAlloc =
        if z = m + 16 + S ∧ m + 16 + S < pool.memptr + pool.capacity then m
        else (t.heap z).prevPhyAlloc) ∧
      m + 16 + S ≤ pool.memptr + pool.capacity := by
  have hbin : b ∈ blocks pool := by rw [hblocks]; exact List.mem_append_right _ (List.mem_cons_self _ _)
  obtain ⟨c1, c2, c3, c4, c5, c6, c7⟩ := hI.chain_at hpool hblocks
  have hbb := hI.block_bounds hpool hbin
  have hpok := hI.pools_ok pool hpool
  have hnoadj := hI.noAdj pool hpool
  rw [hblocks] at hnoadj
  generalize hy : b + 16 + (t.heap b).size = y at *
  cases hpost : post with
  | nil =>
    have hny : ¬ y < pool.memptr + pool.capacity := c6.mp hpost
    have hnmn : ¬ mergesNext t pool b := by
      unfold mergesNext; rw [hy]; exact fun h => hny h.1
    refine ⟨t1, [], [], lists1, S1, mergeNext_none _ _ _ _ hny, rfl, ?_,
      Or.inl ⟨rfl, rfl, hnmn⟩, ?_, hL1, ?_, hpools1, hsize1, hfree1, ?_, by omega⟩
    · rw [if_neg hnmn]
    · intro z hz; simp at hz
    · intro fl sl z; simp
    · intro z
      rw [hprev1, if_neg (fun h => hny (by omega))]
  | cons y' post0 =>
    have hy' : y' = y := c7 y' (by rw [hpost]; rfl)
    subst hy'
    have hylt : y' < pool.memptr + pool.capacity := by
      by_contra h
      have := c6.mpr h
      rw [hpost] at this
      exact absurd this (by simp)
    have hyin : y' ∈ blocks pool := by rw [hblocks, hpost]; simp
    have hyb := hI.block_bounds hpool hyin
    have hyneb : y' ≠ b := by omega
    have hynem : y' ≠ m := by omega
    by_cases hyf : (t.heap y').free = true
    · have hmn : mergesNext t pool b := by
        unfold mergesNext; rw [hy]; exact ⟨hylt, hyf⟩
      have hyl := hI.free_listed pool hpool y' hyin hyf
      have hyT := (hI.class_inTable hpool hyin).1
      have hb2 : blocks pool = (pre ++ [b]) ++ y' :: post0 := by rw [hblocks, hpost]; simp
      obtain ⟨_, _, _, _, _, d6, d7⟩ := hI.chain_at hpool hb2
      have hpost0 : ∀ z ∈ post0.head?, (t.heap z).free = false := by
        intro z hz
        rw [hpost] at hnoadj
        have h1 := (List.chain'_append.mp hnoadj).2.1
        rw [List.chain'_cons] at h1
        have h2 := (List.chain'_cons'.mp h1.2).1 z hz
        by_contra hc
        exact h2 ⟨hyf, by simpa using hc⟩
      obtain ⟨t2, h2, hL2, hpools2, hs2, hf2, hp2⟩ := mergeNext_absorb hL1 m y' pool hylt
        (by rw [hfree1, if_neg hyneb]; exact hyf)
        (queryBitmapLevelForInsert (t.heap y').size) (by rw [hsize1, if_neg hynem]) hyT
        ((hmem1 _ _ _).mpr ⟨hyl, fun h => by have := hxs _ h; omega⟩) (Ne.symm hynem)
        (by rw [hsize1, hsize1, if_pos rfl, if_neg hynem]; omega)
        (by rw [hsize1, if_pos rfl]; omega)
        (by
          rw [hsize1, if_neg hynem]
          intro hlt
          have hne : post0 ≠ [] := fun h => (d6.mp h) hlt
          cases hq : post0 with
          | nil => exact absurd hq hne
          | cons w ws =>
            have hw : w = y' + 16 + (t.heap y').size := d7 w (by rw [hq]; rfl)
            have := hpost0 w (by rw [hq]; rfl)
            rw [hfree1, if_neg (by omega), ← hw]
            exact this)
      refine ⟨t2, post0, [y'], _, S1 + (t.heap y').size + 16, h2, rfl, ?_,
        Or.inr ⟨rfl, hyf, rfl, hmn⟩, hpost0, hL2, ?_, hpools2.trans hpools1, ?_, ?_, ?_, by omega⟩
      · rw [if_pos hmn]; rfl
      · intro fl sl z
        rw [mem_updLists_erase hL1 _ y' ((hmem1 _ _ _).mpr ⟨hyl, fun h => by have := hxs _ h; omega⟩)]
        simp
      · intro z
        rw [hs2, hsize1, hsize1, hsize1, if_pos rfl, if_neg hynem]
        by_cases hz : z = m
        · rw [if_pos hz, if_pos hz]
        · rw [if_neg hz, if_neg hz, if_neg hz]
      · intro z; rw [hf2, hfree1]
      · intro z
        rw [hp2, hsize1, if_neg hynem, hprev1]
        have e : y' + 16 + (t.heap y').size = m + 16 + (S1 + (t.heap y').size + 16) := by omega
        rw [e]
    · have hnmn : ¬ mergesNext t pool b := by
        unfold mergesNext; rw [hy]; exact fun h => hyf h.2
      refine ⟨_, y' :: post0, [], lists1, S1, mergeNext_patch t1 m y' pool hylt ?_, rfl, ?_,
        Or.inl ⟨rfl, rfl, hnmn⟩, ?_, hL1.withHeap _ (LinkEq_setPrevPhy _ _ _), ?_, hpools1,
        ?_, ?_, ?_, by omega⟩
      · rw [hfree1, if_neg hyneb]; simpa using hyf
      · rw [if_neg hnmn]
      · intro z hz
        have : z = y' := by simpa using hz.symm
        rw [this]; simpa using hyf
      · intro fl sl z; simp
      · intro z
        show ((t1.heap.setPrevPhyAlloc y' m) z).size = _
        rw [setPrevPhyAlloc_size, hsize1]
      · intro z
        show ((t1.heap.setPrevPhyAlloc y' m) z).free = _
        rw [setPrevPhyAlloc_free, hfree1]
      · intro z
        show ((t1.heap.setPrevPhyAlloc y' m) z).prevPhyAlloc = _
        rw [setPrevPhyAlloc_prevPhyAlloc, hprev1]
        have e : m + 16 + S1 = y' := hm
        rw [e]
        by_cases hz : z = y'
        · rw [if_pos hz, if_pos ⟨hz, hylt⟩]
        · rw [if_neg hz, if_neg (fun h => hz h.1)]

set_option maxHeartbeats 4000000 in
/-- The effect of `free` on a live pointer in a state that satisfies the invariant: the call
succeeds, the invariant holds again, and the heap and the free lists are described in terms
of the coalescing decisions `mergesPrev` and `mergesNext`. -/
theorem free_spec {t : TLSF} {live : List (Nat × Nat)} {blocks : TLSFPool → List Nat}
    {lists : Nat → Nat → List Nat} (hI : Inv t live blocks lists) (b n : Nat)
    (hlive : (b + 16, n) ∈ live) :
    ∃ pool pre post t' lists', pool ∈ t.memoryPools ∧ blocks pool = pre ++ b :: post ∧
      TLSF.free t (b + 16) = some t' ∧ t'.memoryPools = t.memoryPools ∧
      Inv t' (live.filter (fun e => decide (e.1 ≠ b + 16)))
        (updBlocks blocks pool ((if mergesPrev t b then pre.dropLast else pre) ++
          mergedStart t b :: (if mergesNext t pool b then post.tail else post))) lists' ∧
      (∀ z, (t'.heap z).size =
        if z = mergedStart t b then mergedSize t pool b else (t.heap z).size) ∧
      (∀ z, (t'.heap z).free = if z = b then true else (t.heap z).free) ∧
      (∀ z, (t'.heap z).prevPhyAlloc =
        if z = mergedStart t b + 16 + mergedSize t pool b ∧
          mergedStart t b + 16 + mergedSize t pool b < pool.memptr + pool.capacity
        then mergedStart t b else (t.heap z).prevPhyAlloc) ∧
      (∀ fl sl z, z ∈ lists' fl sl ↔
        (z = mergedStart t b ∧ queryBitmapLevelForInsert (mergedSize t pool b) = ⟨fl, sl⟩) ∨
        (z ∈ lists fl sl ∧ ¬ (mergesPrev t b ∧ z = (t.heap b).prevPhyAlloc) ∧
          ¬ (mergesNext t pool b ∧ z = b + 16 + (t.heap b).size))) ∧
      (mergesPrev t b → (t.heap b).prevPhyAlloc < b) ∧ mergedStart t b ≤ b ∧
      (t.heap b).size ≤ mergedSize t pool b ∧ mergedSize t pool b < 2 ^ 31 ∧
      mergedStart t b + 16 + mergedSize t pool b ≤ pool.memptr + pool.capacity := by
  obtain ⟨_, ⟨pool, hpool, hbin⟩, hbfree, _⟩ := hI.live_block _ _ hlive
  have eb : b + 16 - 16 = b := by omega
  rw [eb] at hbin hbfree
  obtain ⟨pre, post, hblocks⟩ := List.append_of_mem hbin
  have hbb := hI.block_bounds hpool hbin
  have hpok := hI.pools_ok pool hpool
  have hnotlisted : ∀ fl sl, b ∉ lists fl sl := by
    intro fl sl h
    have := (hI.listed_free _ _ _ h).2.1
    rw [hbfree] at this
    exact absurd this (by simp)
  obtain ⟨t1, m, pre', xs, lists1, S1, hA1, hA2, hA3, hA4, hA5, hA6, hL1, hmem1, hpools1,
    hsize1, hfree1, hprev1⟩ := freePrev_spec hI pool hpool pre post b hblocks
  have hmfacts : m + 16 + S1 = b + 16 + (t.heap b).size ∧ m ≤ b ∧ pool.memptr ≤ m ∧ m ≠ 0 ∧
      (∀ z ∈ xs, z < b) ∧ (∀ z ∈ xs, (t.heap z).free = true) ∧
      (∀ z, z ∉ xs ↔ ¬ (mergesPrev t b ∧ z = (t.heap b).prevPhyAlloc)) ∧
      (mergesPrev t b → (t.heap b).prevPhyAlloc < b) := by
    rcases hA5 with ⟨h1, h2, h3, h4⟩ | ⟨h1, h2, h3, h4, h5, h6⟩
    · subst h1 h2 h3
      refine ⟨rfl, le_refl _, hbb.1, hbb.2.2.2.2.1, by simp, by simp, ?_, fun h => absurd h h4⟩
      intro z
      simp [h4]
    · have hmin : m ∈ blocks pool := by
        rw [hblocks, hA2, h1]; simp
      have hmb := hI.block_bounds hpool hmin
      refine ⟨by omega, by omega, hmb.1, hmb.2.2.2.2.1, ?_, ?_, ?_, fun _ => by omega⟩
      · intro z hz
        rw [h1] at hz
        have : z = m := by simpa using hz
        omega
      · intro z hz
        rw [h1] at hz
        have : z = m := by simpa using hz
        rw [this]; exact h4
      · intro z
        rw [h1, ← h2]
        simp [h6]
  obtain ⟨hm1, hm2, hm3, hm4, hm5, hm6, hm7, hm8⟩ := hmfacts
  obtain ⟨t2, post', ys, lists2, S, hB1, hB2, hB3, hB4, hB5, hL2, hmem2, hpools2, hsize2,
    hfree2, hprev2, hSend⟩ := freeNext_spec hI pool hpool pre post b hblocks m S1 xs hm1 hm3
      hL1 hmem1 hm5 hpools1 hsize1 hfree1 hprev1
  have hyfacts : S1 ≤ S ∧ (∀ z ∈ ys, b < z) ∧ (∀ z ∈ ys, (t.heap z).free = true) ∧
      (∀ z, z ∉ ys ↔ ¬ (mergesNext t pool b ∧ z = b + 16 + (t.heap b).size)) ∧
      ((xs ++ b :: ys).getLast?.getD 0 + 16 + (t.heap ((xs ++ b :: ys).getLast?.getD 0)).size =
        m + 16 + S) := by
    rcases hB4 with ⟨h1, h2, h3⟩ | ⟨h1, h2, h3, h4⟩
    · subst h1 h2
      refine ⟨le_refl _, by simp, by simp, ?_, ?_⟩
      · intro z; simp [h3]
      · rw [List.getLast?_append]
        simp
        omega
    · refine ⟨by omega, ?_, ?_, ?_, ?_⟩
      · intro z hz
        rw [h1] at hz
        have : z = b + 16 + (t.heap b).size := by simpa using hz
        omega
      · intro z hz
        rw [h1] at hz
        have : z = b + 16 + (t.heap b).size := by simpa using hz
        rw [this]; exact h2
      · intro z
        rw [h1]
        simp [h4]
      · rw [h1, List.getLast?_append]
        simp
        omega
  obtain ⟨hy1, hy2, hy3, hy4, hy5⟩ := hyfacts
  have hSsize : mergedSize t pool b = S := by
    unfold mergedSize
    rcases hA5 with ⟨h1, h2, h3, h4⟩ | ⟨h1, h2, h3, h4, h5, h6⟩ <;>
    rcases hB4 with ⟨g1, g2, g3⟩ | ⟨g1, g2, g3, g4⟩
    · rw [if_neg h4, if_neg g3]; omega
    · rw [if_neg h4, if_pos g4]; omega
    · rw [if_pos h6, if_neg g3, ← h2]; omega
    · rw [if_pos h6, if_pos g4, ← h2]; omega
  obtain ⟨mt, hmt⟩ : ∃ mt, xs ++ b :: ys = m :: mt := by
    rcases hA5 with ⟨h1, h2, h3, h4⟩ | ⟨h1, h2, h3, h4, h5, h6⟩
    · exact ⟨ys, by rw [h1, h2]; rfl⟩
    · exact ⟨b :: ys, by rw [h1]; rfl⟩
  have hblocks' : blocks pool = pre' ++ ((m :: mt) ++ post') := by
    rw [hblocks, ← hmt, hA2, hB2]
    simp
  have hmid : ∀ z, z ∈ m :: mt ↔ z ∈ xs ∨ z = b ∨ z ∈ ys := by
    intro z
    rw [← hmt]
    simp
  -- the run of merged blocks
  have hc := hI.chain pool hpool
  rw [hblocks'] at hc
  obtain ⟨m0, hc1, hc2, _, _⟩ := PSeg_split_bounds _ _ _ _ _ _ hc
  obtain ⟨e1, hc3, hc4, _, _⟩ := PSeg_split_bounds _ _ _ _ _ _ hc2
  have hm0 : m0 = m := hc3.1
  subst hm0
  have he1 := PSeg_last _ _ _ _ _ hc3 (by simp)
  rw [← hmt, hy5] at he1
  subst he1
  have hS16 : 16 ≤ S := by omega
  have hS31 : S < 2 ^ 31 := by omega
  obtain ⟨hLf, hLs, _⟩ := insert_class_spec S hS16 hS31
  have hLT : (queryBitmapLevelForInsert S).inTable = true := by
    rw [inTable_iff]; omega
  have hfresh : ∀ fl sl, m0 ∉ lists2 fl sl := by
    intro fl sl h
    have h1 := ((hmem2 _ _ _).mp h).1
    obtain ⟨h2, h3⟩ := (hmem1 _ _ _).mp h1
    rcases hA5 with ⟨g1, g2, _⟩ | ⟨g1, _⟩
    · rw [g2] at h2; exact hnotlisted _ _ h2
    · rw [g1] at h3; exact h3 (List.mem_singleton_self _)
  obtain ⟨t3, h3, hL3, hP3, hpools3⟩ := push_spec hL2 m0 hm4 hfresh
    (queryBitmapLevelForInsert S) (by rw [hsize2, if_pos rfl]) hLT
  have hmem3 : ∀ fl sl z,
      z ∈ updLists lists2 (queryBitmapLevelForInsert S)
        (m0 :: lists2 (queryBitmapLevelForInsert S).firstLevel
          (queryBitmapLevelForInsert S).secondLevel) fl sl ↔
      (z = m0 ∧ queryBitmapLevelForInsert S = ⟨fl, sl⟩) ∨
        (z ∈ lists fl sl ∧ z ∉ xs ∧ z ∉ ys) := by
    intro fl sl z
    rw [mem_updLists_cons, hmem2, hmem1]
    tauto
  have hsize3 : ∀ z, (t3.heap z).size = if z = m0 then S else (t.heap z).size := by
    intro z; rw [(hP3 z).1, hsize2]
  have hfree3 : ∀ z, (t3.heap z).free = if z = b then true else (t.heap z).free := by
    intro z; rw [(hP3 z).2.1, hfree2]
  have hprev3 : ∀ z, (t3.heap z).prevPhyAlloc =
      if z = m0 + 16 + S ∧ m0 + 16 + S < pool.memptr + pool.capacity then m0
      else (t.heap z).prevPhyAlloc := by
    intro z; rw [(hP3 z).2.2, hprev2]
  have hInv := merge_inv hI pool hpool pre' mt post' m0 b S n hblocks'
    ((hmid b).mpr (Or.inr (Or.inl rfl))) hlive
    (by
      intro z hz hzb
      rcases (hmid z).mp hz with h | h | h
      · exact hm6 z h
      · exact absurd h hzb
      · exact hy3 z h)
    hA6 hB5 hc3 (hpools3.trans hpools2) hsize3 hfree3 hprev3 _ hL3
    (by
      intro fl sl z
      rw [hmem3, hmid]
      constructor
      · rintro (h | ⟨h1, h2, h3⟩)
        · exact Or.inl h
        · refine Or.inr ⟨h1, ?_⟩
          rintro (g | g | g)
          · exact h2 g
          · rw [g] at h1; exact hnotlisted _ _ h1
          · exact h3 g
      · rintro (h | ⟨h1, h2⟩)
        · exact Or.inl h
        · exact Or.inr ⟨h1, fun g => h2 (Or.inl g), fun g => h2 (Or.inr (Or.inr g))⟩)
  refine ⟨pool, pre, post, t3, updLists lists2 (queryBitmapLevelForInsert S)
    (m0 :: lists2 (queryBitmapLevelForInsert S).firstLevel
      (queryBitmapLevelForInsert S).secondLevel), hpool, hblocks, ?_, hpools3.trans hpools2, ?_, ?_, hfree3, ?_,
    ?_, hm8, ?_, ?_, ?_, ?_⟩
  · unfold TLSF.free insertFreeAllocation
    simp only [Heap.fromPtr, AllocHeader.TrueSize, eb]
    rw [locatePool_spec (t.withHeap (t.heap.setFree b true)) hI.pools_disj pool hpool b
      hbb.2.2.2.2.2]
    simp only [if_true]
    rw [hA1]
    have e : (t.withHeap (t.heap.setFree b true)).heap.nextPhyAllocation b =
        b + 16 + (t.heap b).size := by
      show b + 16 + ((t.heap.setFree b true) b).size = _
      rw [setFree_size]
    simp only [e, AllocHeader.TrueSize]
    rw [hB1]
    exact h3
  · rw [hA3, hB3, hA4]; exact hInv
  · rw [hA4, hSsize]; exact hsize3
  · rw [hA4, hSsize]; exact hprev3
  · intro fl sl z
    rw [hA4, hSsize, hmem3, hm7, hy4]
  · rw [hA4]; exact hm2
  · rw [hSsize]; omega
  · rw [hSsize]; exact hS31
  · rw [hA4, hSsize]; exact hSend

/-- The invariant of a newly constructed allocator: no pool, no block, no free list. -/
theorem new_inv (h : Heap) : Inv (TLSF.new h) [] (fun _ => []) (fun _ _ => []) where
  pools_ok := by intro p hp; simp [TLSF.new] at hp
  pools_disj := by simp [TLSF.new]
  chain := by intro p hp; simp [TLSF.new] at hp
  align := by intro p hp; simp [TLSF.new] at hp
  noAdj := by intro p hp; simp [TLSF.new] at hp
  link :=
    { seg := fun _ _ => rfl
      outside := fun _ _ _ => rfl
      nodup := fun _ _ => List.nodup_nil
      disjoint := by intro fl sl fl' sl' x hx; simp at hx
      second := by intro fl sl; simp [TLSF.new]
      first := by intro fl; simp [TLSF.new] }
  free_listed := by intro p hp; simp [TLSF.new] at hp
  listed_free := by intro fl sl x hx; simp at hx
  live_block := by intro q n hq; simp at hq
  block_live := by intro p hp; simp [TLSF.new] at hp
  live_nodup := by simp

set_option maxHeartbeats 2000000 in
/-- The method `initialize` on a valid pool: the call returns `true`, the pool is appended,
and its whole space becomes one free block, pushed on the list of its class. -/
theorem init_spec {t : TLSF} {live : List (Nat × Nat)} {blocks : TLSFPool → List Nat}
    {lists : Nat → Nat → List Nat} (hI : Inv t live blocks lists) (pool : TLSFPool)
    (hv : ValidPool t pool) :
    ∃ t', initializePool t pool = some (t', true) ∧
      t'.memoryPools = t.memoryPools ++ [pool] ∧
      Inv t' live (updBlocks blocks pool [pool.memptr])
        (updLists lists (queryBitmapLevelForInsert (pool.capacity - 16))
          (pool.memptr :: lists (queryBitmapLevelForInsert (pool.capacity - 16)).firstLevel
            (queryBitmapLevelForInsert (pool.capacity - 16)).secondLevel)) ∧
      (∀ z, (t'.heap z).size = if z = pool.memptr then pool.capacity - 16 else (t.heap z).size) ∧
      (∀ z, (t'.heap z).free = if z = pool.memptr then true else (t.heap z).free) ∧
      (∀ z, (t'.heap z).prevPhyAlloc =
        if z = pool.memptr then 0 else (t.heap z).prevPhyAlloc) := by
  obtain ⟨hv1, hv2, hv3, hv4⟩ := hv
  have h64 := pow31_lt_pow64
  have hsub : sub64 pool.capacity AllocHeader.TrueSize = pool.capacity - 16 :=
    sub64_eq _ _ (by show 16 ≤ _; omega) (by omega)
  -- the state before the push
  generalize ht0 : (((t.withHeap (t.heap.setSize pool.memptr (pool.capacity - 16))).withHeap
    ((t.withHeap (t.heap.setSize pool.memptr (pool.capacity - 16))).heap.setFree
      pool.memptr true)).withHeap
    (((t.withHeap (t.heap.setSize pool.memptr (pool.capacity - 16))).withHeap
      ((t.withHeap (t.heap.setSize pool.memptr (pool.capacity - 16))).heap.setFree
        pool.memptr true)).heap.setPrevPhyAlloc pool.memptr 0)) = t0
  have hheap0 : t0.heap = ((t.heap.setSize pool.memptr (pool.capacity - 16)).setFree
      pool.memptr true).setPrevPhyAlloc pool.memptr 0 := by rw [← ht0]; rfl
  have hpools0 : t0.memoryPools = t.memoryPools := by rw [← ht0]; rfl
  have hL0 : LinkInv t0 lists := by
    rw [← ht0]
    exact ((hI.link.withHeap _ (LinkEq_setSize _ _ _)).withHeap _ (LinkEq_setFree _ _ _)).withHeap
      _ (LinkEq_setPrevPhy _ _ _)
  have hsize0 : ∀ z, (t0.heap z).size =
      if z = pool.memptr then pool.capacity - 16 else (t.heap z).size := by
    intro z
    rw [hheap0, setPrevPhyAlloc_size, setFree_size, setSize_size, toSize31_eq _ hv3]
  have hfree0 : ∀ z, (t0.heap z).free = if z = pool.memptr then true else (t.heap z).free := by
    intro z
    rw [hheap0, setPrevPhyAlloc_free, setFree_free, setSize_free]
  have hprev0 : ∀ z, (t0.heap z).prevPhyAlloc =
      if z = pool.memptr then 0 else (t.heap z).prevPhyAlloc := by
    intro z
    rw [hheap0, setPrevPhyAlloc_prevPhyAlloc, setFree_prevPhyAlloc, setSize_prevPhyAlloc]
  -- the base of the new pool is not a block of an attached pool
  have hfar : ∀ p ∈ t.memoryPools, ∀ x ∈ blocks p, x ≠ pool.memptr := by
    intro p hp x hx hxe
    have hb := hI.block_bounds hp hx
    have := hv4 p hp
    omega
  have hnew : pool ∉ t.memoryPools := by
    intro hp
    have := hv4 pool hp
    omega
  have hfresh : ∀ fl sl, pool.memptr ∉ lists fl sl := by
    intro fl sl h
    obtain ⟨⟨p, hp, hx⟩, _⟩ := hI.listed_free _ _ _ h
    exact hfar p hp _ hx rfl
  obtain ⟨hLf, hLs, _⟩ := insert_class_spec (pool.capacity - 16) (by omega) hv3
  have hLT : (queryBitmapLevelForInsert (pool.capacity - 16)).inTable = true := by
    rw [inTable_iff]; omega
  obtain ⟨t1, h1, hL1, hP1, hpools1⟩ := push_spec hL0 pool.memptr hv1 hfresh
    (queryBitmapLevelForInsert (pool.capacity - 16)) (by rw [hsize0, if_pos rfl]) hLT
  have hsize1 : ∀ z, (t1.heap z).size =
      if z = pool.memptr then pool.capacity - 16 else (t.heap z).size := by
    intro z; rw [(hP1 z).1, hsize0]
  have hfree1 : ∀ z, (t1.heap z).free = if z = pool.memptr then true else (t.heap z).free := by
    intro z; rw [(hP1 z).2.1, hfree0]
  have hprev1 : ∀ z, (t1.heap z).prevPhyAlloc =
      if z = pool.memptr then 0 else (t.heap z).prevPhyAlloc := by
    intro z; rw [(hP1 z).2.2, hprev0]
  have hmemP : ∀ p, p ∈ t.memoryPools ++ [pool] ↔ p ∈ t.memoryPools ∨ p = pool := by
    intro p; simp
  refine ⟨{ t1 with memoryPools := t1.memoryPools ++ [pool] }, ?_, ?_, ?_, hsize1, hfree1, hprev1⟩
  · unfold initializePool insertFreeAllocation
    simp only [TLSFPool.ptr, hsub, Bool.false_eq_true, if_false]
    rw [ht0, h1]
  · show t1.memoryPools ++ [pool] = _
    rw [hpools1, hpools0]
  · have hpools' : ({ t1 with memoryPools := t1.memoryPools ++ [pool] } : TLSF).memoryPools =
        t.memoryPools ++ [pool] := by
      show t1.memoryPools ++ [pool] = _
      rw [hpools1, hpools0]
    constructor
    · intro p hp
      rw [hpools', hmemP] at hp
      rcases hp with hp | rfl
      · exact hI.pools_ok p hp
      · exact ⟨hv1, hv2, hv3⟩
    · rw [hpools', List.pairwise_append]
      refine ⟨hI.pools_disj, List.pairwise_singleton _ _, ?_⟩
      intro p hp q hq
      have : q = pool := by simpa using hq
      rw [this]
      have := hv4 p hp
      omega
    · intro p hp
      rw [hpools', hmemP] at hp
      simp only [updBlocks_apply]
      split_ifs with hpp
      · subst hpp
        refine ⟨rfl, ?_, ?_, ?_⟩
        · exact (hprev1 _).trans (if_pos rfl)
        · show 16 ≤ (t1.heap p.memptr).size
          rw [hsize1, if_pos rfl]; omega
        · show p.memptr + 16 + (t1.heap p.memptr).size = _
          rw [hsize1, if_pos rfl]; omega
      · rcases hp with hp | hp
        · refine PSeg_congr t.heap _ _ _ _ _ ?_ (hI.chain p hp)
          intro x hx
          have := hfar p hp x hx
          show (t1.heap x).size = _ ∧ (t1.heap x).prevPhyAlloc = _
          rw [hsize1, hprev1, if_neg this, if_neg this]
          exact ⟨rfl, rfl⟩
        · exact absurd hp hpp
    · intro p hp x hx
      rw [hpools', hmemP] at hp
      simp only [updBlocks_apply] at hx
      split_ifs at hx with hpp
      · have : x = pool.memptr := by simpa using hx
        rw [this, hpp]; simp
      · rcases hp with hp | hp
        · exact hI.align p hp x hx
        · exact absurd hp hpp
    · intro p hp
      rw [hpools', hmemP] at hp
      simp only [updBlocks_apply]
      split_ifs with hpp
      · exact List.chain'_singleton _
      · rcases hp with hp | hp
        · refine noAdj_congr t.heap _ _ (hI.noAdj p hp) ?_
          intro x hx hf
          have hf' : (t1.heap x).free = true := hf
          rw [hfree1, if_neg (hfar p hp x hx)] at hf'
          exact hf'
        · exact absurd hp hpp
    · exact { seg := hL1.seg, outside := hL1.outside, nodup := hL1.nodup,
              disjoint := hL1.disjoint, second := hL1.second, first := hL1.first }
    · intro p hp x hx hf
      rw [hpools', hmemP] at hp
      have hf' : (t1.heap x).free = true := hf
      show x ∈ updLists lists _ _ (queryBitmapLevelForInsert (t1.heap x).size).firstLevel
        (queryBitmapLevelForInsert (t1.heap x).size).secondLevel
      rw [mem_updLists_cons]
      simp only [updBlocks_apply] at hx
      split_ifs at hx with hpp
      · have hxe : x = pool.memptr := by simpa using hx
        left
        refine ⟨hxe, ?_⟩
        rw [hsize1, if_pos hxe]
      · rcases hp with hp | hp
        · right
          have hne := hfar p hp x hx
          rw [hfree1, if_neg hne] at hf'
          rw [hsize1, if_neg hne]
          exact hI.free_listed p hp x hx hf'
        · exact absurd hp hpp
    · intro fl sl x hx
      rw [mem_updLists_cons] at hx
      show (∃ p ∈ t1.memoryPools ++ [pool], x ∈ updBlocks blocks pool [pool.memptr] p) ∧
        (t1.heap x).free = true ∧ queryBitmapLevelForInsert (t1.heap x).size = ⟨fl, sl⟩
      rw [hpools1, hpools0]
      rcases hx with ⟨hxe, hc⟩ | hx
      · refine ⟨⟨pool, by simp, ?_⟩, ?_, ?_⟩
        · simp [hxe]
        · rw [hfree1, if_pos hxe]
        · rw [hsize1, if_pos hxe]; exact hc
      · obtain ⟨⟨p, hp, hxp⟩, hxf, hxc⟩ := hI.listed_free fl sl x hx
        have hne := hfar p hp x hxp
        have hpp : p ≠ pool := fun h => hnew (h ▸ hp)
        refine ⟨⟨p, by simp [hp], ?_⟩, ?_, ?_⟩
        · simp only [updBlocks_apply, if_neg hpp]; exact hxp
        · rw [hfree1, if_neg hne]; exact hxf
        · rw [hsize1, if_neg hne]; exact hxc
    · intro q n hq
      obtain ⟨g1, ⟨p, hp, g2⟩, g3, g4, g5, g6⟩ := hI.live_block q n hq
      have hne := hfar p hp _ g2
      have hpp : p ≠ pool := fun h => hnew (h ▸ hp)
      show 16 ≤ q ∧ (∃ p ∈ t1.memoryPools ++ [pool], q - 16 ∈ updBlocks blocks pool [pool.memptr] p) ∧
        (t1.heap (q - 16)).free = false ∧ 1 ≤ n ∧ queryAlignedLevelSize n ≤ (t1.heap (q - 16)).size ∧
        (n ≤ 512 → (queryBitmapLevelForInsert (t1.heap (q - 16)).size).firstLevel = 0 ∧
          (queryBitmapLevelForAlloc n).secondLevel ≤
            (queryBitmapLevelForInsert (t1.heap (q - 16)).size).secondLevel)
      rw [hpools1, hpools0, hfree1, hsize1, if_neg hne, if_neg hne]
      refine ⟨g1, ⟨p, by simp [hp], ?_⟩, g3, g4, g5, g6⟩
      simp only [updBlocks_apply, if_neg hpp]; exact g2
    · intro p hp x hx hf
      rw [hpools', hmemP] at hp
      have hf' : (t1.heap x).free = false := hf
      simp only [updBlocks_apply] at hx
      split_ifs at hx with hpp
      · have hxe : x = pool.memptr := by simpa using hx
        rw [hfree1, if_pos hxe] at hf'
        exact absurd hf' (by simp)
      · rcases hp with hp | hp
        · rw [hfree1, if_neg (hfar p hp x hx)] at hf'
          exact hI.block_live p hp x hx hf'
        · exact absurd hp hpp
    · exact hI.live_nodup

/-- Every reachable state satisfies the invariant, for suitable ghost lists. -/
theorem reachable_inv {t : TLSF} {live : List (Nat × Nat)} (hr : Reachable t live) :
    ∃ blocks lists, Inv t live blocks lists := by
  induction hr with
  | new heap => exact ⟨_, _, new_inv heap⟩
  | init pool r _ hv hinit ih =>
    obtain ⟨blocks, lists, hI⟩ := ih
    obtain ⟨t'', h1, _, h2, _⟩ := init_spec hI pool hv
    rw [h1] at hinit
    obtain ⟨rfl, _⟩ := Prod.mk.inj (Option.some.inj hinit)
    exact ⟨_, _, h2⟩
  | allocSome n p _ h1 h39 ha hp ih =>
    obtain ⟨blocks, lists, hI⟩ := ih
    rcases alloc_spec hI n h1 h39 with ⟨h, _⟩ | ⟨t'', b, C, rest, pool, pre, post, h, _, _, _, _, _,
      _, _, hcase⟩
    · rw [h] at ha
      obtain ⟨_, rfl⟩ := Prod.mk.inj (Option.some.inj ha)
      exact absurd rfl hp
    · rw [h] at ha
      obtain ⟨rfl, rfl⟩ := Prod.mk.inj (Option.some.inj ha)
      rcases hcase with ⟨_, _, hI'⟩ | ⟨_, _, _, _, _, hI'⟩
      · exact ⟨_, _, hI'⟩
      · exact ⟨_, _, hI'⟩
  | allocNull n _ h1 h39 ha ih =>
    obtain ⟨blocks, lists, hI⟩ := ih
    rcases alloc_spec hI n h1 h39 with ⟨h, _⟩ | ⟨t'', b, C, rest, pool, pre, post, h, _⟩
    · rw [h] at ha
      obtain ⟨rfl, _⟩ := Prod.mk.inj (Option.some.inj ha)
      exact ⟨_, _, hI⟩
    · rw [h] at ha
      have := (Prod.mk.inj (Option.some.inj ha)).2
      omega
  | free p n _ hl hf ih =>
    obtain ⟨blocks, lists, hI⟩ := ih
    have hp16 := (hI.live_block p n hl).1
    obtain ⟨b, rfl⟩ : ∃ b, p = b + 16 := ⟨p - 16, by omega⟩
    obtain ⟨pool, pre, post, t'', lists', _, _, h, _, hI', _⟩ := free_spec hI b n hl
    rw [h] at hf
    obtain rfl := Option.some.inj hf
    exact ⟨_, _, hI'⟩

/-- Walking a free list visits exactly the members of the ghost list. -/
theorem DSeg_reach (h : Heap) (l : List Nat) :
    ∀ (prev a : Nat), DSeg h prev a l 0 → ∀ x, FreeReach h a x ↔ x ∈ l := by
  induction l with
  | nil =>
    intro prev a hs x
    have ha : a = 0 := hs
    subst ha
    constructor
    · intro hr
      cases hr with
      | here _ h0 => exact absurd rfl h0
      | next _ _ h0 _ => exact absurd rfl h0
    · intro hx; simp at hx
  | cons y ys ih =>
    intro prev a hs x
    obtain ⟨ha, hy0, _, hrest⟩ := hs
    subst ha
    constructor
    · intro hr
      cases hr with
      | here _ _ => exact List.mem_cons_self _ _
      | next _ _ _ hn => exact List.mem_cons_of_mem _ ((ih _ _ hrest x).mp hn)
    · intro hx
      rcases List.mem_cons.mp hx with rfl | hx
      · exact FreeReach.here _ hy0
      · exact FreeReach.next _ _ hy0 ((ih _ _ hrest x).mpr hx)

/-- Under the index invariant, being on the free list of a class is membership in its
ghost list. -/
theorem LinkInv.onFreeList_iff {t : TLSF} {lists : Nat → Nat → List Nat} (hL : LinkInv t lists)
    (L : BitmapLevel) (x : Nat) : OnFreeList t L x ↔ x ∈ lists L.firstLevel L.secondLevel :=
  DSeg_reach _ _ _ _ (hL.seg _ _) x

/-- With no live pointer, every pool consists of one free block that spans it. -/
theorem Inv.idle {t : TLSF} {blocks : TLSFPool → List Nat} {lists : Nat → Nat → List Nat}
    (hI : Inv t [] blocks lists) {pool : TLSFPool} (hp : pool ∈ t.memoryPools) :
    blocks pool = [pool.memptr] ∧ (t.heap pool.memptr).size = pool.capacity - 16 ∧
      (t.heap pool.memptr).free = true ∧ (t.heap pool.memptr).prevPhyAlloc = 0 := by
  have hfree : ∀ x ∈ blocks pool, (t.heap x).free = true := by
    intro x hx
    by_contra hc
    obtain ⟨n, hn⟩ := hI.block_live pool hp x hx (by simpa using hc)
    simp at hn
  have hc := hI.chain pool hp
  have hok := hI.pools_ok pool hp
  have hna := hI.noAdj pool hp
  cases hb : blocks pool with
  | nil =>
    rw [hb] at hc
    have : pool.memptr = pool.memptr + pool.capacity := hc
    omega
  | cons x xs =>
    cases hxs : xs with
    | nil =>
      rw [hb, hxs] at hc
      obtain ⟨h1, h2, h3, h4⟩ := hc
      have h4' : x + 16 + (t.heap x).size = pool.memptr + pool.capacity := h4
      subst h1
      refine ⟨rfl, by omega, hfree _ (by rw [hb]; simp), h2⟩
    | cons y ys =>
      rw [hb, hxs] at hna
      have := (List.chain'_cons.mp hna).1
      exact absurd ⟨hfree x (by rw [hb]; simp), hfree y (by rw [hb, hxs]; simp)⟩ this

/-- The walk of `dump` over a pool that consists of one block visits that block only. -/
theorem walkPool_single (h : Heap) (pool : TLSFPool) (hc : 32 ≤ pool.capacity)
    (hs : (h pool.memptr).size = pool.capacity - 16) (fuel : Nat) :
    walkPool h pool pool.memptr (fuel + 1) = [pool.memptr] := by
  have h1 : pool.check_next_contains pool.memptr = true := by
    rw [check_next_contains_iff]; omega
  have h2 : ¬ pool.check_next_contains (h.nextPhyAllocation pool.memptr) = true := by
    rw [check_next_contains_iff]
    show ¬ pool.memptr + 16 + (h pool.memptr).size < _
    rw [hs]; omega
  cases fuel with
  | zero => simp [walkPool, h1]
  | succ k => simp [walkPool, h1, h2]

/-- The null pointer starts no free list. -/
theorem FreeReach_zero (h : Heap) (x : Nat) : ¬ FreeReach h 0 x := by
  intro hr
  cases hr with
  | here _ h0 => exact absurd rfl h0
  | next _ _ h0 _ => exact absurd rfl h0

/-- A list without repetition whose members all equal `a`, and that has `a`, is `[a]`. -/
theorem eq_singleton_of_forall (l : List Nat) (a : Nat) (hn : l.Nodup) (hm : a ∈ l)
    (ha : ∀ x ∈ l, x = a) : l = [a] := by
  cases l with
  | nil => simp at hm
  | cons x xs =>
    have hx : x = a := ha x (List.mem_cons_self _ _)
    subst hx
    cases xs with
    | nil => rfl
    | cons y ys =>
      have hy : y = x := ha y (by simp)
      subst hy
      simp at hn

/-- With no live pointer and one pool, the ghost free lists are determined: the block that
spans the pool is the only member of the list of its class. -/
theorem Inv.idle_lists {t : TLSF} {blocks : TLSFPool → List Nat} {lists : Nat → Nat → List Nat}
    (hI : Inv t [] blocks lists) {pool : TLSFPool} (hp : t.memoryPools = [pool]) (fl sl : Nat) :
    lists fl sl =
      if fl = (queryBitmapLevelForInsert (pool.capacity - 16)).firstLevel ∧
        sl = (queryBitmapLevelForInsert (pool.capacity - 16)).secondLevel
      then [pool.memptr] else [] := by
  have hpm : pool ∈ t.memoryPools := by rw [hp]; exact List.mem_singleton_self _
  obtain ⟨hb, hs, hf, _⟩ := hI.idle hpm
  have hall : ∀ fl sl x, x ∈ lists fl sl →
      x = pool.memptr ∧ queryBitmapLevelForInsert (pool.capacity - 16) = ⟨fl, sl⟩ := by
    intro fl sl x hx
    obtain ⟨⟨p, hpp, hxp⟩, _, hc⟩ := hI.listed_free fl sl x hx
    rw [hp] at hpp
    have : p = pool := by simpa using hpp
    subst this
    rw [hb] at hxp
    have hxe : x = p.memptr := by simpa using hxp
    subst hxe
    rw [hs] at hc
    exact ⟨rfl, hc⟩
  split_ifs with hc
  · have hmem : pool.memptr ∈ lists fl sl := by
      have := hI.free_listed pool hpm pool.memptr (by rw [hb]; simp) hf
      rw [hs, ← hc.1, ← hc.2] at this
      exact this
    exact eq_singleton_of_forall _ _ (hI.link.nodup fl sl) hmem (fun x hx => (hall fl sl x hx).1)
  · rw [List.eq_nil_iff_forall_not_mem]
    intro x hx
    have := (hall fl sl x hx).2
    rw [this] at hc
    exact hc ⟨rfl, rfl⟩

/-- The state after `initialize` in the scenarios. -/
theorem demoInit_eq (capacity : Nat) (h0 : 32 ≤ capacity) (h1 : capacity - 16 < 2 ^ 31) :
    initializePool (TLSF.new zeroHeap) (demoPool capacity) = some (demoInit capacity, true) := by
  obtain ⟨t, ht, _⟩ := init_spec (new_inv zeroHeap) (demoPool capacity)
    ⟨(by decide : (4096 : Nat) ≠ 0), h0, h1, fun q hq => absurd hq (List.not_mem_nil q)⟩
  unfold demoInit
  rw [ht]
  rfl

/-- The state after `initialize` in the scenarios is reachable. -/
theorem demoInit_reach (capacity : Nat) (h0 : 32 ≤ capacity) (h1 : capacity - 16 < 2 ^ 31) :
    Reachable (demoInit capacity) [] :=
  Reachable.init (demoPool capacity) true (Reachable.new zeroHeap)
    ⟨(by decide : (4096 : Nat) ≠ 0), h0, h1, fun q hq => absurd hq (List.not_mem_nil q)⟩ (demoInit_eq capacity h0 h1)

theorem demo1_eq : alloc (demoInit 256) 128 = some (demo1, 4112) := rfl

theorem demo2_eq : alloc demo1 48 = some (demo2, 4256) := rfl

theorem demo3_eq : alloc demo2 56 = some (demo2, 0) := rfl

theorem demo4_eq : alloc demo2 16 = some (demo4, 4320) := rfl

theorem demo5_eq : alloc demo4 55 = some (demo4, 0) := rfl

theorem demo6_eq : TLSF.free demo4 4256 = some demo6 := rfl

theorem demo7_eq : TLSF.free demo6 4320 = some demo7 := rfl

theorem demo8_eq : TLSF.free demo7 4112 = some demo8 := rfl

theorem demo1_reach : Reachable demo1 [(4112, 128)] :=
  Reachable.allocSome 128 4112 (demoInit_reach 256 (by decide) (by decide)) (by decide)
    (by decide) demo1_eq (by decide)

theorem demo2_reach : Reachable demo2 [(4256, 48), (4112, 128)] :=
  Reachable.allocNull 56
    (Reachable.allocSome 48 4256 demo1_reach (by decide) (by decide) demo2_eq (by decide))
    (by decide) (by decide) demo3_eq

theorem demo4_reach : Reachable demo4 [(4320, 16), (4256, 48), (4112, 128)] :=
  Reachable.allocNull 55
    (Reachable.allocSome 16 4320 demo2_reach (by decide) (by decide) demo4_eq (by decide))
    (by decide) (by decide) demo5_eq

theorem demo7_reach : Reachable demo7 [(4112, 128)] :=
  Reachable.free 4320 16 (Reachable.free 4256 48 demo4_reach (by decide) demo6_eq) (by decide)
    demo7_eq

theorem demo576_reach : Reachable demo576 [(4656, 16), (4112, 528)] :=
  Reachable.allocSome 16 4656
    (Reachable.allocSome 528 4112 (demoInit_reach 576 (by decide) (by decide)) (by decide)
      (by decide) rfl (by decide))
    (by decide) (by decide) rfl (by decide)

/-! ## The claims -/

/-- Two classes with the same indices are equal. -/
theorem BitmapLevel.eq_of (a b : BitmapLevel) (h1 : a.firstLevel = b.firstLevel)
    (h2 : a.secondLevel = b.secondLevel) : a = b := by
  cases a; cases b; simp_all

/-- Two attached pools that contain the same address are the same pool. -/
theorem Inv.pool_of_contains {t : TLSF} {live : List (Nat × Nat)} {blocks : TLSFPool → List Nat}
    {lists : Nat → Nat → List Nat} (hI : Inv t live blocks lists) {p q : TLSFPool}
    (hp : p ∈ t.memoryPools) (hq : q ∈ t.memoryPools) {x : Nat} (hx : p.contains x = true)
    (hy : q.contains x = true) : p = q := by
  by_contra hne
  have := pools_disjoint_of_mem _ hI.pools_disj p q hp hq hne
  rw [contains_iff] at hx hy
  omega

/-- Claim C2.  In every reachable state, `alloc(n)` with `1 ≤ n < 2 ^ 31` returns (no
assertion fails), and when it returns a non-null pointer `p`, the block whose header is
at `p - 16` had `size ≥ queryAlignedLevelSize(n)` before the call, and after it has
`free = 0` and `size ≥ queryAlignedLevelSize(n) ≥ n`. -/
theorem alloc_block_large_enough {t : TLSF} {live : List (Nat × Nat)} (hr : Reachable t live)
    (n : Nat) (h1 : 1 ≤ n) (h31 : n < 2 ^ 31) :
    (∃ r, alloc t n = some r) ∧
      ∀ t' p, alloc t n = some (t', p) → p ≠ 0 →
        queryAlignedLevelSize n ≤ (t.heap (p - 16)).size ∧
        (t'.heap (p - 16)).free = false ∧
        queryAlignedLevelSize n ≤ (t'.heap (p - 16)).size ∧ n ≤ queryAlignedLevelSize n := by
  obtain ⟨blocks, lists, hI⟩ := reachable_inv hr
  have h39 : n ≤ 2 ^ 39 := by
    have : (2:Nat) ^ 31 ≤ 2 ^ 39 := by norm_num
    omega
  have hn := (alloc_class_spec n h1 h39).2.2
  rcases alloc_spec hI n h1 h39 with ⟨h, _⟩ | ⟨t2, b, C, rest, pool, pre, post, h, _, _, _, _,
    _, _, hsz, hcase⟩
  · refine ⟨⟨_, h⟩, ?_⟩
    intro t' p ha hp
    rw [h] at ha
    exact absurd (Prod.mk.inj (Option.some.inj ha)).2.symm hp
  · refine ⟨⟨_, h⟩, ?_⟩
    intro t' p ha hp
    rw [h] at ha
    obtain ⟨rfl, rfl⟩ := Prod.mk.inj (Option.some.inj ha)
    have hI' : ∃ blocks' lists', Inv t2 ((b + 16, n) :: live) blocks' lists' := by
      rcases hcase with ⟨_, _, hI'⟩ | ⟨_, _, _, _, _, hI'⟩
      · exact ⟨_, _, hI'⟩
      · exact ⟨_, _, hI'⟩
    obtain ⟨blocks', lists', hI'⟩ := hI'
    obtain ⟨_, _, g3, _, g5, _⟩ := hI'.live_block (b + 16) n (List.mem_cons_self _ _)
    have e : b + 16 - 16 = b := by omega
    rw [e] at g3 g5 ⊢
    exact ⟨hsz, g3, g5, hn⟩

/-- Witness of C2: `alloc(128)` on the freshly initialised pool of 256 bytes. -/
theorem alloc_block_large_enough_witness :
    Reachable (demoInit 256) [] ∧ alloc (demoInit 256) 128 = some (demo1, 4112) ∧
      (demo1.heap (4112 - 16)).free = false ∧
      queryAlignedLevelSize 128 ≤ (demo1.heap (4112 - 16)).size ∧
      128 ≤ queryAlignedLevelSize 128 :=
  ⟨demoInit_reach 256 (by decide) (by decide), demo1_eq,
    ((alloc_block_large_enough (demoInit_reach 256 (by decide) (by decide)) 128 (by decide)
      (by decide)).2 demo1 4112 demo1_eq (by decide)).2⟩

/-- Claim C3.  In every reachable state, the payload ranges `[p, p + size(p))` of two
distinct live pointers are disjoint, each range lies inside `[base + 16, base + capacity)`
of an attached pool, and a non-null pointer returned by `alloc` (for a size
`1 ≤ n ≤ 2 ^ 39`, for which `alloc` keeps its table indices in range) is not a live
pointer. -/
theorem live_payloads_disjoint {t : TLSF} {live : List (Nat × Nat)} (hr : Reachable t live) :
    (∀ p n q m, (p, n) ∈ live → (q, m) ∈ live → p ≠ q →
      p + (t.heap (p - 16)).size ≤ q ∨ q + (t.heap (q - 16)).size ≤ p) ∧
    (∀ p n, (p, n) ∈ live → ∃ pool ∈ t.memoryPools,
      pool.memptr + 16 ≤ p ∧ p + (t.heap (p - 16)).size ≤ pool.memptr + pool.capacity) ∧
    (∀ n t' p, 1 ≤ n → n ≤ 2 ^ 39 → alloc t n = some (t', p) → p ≠ 0 →
      ∀ m, (p, m) ∉ live) := by
  obtain ⟨blocks, lists, hI⟩ := reachable_inv hr
  refine ⟨?_, ?_, ?_⟩
  · intro p n q m hp hq hne
    obtain ⟨hp16, ⟨pp, hpp, hpb⟩, _⟩ := hI.live_block p n hp
    obtain ⟨hq16, ⟨pq, hpq, hqb⟩, _⟩ := hI.live_block q m hq
    have hbp := hI.block_bounds hpp hpb
    have hbq := hI.block_bounds hpq hqb
    by_cases hsame : pp = pq
    · subst hsame
      obtain ⟨pre, post, hblocks⟩ := List.append_of_mem hpb
      obtain ⟨_, _, _, c4, c5, _, _⟩ := hI.chain_at hpp hblocks
      rw [hblocks] at hqb
      rcases List.mem_append.mp hqb with h | h
      · have := c4 _ h
        right; omega
      · rcases List.mem_cons.mp h with h | h
        · omega
        · have := c5 _ h
          left; omega
    · have := pools_disjoint_of_mem _ hI.pools_disj pp pq hpp hpq hsame
      omega
  · intro p n hp
    obtain ⟨hp16, ⟨pp, hpp, hpb⟩, _⟩ := hI.live_block p n hp
    have hbp := hI.block_bounds hpp hpb
    exact ⟨pp, hpp, by omega, by omega⟩
  · intro n t' p h1 h39 ha hp m hm
    rcases alloc_spec hI n h1 h39 with ⟨h, _⟩ | ⟨t2, b, C, rest, pool, pre, post, h, _, _, _, _,
      _, _, _, hcase⟩
    · rw [h] at ha
      exact absurd (Prod.mk.inj (Option.some.inj ha)).2.symm hp
    · rw [h] at ha
      obtain ⟨rfl, rfl⟩ := Prod.mk.inj (Option.some.inj ha)
      have hnd : (((b + 16, n) :: live).map Prod.fst).Nodup := by
        rcases hcase with ⟨_, _, hI'⟩ | ⟨_, _, _, _, _, hI'⟩
        · exact hI'.live_nodup
        · exact hI'.live_nodup
      rw [List.map_cons, List.nodup_cons] at hnd
      exact hnd.1 (List.mem_map.mpr ⟨(b + 16, m), hm, rfl⟩)

/-- Witness of C3: the pool of 256 bytes after `alloc(128)` and `alloc(48)`, with the
live pointers 4112 and 4256. -/
theorem live_payloads_disjoint_witness :
    Reachable demo2 [(4256, 48), (4112, 128)] ∧
      (4256 + (demo2.heap (4256 - 16)).size ≤ 4112 ∨
        4112 + (demo2.heap (4112 - 16)).size ≤ 4256) :=
  ⟨demo2_reach, (live_payloads_disjoint demo2_reach).1 4256 48 4112 128 (by decide) (by decide)
    (by decide)⟩

/-- Claim C4.  In every reachable state, every non-null pointer `p` returned by `alloc`
(for a size `1 ≤ n ≤ 2 ^ 39`, for which `alloc` keeps its table indices in range)
satisfies `base + 16 ≤ p < base + capacity` for an attached pool, and `p - base` is a
multiple of 16. -/
theorem alloc_pointer_in_pool {t : TLSF} {live : List (Nat × Nat)} (hr : Reachable t live)
    (n : Nat) (h1 : 1 ≤ n) (h39 : n ≤ 2 ^ 39) (t' : TLSF) (p : Nat)
    (ha : alloc t n = some (t', p)) (hp : p ≠ 0) :
    ∃ pool ∈ t.memoryPools, pool.memptr + 16 ≤ p ∧ p < pool.memptr + pool.capacity ∧
      (p - pool.memptr) % 16 = 0 := by
  obtain ⟨blocks, lists, hI⟩ := reachable_inv hr
  rcases alloc_spec hI n h1 h39 with ⟨h, _⟩ | ⟨t2, b, C, rest, pool, pre, post, h, _, _, _, hpool,
    hblocks, _⟩
  · rw [h] at ha
    exact absurd (Prod.mk.inj (Option.some.inj ha)).2.symm hp
  · rw [h] at ha
    obtain ⟨rfl, rfl⟩ := Prod.mk.inj (Option.some.inj ha)
    have hbin : b ∈ blocks pool := by rw [hblocks]; simp
    have hb := hI.block_bounds hpool hbin
    have hal := hI.align pool hpool b hbin
    exact ⟨pool, hpool, by omega, by omega, by omega⟩

/-- Witness of C4: `alloc(128)` on the freshly initialised pool of 256 bytes returns
4112. -/
theorem alloc_pointer_in_pool_witness :
    Reachable (demoInit 256) [] ∧ alloc (demoInit 256) 128 = some (demo1, 4112) ∧
      ∃ pool ∈ (demoInit 256).memoryPools, pool.memptr + 16 ≤ 4112 ∧
        4112 < pool.memptr + pool.capacity ∧ (4112 - pool.memptr) % 16 = 0 :=
  ⟨demoInit_reach 256 (by decide) (by decide), demo1_eq,
    alloc_pointer_in_pool (demoInit_reach 256 (by decide) (by decide)) 128 (by decide)
      (by norm_num) demo1 4112 demo1_eq (by decide)⟩

/-- Claim C5, amended.  In every reachable state and for `1 ≤ n < 2 ^ 31`, `alloc(n)`
returns, and when it returns null the state is unchanged, no block is on the free list of
`class_for_alloc(n)`, and no block is on the free list of a class `(f, s)` where `f` is
the first level of the class that follows `class_for_alloc(n)` and `s` is at or after
its second level. -/
theorem alloc_null_classes_empty {t : TLSF} {live : List (Nat × Nat)} (hr : Reachable t live)
    (n : Nat) (h1 : 1 ≤ n) (h31 : n < 2 ^ 31) :
    (∃ r, alloc t n = some r) ∧
      ∀ t', alloc t n = some (t', 0) →
        t' = t ∧ (∀ x, ¬ OnFreeList t (queryBitmapLevelForAlloc n) x) ∧
        ∀ s, (nextLevel (queryBitmapLevelForAlloc n)).secondLevel ≤ s → s < 32 →
          ∀ x, ¬ OnFreeList t ⟨(nextLevel (queryBitmapLevelForAlloc n)).firstLevel, s⟩ x := by
  obtain ⟨blocks, lists, hI⟩ := reachable_inv hr
  have h39 : n ≤ 2 ^ 39 := by
    have : (2:Nat) ^ 31 ≤ 2 ^ 39 := by norm_num
    omega
  rcases alloc_spec hI n h1 h39 with ⟨h, hnil, hrest⟩ | ⟨t2, b, C, rest, pool, pre, post, h, _⟩
  · refine ⟨⟨_, h⟩, ?_⟩
    intro t' ha
    rw [h] at ha
    refine ⟨(Prod.mk.inj (Option.some.inj ha)).1.symm, ?_, ?_⟩
    · intro x hx
      rw [hI.link.onFreeList_iff, hnil] at hx
      exact absurd hx (List.not_mem_nil x)
    · intro s hs1 hs2 x hx
      rw [hI.link.onFreeList_iff, hrest s hs1 hs2] at hx
      exact absurd hx (List.not_mem_nil x)
  · refine ⟨⟨_, h⟩, ?_⟩
    intro t' ha
    rw [h] at ha
    have := (Prod.mk.inj (Option.some.inj ha)).2
    omega

/-- Witness of C5: `alloc(528)` on the freshly initialised pool of 544 bytes returns
null. -/
theorem alloc_null_classes_empty_witness :
    Reachable (demoInit 544) [] ∧ alloc (demoInit 544) 528 = some (demoInit 544, 0) ∧
      ∀ x, ¬ OnFreeList (demoInit 544) (queryBitmapLevelForAlloc 528) x :=
  ⟨demoInit_reach 544 (by decide) (by decide), rfl,
    ((alloc_null_classes_empty (demoInit_reach 544 (by decide) (by decide)) 528 (by decide)
      (by decide)).2 (demoInit 544) rfl).2.1⟩

/-- Counterexample to C5 as stated: on the freshly initialised pool of 544 bytes,
`alloc(528)` returns null although the block at 4096, of size 528, is on the free list
of the class `(0, 31)` and `class_size(class_for_alloc(528)) = 528`. -/
theorem alloc_null_despite_fit :
    Reachable (demoInit 544) [] ∧ alloc (demoInit 544) 528 = some (demoInit 544, 0) ∧
      OnFreeList (demoInit 544) ⟨0, 31⟩ 4096 ∧ queryAlignedLevelSize 528 = 528 ∧
      ((demoInit 544).heap 4096).size = 528 := by
  refine ⟨demoInit_reach 544 (by decide) (by decide), rfl, ?_, by decide, by decide⟩
  have h : (demoInit 544).allocationLinkTable 0 31 = 4096 := by decide
  unfold OnFreeList
  rw [h]
  exact FreeReach.here 4096 (by decide)

/-- Claim C6, amended.  For every pool with a non-null base, `capacity ≥ 32` and
`capacity - 16 < 2 ^ 31`, on the freshly initialised single-pool allocator: when
`capacity - 16 ≤ 512` and `capacity - 16` is a multiple of 16, `alloc(capacity - 16)`
returns `base + 16` and an immediately following `alloc(capacity - 16)` returns null;
otherwise the first `alloc(capacity - 16)` already returns null and leaves the state as
it is. -/
theorem whole_pool_alloc (heap : Heap) (pool : TLSFPool) (h0 : pool.memptr ≠ 0)
    (h32 : 32 ≤ pool.capacity) (h31 : pool.capacity - 16 < 2 ^ 31) :
    ∃ t1, initializePool (TLSF.new heap) pool = some (t1, true) ∧
      (pool.capacity - 16 ≤ 512 ∧ (pool.capacity - 16) % 16 = 0 →
        ∃ t2, alloc t1 (pool.capacity - 16) = some (t2, pool.memptr + 16) ∧
          alloc t2 (pool.capacity - 16) = some (t2, 0)) ∧
      (¬ (pool.capacity - 16 ≤ 512 ∧ (pool.capacity - 16) % 16 = 0) →
        alloc t1 (pool.capacity - 16) = some (t1, 0)) := by
  obtain ⟨t1, ht1, hpools, hI, _⟩ := init_spec (new_inv heap) pool
    ⟨h0, h32, h31, fun q hq => absurd hq (List.not_mem_nil q)⟩
  have hpools' : t1.memoryPools = [pool] := hpools
  generalize updLists (fun _ _ => ([] : List Nat))
    (queryBitmapLevelForInsert (pool.capacity - 16))
    (pool.memptr :: (fun _ _ => ([] : List Nat))
      (queryBitmapLevelForInsert (pool.capacity - 16)).firstLevel
      (queryBitmapLevelForInsert (pool.capacity - 16)).secondLevel) = lists1 at hI
  generalize updBlocks (fun _ => ([] : List Nat)) pool [pool.memptr] = blocks1 at hI
  have hlists := fun fl sl => hI.idle_lists hpools' fl sl
  have h39 : pool.capacity - 16 ≤ 2 ^ 39 := by
    have : (2:Nat) ^ 31 ≤ 2 ^ 39 := by norm_num
    omega
  have hcons : ∀ (C : BitmapLevel) b rest, lists1 C.firstLevel C.secondLevel = b :: rest →
      C = queryBitmapLevelForInsert (pool.capacity - 16) ∧ b = pool.memptr ∧ rest = [] := by
    intro C b rest h
    rw [hlists] at h
    split_ifs at h with hc
    · obtain ⟨rfl, rfl⟩ := List.cons.inj h
      exact ⟨BitmapLevel.eq_of _ _ hc.1 hc.2, rfl, rfl⟩
  refine ⟨t1, ht1, ?_, ?_⟩
  · rintro ⟨h512, hmod⟩
    have hLL := insert_eq_alloc (pool.capacity - 16) (by omega) h512 hmod
    rcases alloc_spec hI (pool.capacity - 16) (by omega) h39 with
      ⟨_, hnil, _⟩ | ⟨t2, b, C, rest, pool', pre, post, h, _, hl, _, _, _, _, _, hcase⟩
    · rw [hLL, hlists, if_pos ⟨rfl, rfl⟩] at hnil
      exact absurd hnil (by simp)
    · obtain ⟨hC, hb, hrest⟩ := hcons C b rest hl
      subst hb hrest
      have hI2 : Inv t2 [(pool.memptr + 16, pool.capacity - 16)] blocks1
          (updLists lists1 C []) := by
        rcases hcase with ⟨_, _, hI'⟩ | ⟨hne, _⟩
        · exact hI'
        · exact absurd (hC.trans hLL.symm) hne
      have hempty : ∀ fl sl, updLists lists1 C [] fl sl = [] := by
        intro fl sl
        rw [updLists_apply]
        split_ifs with hc
        · rfl
        · rw [hlists]
          split_ifs with hc'
          · rw [hC] at hc
            exact absurd hc' hc
          · rfl
      refine ⟨t2, h, ?_⟩
      rcases alloc_spec hI2 (pool.capacity - 16) (by omega) h39 with
        ⟨h', _⟩ | ⟨t3, b', C', rest', pool'', pre', post', _, _, hl', _⟩
      · exact h'
      · rw [hempty] at hl'
        exact absurd hl' (by simp)
  · intro hne
    have hlt := insert_lt_alloc (pool.capacity - 16) (by omega) h31 hne
    obtain ⟨hLf, hLs, _⟩ := alloc_class_spec (pool.capacity - 16) (by omega) h39
    obtain ⟨_, _, hSlt, _⟩ := nextLevel_spec _ hLf hLs
    rcases alloc_spec hI (pool.capacity - 16) (by omega) h39 with
      ⟨h, _⟩ | ⟨t2, b, C, rest, pool', pre, post, _, _, hl, hC', _⟩
    · exact h
    · obtain ⟨hC, _, _⟩ := hcons C b rest hl
      exfalso
      rcases hC' with hC' | ⟨_, hC'⟩
      · rw [← hC, hC'] at hlt
        unfold BitmapLevel.lt at hlt
        omega
      · rw [hC] at hC'
        unfold BitmapLevel.lt at hlt hSlt
        unfold BitmapLevel.le at hC'
        omega

/-- Witness of C6: the pool of 256 bytes at address 4096. -/
theorem whole_pool_alloc_witness :
    (demoPool 256).memptr ≠ 0 ∧ 32 ≤ (demoPool 256).capacity ∧
      (demoPool 256).capacity - 16 < 2 ^ 31 ∧
      ∃ t1 t2, initializePool (TLSF.new zeroHeap) (demoPool 256) = some (t1, true) ∧
        alloc t1 240 = some (t2, 4112) ∧ alloc t2 240 = some (t2, 0) :=
  ⟨by decide, by decide, by decide, by
    obtain ⟨t1, h1, h2, _⟩ :=
      whole_pool_alloc zeroHeap (demoPool 256) (by decide) (by decide) (by decide)
    obtain ⟨t2, h3, h4⟩ := h2 ⟨by decide, by decide⟩
    exact ⟨t1, t2, h1, h3, h4⟩⟩

/-- Counterexample to C6 as stated: for the pool of 544 bytes, `capacity ≥ 32` and
`capacity - 16 < 2 ^ 31`, and on the freshly initialised allocator `alloc(528)` returns
null. -/
theorem whole_pool_alloc_fails :
    32 ≤ (demoPool 544).capacity ∧ (demoPool 544).capacity - 16 < 2 ^ 31 ∧
      initializePool (TLSF.new zeroHeap) (demoPool 544) = some (demoInit 544, true) ∧
      alloc (demoInit 544) ((demoPool 544).capacity - 16) = some (demoInit 544, 0) :=
  ⟨by decide, by decide, rfl, rfl⟩

/-- Claim C7, amended.  In every reachable state, if `p` was returned by `alloc(n)` with
`n ≤ 512` and is live, and neither physical neighbour of its block is free (so that
`free(p)` merges nothing), then `free(p)` succeeds and an immediately following
`alloc(n)` returns a non-null pointer. -/
theorem free_then_alloc_small {t : TLSF} {live : List (Nat × Nat)} (hr : Reachable t live)
    (p n : Nat) (hl : (p, n) ∈ live) (h512 : n ≤ 512) (hmp : ¬ mergesPrev t (p - 16))
    (hmn : ∀ pool ∈ t.memoryPools, pool.contains (p - 16) = true →
      ¬ mergesNext t pool (p - 16)) :
    ∃ t1 t2 q, TLSF.free t p = some t1 ∧ alloc t1 n = some (t2, q) ∧ q ≠ 0 := by
  obtain ⟨blocks, lists, hI⟩ := reachable_inv hr
  obtain ⟨hp16, _, _, h1, _, hsmall⟩ := hI.live_block p n hl
  obtain ⟨b, rfl⟩ : ∃ b, p = b + 16 := ⟨p - 16, by omega⟩
  have eb : b + 16 - 16 = b := by omega
  rw [eb] at hmp hmn hsmall
  obtain ⟨pool, pre, post, t1, lists1, hpool, hblocks, hfree, _, hI1, _, _, _, hmem, _⟩ :=
    free_spec hI b n hl
  have hbin : b ∈ blocks pool := by rw [hblocks]; simp
  have hbb := hI.block_bounds hpool hbin
  have hmn' := hmn pool hpool hbb.2.2.2.2.2
  have hstart : mergedStart t b = b := by unfold mergedStart; rw [if_neg hmp]
  have hsz : mergedSize t pool b = (t.heap b).size := by
    unfold mergedSize; rw [if_neg hmp, if_neg hmn']; omega
  rw [hstart, hsz] at hmem
  obtain ⟨hfl, hsl⟩ := hsmall h512
  have hT := (inTable_iff _).mp (hI.class_inTable hpool hbin).1
  have hbmem : b ∈ lists1 0 (queryBitmapLevelForInsert (t.heap b).size).secondLevel := by
    rw [hmem]
    left
    refine ⟨rfl, ?_⟩
    rw [← hfl]
  have h39 : n ≤ 2 ^ 39 := by
    have : (512:Nat) ≤ 2 ^ 39 := by norm_num
    omega
  have hL := alloc_small n h1 h512
  rcases alloc_spec hI1 n h1 h39 with ⟨_, hnil, hrest⟩ | ⟨t2, b', C, rest, pool', pre', post', h, _⟩
  · exfalso
    rw [hL] at hnil hrest hsl
    simp only at hnil hrest hsl
    by_cases hc : (n + 15) / 16 - 1 = (queryBitmapLevelForInsert (t.heap b).size).secondLevel
    · rw [hc, List.eq_nil_iff_forall_not_mem] at hnil
      exact hnil b hbmem
    · have hlt : (n + 15) / 16 - 1 < 31 := by omega
      have hnext := (nextLevel_spec ⟨0, (n + 15) / 16 - 1⟩ (by simp) (by simp; omega)).2.2.2 hlt
      rw [hnext] at hrest
      have := hrest _ (by simp only; omega) hT.2
      simp only at this
      rw [List.eq_nil_iff_forall_not_mem] at this
      exact this b hbmem
  · exact ⟨t1, t2, b' + 16, hfree, h, by omega⟩

/-- Witness of C7: in the scenario on the pool of 256 bytes, the pointer 4256 returned
by `alloc(48)` lies between two blocks in use. -/
theorem free_then_alloc_small_witness :
    Reachable demo4 [(4320, 16), (4256, 48), (4112, 128)] ∧ ¬ mergesPrev demo4 (4256 - 16) ∧
      ∃ t1 t2 q, TLSF.free demo4 4256 = some t1 ∧ alloc t1 48 = some (t2, q) ∧ q ≠ 0 :=
  ⟨demo4_reach, by decide,
    free_then_alloc_small demo4_reach 4256 48 (by decide) (by decide) (by decide) (by decide)⟩

/-- Counterexample to C7 as stated: on the pool of 576 bytes, `p1 = alloc(528)` and
`alloc(16)` succeed, `free(p1)` succeeds, and the following `alloc(528)` returns null. -/
theorem free_then_alloc_fails :
    Reachable demo576 [(4656, 16), (4112, 528)] ∧
      TLSF.free demo576 4112 = some (afterFree demo576 4112) ∧
      alloc (afterFree demo576 4112) 528 = some (afterFree demo576 4112, 0) :=
  ⟨demo576_reach, rfl, rfl⟩

set_option maxHeartbeats 1000000 in
/-- Claim C8, amended.  In every reachable state and for `1 ≤ n < 2 ^ 31`, when `alloc(n)`
returns a non-null pointer with block `b`.  If no block is on the free list of
`class_for_alloc(n)`, so that `alloc(n)` takes `b` from the list of a later class, and
`b.size - n' ≥ 32` for `n' = class_size(class_for_alloc(n))`, then afterwards
`b.size = n'` and the block `r` at `b + 16 + n'` has `size = old b.size - n' - 16`,
`free = 1`, `prev_phys = b`, is on the free list of `class_for_insert(r.size)`, and the
physical successor of `r` inside the pool, if any, has `prev_phys = r`.  If some block is
on the free list of `class_for_alloc(n)`, then `b` is the head of that list and is handed
out whole: no header changes its size or its `prev_phys`, and only `b` changes its `free`
bit. -/
theorem split_postcondition {t : TLSF} {live : List (Nat × Nat)} (hr : Reachable t live)
    (n : Nat) (h1 : 1 ≤ n) (h31 : n < 2 ^ 31) (t' : TLSF) (p : Nat)
    (ha : alloc t n = some (t', p)) (hp : p ≠ 0) :
    ((∀ x, ¬ OnFreeList t (queryBitmapLevelForAlloc n) x) →
      queryAlignedLevelSize n + 32 ≤ (t.heap (p - 16)).size →
      (t'.heap (p - 16)).size = queryAlignedLevelSize n ∧
        (t'.heap (p + queryAlignedLevelSize n)).size =
          (t.heap (p - 16)).size - queryAlignedLevelSize n - 16 ∧
        (t'.heap (p + queryAlignedLevelSize n)).free = true ∧
        (t'.heap (p + queryAlignedLevelSize n)).prevPhyAlloc = p - 16 ∧
        OnFreeList t' (queryBitmapLevelForInsert (t'.heap (p + queryAlignedLevelSize n)).size)
          (p + queryAlignedLevelSize n) ∧
        ∀ pool ∈ t.memoryPools, pool.contains (p - 16) = true →
          p + queryAlignedLevelSize n + 16 + (t'.heap (p + queryAlignedLevelSize n)).size <
            pool.memptr + pool.capacity →
          (t'.heap (p + queryAlignedLevelSize n + 16 +
            (t'.heap (p + queryAlignedLevelSize n)).size)).prevPhyAlloc =
            p + queryAlignedLevelSize n) ∧
    ((∃ x, OnFreeList t (queryBitmapLevelForAlloc n) x) →
      p - 16 = t.head (queryBitmapLevelForAlloc n) ∧
        ∀ z, (t'.heap z).size = (t.heap z).size ∧
          (t'.heap z).prevPhyAlloc = (t.heap z).prevPhyAlloc ∧
          (t'.heap z).free = if z = p - 16 then false else (t.heap z).free) := by
  obtain ⟨blocks, lists, hI⟩ := reachable_inv hr
  have h39 : n ≤ 2 ^ 39 := by
    have : (2:Nat) ^ 31 ≤ 2 ^ 39 := by norm_num
    omega
  rcases alloc_spec hI n h1 h39 with ⟨h, _⟩ | ⟨t2, b, C, rest, pool, pre, post, h, _, hlC, hC, hpool,
    hblocks, _, _, hcase⟩
  · rw [h] at ha
    exact absurd (Prod.mk.inj (Option.some.inj ha)).2.symm hp
  · rw [h] at ha
    obtain ⟨rfl, rfl⟩ := Prod.mk.inj (Option.some.inj ha)
    have eb : b + 16 - 16 = b := by omega
    rw [eb]
    have hbin : b ∈ blocks pool := by rw [hblocks]; simp
    have hbb := hI.block_bounds hpool hbin
    constructor
    · intro hempty hbig
      generalize hn' : queryAlignedLevelSize n = n' at *
      rcases hcase with ⟨hc, _⟩ | ⟨_, _, hsize, hfree, hprev, hI'⟩
      · exfalso
        rcases hc with hc | hc
        · apply hempty b
          rw [hI.link.onFreeList_iff, ← hc, hlC]
          exact List.mem_cons_self _ _
        · omega
      · have hrs : (t2.heap (b + 16 + n')).size = (t.heap b).size - n' - 16 := by
          rw [hsize, if_neg (by omega), if_pos rfl]
        refine ⟨?_, hrs, ?_, ?_, ?_, ?_⟩
        · rw [hsize, if_pos rfl]
        · rw [hfree, if_neg (by omega), if_pos rfl]
        · rw [hprev, if_pos rfl]
        · rw [hI'.link.onFreeList_iff, hrs, mem_updLists_cons]
          exact Or.inl ⟨rfl, rfl⟩
        · intro pool' hpool' hcont hlt
          have hpp : pool' = pool := hI.pool_of_contains hpool' hpool hcont hbb.2.2.2.2.2
          subst hpp
          rw [hrs] at hlt ⊢
          have e : b + 16 + n' + 16 + ((t.heap b).size - n' - 16) = b + 16 + (t.heap b).size := by
            omega
          rw [e] at hlt ⊢
          rw [hprev, if_neg (by omega), if_pos ⟨rfl, hlt⟩]
    · rintro ⟨x, hx⟩
      rw [hI.link.onFreeList_iff] at hx
      have hCeq : C = queryBitmapLevelForAlloc n := by
        rcases hC with hC | ⟨hnil, _⟩
        · exact hC
        · rw [hnil] at hx
          exact absurd hx (List.not_mem_nil x)
      have hseg := hI.link.seg C.firstLevel C.secondLevel
      rw [hlC] at hseg
      have hhead : t.head C = b := hseg.1
      refine ⟨by rw [← hCeq, hhead], ?_⟩
      rcases hcase with ⟨_, hP, _⟩ | ⟨hne, _⟩
      · intro z
        obtain ⟨e1, e2, e3⟩ := hP z
        rw [setFree_size] at e1
        rw [setFree_free] at e2
        rw [setFree_prevPhyAlloc] at e3
        exact ⟨e1, e3, e2⟩
      · exact absurd hCeq hne

/-- Witness of C8: `alloc(128)` on the freshly initialised pool of 256 bytes finds the list
of `class_for_alloc(128)` empty and splits the block of 240 bytes into a block of 128
bytes and a free block of 96 bytes at 4240; `alloc(240)` finds the block of 240 bytes at
the head of the list of `class_for_alloc(240)` and hands it out whole. -/
theorem split_postcondition_witness :
    Reachable (demoInit 256) [] ∧ alloc (demoInit 256) 128 = some (demo1, 4112) ∧
      queryAlignedLevelSize 128 + 32 ≤ ((demoInit 256).heap (4112 - 16)).size ∧
      (demo1.heap (4112 - 16)).size = queryAlignedLevelSize 128 ∧
      (demo1.heap (4112 + queryAlignedLevelSize 128)).size =
        ((demoInit 256).heap (4112 - 16)).size - queryAlignedLevelSize 128 - 16 ∧
      alloc (demoInit 256) 240 = some (afterAlloc (demoInit 256) 240, 4112) ∧
      OnFreeList (demoInit 256) (queryBitmapLevelForAlloc 240) 4096 ∧
      4112 - 16 = (demoInit 256).head (queryBitmapLevelForAlloc 240) ∧
      ((afterAlloc (demoInit 256) 240).heap 4096).size = ((demoInit 256).heap 4096).size := by
  have hr := demoInit_reach 256 (by decide) (by decide)
  have hempty : ∀ x, ¬ OnFreeList (demoInit 256) (queryBitmapLevelForAlloc 128) x := by
    intro x hx
    have h : (demoInit 256).allocationLinkTable (queryBitmapLevelForAlloc 128).firstLevel
        (queryBitmapLevelForAlloc 128).secondLevel = 0 := by decide
    unfold OnFreeList at hx
    rw [h] at hx
    exact FreeReach_zero _ _ hx
  have hon : OnFreeList (demoInit 256) (queryBitmapLevelForAlloc 240) 4096 := by
    have h : (demoInit 256).allocationLinkTable (queryBitmapLevelForAlloc 240).firstLevel
        (queryBitmapLevelForAlloc 240).secondLevel = 4096 := by decide
    unfold OnFreeList
    rw [h]
    exact FreeReach.here 4096 (by decide)
  have h1 := (split_postcondition hr 128 (by decide) (by decide) demo1 4112 demo1_eq
    (by decide)).1 hempty (by decide)
  have h2 := (split_postcondition hr 240 (by decide) (by decide)
    (afterAlloc (demoInit 256) 240) 4112 rfl (by decide)).2 ⟨4096, hon⟩
  exact ⟨hr, demo1_eq, by decide, h1.1, h1.2.1, rfl, hon, h2.1, (h2.2 4096).1⟩

/-- Counterexample to C8 as stated: on the freshly initialised pool of 1104 bytes,
`alloc(1056)` takes the block of 1088 bytes off the free list of `class_for_alloc(1056)`;
`n' = 1056` and `1088 - 1056 ≥ 32`, and afterwards the block still has size 1088. -/
theorem first_fit_not_split :
    Reachable (demoInit 1104) [] ∧
      alloc (demoInit 1104) 1056 = some (afterAlloc (demoInit 1104) 1056, 4112) ∧
      OnFreeList (demoInit 1104) (queryBitmapLevelForAlloc 1056) 4096 ∧
      queryAlignedLevelSize 1056 = 1056 ∧ ((demoInit 1104).heap 4096).size = 1088 ∧
      ((afterAlloc (demoInit 1104) 1056).heap 4096).size = 1088 := by
  refine ⟨demoInit_reach 1104 (by decide) (by decide), rfl, ?_, by decide, by decide, by decide⟩
  have h : (demoInit 1104).allocationLinkTable (queryBitmapLevelForAlloc 1056).firstLevel
      (queryBitmapLevelForAlloc 1056).secondLevel = 4096 := by decide
  unfold OnFreeList
  rw [h]
  exact FreeReach.here 4096 (by decide)

/-- Claim C9.  Coalesce postcondition of `free(p)` for a live pointer `p` with block
`b = p - 16` in a reachable state: the call succeeds; the resulting free block starts at
`b.prev_phys` if that block was free and otherwise at `b` (`mergedStart`), absorbs the
physical successor of `b` if it lies inside the pool and was free, has size equal to the
sum of the sizes of the merged blocks plus 16 for every absorbed header (`mergedSize`),
is on the free list of `class_for_insert` of that size, every absorbed block is on no
free list, and the first block after the merged block inside the pool has `prev_phys`
equal to the merged block. -/
theorem coalesce_postcondition {t : TLSF} {live : List (Nat × Nat)} (hr : Reachable t live)
    (p n : Nat) (hl : (p, n) ∈ live) :
    ∃ t', TLSF.free t p = some t' ∧
      ∀ pool ∈ t.memoryPools, pool.contains (p - 16) = true →
        (t'.heap (mergedStart t (p - 16))).free = true ∧
        (t'.heap (mergedStart t (p - 16))).size = mergedSize t pool (p - 16) ∧
        OnFreeList t' (queryBitmapLevelForInsert (mergedSize t pool (p - 16)))
          (mergedStart t (p - 16)) ∧
        (mergesPrev t (p - 16) → ∀ L, ¬ OnFreeList t' L (p - 16)) ∧
        (mergesNext t pool (p - 16) →
          ∀ L, ¬ OnFreeList t' L (p - 16 + 16 + (t.heap (p - 16)).size)) ∧
        (mergedStart t (p - 16) + 16 + mergedSize t pool (p - 16) <
            pool.memptr + pool.capacity →
          (t'.heap (mergedStart t (p - 16) + 16 + mergedSize t pool (p - 16))).prevPhyAlloc =
            mergedStart t (p - 16)) := by
  obtain ⟨blocks, lists, hI⟩ := reachable_inv hr
  obtain ⟨hp16, _, hbfree, _⟩ := hI.live_block p n hl
  obtain ⟨b, rfl⟩ : ∃ b, p = b + 16 := ⟨p - 16, by omega⟩
  have eb : b + 16 - 16 = b := by omega
  rw [eb] at hbfree ⊢
  obtain ⟨pool, pre, post, t', lists', hpool, hblocks, hfree, _, hI', hsize, hfree', hprev, hmem,
    hlt, hle, _⟩ := free_spec hI b n hl
  have hbin : b ∈ blocks pool := by rw [hblocks]; simp
  have hbb := hI.block_bounds hpool hbin
  have hnotlisted : ∀ fl sl, b ∉ lists fl sl := by
    intro fl sl h
    have := (hI.listed_free _ _ _ h).2.1
    rw [hbfree] at this
    exact absurd this (by simp)
  refine ⟨t', hfree, ?_⟩
  intro pool' hpool' hcont
  have hpp : pool' = pool := hI.pool_of_contains hpool' hpool hcont hbb.2.2.2.2.2
  subst hpp
  refine ⟨?_, ?_, ?_, ?_, ?_, ?_⟩
  · rw [hfree']
    split_ifs with hc
    · rfl
    · unfold mergedStart at hc ⊢
      by_cases hmp : mergesPrev t b
      · rw [if_pos hmp]; exact hmp.2
      · rw [if_neg hmp] at hc; exact absurd rfl hc
  · rw [hsize, if_pos rfl]
  · rw [hI'.link.onFreeList_iff, hmem]
    exact Or.inl ⟨rfl, rfl⟩
  · intro hmp L hx
    rw [hI'.link.onFreeList_iff, hmem] at hx
    rcases hx with ⟨h1, _⟩ | ⟨h1, _⟩
    · have := hlt hmp
      unfold mergedStart at h1
      rw [if_pos hmp] at h1
      omega
    · exact hnotlisted _ _ h1
  · intro hmn L hx
    rw [hI'.link.onFreeList_iff, hmem] at hx
    rcases hx with ⟨h1, _⟩ | ⟨_, _, h3⟩
    · omega
    · exact h3 ⟨hmn, rfl⟩
  · intro h
    rw [hprev, if_pos ⟨rfl, h⟩]

/-- Witness of C9: the scenario on the pool of 256 bytes.  After `alloc(128)`, `alloc(48)`,
`alloc(56)`, `alloc(16)`, `alloc(55)`, `free(p2)` and `free(p4)`, the call `free(p1)`
yields a single free block of 240 bytes, and `alloc(64)` succeeds. -/
theorem coalesce_postcondition_witness :
    Reachable demo7 [(4112, 128)] ∧ TLSF.free demo7 4112 = some demo8 ∧
      mergedStart demo7 (4112 - 16) = 4096 ∧ (demo8.heap 4096).size = 240 ∧
      walkPool demo8.heap (demoPool 256) 4096 16 = [4096] ∧
      (alloc demo8 64).map Prod.snd = some 4112 := by
  obtain ⟨t', h1, h2⟩ := coalesce_postcondition demo7_reach 4112 128 (by decide)
  rw [demo8_eq] at h1
  obtain rfl := Option.some.inj h1
  have h3 := (h2 (demoPool 256) (by decide) (by decide)).2.1
  have h4 : mergedStart demo7 (4112 - 16) = 4096 := by decide
  have h5 : mergedSize demo7 (demoPool 256) (4112 - 16) = 240 := by decide
  rw [h4, h5] at h3
  exact ⟨demo7_reach, demo8_eq, h4, h3, by decide, by decide⟩

/-- Claim C10, amended.  For every pool with a non-null base, `capacity ≥ 32` and
`capacity - 16 < 2 ^ 31`, `initialize` on a newly constructed allocator returns `true` and
leaves exactly one block in the pool: at the base, with `size = capacity - 16`, `free = 1`,
`prev_phys = null` and `prev_free = next_free = null`.  That block is the head of the
list of `class_for_insert(capacity - 16)`, every other head is null, exactly that
class has its bit set in the second-level bitmaps and exactly its first level has its bit
set in the first-level bitmap.  For `capacity = 256` the block has size 240 and the
class is `(0, 14)`. -/
theorem initialize_postcondition (heap : Heap) (pool : TLSFPool) (h0 : pool.memptr ≠ 0)
    (h32 : 32 ≤ pool.capacity) (h31 : pool.capacity - 16 < 2 ^ 31) :
    ∃ t, initializePool (TLSF.new heap) pool = some (t, true) ∧ t.memoryPools = [pool] ∧
      (∀ fuel, walkPool t.heap pool pool.memptr (fuel + 1) = [pool.memptr]) ∧
      (t.heap pool.memptr).size = pool.capacity - 16 ∧
      (t.heap pool.memptr).free = true ∧
      (t.heap pool.memptr).prevPhyAlloc = 0 ∧
      (t.heap pool.memptr).prevFreeAlloc = 0 ∧
      (t.heap pool.memptr).nextFreeAlloc = 0 ∧
      (∀ fl sl, t.allocationLinkTable fl sl =
        if fl = (queryBitmapLevelForInsert (pool.capacity - 16)).firstLevel ∧
          sl = (queryBitmapLevelForInsert (pool.capacity - 16)).secondLevel
        then pool.memptr else 0) ∧
      (∀ fl sl, (t.secondLevelBitmap fl).testBit sl = true ↔
        fl = (queryBitmapLevelForInsert (pool.capacity - 16)).firstLevel ∧
          sl = (queryBitmapLevelForInsert (pool.capacity - 16)).secondLevel) ∧
      (∀ fl, t.firstLevelBitmap.testBit fl = true ↔
        fl = (queryBitmapLevelForInsert (pool.capacity - 16)).firstLevel) ∧
      (pool.capacity = 256 →
        (t.heap pool.memptr).size = 240 ∧
          queryBitmapLevelForInsert (pool.capacity - 16) = ⟨0, 14⟩) := by
  obtain ⟨t, ht, hpools, hI, hsize, hfree, hprev⟩ := init_spec (new_inv heap) pool
    ⟨h0, h32, h31, fun q hq => absurd hq (List.not_mem_nil q)⟩
  have hpools' : t.memoryPools = [pool] := hpools
  have hlists := fun fl sl => hI.idle_lists hpools' fl sl
  have hs : (t.heap pool.memptr).size = pool.capacity - 16 := by rw [hsize, if_pos rfl]
  have hseg := hI.link.seg (queryBitmapLevelForInsert (pool.capacity - 16)).firstLevel
    (queryBitmapLevelForInsert (pool.capacity - 16)).secondLevel
  rw [hlists, if_pos ⟨rfl, rfl⟩] at hseg
  obtain ⟨_, _, hpf, hnf⟩ := hseg
  refine ⟨t, ht, hpools', fun fuel => walkPool_single _ _ h32 hs fuel, hs, ?_, ?_, hpf, hnf,
    ?_, ?_, ?_, ?_⟩
  · rw [hfree, if_pos rfl]
  · rw [hprev, if_pos rfl]
  · intro fl sl
    rw [hI.link.head_eq, hlists]
    split_ifs <;> rfl
  · intro fl sl
    rw [hI.link.second, hlists]
    split_ifs with hc
    · simp [hc]
    · simp [hc]
  · intro fl
    rw [hI.link.first]
    constructor
    · rintro ⟨sl, hsl⟩
      rw [hlists] at hsl
      split_ifs at hsl with hc
      · exact hc.1
      · exact absurd rfl hsl
    · intro hfl
      refine ⟨(queryBitmapLevelForInsert (pool.capacity - 16)).secondLevel, ?_⟩
      rw [hlists, if_pos ⟨hfl, rfl⟩]
      simp
  · intro hc
    rw [hs, hc]
    exact ⟨rfl, by decide⟩

/-- Witness of C10: the pool of 256 bytes at address 4096. -/
theorem initialize_postcondition_witness :
    (demoPool 256).memptr ≠ 0 ∧ 32 ≤ (demoPool 256).capacity ∧
      (demoPool 256).capacity - 16 < 2 ^ 31 ∧
      ∃ t, initializePool (TLSF.new zeroHeap) (demoPool 256) = some (t, true) ∧
        (t.heap 4096).size = 240 ∧ t.allocationLinkTable 0 14 = 4096 :=
  ⟨by decide, by decide, by decide, by
    obtain ⟨t, h1, _, _, _, _, _, _, _, h9, _, _, h12⟩ :=
      initialize_postcondition zeroHeap (demoPool 256) (by decide) (by decide) (by decide)
    refine ⟨t, h1, (h12 rfl).1, ?_⟩
    rw [h9, (h12 rfl).2]
    rfl⟩

/-- Counterexample to C10 as stated: a pool of `2 ^ 31 + 32` bytes has `capacity ≥ 32`,
`initialize` returns `true`, and the 31-bit `size` field of the block holds 16, not
`capacity - 16`. -/
theorem initialize_truncates_size :
    32 ≤ (demoPool 2147483680).capacity ∧
      initializePool (TLSF.new zeroHeap) (demoPool 2147483680) =
        some (demoInit 2147483680, true) ∧
      ((demoInit 2147483680).heap (demoPool 2147483680).memptr).size = 16 ∧
      (demoPool 2147483680).capacity - 16 = 2147483664 :=
  ⟨by decide, rfl, by decide, by decide⟩

/-! ## Reallocation and further lemmas -/

/-- The minimum size of a class in closed form, packaged for goals about rounding. -/
theorem level_fact_round (fl sl n g v : Nat) (hfl : fl ≤ 31) (hsl : sl ≤ 31)
    (h : (if fl = 0 then 16 * (sl + 1) else 2 ^ (fl + 8) + 2 ^ (fl + 3) * (sl + 1)) = v * g ∧
      n ≤ v * g ∧ v * g < n + g) :
    queryLevelSize ⟨fl, sl⟩ = v * g ∧ n ≤ queryLevelSize ⟨fl, sl⟩ ∧
      queryLevelSize ⟨fl, sl⟩ < n + g := by
  rw [levelSize_eq fl sl hfl hsl, h.1]
  exact ⟨rfl, h.2.1, h.2.2⟩

/-- The walk of `dump` depends on the `size` fields only. -/
theorem walkPool_congr (h h' : Heap) (pool : TLSFPool) (hs : ∀ x, (h' x).size = (h x).size)
    (fuel : Nat) : ∀ a, walkPool h' pool a fuel = walkPool h pool a fuel := by
  induction fuel with
  | zero => intro a; rfl
  | succ k ih =>
    intro a
    simp only [walkPool, Heap.nextPhyAllocation, hs, ih]

/-- The walk of `dump` over a segment of the physical chain visits its blocks. -/
theorem walkPool_seg (h : Heap) (pool : TLSFPool) (l : List Nat) :
    ∀ (prev a fuel : Nat), PSeg h prev a l (pool.memptr + pool.capacity) → l.length ≤ fuel →
      walkPool h pool a fuel = l := by
  induction l with
  | nil =>
    intro prev a fuel hs _
    have ha : a = pool.memptr + pool.capacity := hs
    cases fuel with
    | zero => rfl
    | succ k =>
      have : ¬ pool.check_next_contains a = true := by rw [check_next_contains_iff]; omega
      simp [walkPool, this]
  | cons x xs ih =>
    intro prev a fuel hs hf
    obtain ⟨ha, _, h16, hrest⟩ := hs
    subst ha
    have hb := (PSeg_bounds _ _ _ _ _ hrest).1
    cases fuel with
    | zero => simp at hf
    | succ k =>
      have : pool.check_next_contains a = true := by rw [check_next_contains_iff]; omega
      simp only [walkPool, this, if_true]
      rw [show h.nextPhyAllocation a = a + 16 + (h a).size from rfl,
        ih _ _ _ hrest (by simpa using hf)]

/-- Under the invariant, the walk of `dump` over an attached pool, with at least as many
steps as the pool has bytes, visits exactly the blocks of the pool. -/
theorem Inv.walkPool_eq {t : TLSF} {live : List (Nat × Nat)} {blocks : TLSFPool → List Nat}
    {lists : Nat → Nat → List Nat} (hI : Inv t live blocks lists) {pool : TLSFPool}
    (hp : pool ∈ t.memoryPools) (fuel : Nat) (hf : pool.capacity ≤ fuel) :
    walkPool t.heap pool pool.memptr fuel = blocks pool := by
  have hc := hI.chain pool hp
  refine walkPool_seg _ _ _ _ _ _ hc ?_
  -- every block takes at least 32 bytes of the pool
  have key : ∀ (l : List Nat) (prev a e : Nat), PSeg t.heap prev a l e → a + 32 * l.length ≤ e := by
    intro l
    induction l with
    | nil => intro prev a e hs; have : a = e := hs; simp; omega
    | cons x xs ih =>
      intro prev a e hs
      obtain ⟨ha, _, h16, hrest⟩ := hs
      have := ih _ _ _ hrest
      simp only [List.length_cons]
      omega
  have := key _ _ _ _ hc
  omega

theorem demoTwo_reach256 : Reachable (demoTwo 256) [] :=
  Reachable.init ⟨8192, 256⟩ true (demoInit_reach 48 (by decide) (by decide))
    ⟨by decide, by decide, by decide, by decide⟩ rfl

theorem demoTwo_reach544 : Reachable (demoTwo 544) [] :=
  Reachable.init ⟨8192, 544⟩ true (demoInit_reach 48 (by decide) (by decide))
    ⟨by decide, by decide, by decide, by decide⟩ rfl

theorem withFreeBits_size (h : Heap) (F : Nat → Bool) (x : Nat) :
    (h.withFreeBits F x).size = (h x).size := rfl

theorem withFreeBits_prevPhyAlloc (h : Heap) (F : Nat → Bool) (x : Nat) :
    (h.withFreeBits F x).prevPhyAlloc = (h x).prevPhyAlloc := rfl

theorem withFreeBits_prevFreeAlloc (h : Heap) (F : Nat → Bool) (x : Nat) :
    (h.withFreeBits F x).prevFreeAlloc = (h x).prevFreeAlloc := rfl

theorem withFreeBits_nextFreeAlloc (h : Heap) (F : Nat → Bool) (x : Nat) :
    (h.withFreeBits F x).nextFreeAlloc = (h x).nextFreeAlloc := rfl

theorem withFreeBits_free (h : Heap) (F : Nat → Bool) (x : Nat) :
    (h.withFreeBits F x).free = F x := rfl

theorem withFreeBits_nextPhy (h : Heap) (F : Nat → Bool) (x : Nat) :
    (h.withFreeBits F).nextPhyAllocation x = h.nextPhyAllocation x := rfl

theorem withFreeBits_setSize (h : Heap) (F : Nat → Bool) (a v : Nat) :
    (h.withFreeBits F).setSize a v = (h.setSize a v).withFreeBits F := by
  funext x
  simp only [Heap.setSize, Heap.withFreeBits]
  split_ifs <;> rfl

theorem withFreeBits_setPrevPhyAlloc (h : Heap) (F : Nat → Bool) (a v : Nat) :
    (h.withFreeBits F).setPrevPhyAlloc a v = (h.setPrevPhyAlloc a v).withFreeBits F := by
  funext x
  simp only [Heap.setPrevPhyAlloc, Heap.withFreeBits]
  split_ifs <;> rfl

theorem withFreeBits_setPrevFreeAlloc (h : Heap) (F : Nat → Bool) (a v : Nat) :
    (h.withFreeBits F).setPrevFreeAlloc a v = (h.setPrevFreeAlloc a v).withFreeBits F := by
  funext x
  simp only [Heap.setPrevFreeAlloc, Heap.withFreeBits]
  split_ifs <;> rfl

theorem withFreeBits_setNextFreeAlloc (h : Heap) (F : Nat → Bool) (a v : Nat) :
    (h.withFreeBits F).setNextFreeAlloc a v = (h.setNextFreeAlloc a v).withFreeBits F := by
  funext x
  simp only [Heap.setNextFreeAlloc, Heap.withFreeBits]
  split_ifs <;> rfl

theorem withFreeBits_setFree (h : Heap) (F : Nat → Bool) (a : Nat) (v : Bool) :
    (h.withFreeBits F).setFree a v =
      (h.setFree a v).withFreeBits (fun x => if x = a then v else F x) := by
  funext x
  simp only [Heap.setFree, Heap.withFreeBits]
  split_ifs <;> rfl

theorem withHeap_heap (t : TLSF) (h : Heap) : (t.withHeap h).heap = h := rfl

theorem withHeap_withHeap (t : TLSF) (h k : Heap) : (t.withHeap h).withHeap k = t.withHeap k :=
  rfl

theorem TLSF.withFreeBits_heap (t : TLSF) (F : Nat → Bool) :
    (t.withFreeBits F).heap = t.heap.withFreeBits F := rfl

theorem TLSF.withFreeBits_withHeap (t : TLSF) (F : Nat → Bool) (h : Heap) :
    (t.withFreeBits F).withHeap h = t.withHeap h := rfl

theorem TLSF.withHeap_withFreeBits (t : TLSF) (F : Nat → Bool) (h : Heap) :
    t.withHeap (h.withFreeBits F) = (t.withHeap h).withFreeBits F := rfl

theorem TLSF.withFreeBits_setHead (t : TLSF) (F : Nat → Bool) (L : BitmapLevel) (v : Nat) :
    (t.withFreeBits F).setHead L v = (t.setHead L v).withFreeBits F := rfl

theorem TLSF.withFreeBits_head (t : TLSF) (F : Nat → Bool) (L : BitmapLevel) :
    (t.withFreeBits F).head L = t.head L := rfl

theorem TLSF.withFreeBits_clearLevelBit (t : TLSF) (F : Nat → Bool) (L : BitmapLevel) :
    clearLevelBit (t.withFreeBits F) L = (clearLevelBit t L).withFreeBits F := rfl

theorem TLSF.withFreeBits_setLevelBit (t : TLSF) (F : Nat → Bool) (L : BitmapLevel) :
    setLevelBit (t.withFreeBits F) L = (setLevelBit t L).withFreeBits F := rfl

theorem TLSF.withFreeBits_queryFreeStatus (t : TLSF) (F : Nat → Bool) (L : BitmapLevel) :
    queryFreeStatus (t.withFreeBits F) L = queryFreeStatus t L := rfl

theorem TLSF.withFreeBits_locatePool (t : TLSF) (F : Nat → Bool) (a : Nat) :
    locatePool (t.withFreeBits F) a = locatePool t a := rfl

/-- Replacing the `free` bits commutes with the removal of a header from the list of a
class: the removal neither reads nor writes a `free` bit. -/
theorem remove_withFreeBits (t : TLSF) (F : Nat → Bool) (a : Nat) (L : BitmapLevel) :
    removeFreeAllocationAndUpdateBitmapLevel (t.withFreeBits F) a L =
      (removeFreeAllocationAndUpdateBitmapLevel t a L).map (fun u => u.withFreeBits F) := by
  unfold removeFreeAllocationAndUpdateBitmapLevel
  by_cases hT : L.inTable = true
  · rw [if_neg (not_not.mpr hT), if_neg (not_not.mpr hT)]
    simp only [TLSF.withFreeBits_heap, withFreeBits_nextFreeAlloc, withFreeBits_prevFreeAlloc]
    by_cases h1 : (t.heap a).prevFreeAlloc ≠ 0 <;> by_cases h2 : (t.heap a).nextFreeAlloc ≠ 0 <;>
      simp only [h1, h2, if_true, if_false, not_true_eq_false, not_false_eq_true, ne_eq] <;>
      simp only [TLSF.withFreeBits_withHeap, TLSF.withFreeBits_setHead, TLSF.withFreeBits_head,
        TLSF.withFreeBits_heap, withFreeBits_setNextFreeAlloc, withFreeBits_setPrevFreeAlloc,
        TLSF.withHeap_withFreeBits, TLSF.withFreeBits_clearLevelBit] <;>
      split_ifs <;> rfl
  · rw [if_pos hT, if_pos hT]
    rfl

theorem removeSize_withFreeBits (t : TLSF) (F : Nat → Bool) (a : Nat) :
    removeFreeAllocationAndUpdateBitmap (t.withFreeBits F) a =
      (removeFreeAllocationAndUpdateBitmap t a).map (fun u => u.withFreeBits F) :=
  remove_withFreeBits t F a _

theorem pop_withFreeBits (t : TLSF) (F : Nat → Bool) (L : BitmapLevel) :
    queryAllocationWithFreeLevel (t.withFreeBits F) L =
      (queryAllocationWithFreeLevel t L).map (fun r => (r.1.withFreeBits F, r.2)) := by
  unfold queryAllocationWithFreeLevel
  by_cases hT : L.inTable = true
  · rw [if_neg (not_not.mpr hT), if_neg (not_not.mpr hT)]
    simp only [TLSF.withFreeBits_heap, withFreeBits_nextFreeAlloc, TLSF.withFreeBits_head]
    by_cases h0 : t.head L = 0
    · rw [if_pos h0, if_pos h0]
      rfl
    · rw [if_neg h0, if_neg h0]
      simp only [TLSF.withFreeBits_withHeap, TLSF.withFreeBits_setHead, TLSF.withFreeBits_head,
        TLSF.withFreeBits_heap, withFreeBits_setPrevFreeAlloc,
        TLSF.withHeap_withFreeBits, TLSF.withFreeBits_clearLevelBit]
      split_ifs <;> rfl
  · rw [if_pos hT, if_pos hT]
    rfl

theorem push_withFreeBits (t : TLSF) (F : Nat → Bool) (a : Nat) :
    pushFreeAllocation (t.withFreeBits F) a =
      (pushFreeAllocation t a).map (fun u => u.withFreeBits F) := by
  unfold pushFreeAllocation
  simp only [TLSF.withFreeBits_heap, withFreeBits_size]
  by_cases hT : (queryBitmapLevelForInsert (t.heap a).size).inTable = true
  · rw [if_neg (not_not.mpr hT), if_neg (not_not.mpr hT)]
    simp only [TLSF.withFreeBits_withHeap, TLSF.withFreeBits_setHead, TLSF.withFreeBits_head,
      TLSF.withFreeBits_heap, withFreeBits_setPrevFreeAlloc, withFreeBits_setNextFreeAlloc,
      TLSF.withHeap_withFreeBits, TLSF.withFreeBits_setLevelBit]
    split_ifs <;> rfl
  · rw [if_pos hT, if_pos hT]
    rfl

theorem findSecondLevel_withFreeBits (t : TLSF) (F : Nat → Bool) (fl : Nat) (count : Nat) :
    ∀ sl, findSecondLevel (t.withFreeBits F) fl sl count = findSecondLevel t fl sl count := by
  induction count with
  | zero => intro sl; rfl
  | succ c ih =>
    intro sl
    simp only [findSecondLevel, TLSF.withFreeBits_queryFreeStatus, ih]

theorem findFirstLevel_withFreeBits (t : TLSF) (F : Nat → Bool) (count : Nat) :
    ∀ b fl, findFirstLevel (t.withFreeBits F) b fl count = findFirstLevel t b fl count := by
  induction count with
  | zero => intro b fl; rfl
  | succ c ih =>
    intro b fl
    simp only [findFirstLevel, findSecondLevel_withFreeBits, ih]
    rfl

theorem findLevelForSplit_withFreeBits (t : TLSF) (F : Nat → Bool) (L : BitmapLevel) :
    findLevelForSplit (t.withFreeBits F) L = findLevelForSplit t L :=
  findFirstLevel_withFreeBits t F _ _ _

theorem insertFalse_withFreeBits (t : TLSF) (F : Nat → Bool) (a : Nat) :
    insertFreeAllocation (t.withFreeBits F) a false none =
      (insertFreeAllocation t a false none).map (fun u => u.withFreeBits F) :=
  push_withFreeBits t F a

/-- A split on the state with replaced `free` bits is the split on the state itself,
with the bit of the new block set in the replacement. -/
theorem splitAllocation_withFreeBits (t : TLSF) (F : Nat → Bool) (L : BitmapLevel) (n : Nat) :
    ∃ G, splitAllocation (t.withFreeBits F) L n =
      (splitAllocation t L n).map (fun r => (r.1.withFreeBits G, r.2)) := by
  unfold splitAllocation
  rw [pop_withFreeBits]
  cases h1 : queryAllocationWithFreeLevel t L with
  | none => exact ⟨F, rfl⟩
  | some r1 =>
    obtain ⟨t1, target⟩ := r1
    simp only [Option.map_some']
    by_cases h0 : target = 0
    · rw [if_pos h0, if_pos h0]; exact ⟨F, rfl⟩
    rw [if_neg h0, if_neg h0]
    simp only [TLSF.withFreeBits_heap, withFreeBits_size]
    by_cases hs : ¬ ((t1.heap target).size ≥ n)
    · rw [if_pos hs, if_pos hs]; exact ⟨F, rfl⟩
    rw [if_neg hs, if_neg hs, remove_withFreeBits]
    cases h2 : removeFreeAllocationAndUpdateBitmapLevel t1 target L with
    | none => exact ⟨F, rfl⟩
    | some t2 =>
      simp only [Option.map_some', TLSF.withFreeBits_heap, withFreeBits_size]
      by_cases hw : sub64 (t2.heap target).size n < AllocHeader.TrueSize + MinimiumAllocationSize
      · rw [if_pos hw, if_pos hw]; exact ⟨F, rfl⟩
      rw [if_neg hw, if_neg hw, TLSF.withFreeBits_locatePool]
      cases h3 : locatePool t2 target with
      | none => exact ⟨F, rfl⟩
      | some pool =>
        refine ⟨fun x => if x = (t2.heap.setSize target n).nextPhyAllocation target then true
          else F x, ?_⟩
        simp only [Option.map_some', withHeap_heap, withHeap_withHeap, TLSF.withFreeBits_withHeap,
          withFreeBits_setSize, withFreeBits_nextPhy, withFreeBits_setFree,
          withFreeBits_setPrevPhyAlloc]
        split_ifs <;> rw [TLSF.withHeap_withFreeBits, insertFalse_withFreeBits] <;>
          cases insertFreeAllocation _ _ false none <;> rfl

/-- The search of `queryFreeAllocation` on the state with replaced `free` bits. -/
theorem queryFreeAllocation_withFreeBits (t : TLSF) (F : Nat → Bool) (n : Nat) :
    ∃ G, queryFreeAllocation (t.withFreeBits F) n =
      (queryFreeAllocation t n).map (fun r => (r.1.withFreeBits G, r.2)) := by
  unfold queryFreeAllocation
  simp only [TLSF.withFreeBits_queryFreeStatus, findLevelForSplit_withFreeBits]
  cases h1 : queryFreeStatus t (queryBitmapLevelForAlloc n) with
  | none => exact ⟨F, rfl⟩
  | some b =>
    cases b with
    | true => exact ⟨F, pop_withFreeBits t F _⟩
    | false =>
      simp only []
      cases h2 : findLevelForSplit t (if inc16 (queryBitmapLevelForAlloc n).secondLevel ≥ SLC
          then ⟨inc16 (queryBitmapLevelForAlloc n).firstLevel, 0⟩
          else ⟨(queryBitmapLevelForAlloc n).firstLevel,
            inc16 (queryBitmapLevelForAlloc n).secondLevel⟩) with
      | none => exact ⟨F, rfl⟩
      | some S =>
        simp only []
        by_cases hv : ¬ S.valid = true
        · rw [if_pos hv, if_pos hv]; exact ⟨F, rfl⟩
        · rw [if_neg hv, if_neg hv]
          exact splitAllocation_withFreeBits t F S _

/-- The call `alloc` never reads a `free` bit: on the state with replaced `free` bits it
takes the same steps and returns the same pointer. -/
theorem alloc_withFreeBits (t : TLSF) (F : Nat → Bool) (n : Nat) :
    ∃ G, alloc (t.withFreeBits F) n = (alloc t n).map (fun r => (r.1.withFreeBits G, r.2)) := by
  unfold alloc
  obtain ⟨G, hG⟩ := queryFreeAllocation_withFreeBits t F n
  rw [hG]
  cases h1 : queryFreeAllocation t n with
  | none => exact ⟨F, rfl⟩
  | some r =>
    obtain ⟨u, a⟩ := r
    simp only [Option.map_some']
    by_cases h0 : a = 0
    · rw [if_pos h0, if_pos h0]; exact ⟨G, rfl⟩
    · rw [if_neg h0, if_neg h0]
      refine ⟨fun x => if x = a then false else G x, ?_⟩
      simp only [Option.map_some', TLSF.withFreeBits_withHeap, TLSF.withFreeBits_heap,
        withFreeBits_setFree]
      rfl

theorem withFreeBits_self (t : TLSF) : t.withFreeBits (fun z => (t.heap z).free) = t := rfl

/-- The removal of a header from its free list leaves every `free` bit as it was. -/
theorem remove_free {t u : TLSF} {a : Nat} {L : BitmapLevel}
    (h : removeFreeAllocationAndUpdateBitmapLevel t a L = some u) (z : Nat) :
    (u.heap z).free = (t.heap z).free := by
  have e := remove_withFreeBits t (fun z => (t.heap z).free) a L
  rw [withFreeBits_self, h] at e
  have e2 : u = u.withFreeBits (fun z => (t.heap z).free) := Option.some.inj e
  exact (congrArg (fun v : TLSF => (v.heap z).free) e2).trans rfl

theorem mergePrev_withFreeBits (t : TLSF) (F : Nat → Bool) (a : Nat)
    (hprev : F (t.heap a).prevPhyAlloc = (t.heap (t.heap a).prevPhyAlloc).free) :
    mergePrevPhyAlloc (t.withFreeBits F) a =
      (mergePrevPhyAlloc t a).map (fun r => (r.1.withFreeBits F, r.2)) := by
  unfold mergePrevPhyAlloc
  simp only [TLSF.withFreeBits_heap, withFreeBits_prevPhyAlloc, withFreeBits_free, hprev]
  by_cases hc : (t.heap a).prevPhyAlloc ≠ 0 ∧ (t.heap (t.heap a).prevPhyAlloc).free = true
  · rw [if_pos hc, if_pos hc, removeSize_withFreeBits]
    cases removeFreeAllocationAndUpdateBitmap t (t.heap a).prevPhyAlloc with
    | none => rfl
    | some u =>
      simp only [Option.map_some', TLSF.withFreeBits_withHeap, TLSF.withFreeBits_heap,
        withFreeBits_size, withFreeBits_setSize, TLSF.withHeap_withFreeBits]
  · rw [if_neg hc, if_neg hc]
    rfl

theorem mergePrev_free {t u : TLSF} {a m : Nat} (h : mergePrevPhyAlloc t a = some (u, m))
    (z : Nat) : (u.heap z).free = (t.heap z).free := by
  unfold mergePrevPhyAlloc at h
  simp only [] at h
  split_ifs at h with hc
  · cases hr : removeFreeAllocationAndUpdateBitmap t (t.heap a).prevPhyAlloc with
    | none => rw [hr] at h; exact absurd h (by simp)
    | some v =>
      rw [hr] at h
      simp only [Option.some.injEq, Prod.mk.injEq] at h
      rw [← h.1]
      have := remove_free hr z
      rw [← this]
      simp only [withHeap_heap, Heap.setSize]
      split_ifs <;> rfl
  · simp only [Option.some.injEq, Prod.mk.injEq] at h
    rw [← h.1]

theorem mergeNext_withFreeBits (t : TLSF) (F : Nat → Bool) (m y : Nat) (pool : TLSFPool)
    (hF : ∀ z, y ≤ z → F z = (t.heap z).free) :
    mergeNextPhyAlloc (t.withFreeBits F) m y pool =
      (mergeNextPhyAlloc t m y pool).map (fun u => u.withFreeBits F) := by
  unfold mergeNextPhyAlloc
  by_cases hc : pool.check_next_contains y = true
  · rw [if_pos hc, if_pos hc]
    simp only [TLSF.withFreeBits_heap, withFreeBits_free, hF y le_rfl]
    by_cases hf : (t.heap y).free = true
    · rw [if_pos hf, if_pos hf, removeSize_withFreeBits]
      cases hr : removeFreeAllocationAndUpdateBitmap t y with
      | none => rfl
      | some u =>
        simp only [Option.map_some', TLSF.withFreeBits_withHeap, TLSF.withFreeBits_heap,
          withFreeBits_size, withFreeBits_setSize, withHeap_heap, withHeap_withHeap,
          withFreeBits_nextPhy, withFreeBits_setPrevPhyAlloc, withFreeBits_free]
        have hnn : F ((u.heap.setSize m (add64 (u.heap m).size
              (add64 (u.heap y).size AllocHeader.TrueSize))).nextPhyAllocation y) =
            (((u.heap.setSize m (add64 (u.heap m).size
              (add64 (u.heap y).size AllocHeader.TrueSize))).setPrevPhyAlloc
                ((u.heap.setSize m (add64 (u.heap m).size
                  (add64 (u.heap y).size AllocHeader.TrueSize))).nextPhyAllocation y) m)
              ((u.heap.setSize m (add64 (u.heap m).size
                (add64 (u.heap y).size AllocHeader.TrueSize))).nextPhyAllocation y)).free := by
          rw [hF _ (by unfold Heap.nextPhyAllocation; simp only [AllocHeader.TrueSize]; omega),
            ← remove_free hr]
          simp only [Heap.setPrevPhyAlloc, Heap.setSize]
          split_ifs <;> rfl
        rw [hnn]
        split_ifs <;> rfl
    · rw [if_neg hf, if_neg hf]
      simp only [Option.map_some', TLSF.withFreeBits_withHeap, withFreeBits_setPrevPhyAlloc,
        TLSF.withHeap_withFreeBits]
  · rw [if_neg hc, if_neg hc]
    rfl

/-- The coalescing insertion never reads the `free` bit of the block it inserts: on a
state whose `free` bits are replaced by bits that agree at the physical predecessor and
after the block, it takes the same steps. -/
theorem insertTrue_withFreeBits (t : TLSF) (F : Nat → Bool) (a : Nat) (pool : TLSFPool)
    (hprev : F (t.heap a).prevPhyAlloc = (t.heap (t.heap a).prevPhyAlloc).free)
    (hF : ∀ z, a < z → F z = (t.heap z).free) :
    insertFreeAllocation (t.withFreeBits F) a true (some pool) =
      (insertFreeAllocation t a true (some pool)).map (fun u => u.withFreeBits F) := by
  unfold insertFreeAllocation
  simp only [if_true, TLSF.withFreeBits_heap, withFreeBits_nextPhy]
  rw [mergePrev_withFreeBits t F a hprev]
  cases h1 : mergePrevPhyAlloc t a with
  | none => rfl
  | some r =>
    obtain ⟨u, m⟩ := r
    simp only [Option.map_some']
    rw [mergeNext_withFreeBits u F m _ pool (fun z hz => by
      rw [mergePrev_free h1 z]
      exact hF z (by
        unfold Heap.nextPhyAllocation at hz
        simp only [AllocHeader.TrueSize] at hz
        omega))]
    cases h2 : mergeNextPhyAlloc u m (t.heap.nextPhyAllocation a) pool with
    | none => rfl
    | some v =>
      simp only [Option.map_some']
      exact push_withFreeBits v F m

theorem pop_ne_zero {t u : TLSF} {L : BitmapLevel} {a : Nat}
    (h : queryAllocationWithFreeLevel t L = some (u, a)) : a ≠ 0 := by
  unfold queryAllocationWithFreeLevel at h
  simp only [] at h
  split_ifs at h with h1 h2 h3
  · simp only [Option.some.injEq, Prod.mk.injEq] at h
    rw [← h.2]; exact h2
  · simp only [Option.some.injEq, Prod.mk.injEq] at h
    rw [← h.2]; exact h2

theorem split_ne_zero {t u : TLSF} {L : BitmapLevel} {n a : Nat}
    (h : splitAllocation t L n = some (u, a)) : a ≠ 0 := by
  unfold splitAllocation at h
  cases h1 : queryAllocationWithFreeLevel t L with
  | none => rw [h1] at h; exact absurd h (by simp)
  | some r =>
    obtain ⟨t1, target⟩ := r
    have h0 := pop_ne_zero h1
    rw [h1] at h
    simp only [h0, if_false] at h
    split_ifs at h with h2
    cases h3 : removeFreeAllocationAndUpdateBitmapLevel t1 target L with
    | none => rw [h3] at h; exact absurd h (by simp)
    | some t2 =>
      rw [h3] at h
      simp only [] at h
      split_ifs at h with h4
      · simp only [Option.some.injEq, Prod.mk.injEq] at h
        rw [← h.2]; exact h0
      · cases h5 : locatePool t2 target with
        | none => rw [h5] at h; exact absurd h (by simp)
        | some pool =>
          rw [h5] at h
          simp only [] at h
          split at h
          · exact absurd h (by simp)
          · simp only [Option.some.injEq, Prod.mk.injEq] at h
            rw [← h.2]; exact h0

/-- A call of `alloc` that returns null leaves the state as it was. -/
theorem alloc_null_state {t u : TLSF} {n : Nat} (h : alloc t n = some (u, 0)) : u = t := by
  unfold alloc at h
  cases h1 : queryFreeAllocation t n with
  | none => rw [h1] at h; exact absurd h (by simp)
  | some r =>
    obtain ⟨v, a⟩ := r
    rw [h1] at h
    simp only [] at h
    split_ifs at h with h0
    · simp only [Option.some.injEq, Prod.mk.injEq, and_true] at h
      subst h0
      rw [← h]
      unfold queryFreeAllocation at h1
      simp only [] at h1
      cases h2 : queryFreeStatus t (queryBitmapLevelForAlloc n) with
      | none => rw [h2] at h1; exact absurd h1 (by simp)
      | some c =>
        rw [h2] at h1
        cases c with
        | true => exact absurd rfl (pop_ne_zero h1)
        | false =>
          simp only [] at h1
          split at h1
          · exact absurd h1 (by simp)
          · split_ifs at h1 with h3
            · exact absurd rfl (split_ne_zero h1)
            · simp only [Option.some.injEq, Prod.mk.injEq, and_true] at h1
              exact h1.symm
    · simp only [Option.some.injEq, Prod.mk.injEq, Heap.ptr, AllocHeader.TrueSize] at h
      omega

theorem LinkInv.indexConsistent {t : TLSF} {lists : Nat → Nat → List Nat}
    (hL : LinkInv t lists) : IndexConsistent t := by
  constructor
  · intro i _
    rw [hL.first i, Ne, eq_zero_iff_testBit]
    constructor
    · rintro ⟨sl, hsl⟩ hz
      have := (hL.second i sl).mpr hsl
      rw [hz sl] at this
      exact absurd this (by simp)
    · intro hz
      by_contra hc
      apply hz
      intro j
      by_contra hj
      exact hc ⟨j, (hL.second i j).mp (by simpa using hj)⟩
  · intro i _ j _
    rw [hL.second i j, Ne, Ne, hL.head_eq_zero_iff]

theorem IndexConsistent.of_free_bits {t : TLSF} (h : IndexConsistent t) (F : Nat → Bool) :
    IndexConsistent (t.withFreeBits F) := h

theorem IndexConsistent.of_heap {t : TLSF} (h : IndexConsistent t) (k : Heap) :
    IndexConsistent (t.withHeap k) := h

/-- The physical successor of a block that ends inside its pool is a block of the pool. -/
theorem Inv.next_block {t : TLSF} {live : List (Nat × Nat)} {blocks : TLSFPool → List Nat}
    {lists : Nat → Nat → List Nat} (hI : Inv t live blocks lists) {pool : TLSFPool}
    (hpool : pool ∈ t.memoryPools) {b : Nat} (hbin : b ∈ blocks pool)
    (hin : b + 16 + (t.heap b).size < pool.memptr + pool.capacity) :
    b + 16 + (t.heap b).size ∈ blocks pool := by
  obtain ⟨pre, post, hblocks⟩ := List.append_of_mem hbin
  obtain ⟨_, _, _, _, _, hnil, hhead⟩ := hI.chain_at hpool hblocks
  cases post with
  | nil => exact absurd hin (hnil.mp rfl)
  | cons y ys =>
    have hy : y = b + 16 + (t.heap b).size := hhead y (by simp)
    rw [hblocks, ← hy]
    simp

/-- The physical predecessor recorded in a block is not the block itself. -/
theorem Inv.prev_ne {t : TLSF} {live : List (Nat × Nat)} {blocks : TLSFPool → List Nat}
    {lists : Nat → Nat → List Nat} (hI : Inv t live blocks lists) {pool : TLSFPool}
    (hpool : pool ∈ t.memoryPools) {b : Nat} (hbin : b ∈ blocks pool) :
    (t.heap b).prevPhyAlloc ≠ b := by
  obtain ⟨pre, post, hblocks⟩ := List.append_of_mem hbin
  obtain ⟨_, hprev, _, hpre, _, _, _⟩ := hI.chain_at hpool hblocks
  have hb0 := (hI.block_bounds hpool hbin).2.2.2.2.1
  rw [hprev]
  cases hlast : pre.getLast? with
  | none => exact fun h => hb0 h.symm
  | some x =>
    have hx : x ∈ pre := List.mem_of_getLast?_eq_some hlast
    have := hpre x hx
    simp only [Option.getD_some]
    omega

/-- The call `realloc(p, n)` on the pointer of a block `b` of `pool`: the test written with
machine arithmetic is `growsInPlace`, and the two branches are the in-place growth and the
coalescing insertion followed by `alloc`. -/
theorem realloc_eq {t : TLSF} {live : List (Nat × Nat)} {blocks : TLSFPool → List Nat}
    {lists : Nat → Nat → List Nat} (hI : Inv t live blocks lists) {pool : TLSFPool}
    (hpool : pool ∈ t.memoryPools) {b : Nat} (hbin : b ∈ blocks pool) (n : Nat) :
    realloc t (b + 16) n =
      if growsInPlace t pool b n then
        match removeFreeAllocationAndUpdateBitmap t (b + 16 + (t.heap b).size) with
        | none => none
        | some u =>
          some (u.withHeap (u.heap.setSize b
            ((t.heap (b + 16 + (t.heap b).size)).size + 16 + (t.heap b).size)), b + 16)
      else
        match insertFreeAllocation t b true (some pool) with
        | none => none
        | some u => alloc u n := by
  have hbb := hI.block_bounds hpool hbin
  have hloc : locatePool t b = some pool :=
    locatePool_spec t hI.pools_disj pool hpool b hbb.2.2.2.2.2
  have e : Heap.fromPtr (b + 16) = b := by simp [Heap.fromPtr, AllocHeader.TrueSize]
  unfold realloc
  simp only [e, hloc, Heap.nextPhyAllocation, AllocHeader.TrueSize, TLSFPool.endPtr]
  by_cases hin : b + 16 + (t.heap b).size < pool.memptr + pool.capacity
  · have hge : ¬ (b + 16 + (t.heap b).size ≥ pool.memptr + pool.capacity) := by omega
    have hs := hI.block_bounds hpool (hI.next_block hpool hbin hin)
    have h31 : (2:Nat) ^ 31 < 2 ^ 64 := pow31_lt_pow64
    have ea : add64 (add64 (t.heap (b + 16 + (t.heap b).size)).size 16) (t.heap b).size =
        (t.heap (b + 16 + (t.heap b).size)).size + 16 + (t.heap b).size := by
      rw [add64_eq _ 16 (by omega), add64_eq _ _ (by omega)]
    simp only [hge, if_false, ea]
    by_cases hg : growsInPlace t pool b n
    · rw [if_pos hg, if_pos ⟨⟨by omega, hg.1.2⟩, hg.2.1, hg.2.2⟩]
    · rw [if_neg hg, if_neg (fun hc => hg ⟨⟨hin, hc.1.2⟩, hc.2.1, hc.2.2⟩)]
  · have hge : b + 16 + (t.heap b).size ≥ pool.memptr + pool.capacity := by omega
    simp only [hge, if_true]
    rw [if_neg (fun hc => hc.1.1 rfl), if_neg (fun hg => hin hg.1.1)]

/-- The in-place branch of `realloc`: the successor leaves its free list and the block
takes the size of the two blocks together. -/
theorem realloc_grow {t : TLSF} {live : List (Nat × Nat)} {blocks : TLSFPool → List Nat}
    {lists : Nat → Nat → List Nat} (hI : Inv t live blocks lists) {pool : TLSFPool}
    (hpool : pool ∈ t.memoryPools) {b : Nat} (hbin : b ∈ blocks pool) (n : Nat)
    (hg : growsInPlace t pool b n) :
    ∃ u, realloc t (b + 16) n = some (u.withHeap (u.heap.setSize b
        ((t.heap (b + 16 + (t.heap b).size)).size + 16 + (t.heap b).size)), b + 16) ∧
      LinkInv u (updLists lists (queryBitmapLevelForInsert (t.heap (b + 16 + (t.heap b).size)).size)
        ((lists (queryBitmapLevelForInsert (t.heap (b + 16 + (t.heap b).size)).size).firstLevel
          (queryBitmapLevelForInsert (t.heap (b + 16 + (t.heap b).size)).size).secondLevel).erase
            (b + 16 + (t.heap b).size))) ∧
      PhysEq t.heap u.heap ∧ u.memoryPools = t.memoryPools ∧
      (t.heap (b + 16 + (t.heap b).size)).size + 16 + (t.heap b).size < 2 ^ 31 := by
  have hsin := hI.next_block hpool hbin hg.1.1
  have hsb := hI.block_bounds hpool hsin
  have hbb := hI.block_bounds hpool hbin
  have hpok := hI.pools_ok pool hpool
  obtain ⟨u, hrem, hL, hP, hpools⟩ := remove_spec hI.link (b + 16 + (t.heap b).size) _
    (hI.class_inTable hpool hsin).1 (hI.free_listed pool hpool _ hsin hg.1.2)
  refine ⟨u, ?_, hL, hP, hpools, by omega⟩
  rw [realloc_eq hI hpool hbin, if_pos hg]
  unfold removeFreeAllocationAndUpdateBitmap
  rw [hrem]

/-- The other branch of `realloc`: the steps of `free(p)`, short of setting the `free` bit
of the block, followed by `alloc(n)`. -/
theorem realloc_move {t : TLSF} {live : List (Nat × Nat)} {blocks : TLSFPool → List Nat}
    {lists : Nat → Nat → List Nat} (hI : Inv t live blocks lists) {pool : TLSFPool}
    (hpool : pool ∈ t.memoryPools) {b : Nat} (hbin : b ∈ blocks pool) (n : Nat)
    (hg : ¬ growsInPlace t pool b n) {u : TLSF} (hfree : TLSF.free t (b + 16) = some u) :
    realloc t (b + 16) n = alloc (u.withFreeBits (fun z => (t.heap z).free)) n := by
  have hbb := hI.block_bounds hpool hbin
  have hloc : locatePool (t.withHeap (t.heap.setFree b true)) b = some pool :=
    locatePool_spec _ hI.pools_disj pool hpool b hbb.2.2.2.2.2
  have e : Heap.fromPtr (b + 16) = b := by simp [Heap.fromPtr, AllocHeader.TrueSize]
  unfold TLSF.free at hfree
  simp only [e, hloc] at hfree
  have ht : t = (t.withHeap (t.heap.setFree b true)).withFreeBits (fun z => (t.heap z).free) := by
    refine TLSF.eq_of_fields _ _ rfl rfl rfl rfl ?_
    funext x
    show t.heap x = { (t.heap.setFree b true) x with free := (t.heap x).free }
    unfold Heap.setFree
    split_ifs <;> rfl
  have hins : insertFreeAllocation t b true (some pool) =
      some (u.withFreeBits (fun z => (t.heap z).free)) := by
    have h1 := insertTrue_withFreeBits (t.withHeap (t.heap.setFree b true))
      (fun z => (t.heap z).free) b pool
      (by
        have hne := hI.prev_ne hpool hbin
        simp only [withHeap_heap, setFree_prevPhyAlloc, setFree_free, if_neg hne])
      (fun z hz => by
        simp only [withHeap_heap, setFree_free, if_neg (show z ≠ b by omega)])
    rw [hfree, ← ht] at h1
    exact h1
  rw [realloc_eq hI hpool hbin, if_neg hg, hins]

theorem LinkInv.with_free_bits {t : TLSF} {lists : Nat → Nat → List Nat} (hL : LinkInv t lists)
    (F : Nat → Bool) : LinkInv (t.withFreeBits F) lists :=
  hL.withHeap _ (fun _ => ⟨rfl, rfl⟩)

theorem demo100_eq : alloc (demoInit 256) 100 = some (demo100, 4112) := rfl

theorem demo100_reach : Reachable demo100 [(4112, 100)] :=
  Reachable.allocSome 100 4112 (demoInit_reach 256 (by decide) (by decide)) (by decide)
    (by decide) demo100_eq (by decide)

theorem demo1152_eq : alloc (demoInit 1152) 1025 = some (demo1152, 4112) := rfl

theorem demo1152_reach : Reachable demo1152 [(4112, 1025)] :=
  Reachable.allocSome 1025 4112 (demoInit_reach 1152 (by decide) (by decide)) (by decide)
    (by decide) demo1152_eq (by decide)

theorem demoGap_reach : Reachable demoGap [(4144, 100)] :=
  Reachable.free 4112 16
    (Reachable.allocSome 100 4144
      (Reachable.allocSome 16 4112 (demoInit_reach 256 (by decide) (by decide)) (by decide)
        (by decide) rfl (by decide))
      (by decide) (by decide) rfl (by decide))
    (by decide) rfl

theorem queryFreeStatus_congr {t u : TLSF} (h1 : t.firstLevelBitmap = u.firstLevelBitmap)
    (h2 : t.secondLevelBitmap = u.secondLevelBitmap) (L : BitmapLevel) :
    queryFreeStatus t L = queryFreeStatus u L := by
  unfold queryFreeStatus
  rw [h1, h2]

theorem findSecondLevel_congr {t u : TLSF} (h1 : t.firstLevelBitmap = u.firstLevelBitmap)
    (h2 : t.secondLevelBitmap = u.secondLevelBitmap) (fl : Nat) (count : Nat) :
    ∀ sl, findSecondLevel t fl sl count = findSecondLevel u fl sl count := by
  induction count with
  | zero => intro sl; rfl
  | succ c ih =>
    intro sl
    simp only [findSecondLevel, queryFreeStatus_congr h1 h2, ih]

theorem findFirstLevel_congr {t u : TLSF} (h1 : t.firstLevelBitmap = u.firstLevelBitmap)
    (h2 : t.secondLevelBitmap = u.secondLevelBitmap) (count : Nat) :
    ∀ b fl, findFirstLevel t b fl count = findFirstLevel u b fl count := by
  induction count with
  | zero => intro b fl; rfl
  | succ c ih =>
    intro b fl
    simp only [findFirstLevel, findSecondLevel_congr h1 h2, ih, h1]

/-- A call of `alloc` that returns null depends on the two bitmaps only. -/
theorem alloc_null_congr {t u : TLSF} (h1 : t.firstLevelBitmap = u.firstLevelBitmap)
    (h2 : t.secondLevelBitmap = u.secondLevelBitmap) {n : Nat} (h : alloc u n = some (u, 0)) :
    alloc t n = some (t, 0) := by
  unfold alloc at h ⊢
  cases hq : queryFreeAllocation u n with
  | none => rw [hq] at h; exact absurd h (by simp)
  | some r =>
    obtain ⟨v, a⟩ := r
    rw [hq] at h
    simp only [] at h
    split_ifs at h with h0
    · subst h0
      have hq2 : queryFreeAllocation t n = some (t, 0) := by
        unfold queryFreeAllocation at hq ⊢
        simp only [] at hq ⊢
        rw [queryFreeStatus_congr h1 h2]
        cases hs : queryFreeStatus u (queryBitmapLevelForAlloc n) with
        | none => rw [hs] at hq; exact absurd hq (by simp)
        | some c =>
          rw [hs] at hq
          cases c with
          | true => exact absurd rfl (pop_ne_zero hq)
          | false =>
            simp only [] at hq ⊢
            unfold findLevelForSplit at hq ⊢
            rw [findFirstLevel_congr h1 h2]
            split at hq
            · exact absurd hq (by simp)
            · split_ifs at hq with h3
              · exact absurd rfl (split_ne_zero hq)
              · rw [if_pos h3]
      rw [hq2]
      rfl
    · simp only [Option.some.injEq, Prod.mk.injEq, Heap.ptr, AllocHeader.TrueSize] at h
      omega

/-- The bitmaps after `initialize` on a newly constructed allocator do not depend on the
base address of the pool. -/
theorem init_new_bitmaps (heap : Heap) (pool : TLSFPool) (base : Nat) (u : TLSF) (r : Bool)
    (h : initializePool (TLSF.new heap) ⟨base, pool.capacity⟩ = some (u, r)) :
    ∃ t, initializePool (TLSF.new heap) pool = some (t, r) ∧
      t.firstLevelBitmap = u.firstLevelBitmap ∧ t.secondLevelBitmap = u.secondLevelBitmap := by
  unfold initializePool insertFreeAllocation pushFreeAllocation at h ⊢
  simp only [Bool.false_eq_true, if_false, TLSFPool.ptr, withHeap_heap, setPrevPhyAlloc_size,
    setFree_size, setSize_size, if_true, TLSF.head, TLSF.new, TLSF.withHeap] at h ⊢
  split_ifs at h ⊢ with hT
  simp only [Option.some.injEq, Prod.mk.injEq] at h
  obtain ⟨hu, hr⟩ := h
  subst hu hr
  exact ⟨_, rfl, rfl, rfl⟩

/-- On the allocator freshly initialised with one pool whose base is not null,
`alloc(capacity)` returns null. -/
theorem init_alloc_capacity_null (heap : Heap) (pool : TLSFPool) (h0 : pool.memptr ≠ 0)
    (h32 : 32 ≤ pool.capacity) (h31 : pool.capacity - 16 < 2 ^ 31) :
    ∃ t1, initializePool (TLSF.new heap) pool = some (t1, true) ∧
      alloc t1 pool.capacity = some (t1, 0) := by
  obtain ⟨t1, ht1, hpools, hI, hsize, _⟩ := init_spec (new_inv heap) pool
    ⟨h0, h32, h31, fun q hq => absurd hq (List.not_mem_nil q)⟩
  have hpools' : t1.memoryPools = [pool] := hpools
  have h39 : pool.capacity ≤ 2 ^ 39 := by
    have : (2:Nat) ^ 31 ≤ 2 ^ 39 := by norm_num
    omega
  have hn := (alloc_class_spec pool.capacity (by omega) h39).2.2
  refine ⟨t1, ht1, ?_⟩
  rcases alloc_spec hI pool.capacity (by omega) h39 with
    ⟨h, _⟩ | ⟨t2, b, C, rest, pool', pre, post, _, _, _, _, hpool', hblocks, _, hsz, _⟩
  · exact h
  · exfalso
    rw [hpools'] at hpool'
    have hpp : pool' = pool := by simpa using hpool'
    subst hpp
    have hbin : b ∈ updBlocks (fun _ => ([] : List Nat)) pool' [pool'.memptr] pool' := by
      rw [hblocks]; simp
    simp only [updBlocks_apply, if_true, List.mem_singleton] at hbin
    rw [hbin, hsize, if_pos rfl] at hsz
    have : queryAlignedLevelSize pool'.capacity =
        queryLevelSize (queryBitmapLevelForAlloc pool'.capacity) := rfl
    omega

/-! ## The claims, continued -/

/-- The code at the input of claim C11: `queryBitmapLevelForAlloc 0` decrements the second
index 0 and yields `(0, 0xFFFF)`; on the freshly initialised pool of 256 bytes the test
`queryFreeStatus` then shifts by 65535, and `alloc(0)` has no defined result. -/
theorem alloc_zero_undefined :
    queryBitmapLevelForAlloc 0 = ⟨0, 65535⟩ ∧
      initializePool (TLSF.new zeroHeap) (demoPool 256) = some (demoInit 256, true) ∧
      queryFreeStatus (demoInit 256) (queryBitmapLevelForAlloc 0) = none ∧
      alloc (demoInit 256) 0 = none :=
  ⟨by decide, rfl, rfl, rfl⟩

/-- Claim C12.  For every pool with `capacity ≥ 32` and `capacity - 16 < 2 ^ 31`, on the
freshly initialised single-pool allocator `alloc(capacity)` returns null. -/
theorem alloc_capacity_null (heap : Heap) (pool : TLSFPool) (h32 : 32 ≤ pool.capacity)
    (h31 : pool.capacity - 16 < 2 ^ 31) :
    ∃ t1, initializePool (TLSF.new heap) pool = some (t1, true) ∧
      alloc t1 pool.capacity = some (t1, 0) := by
  obtain ⟨u, hu, hnull⟩ := init_alloc_capacity_null heap ⟨pool.memptr + 1, pool.capacity⟩
    (Nat.succ_ne_zero _) h32 h31
  obtain ⟨t1, ht1, h1, h2⟩ := init_new_bitmaps heap pool (pool.memptr + 1) u true hu
  exact ⟨t1, ht1, alloc_null_congr h1 h2 hnull⟩

/-- Witness of C12: on the freshly initialised pool of 256 bytes `alloc(256)` returns
null. -/
theorem alloc_capacity_null_witness :
    32 ≤ (demoPool 256).capacity ∧ (demoPool 256).capacity - 16 < 2 ^ 31 ∧
      ∃ t1, initializePool (TLSF.new zeroHeap) (demoPool 256) = some (t1, true) ∧
        alloc t1 256 = some (t1, 0) :=
  ⟨by decide, by decide, alloc_capacity_null zeroHeap (demoPool 256) (by decide) (by decide)⟩

/-- Claim C13, amended.  In every reachable state, if `realloc(p, n)` returns null for a
live pointer `p` with block `b = p - 16`, then the block has been released as by
`free(p)`: `free(p)` succeeds from the same state, the state after `realloc` is the
state after `free(p)` up to the `free` bits of the headers, and the block that results
from coalescing `b` with its free physical neighbours (`mergedStart`, `mergedSize`) has
that size and is on the free list of `class_for_insert` of that size. -/
theorem realloc_null_releases {t : TLSF} {live : List (Nat × Nat)} (hr : Reachable t live)
    (p m n : Nat) (hl : (p, m) ∈ live) (t' : TLSF) (h : realloc t p n = some (t', 0)) :
    ∃ u F, TLSF.free t p = some u ∧ t' = u.withFreeBits F ∧
      ∀ pool ∈ t.memoryPools, pool.contains (p - 16) = true →
        (t'.heap (mergedStart t (p - 16))).size = mergedSize t pool (p - 16) ∧
        OnFreeList t' (queryBitmapLevelForInsert (mergedSize t pool (p - 16)))
          (mergedStart t (p - 16)) := by
  obtain ⟨blocks, lists, hI⟩ := reachable_inv hr
  obtain ⟨hp16, _, _, _⟩ := hI.live_block p m hl
  obtain ⟨b, rfl⟩ : ∃ b, p = b + 16 := ⟨p - 16, by omega⟩
  have eb : b + 16 - 16 = b := by omega
  rw [eb]
  obtain ⟨pool, pre, post, u, lists', hpool, hblocks, hfree, _, hI', hsize, _, _, hmem, _⟩ :=
    free_spec hI b m hl
  have hbin : b ∈ blocks pool := by rw [hblocks]; simp
  have hbb := hI.block_bounds hpool hbin
  by_cases hg : growsInPlace t pool b n
  · obtain ⟨v, hv, _⟩ := realloc_grow hI hpool hbin n hg
    rw [hv] at h
    simp only [Option.some.injEq, Prod.mk.injEq] at h
    omega
  · rw [realloc_move hI hpool hbin n hg hfree] at h
    have ht := alloc_null_state h
    refine ⟨u, fun z => (t.heap z).free, hfree, ht, ?_⟩
    intro pool' hpool' hcont
    have hpp : pool' = pool := hI.pool_of_contains hpool' hpool hcont hbb.2.2.2.2.2
    subst hpp
    rw [ht]
    refine ⟨?_, ?_⟩
    · show (u.heap (mergedStart t b)).size = _
      rw [hsize, if_pos rfl]
    · rw [(hI'.link.with_free_bits _).onFreeList_iff, hmem]
      exact Or.inl ⟨rfl, rfl⟩

/-- Witness of C13: on the pool of 256 bytes after `alloc(128)`, which returns 4112, the
call `realloc(4112, 1000)` returns null; the block at 4096 then has 240 bytes and is on
the free list of class `(0, 14)`. -/
theorem realloc_null_releases_witness :
    Reachable demo1 [(4112, 128)] ∧
      realloc demo1 4112 1000 = some (afterRealloc demo1 4112 1000, 0) ∧
      ((afterRealloc demo1 4112 1000).heap 4096).size = 240 ∧
      OnFreeList (afterRealloc demo1 4112 1000) ⟨0, 14⟩ 4096 := by
  have h0 : realloc demo1 4112 1000 = some (afterRealloc demo1 4112 1000, 0) := rfl
  obtain ⟨u, F, _, _, h3⟩ := realloc_null_releases demo1_reach 4112 128 1000 (by decide) _ h0
  have h4 := h3 (demoPool 256) (by decide) (by decide)
  have h5 : mergedStart demo1 (4112 - 16) = 4096 := by decide
  have h6 : mergedSize demo1 (demoPool 256) (4112 - 16) = 240 := by decide
  have h7 : queryBitmapLevelForInsert 240 = ⟨0, 14⟩ := by decide
  rw [h5, h6, h7] at h4
  exact ⟨demo1_reach, h0, h4.1, h4.2⟩

/-- Counterexample to C13 as stated: on the pool of 256 bytes after `alloc(128)`, which
returns the live pointer 4112 of a block of 128 bytes, `realloc(4112, 1000)` returns
null, and afterwards the block at 4096 has 240 bytes and is the head of the free list of
class `(0, 14)`. -/
theorem realloc_null_block_changed :
    Reachable demo1 [(4112, 128)] ∧ (realloc demo1 4112 1000).map Prod.snd = some 0 ∧
      (demo1.heap 4096).size = 128 ∧
      ((afterRealloc demo1 4112 1000).heap 4096).size = 240 ∧
      (afterRealloc demo1 4112 1000).allocationLinkTable 0 14 = 4096 ∧
      OnFreeList (afterRealloc demo1 4112 1000) ⟨0, 14⟩ 4096 :=
  ⟨demo1_reach, by decide, by decide, by decide, by decide, by
    have h : (afterRealloc demo1 4112 1000).allocationLinkTable 0 14 = 4096 := by decide
    unfold OnFreeList
    rw [h]
    exact FreeReach.here 4096 (by decide)⟩

/-- Claim C14, amended.  In every reachable state, for a live pointer `p` with block
`b = p - 16` in `pool`.  If the physical successor `s` of `b` lies inside the pool, is
free, and `merged = s.size + 16 + b.size` satisfies
`n ≤ merged < class_size(class_for_alloc(n))`, then `realloc(p, n)` returns `p`, the
size of `b` becomes `merged` and `s` is on no free list.  In every other case `free(p)`
succeeds from the same state and `realloc(p, n)` is `alloc(n)` in the state after
`free(p)`: it returns what that call returns, null or a pointer, and ends in the state of
that call up to the `free` bits of the headers.  On a fresh pool of 256 bytes, after
`p = alloc(100)` the call `realloc(p, 80)` returns `p`, and after `p = alloc(100)`,
`q = alloc(16)`, `free(q)` the call `realloc(p, 180)` returns `p`. -/
theorem realloc_in_place {t : TLSF} {live : List (Nat × Nat)} (hr : Reachable t live)
    (p m n : Nat) (hl : (p, m) ∈ live) (pool : TLSFPool) (hpool : pool ∈ t.memoryPools)
    (hc : pool.contains (p - 16) = true) :
    (growsInPlace t pool (p - 16) n →
      ∃ t', realloc t p n = some (t', p) ∧
        (t'.heap (p - 16)).size =
          (t.heap (p - 16 + 16 + (t.heap (p - 16)).size)).size + 16 + (t.heap (p - 16)).size ∧
        ∀ L, ¬ OnFreeList t' L (p - 16 + 16 + (t.heap (p - 16)).size)) ∧
    (¬ growsInPlace t pool (p - 16) n →
      ∃ u G, TLSF.free t p = some u ∧
        realloc t p n = (alloc u n).map (fun r => (r.1.withFreeBits G, r.2))) ∧
    (alloc (demoInit 256) 100 = some (demo100, 4112) ∧
      (realloc demo100 4112 80).map Prod.snd = some 4112) ∧
    (alloc demo100 16 = some (afterAlloc demo100 16, 4240) ∧
      TLSF.free (afterAlloc demo100 16) 4240 = some (afterFree (afterAlloc demo100 16) 4240) ∧
      (realloc (afterFree (afterAlloc demo100 16) 4240) 4112 180).map Prod.snd = some 4112) := by
  refine ⟨?_, ?_, ⟨rfl, by decide⟩, rfl, rfl, by decide⟩
  · intro hg
    obtain ⟨blocks, lists, hI⟩ := reachable_inv hr
    obtain ⟨hp16, ⟨pool', hpool', hbin'⟩, _, _⟩ := hI.live_block p m hl
    have hpp : pool = pool' :=
      hI.pool_of_contains hpool hpool' hc (hI.block_bounds hpool' hbin').2.2.2.2.2
    subst hpp
    obtain ⟨b, rfl⟩ : ∃ b, p = b + 16 := ⟨p - 16, by omega⟩
    have eb : b + 16 - 16 = b := by omega
    rw [eb] at hbin' hg ⊢
    obtain ⟨u, hu, hL, hP, _, h31⟩ := realloc_grow hI hpool hbin' n hg
    have hsin := hI.next_block hpool hbin' hg.1.1
    have hlisted := hI.free_listed pool hpool _ hsin hg.1.2
    refine ⟨_, hu, ?_, ?_⟩
    · simp only [withHeap_heap, setSize_size, if_true]
      exact toSize31_eq _ h31
    · intro L hx
      rw [(hL.withHeap _ (LinkEq_setSize _ _ _)).onFreeList_iff,
        mem_updLists_erase hI.link _ _ hlisted] at hx
      exact hx.2 rfl
  · intro hg
    obtain ⟨blocks, lists, hI⟩ := reachable_inv hr
    obtain ⟨hp16, ⟨pool', hpool', hbin'⟩, _, _⟩ := hI.live_block p m hl
    have hpp : pool = pool' :=
      hI.pool_of_contains hpool hpool' hc (hI.block_bounds hpool' hbin').2.2.2.2.2
    subst hpp
    obtain ⟨b, rfl⟩ : ∃ b, p = b + 16 := ⟨p - 16, by omega⟩
    have eb : b + 16 - 16 = b := by omega
    rw [eb] at hbin' hg
    obtain ⟨_, _, _, u, _, _, _, hfree, _⟩ := free_spec hI b m hl
    obtain ⟨G, hG⟩ := alloc_withFreeBits u (fun z => (t.heap z).free) n
    exact ⟨u, G, hfree, by rw [realloc_move hI hpool hbin' n hg hfree, hG]⟩

/-- Witness of C14: on a pool of 1152 bytes after `alloc(1025)`, which returns 4112, the
block at 4096 has 1056 bytes and is followed by a free block of 64 bytes; `realloc(4112,
1130)` returns 4112 and the block has 1136 bytes.  On the pool of 256 bytes after
`alloc(16)`, `alloc(100)` and `free` of the first pointer, the in-place test fails for the
live pointer 4144 and `n = 80`, and `realloc(4144, 80)` is `alloc(80)` after
`free(4144)`. -/
theorem realloc_in_place_witness :
    Reachable demo1152 [(4112, 1025)] ∧ growsInPlace demo1152 (demoPool 1152) (4112 - 16) 1130 ∧
      (∃ t', realloc demo1152 4112 1130 = some (t', 4112) ∧ (t'.heap 4096).size = 1136) ∧
      Reachable demoGap [(4144, 100)] ∧ ¬ growsInPlace demoGap (demoPool 256) (4144 - 16) 80 ∧
      ∃ u G, TLSF.free demoGap 4144 = some u ∧
        realloc demoGap 4144 80 = (alloc u 80).map (fun r => (r.1.withFreeBits G, r.2)) := by
  obtain ⟨t', h1, h2, _⟩ := (realloc_in_place demo1152_reach 4112 1025 1130 (by decide)
    (demoPool 1152) (by decide) (by decide)).1 (by decide)
  have h3 : (demo1152.heap (4112 - 16 + 16 + (demo1152.heap (4112 - 16)).size)).size + 16 +
      (demo1152.heap (4112 - 16)).size = 1136 := by decide
  rw [h3] at h2
  exact ⟨demo1152_reach, by decide, ⟨t', h1, h2⟩, demoGap_reach, by decide,
    (realloc_in_place demoGap_reach 4144 100 80 (by decide) (demoPool 256) (by decide)
      (by decide)).2.1 (by decide)⟩

/-- Counterexample to C14 as stated: on the pool of 256 bytes after `alloc(16)`,
`alloc(100)` and `free` of the first pointer, the live pointer 4144 has a block of 112
bytes whose physical successor lies inside the pool, is free and has 80 bytes, so that
both conditions of the claim hold for `n = 80`; `realloc(4144, 80)` returns 4112. -/
theorem realloc_moves_despite_fit :
    Reachable demoGap [(4144, 100)] ∧ 80 ≤ (demoGap.heap (4144 - 16)).size ∧
      mergesNext demoGap (demoPool 256) (4144 - 16) ∧
      (demoGap.heap (4144 - 16)).size + 16 +
        (demoGap.heap (4144 - 16 + 16 + (demoGap.heap (4144 - 16)).size)).size ≥ 80 ∧
      (realloc demoGap 4144 80).map Prod.snd = some 4112 :=
  ⟨demoGap_reach, by decide, by decide, by decide, by decide⟩

/-- Claim C15, amended.  In a reachable state with two pools attached by two `initialize`
calls, for every `1 ≤ n < 2 ^ 31` such that `n' = class_size(class_for_alloc(n))` exceeds
the size of every free block of the first pool, while the second pool has a free block
whose class `class_for_insert(size)` is `class_for_alloc(n)` or lies in the first level of
the class that follows `class_for_alloc(n)`, at or after it: `alloc(n)` returns a non-null
pointer that lies inside the second pool. -/
theorem alloc_from_second_pool {t : TLSF} {live : List (Nat × Nat)} (hr : Reachable t live)
    (pool1 pool2 : TLSFPool) (hpools : t.memoryPools = [pool1, pool2]) (n : Nat) (h1 : 1 ≤ n)
    (h31 : n < 2 ^ 31)
    (hfirst : ∀ x ∈ walkPool t.heap pool1 pool1.memptr pool1.capacity,
      (t.heap x).free = true → (t.heap x).size < queryAlignedLevelSize n)
    (y : Nat) (hy : y ∈ walkPool t.heap pool2 pool2.memptr pool2.capacity)
    (hyf : (t.heap y).free = true)
    (hclass : queryBitmapLevelForInsert (t.heap y).size = queryBitmapLevelForAlloc n ∨
      ((queryBitmapLevelForInsert (t.heap y).size).firstLevel =
          (nextLevel (queryBitmapLevelForAlloc n)).firstLevel ∧
        (nextLevel (queryBitmapLevelForAlloc n)).secondLevel ≤
          (queryBitmapLevelForInsert (t.heap y).size).secondLevel)) :
    ∃ t' q, alloc t n = some (t', q) ∧ pool2.memptr + 16 ≤ q ∧
      q < pool2.memptr + pool2.capacity := by
  obtain ⟨blocks, lists, hI⟩ := reachable_inv hr
  have h39 : n ≤ 2 ^ 39 := by
    have : (2:Nat) ^ 31 ≤ 2 ^ 39 := by norm_num
    omega
  have hp1 : pool1 ∈ t.memoryPools := by rw [hpools]; simp
  have hp2 : pool2 ∈ t.memoryPools := by rw [hpools]; simp
  rw [hI.walkPool_eq hp1 _ (le_refl _)] at hfirst
  rw [hI.walkPool_eq hp2 _ (le_refl _)] at hy
  have hyl := hI.free_listed pool2 hp2 y hy hyf
  have hyT := (inTable_iff _).mp (hI.class_inTable hp2 hy).1
  rcases alloc_spec hI n h1 h39 with ⟨_, hnil, hrest⟩ | ⟨t2, b, C, rest, pool, pre, post, h, _, hlC,
    _, hpool, hblocks, _, hsz, _⟩
  · exfalso
    rcases hclass with hc | ⟨hc1, hc2⟩
    · rw [hc, hnil] at hyl
      exact absurd hyl (List.not_mem_nil y)
    · rw [hc1, hrest _ hc2 hyT.2] at hyl
      exact absurd hyl (List.not_mem_nil y)
  · have hbin : b ∈ blocks pool := by rw [hblocks]; simp
    have hbmem : b ∈ lists C.firstLevel C.secondLevel := by rw [hlC]; exact List.mem_cons_self _ _
    have hbf := (hI.listed_free _ _ _ hbmem).2.1
    have hb := hI.block_bounds hpool hbin
    rw [hpools] at hpool
    have hpp : pool = pool1 ∨ pool = pool2 := by simpa using hpool
    rcases hpp with rfl | rfl
    · have := hfirst b hbin hbf
      omega
    · exact ⟨t2, b + 16, h, by omega, by omega⟩

/-- Witness of C15: with a first pool of 48 bytes at 4096 and a second pool of 256 bytes at
8192, `alloc(64)` returns 8208. -/
theorem alloc_from_second_pool_witness :
    Reachable (demoTwo 256) [] ∧ (demoTwo 256).memoryPools = [⟨4096, 48⟩, ⟨8192, 256⟩] ∧
      ∃ t' q, alloc (demoTwo 256) 64 = some (t', q) ∧ 8192 + 16 ≤ q ∧ q < 8192 + 256 :=
  ⟨demoTwo_reach256, rfl,
    alloc_from_second_pool demoTwo_reach256 ⟨4096, 48⟩ ⟨8192, 256⟩ rfl 64 (by decide)
      (by decide) (by decide) 8192 (by decide) (by decide) (by decide)⟩

/-- Counterexample to C15 as stated: with a first pool of 48 bytes and a second pool of 544
bytes, `n' = 528` for `n = 528` exceeds the size 32 of the only free block of the first
pool, the second pool has a free block of size `528 ≥ n'`, and `alloc(528)` returns null. -/
theorem alloc_second_pool_fails :
    Reachable (demoTwo 544) [] ∧ (demoTwo 544).memoryPools = [⟨4096, 48⟩, ⟨8192, 544⟩] ∧
      queryAlignedLevelSize 528 = 528 ∧
      walkPool (demoTwo 544).heap ⟨4096, 48⟩ 4096 48 = [4096] ∧
      ((demoTwo 544).heap 4096).size = 32 ∧
      walkPool (demoTwo 544).heap ⟨8192, 544⟩ 8192 544 = [8192] ∧
      ((demoTwo 544).heap 8192).free = true ∧ ((demoTwo 544).heap 8192).size = 528 ∧
      alloc (demoTwo 544) 528 = some (demoTwo 544, 0) :=
  ⟨demoTwo_reach544, rfl, by decide, by decide, by decide, by decide, by decide, by decide, rfl⟩

/-- Claim C16.  No split on a small remainder: in every reachable state, when `alloc(n)`
(`1 ≤ n ≤ 2 ^ 39`) takes the free block `b` off a free list and
`b.size - n' < 32` for `n' = class_size(class_for_alloc(n))`, the block is returned whole:
`b` was free and on a free list and is on none afterwards, every `size` and every
`prev_phys` is unchanged, the only `free` bit that changes is that of `b`, which becomes 0,
and the walk over the blocks of any pool is unchanged (no block is created). -/
theorem no_split_small_remainder {t : TLSF} {live : List (Nat × Nat)} (hr : Reachable t live)
    (n : Nat) (h1 : 1 ≤ n) (h39 : n ≤ 2 ^ 39) (t' : TLSF) (p : Nat)
    (ha : alloc t n = some (t', p)) (hp : p ≠ 0)
    (hsmall : (t.heap (p - 16)).size < queryAlignedLevelSize n + 32) :
    (t.heap (p - 16)).free = true ∧ (∃ L, OnFreeList t L (p - 16)) ∧
      (∀ L, ¬ OnFreeList t' L (p - 16)) ∧
      (∀ x, (t'.heap x).size = (t.heap x).size ∧
        (t'.heap x).prevPhyAlloc = (t.heap x).prevPhyAlloc ∧
        (t'.heap x).free = if x = p - 16 then false else (t.heap x).free) ∧
      (∀ pool a fuel, walkPool t'.heap pool a fuel = walkPool t.heap pool a fuel) := by
  obtain ⟨blocks, lists, hI⟩ := reachable_inv hr
  rcases alloc_spec hI n h1 h39 with ⟨h, _⟩ | ⟨t2, b, C, rest, pool, pre, post, h, _, hlC, _, hpool,
    hblocks, _, _, hcase⟩
  · rw [h] at ha
    exact absurd (Prod.mk.inj (Option.some.inj ha)).2.symm hp
  · rw [h] at ha
    obtain ⟨rfl, rfl⟩ := Prod.mk.inj (Option.some.inj ha)
    have eb : b + 16 - 16 = b := by omega
    rw [eb] at hsmall ⊢
    have hbmem : b ∈ lists C.firstLevel C.secondLevel := by rw [hlC]; exact List.mem_cons_self _ _
    rcases hcase with ⟨_, hP, hI'⟩ | ⟨_, hbig, _⟩
    · have hphys : ∀ x, (t2.heap x).size = (t.heap x).size ∧
          (t2.heap x).prevPhyAlloc = (t.heap x).prevPhyAlloc ∧
          (t2.heap x).free = if x = b then false else (t.heap x).free := by
        intro x
        obtain ⟨g1, g2, g3⟩ := hP x
        rw [setFree_size] at g1
        rw [setFree_free] at g2
        rw [setFree_prevPhyAlloc] at g3
        exact ⟨g1, g3, g2⟩
      refine ⟨(hI.listed_free _ _ _ hbmem).2.1, ⟨C, (hI.link.onFreeList_iff C b).mpr hbmem⟩, ?_,
        hphys, ?_⟩
      · intro L hx
        rw [hI'.link.onFreeList_iff] at hx
        have hf := (hI'.listed_free _ _ _ hx).2.1
        rw [(hphys b).2.2, if_pos rfl] at hf
        exact absurd hf (by simp)
      · intro pool' a fuel
        exact walkPool_congr _ _ _ (fun x => (hphys x).1) fuel a
    · omega

/-- Witness of C16: in the scenario on the pool of 256 bytes, `alloc(16)` takes the free
block of 32 bytes at 4304 whole. -/
theorem no_split_small_remainder_witness :
    Reachable demo2 [(4256, 48), (4112, 128)] ∧ alloc demo2 16 = some (demo4, 4320) ∧
      (demo2.heap (4320 - 16)).size < queryAlignedLevelSize 16 + 32 ∧
      (demo4.heap (4320 - 16)).size = (demo2.heap (4320 - 16)).size ∧
      (demo4.heap (4320 - 16)).free = false :=
  ⟨demo2_reach, demo4_eq, by decide,
    ((no_split_small_remainder demo2_reach 16 (by decide) (by decide) demo4 4320 demo4_eq
      (by decide) (by decide)).2.2.2.1 (4320 - 16)).1, by decide⟩

/-- Claim C17.  The class of a request rounds up exactly: for `1 ≤ n < 2 ^ 31` and
`k = floor(log2 n)` (that is `2 ^ k ≤ n < 2 ^ (k + 1)`), `queryAlignedLevelSize n` is `n`
rounded up to the next multiple of `g`, where `g = 16` if `n ≤ 512` and `g = 2 ^ (k - 5)`
otherwise; hence it is at least `n` and less than `n + g`. -/
theorem alloc_rounds_up (n k : Nat) (h1 : 1 ≤ n) (h31 : n < 2 ^ 31) (hlo : 2 ^ k ≤ n)
    (hup : n < 2 ^ (k + 1)) :
    queryAlignedLevelSize n =
        (n + (if n ≤ 512 then 16 else 2 ^ (k - 5)) - 1) /
          (if n ≤ 512 then 16 else 2 ^ (k - 5)) * (if n ≤ 512 then 16 else 2 ^ (k - 5)) ∧
      n ≤ queryAlignedLevelSize n ∧
      queryAlignedLevelSize n < n + (if n ≤ 512 then 16 else 2 ^ (k - 5)) := by
  unfold queryAlignedLevelSize
  by_cases h512 : n ≤ 512
  · simp only [if_pos h512]
    rw [alloc_small n h1 h512]
    refine level_fact_round _ _ _ _ _ (by omega) (by omega) ?_
    rw [if_pos rfl]
    omega
  · simp only [if_neg h512]
    obtain ⟨k', hk, hk64, hlo', hup'⟩ := tlsf_fls_sizet_spec n (by omega) (by
      have : (2:Nat) ^ 31 < 2 ^ 64 := by norm_num
      omega)
    have e1 := log_range n k k' (k' + 1) hlo hup hlo' hup'
    have e2 := log_range n k' k (k + 1) hlo' hup' hlo hup
    have hkk : k' = k := by omega
    subst hkk
    have hr := log_range n k' 9 31 hlo hup (by norm_num; omega) h31
    rw [alloc_large n k' hk (by omega) (by omega) hlo hup]
    obtain ⟨hr1, hr2⟩ := hr
    generalize hq : (n + 2 ^ (k' - 5) - 1 - 2 ^ k') / 2 ^ (k' - 5) = q
    generalize hv : (n + 2 ^ (k' - 5) - 1) / 2 ^ (k' - 5) = v
    dsimp only
    clear hk e1 e2
    interval_cases k' <;>
      simp only [Nat.reducePow, Nat.reduceSub, Nat.reduceAdd] at hlo hup hq hv h31 ⊢ <;>
      split_ifs <;>
      refine level_fact_round _ _ _ _ _ (by omega) (by omega) ?_ <;>
      simp only [Nat.reducePow, Nat.reduceAdd,
        Nat.reduceSub, Nat.reduceMul, OfNat.ofNat_ne_zero, ↓reduceIte, OfNat.zero_ne_ofNat,
        one_ne_zero] <;>
      omega

/-- Witness of C17: the request of 1000 bytes is rounded up to 1008, a multiple of
`2 ^ (9 - 5) = 16`. -/
theorem alloc_rounds_up_witness :
    (1 ≤ 1000 ∧ 1000 < 2 ^ 31 ∧ 2 ^ 9 ≤ 1000 ∧ 1000 < 2 ^ (9 + 1)) ∧
      queryAlignedLevelSize 1000 = 1008 ∧ 1000 ≤ queryAlignedLevelSize 1000 :=
  ⟨by decide, by decide,
    (alloc_rounds_up 1000 9 (by decide) (by decide) (by decide) (by decide)).2.1⟩

/-- Claim C18.  The class of a block is never above its size: for `16 ≤ s < 2 ^ 31`,
`queryLevelSize (queryBitmapLevelForInsert s) ≤ s`. -/
theorem insert_class_below_size (s : Nat) (h16 : 16 ≤ s) (h31 : s < 2 ^ 31) :
    queryLevelSize (queryBitmapLevelForInsert s) ≤ s :=
  (insert_class_spec s h16 h31).2.2

/-- Witness of C18: a block of 1000 bytes is filed in a class whose minimum is 976. -/
theorem insert_class_below_size_witness :
    (16 ≤ 1000 ∧ 1000 < 2 ^ 31) ∧ queryLevelSize (queryBitmapLevelForInsert 1000) = 976 ∧
      queryLevelSize (queryBitmapLevelForInsert 1000) ≤ 1000 :=
  ⟨by decide, by decide, insert_class_below_size 1000 (by decide) (by decide)⟩

/-- Claim C19, amended.  The class of a block in closed form: for `16 ≤ s ≤ 512` it is
`(0, s / 16 - 1)`, and for `512 < s < 2 ^ 31`, with `k = floor(log2 s)` and
`q = (s - 2 ^ k) / (2 ^ k >> 5)`, it is `(k - 9, 30)` when `q = 0`, `(k - 9, 31)` when
`q = 1`, and `(k - 8, q - 2)` otherwise: one class below the class that the spec names. -/
theorem insert_class_closed_form (s k : Nat) (h16 : 16 ≤ s) (h31 : s < 2 ^ 31)
    (hlo : 2 ^ k ≤ s) (hup : s < 2 ^ (k + 1)) :
    queryBitmapLevelForInsert s =
      if s ≤ 512 then ⟨0, s / 16 - 1⟩
      else if (s - 2 ^ k) / (2 ^ k >>> 5) = 0 then ⟨k - 9, 30⟩
      else if (s - 2 ^ k) / (2 ^ k >>> 5) = 1 then ⟨k - 9, 31⟩
      else ⟨k - 8, (s - 2 ^ k) / (2 ^ k >>> 5) - 2⟩ := by
  by_cases h512 : s ≤ 512
  · rw [if_pos h512, insert_small s h16 h512]
  · rw [if_neg h512]
    obtain ⟨k', hk, hk64, hlo', hup'⟩ := tlsf_fls_sizet_spec s (by omega) (by
      have : (2:Nat) ^ 31 < 2 ^ 64 := by norm_num
      omega)
    have e1 := log_range s k k' (k' + 1) hlo hup hlo' hup'
    have e2 := log_range s k' k (k + 1) hlo' hup' hlo hup
    have hkk : k' = k := by omega
    subst hkk
    have hr := log_range s k' 9 31 hlo hup (by norm_num; omega) h31
    have hsh : 2 ^ k' >>> 5 = 2 ^ (k' - 5) := by
      rw [Nat.shiftRight_eq_div_pow, Nat.pow_div (by omega) (by norm_num)]
    rw [hsh, insert_large s k' hk (by omega) hk64 hlo hup]

/-- Witness of C19: a block of 1000 bytes, with `k = 9` and `q = 30`, is filed in the
class `(1, 28)`. -/
theorem insert_class_closed_form_witness :
    (16 ≤ 1000 ∧ 1000 < 2 ^ 31 ∧ 2 ^ 9 ≤ 1000 ∧ 1000 < 2 ^ (9 + 1)) ∧
      queryBitmapLevelForInsert 1000 = ⟨1, 28⟩ := by
  refine ⟨by decide, ?_⟩
  rw [insert_class_closed_form 1000 9 (by decide) (by decide) (by decide) (by decide)]
  decide

/-- Counterexample to C19 as stated: for `s = 1024` one has `k = 10` and `q = 0`, the claim
names the class `(10 - 1 - 8, 31) = (1, 31)`, and the code returns `(1, 30)`. -/
theorem insert_class_not_spec_class :
    2 ^ 10 ≤ 1024 ∧ 1024 < 2 ^ (10 + 1) ∧ (1024 - 2 ^ 10) / (2 ^ 10 >>> 5) = 0 ∧
      queryBitmapLevelForInsert 1024 = ⟨1, 30⟩ ∧
      queryBitmapLevelForInsert 1024 ≠ ⟨10 - 1 - 8, 31⟩ := by
  decide

/-- Claim C20.  Index consistency is preserved by every public operation.  In a state that
satisfies the allocator invariant `Inv` (invariants 1 to 7 of the specification, for
valid pools), the index is consistent, and each of `initialize` on a valid pool, `alloc`
of a size `1 ≤ n ≤ 2 ^ 39`, `free` of a live pointer and `realloc` of a live pointer to a
size `1 ≤ n ≤ 2 ^ 39` returns and ends in a state where bit `i` of the first-level bitmap
is set iff `second_bitmap[i] ≠ 0` and bit `j` of `second_bitmap[i]` is set iff
`heads[i][j]` is not null. -/
theorem index_consistency_preserved {t : TLSF} {live : List (Nat × Nat)}
    {blocks : TLSFPool → List Nat} {lists : Nat → Nat → List Nat}
    (hI : Inv t live blocks lists) :
    IndexConsistent t ∧
    (∀ pool, ValidPool t pool →
      ∃ t', initializePool t pool = some (t', true) ∧ IndexConsistent t') ∧
    (∀ n, 1 ≤ n → n ≤ 2 ^ 39 → ∃ t' p, alloc t n = some (t', p) ∧ IndexConsistent t') ∧
    (∀ p m, (p, m) ∈ live → ∃ t', TLSF.free t p = some t' ∧ IndexConsistent t') ∧
    (∀ p m n, (p, m) ∈ live → 1 ≤ n → n ≤ 2 ^ 39 →
      ∃ t' q, realloc t p n = some (t', q) ∧ IndexConsistent t') := by
  have halloc : ∀ {u : TLSF} {lv : List (Nat × Nat)} {bl : TLSFPool → List Nat}
      {ls : Nat → Nat → List Nat}, Inv u lv bl ls → ∀ n, 1 ≤ n → n ≤ 2 ^ 39 →
      ∃ t' p, alloc u n = some (t', p) ∧ IndexConsistent t' := by
    intro u lv bl ls hU n h1 h39
    rcases alloc_spec hU n h1 h39 with ⟨h, _⟩ | ⟨t', b, C, rest, pool, pre, post, h, _, _, _, _,
      _, _, _, hcase⟩
    · exact ⟨u, 0, h, hU.link.indexConsistent⟩
    · rcases hcase with ⟨_, _, hI'⟩ | ⟨_, _, _, _, _, hI'⟩
      · exact ⟨t', _, h, hI'.link.indexConsistent⟩
      · exact ⟨t', _, h, hI'.link.indexConsistent⟩
  refine ⟨hI.link.indexConsistent, ?_, halloc hI, ?_, ?_⟩
  · intro pool hv
    obtain ⟨t', h, _, hI', _⟩ := init_spec hI pool hv
    exact ⟨t', h, hI'.link.indexConsistent⟩
  · intro p m hl
    obtain ⟨hp16, _, _, _⟩ := hI.live_block p m hl
    obtain ⟨b, rfl⟩ : ∃ b, p = b + 16 := ⟨p - 16, by omega⟩
    obtain ⟨_, _, _, u, _, _, _, hfree, _, hI', _⟩ := free_spec hI b m hl
    exact ⟨u, hfree, hI'.link.indexConsistent⟩
  · intro p m n hl h1 h39
    obtain ⟨hp16, _, _, _⟩ := hI.live_block p m hl
    obtain ⟨b, rfl⟩ : ∃ b, p = b + 16 := ⟨p - 16, by omega⟩
    obtain ⟨pool, pre, post, u, _, hpool, hblocks, hfree, _, hI', _⟩ := free_spec hI b m hl
    have hbin : b ∈ blocks pool := by rw [hblocks]; simp
    by_cases hg : growsInPlace t pool b n
    · obtain ⟨v, hv, hL, _⟩ := realloc_grow hI hpool hbin n hg
      exact ⟨_, _, hv, hL.indexConsistent.of_heap _⟩
    · rw [realloc_move hI hpool hbin n hg hfree]
      obtain ⟨G, hG⟩ := alloc_withFreeBits u (fun z => (t.heap z).free) n
      obtain ⟨t', q, ha, hc⟩ := halloc hI' n h1 h39
      rw [hG, ha]
      exact ⟨_, _, rfl, hc.of_free_bits G⟩

/-- Witness of C20: the pool of 256 bytes after `alloc(100)`, which returns 4112.  The
state satisfies the invariant, and `realloc(4112, 80)` and `free(4112)` end in states
with a consistent index. -/
theorem index_consistency_preserved_witness :
    ∃ blocks lists, Inv demo100 [(4112, 100)] blocks lists ∧ IndexConsistent demo100 ∧
      (∃ t' q, realloc demo100 4112 80 = some (t', q) ∧ IndexConsistent t') ∧
      ∃ t', TLSF.free demo100 4112 = some t' ∧ IndexConsistent t' := by
  obtain ⟨blocks, lists, hI⟩ := reachable_inv demo100_reach
  obtain ⟨h1, _, _, h4, h5⟩ := index_consistency_preserved hI
  exact ⟨blocks, lists, hI, h1, h5 4112 100 80 (by decide) (by decide) (by decide),
    h4 4112 100 (by decide)⟩

/-! ## Tiling, checked mappers and further lemmas -/

set_option maxHeartbeats 1000000 in
/-- The class of the minimum size of a class is the class itself. -/
theorem alloc_levelSize (fl sl : Nat) (hfl : fl ≤ 22) (hsl : sl < 32) :
    queryBitmapLevelForAlloc (queryLevelSize ⟨fl, sl⟩) = ⟨fl, sl⟩ := by
  rw [levelSize_eq fl sl (by omega) (by omega)]
  by_cases h0 : fl = 0
  · subst h0
    rw [if_pos rfl, alloc_small _ (by omega) (by omega)]
    simp only [BitmapLevel.mk.injEq, true_and]
    omega
  · rw [if_neg h0]
    generalize hs : 2 ^ (fl + 8) + 2 ^ (fl + 3) * (sl + 1) = s
    have hpos : 512 < s := by
      have : (2:Nat) ^ 9 ≤ 2 ^ (fl + 8) := Nat.pow_le_pow_right (by norm_num) (by omega)
      have : 0 < 2 ^ (fl + 3) * (sl + 1) := Nat.mul_pos (Nat.pow_pos (by norm_num)) (by omega)
      omega
    have hlt : s < 2 ^ 32 := by
      have e : (2:Nat) ^ (fl + 8) = 32 * 2 ^ (fl + 3) := by
        rw [show (32:Nat) = 2 ^ 5 by norm_num, ← Nat.pow_add]; congr 1; omega
      have b : (2:Nat) ^ (fl + 3) ≤ 2 ^ 25 := Nat.pow_le_pow_right (by norm_num) (by omega)
      have : 2 ^ (fl + 3) * (sl + 1) ≤ 2 ^ 25 * 32 := Nat.mul_le_mul b (by omega)
      norm_num at this b ⊢
      omega
    obtain ⟨k, hk, hk64, hlo, hup⟩ := tlsf_fls_sizet_spec s (by omega) (by
      have : (2:Nat) ^ 32 < 2 ^ 64 := by norm_num
      omega)
    have e8 : (2:Nat) ^ (fl + 8) = 32 * 2 ^ (fl + 3) := by
      rw [show (32:Nat) = 2 ^ 5 by norm_num, ← Nat.pow_add]; congr 1; omega
    have e10 : (2:Nat) ^ (fl + 10) = 128 * 2 ^ (fl + 3) := by
      rw [show (128:Nat) = 2 ^ 7 by norm_num, ← Nat.pow_add]; congr 1; omega
    have hb : 2 ^ (fl + 3) * (sl + 1) ≤ 2 ^ (fl + 3) * 32 := Nat.mul_le_mul_left _ (by omega)
    have hp3 : 0 < 2 ^ (fl + 3) := Nat.pow_pos (by norm_num)
    have hr := log_range s k (fl + 8) (fl + 10) hlo hup (by omega) (by omega)
    rw [alloc_large s k hk hpos (by omega) hlo hup]
    generalize hq : (s + 2 ^ (k - 5) - 1 - 2 ^ k) / 2 ^ (k - 5) = q
    dsimp only
    obtain ⟨hr1, hr2⟩ := hr
    clear hk e8 e10 hb hp3
    have h1 : 1 ≤ fl := by omega
    interval_cases fl <;> simp only [Nat.reducePow, Nat.reduceAdd] at hs <;>
      interval_cases k <;>
      simp only [Nat.reducePow, Nat.reduceSub, Nat.reduceAdd] at hlo hup hq hpos hlt ⊢ <;>
      split_ifs <;> simp only [BitmapLevel.mk.injEq, Nat.reduceSub] <;>
      constructor <;> first | exact True.intro | omega

theorem checkedDec16_eq (a : Nat) (h0 : a ≠ 0) (h : a < 65536) :
    checkedDec16 a = some (dec16 a) := by
  unfold checkedDec16 dec16
  rw [if_neg h0]
  have e : a - 1 = (a + 65535) % 65536 := by omega
  rw [e]

theorem checkedSub16_eq (a b : Nat) (hba : b ≤ a) (h : a < 65536) :
    checkedSub16 a b = some (sub16 a b) := by
  unfold checkedSub16 sub16
  rw [if_neg (by omega)]
  have e : a - b = (a + (65536 - b % 65536)) % 65536 := by omega
  rw [e]

/-- For a request of `1 ≤ n ≤ 2 ^ 39` bytes no decrement in `queryBitmapLevelForAlloc`
wraps. -/
theorem alloc_checked (n : Nat) (h1 : 1 ≤ n) (h39 : n ≤ 2 ^ 39) :
    queryBitmapLevelForAllocChecked n = some (queryBitmapLevelForAlloc n) := by
  unfold queryBitmapLevelForAllocChecked queryBitmapLevelForAlloc
  by_cases h512 : n ≤ FLM
  · rw [if_pos h512, if_pos h512]
    rw [FLM_eq] at h512
    simp only [MinimiumAllocationSize, Nat.reduceSub, and_15]
    by_cases hm : n % 16 = 0
    · rw [if_pos hm, if_pos hm, checkedDec16_eq _ (by omega) (by omega)]
      rfl
    · rw [if_neg hm, if_neg hm]
  · rw [if_neg h512, if_neg h512]
    rw [FLM_eq] at h512
    obtain ⟨k, hk, hk64, hlo, hup⟩ := tlsf_fls_sizet_spec n (by omega) (by
      have : (2:Nat) ^ 39 < 2 ^ 64 := by norm_num
      omega)
    have hr := log_range n k 9 40 hlo hup (by norm_num; omega) (by
      have : (2:Nat) ^ 39 < 2 ^ 40 := by norm_num
      omega)
    rw [hk, toU16_natCast k (by omega)]
    simp only [BasePowLevel_eq]
    generalize hqd :
      (sub64 (add64 n (sub64 (1 <<< k >>> SLI) 1)) (1 <<< k) / 1 <<< (k - SLI)) % 65536 = q
    have hq : q < 65536 := by
      rw [← hqd]
      exact Nat.mod_lt _ (by norm_num)
    by_cases hq0 : q ≠ 0
    · simp only [hq0, not_false_eq_true, if_true, ne_eq]
      rw [checkedDec16_eq q hq0 hq, checkedSub16_eq k (9 - 1) (by omega) (by omega)]
      rfl
    · simp only [hq0, if_false]
      rw [checkedDec16_eq k (by omega) (by omega), Option.some_bind,
        checkedSub16_eq (dec16 k) (9 - 1) (by unfold dec16; omega) (by unfold dec16; omega)]
      rfl

/-- In `queryBitmapLevelForInsert` the second decrement of the second-level index wraps
exactly for the sizes above 512 with `q = 1`; for every other size `16 ≤ s < 2 ^ 31` no
decrement wraps. -/
theorem insert_checked (s k : Nat) (h16 : 16 ≤ s) (h31 : s < 2 ^ 31) (hlo : 2 ^ k ≤ s)
    (hup : s < 2 ^ (k + 1)) :
    queryBitmapLevelForInsertChecked s =
      if 512 < s ∧ (s - 2 ^ k) / (2 ^ k >>> 5) = 1 then none
      else some (queryBitmapLevelForInsert s) := by
  unfold queryBitmapLevelForInsertChecked queryBitmapLevelForInsert
  by_cases h512 : s ≤ FLM
  · rw [if_pos h512, if_pos h512]
    rw [FLM_eq] at h512
    rw [if_neg (by omega)]
    simp only [MinimiumAllocationSize]
    rw [checkedDec16_eq _ (by omega) (by omega)]
    rfl
  · rw [if_neg h512, if_neg h512]
    rw [FLM_eq] at h512
    have h512' : 512 < s := by omega
    obtain ⟨k', hk, hk64, hlo', hup'⟩ := tlsf_fls_sizet_spec s (by omega) (by
      have : (2:Nat) ^ 31 < 2 ^ 64 := by norm_num
      omega)
    have e1 := log_range s k k' (k' + 1) hlo hup hlo' hup'
    have e2 := log_range s k' k (k + 1) hlo' hup' hlo hup
    have hkk : k' = k := by omega
    subst hkk
    have hr := log_range s k' 9 31 hlo hup (by norm_num; omega) h31
    have h2k : (2:Nat) ^ (k' + 1) ≤ 2 ^ 64 := Nat.pow_le_pow_right (by norm_num) (by omega)
    have e32 : (2:Nat) ^ k' = 32 * 2 ^ (k' - 5) := by
      rw [show (32:Nat) = 2 ^ 5 by norm_num, ← Nat.pow_add]; congr 1; omega
    have hq : (s - 2 ^ k') / 2 ^ (k' - 5) < 32 := by
      apply Nat.div_lt_of_lt_mul
      rw [Nat.pow_succ] at hup
      omega
    rw [hk, toU16_natCast k' (by omega)]
    simp only [and_SLC_pred]
    simp only [Nat.one_shiftLeft, Nat.shiftRight_eq_div_pow, SLI, SLC_eq, BasePowLevel_eq]
    have e1 : sub64 s (2 ^ k') = s - 2 ^ k' := by
      unfold sub64
      rw [Nat.pow_succ] at h2k
      rw [Nat.mod_eq_of_lt (by omega : 2 ^ k' < 2 ^ 64)]
      omega
    have e2 : (2:Nat) ^ k' / 2 ^ 5 = 2 ^ (k' - 5) := by
      rw [e32]; norm_num
    rw [e1, e2]
    generalize (s - 2 ^ k') / 2 ^ (k' - 5) = q at hq ⊢
    have hq' : q % 65536 = q := Nat.mod_eq_of_lt (by omega)
    rw [hq']
    obtain ⟨hr1, hr2⟩ := hr
    clear e1 e2 e32 hlo hup h2k hk hlo' hup' hq'
    simp only [h512', true_and]
    by_cases hq0 : q = 0
    · subst hq0
      rw [if_neg (by omega : ¬ (0:Nat) = 1)]
      simp only [if_true, checkedDec16_eq k' (by omega) (by omega), Option.map_some',
        Option.some_bind, OfNat.ofNat_ne_zero, if_false, Nat.reduceSub]
      rw [checkedSub16_eq _ 0 (Nat.zero_le _) (by unfold dec16; omega), Option.some_bind,
        checkedDec16_eq 31 (by norm_num) (by norm_num), Option.some_bind,
        checkedSub16_eq _ 8 (by unfold dec16 sub16; omega) (by unfold dec16 sub16; omega)]
      rfl
    · by_cases hq1 : q = 1
      · subst hq1
        rw [if_pos (rfl : (1:Nat) = 1)]
        simp only [one_ne_zero, if_false, checkedDec16_eq 1 one_ne_zero (by norm_num),
          Option.map_some', Option.some_bind]
        have : dec16 1 = 0 := by decide
        simp only [this, if_true]
        rw [checkedSub16_eq _ 1 (by omega) (by omega), Option.some_bind]
        rfl
      · rw [if_neg hq1]
        simp only [hq0, if_false, checkedDec16_eq q hq0 (by omega), Option.map_some',
          Option.some_bind]
        have hd : dec16 q ≠ 0 := by unfold dec16; omega
        simp only [hd, if_false]
        rw [checkedSub16_eq _ 0 (Nat.zero_le _) (by omega), Option.some_bind,
          checkedDec16_eq _ hd (by unfold dec16; omega), Option.some_bind,
          checkedSub16_eq _ 8 (by unfold sub16; omega) (by unfold sub16; omega)]
        rfl

/-- The stop address of the walk of `dump` depends on the `size` fields only. -/
theorem walkEnd_congr (h h' : Heap) (pool : TLSFPool) (hs : ∀ x, (h' x).size = (h x).size)
    (fuel : Nat) : ∀ a, walkEnd h' pool a fuel = walkEnd h pool a fuel := by
  induction fuel with
  | zero => intro a; rfl
  | succ k ih =>
    intro a
    simp only [walkEnd, Heap.nextPhyAllocation, hs, ih]

/-- The walk of `dump` over a segment of the physical chain stops at its end. -/
theorem walkEnd_seg (h : Heap) (pool : TLSFPool) (l : List Nat) :
    ∀ (prev a fuel : Nat), PSeg h prev a l (pool.memptr + pool.capacity) → l.length ≤ fuel →
      walkEnd h pool a fuel = pool.memptr + pool.capacity := by
  induction l with
  | nil =>
    intro prev a fuel hs _
    have ha : a = pool.memptr + pool.capacity := hs
    cases fuel with
    | zero => exact ha
    | succ k =>
      have : ¬ pool.check_next_contains a = true := by rw [check_next_contains_iff]; omega
      simp only [walkEnd, this, if_false]
      exact ha
  | cons x xs ih =>
    intro prev a fuel hs hf
    obtain ⟨ha, _, h16, hrest⟩ := hs
    subst ha
    have hb := (PSeg_bounds _ _ _ _ _ hrest).1
    cases fuel with
    | zero => simp at hf
    | succ k =>
      have : pool.check_next_contains a = true := by rw [check_next_contains_iff]; omega
      simp only [walkEnd, this, if_true]
      rw [show h.nextPhyAllocation a = a + 16 + (h a).size from rfl,
        ih _ _ _ hrest (by simpa using hf)]

/-- Every block of a segment of the physical chain takes at least 32 bytes of it. -/
theorem PSeg_length (h : Heap) (l : List Nat) :
    ∀ (prev a e : Nat), PSeg h prev a l e → a + 32 * l.length ≤ e := by
  induction l with
  | nil => intro prev a e hs; have : a = e := hs; simp; omega
  | cons x xs ih =>
    intro prev a e hs
    obtain ⟨ha, _, h16, hrest⟩ := hs
    have := ih _ _ _ hrest
    simp only [List.length_cons]
    omega

/-- The blocks of a segment of the physical chain, headers included, add up to its
length. -/
theorem PSeg_sum (h : Heap) (l : List Nat) :
    ∀ (prev a e : Nat), PSeg h prev a l e →
      a + (l.map (fun x => 16 + (h x).size)).sum = e := by
  induction l with
  | nil => intro prev a e hs; have : a = e := hs; simp; omega
  | cons x xs ih =>
    intro prev a e hs
    obtain ⟨ha, _, h16, hrest⟩ := hs
    have := ih _ _ _ hrest
    simp only [List.map_cons, List.sum_cons]
    omega

/-- A pool whose blocks form a physical chain from its base to its end is tiled, also in a
heap that agrees on the `size` fields. -/
theorem tiles_of_seg (h h' : Heap) (pool : TLSFPool) (l : List Nat)
    (hsz : ∀ x, (h' x).size = (h x).size)
    (hs : PSeg h 0 pool.memptr l (pool.memptr + pool.capacity)) :
    walkEnd h' pool pool.memptr pool.capacity = pool.memptr + pool.capacity ∧
      ((walkPool h' pool pool.memptr pool.capacity).map (fun x => 16 + (h' x).size)).sum =
        pool.capacity := by
  have hlen := PSeg_length _ _ _ _ _ hs
  have hl : l.length ≤ pool.capacity := by omega
  rw [walkEnd_congr h h' pool hsz, walkPool_congr h h' pool hsz,
    walkEnd_seg h pool l _ _ _ hs hl, walkPool_seg h pool l _ _ _ hs hl]
  refine ⟨rfl, ?_⟩
  have e : (fun x => 16 + (h' x).size) = (fun x => 16 + (h x).size) := by
    funext x; rw [hsz]
  rw [e]
  have := PSeg_sum _ _ _ _ _ hs
  omega

theorem Inv.tiles {t : TLSF} {live : List (Nat × Nat)} {blocks : TLSFPool → List Nat}
    {lists : Nat → Nat → List Nat} (hI : Inv t live blocks lists) : Tiles t :=
  fun pool hp => tiles_of_seg t.heap t.heap pool (blocks pool) (fun _ => rfl) (hI.chain pool hp)

theorem Tiles.of_sizes {t u : TLSF} (h : Tiles t) (hp : u.memoryPools = t.memoryPools)
    (hs : ∀ x, (u.heap x).size = (t.heap x).size) : Tiles u := by
  intro pool hpool
  rw [hp] at hpool
  obtain ⟨h1, h2⟩ := h pool hpool
  rw [walkEnd_congr t.heap u.heap pool hs, walkPool_congr t.heap u.heap pool hs]
  refine ⟨h1, ?_⟩
  have e : (fun x => 16 + (u.heap x).size) = (fun x => 16 + (t.heap x).size) := by
    funext x; rw [hs]
  rw [e]
  exact h2

theorem Inv.noAdjacentFree {t : TLSF} {live : List (Nat × Nat)} {blocks : TLSFPool → List Nat}
    {lists : Nat → Nat → List Nat} (hI : Inv t live blocks lists) : NoAdjacentFree t := by
  intro pool hp b hb hf hin
  rw [hI.walkPool_eq hp _ (le_refl _)] at hb
  obtain ⟨pre, post, hblocks⟩ := List.append_of_mem hb
  obtain ⟨_, _, _, _, _, hnil, hhead⟩ := hI.chain_at hp hblocks
  cases post with
  | nil => exact absurd hin (hnil.mp rfl)
  | cons y ys =>
    have hy : y = b + 16 + (t.heap b).size := hhead y (by simp)
    subst hy
    have hc := hI.noAdj pool hp
    rw [hblocks, List.chain'_split] at hc
    have := (List.chain'_cons.mp hc.2).1
    cases hfs : (t.heap (b + 16 + (t.heap b).size)).free with
    | false => rfl
    | true => exact absurd ⟨hf, hfs⟩ this

theorem Inv.listsClassified {t : TLSF} {live : List (Nat × Nat)} {blocks : TLSFPool → List Nat}
    {lists : Nat → Nat → List Nat} (hI : Inv t live blocks lists) : ListsClassified t := by
  intro L x hx
  rw [hI.link.onFreeList_iff] at hx
  exact (hI.listed_free _ _ _ hx).2.2

theorem ListsClassified.of_free_bits_lists {t : TLSF} {live : List (Nat × Nat)}
    {blocks : TLSFPool → List Nat} {lists : Nat → Nat → List Nat} (hI : Inv t live blocks lists)
    (G : Nat → Bool) : ListsClassified (t.withFreeBits G) := by
  intro L x hx
  rw [(hI.link.with_free_bits G).onFreeList_iff] at hx
  exact (hI.listed_free _ _ _ hx).2.2

/-- The physical chain of a pool after the in-place growth of the block `b` over its
successor, in a heap where `b` has the size of the two blocks together and the block
after the successor points back to `b`. -/
theorem grow_seg {t : TLSF} {live : List (Nat × Nat)} {blocks : TLSFPool → List Nat}
    {lists : Nat → Nat → List Nat} (hI : Inv t live blocks lists) {pool : TLSFPool}
    (hpool : pool ∈ t.memoryPools) {b : Nat} {pre post : List Nat}
    (hblocks : blocks pool = pre ++ b :: post)
    (hin : b + 16 + (t.heap b).size < pool.memptr + pool.capacity) (H : Heap)
    (hsize : ∀ x, (H x).size = if x = b then
      (t.heap (b + 16 + (t.heap b).size)).size + 16 + (t.heap b).size else (t.heap x).size)
    (hprev : ∀ x, (H x).prevPhyAlloc =
      if x = b + 16 + (t.heap b).size + 16 + (t.heap (b + 16 + (t.heap b).size)).size ∧
        x < pool.memptr + pool.capacity then b else (t.heap x).prevPhyAlloc) :
    PSeg H 0 pool.memptr (pre ++ b :: post.tail) (pool.memptr + pool.capacity) := by
  obtain ⟨hpre, hprevb, hpost, hprebd, _, hnil, hhead⟩ := hI.chain_at hpool hblocks
  cases post with
  | nil => exact absurd hin (hnil.mp rfl)
  | cons y ys =>
    have hy : y = b + 16 + (t.heap b).size := hhead y (by simp)
    subst hy
    obtain ⟨_, _, h16s, hrest⟩ := hpost
    have hb16 := (hI.block_bounds hpool (by rw [hblocks]; simp : b ∈ blocks pool)).2.2.1
    rw [List.tail_cons, PSeg_append]
    refine ⟨b, PSeg_congr _ _ _ _ _ _ (fun x hx => ?_) hpre, ?_⟩
    · have := hprebd x hx
      rw [hsize, hprev, if_neg (by omega), if_neg (fun h => by omega)]
      exact ⟨rfl, rfl⟩
    · refine ⟨rfl, ?_, ?_, ?_⟩
      · rw [hprev, if_neg (fun h => by omega)]
        exact hprevb
      · rw [hsize, if_pos rfl]; omega
      · have e : b + 16 + (H b).size =
            b + 16 + (t.heap b).size + 16 + (t.heap (b + 16 + (t.heap b).size)).size := by
          rw [hsize, if_pos rfl]; omega
        rw [e]
        cases ys with
        | nil => exact hrest
        | cons z zs =>
          obtain ⟨hz, _, h16z, hrest2⟩ := hrest
          have hzb := PSeg_bounds _ _ _ _ _ hrest2
          have hzs : (H z).size = (t.heap z).size := by rw [hsize, if_neg (by omega)]
          refine ⟨hz, ?_, by rw [hzs]; exact h16z, ?_⟩
          · rw [hprev, if_pos ⟨hz.symm, by omega⟩]
          · rw [hzs]
            refine PSeg_congr _ _ _ _ _ _ (fun x hx => ?_) hrest2
            have := hzb.2 x hx
            rw [hsize, hprev, if_neg (by omega), if_neg (fun h => by omega)]
            exact ⟨rfl, rfl⟩

/-- A call of `alloc` with a valid size in a state that satisfies the invariant returns and
ends in a state that satisfies the invariant. -/
theorem alloc_total_inv {t : TLSF} {live : List (Nat × Nat)} {blocks : TLSFPool → List Nat}
    {lists : Nat → Nat → List Nat} (hI : Inv t live blocks lists) (n : Nat) (h1 : 1 ≤ n)
    (h39 : n ≤ 2 ^ 39) :
    ∃ t' p lv bl ls, alloc t n = some (t', p) ∧ Inv t' lv bl ls := by
  rcases alloc_spec hI n h1 h39 with ⟨h, _⟩ | ⟨t', b, C, rest, pool, pre, post, h, _, _, _, _,
    _, _, _, hcase⟩
  · exact ⟨t, 0, _, _, _, h, hI⟩
  · rcases hcase with ⟨_, _, hI'⟩ | ⟨_, _, _, _, _, hI'⟩
    · exact ⟨t', _, _, _, _, h, hI'⟩
    · exact ⟨t', _, _, _, _, h, hI'⟩

/-- The in-place branch of `realloc`, with the state after the removal of the successor
from its free list. -/
theorem realloc_grow_full {t : TLSF} {live : List (Nat × Nat)} {blocks : TLSFPool → List Nat}
    {lists : Nat → Nat → List Nat} (hI : Inv t live blocks lists) {pool : TLSFPool}
    (hpool : pool ∈ t.memoryPools) {b : Nat} (hbin : b ∈ blocks pool) (n : Nat)
    (hg : growsInPlace t pool b n) :
    ∃ u, removeFreeAllocationAndUpdateBitmap t (b + 16 + (t.heap b).size) = some u ∧
      realloc t (b + 16) n = some (u.withHeap (u.heap.setSize b
        ((t.heap (b + 16 + (t.heap b).size)).size + 16 + (t.heap b).size)), b + 16) ∧
      LinkInv u (updLists lists
        (queryBitmapLevelForInsert (t.heap (b + 16 + (t.heap b).size)).size)
        ((lists (queryBitmapLevelForInsert (t.heap (b + 16 + (t.heap b).size)).size).firstLevel
          (queryBitmapLevelForInsert
            (t.heap (b + 16 + (t.heap b).size)).size).secondLevel).erase
            (b + 16 + (t.heap b).size))) ∧
      PhysEq t.heap u.heap ∧ u.memoryPools = t.memoryPools ∧
      (t.heap (b + 16 + (t.heap b).size)).size + 16 + (t.heap b).size < 2 ^ 31 := by
  have hsin := hI.next_block hpool hbin hg.1.1
  have hsb := hI.block_bounds hpool hsin
  have hbb := hI.block_bounds hpool hbin
  have hpok := hI.pools_ok pool hpool
  obtain ⟨v, hrem, hL, hP, hpools⟩ := remove_spec hI.link (b + 16 + (t.heap b).size) _
    (hI.class_inTable hpool hsin).1 (hI.free_listed pool hpool _ hsin hg.1.2)
  have hrem2 : removeFreeAllocationAndUpdateBitmap t (b + 16 + (t.heap b).size) = some v := hrem
  refine ⟨v, hrem2, ?_, hL, hP, hpools, by omega⟩
  rw [realloc_eq hI hpool hbin, if_pos hg, hrem2]

/-- The two outcomes of `realloc(p, n)` for a live pointer `p` in a state that satisfies
the invariant: the in-place growth, or a state that satisfies the invariant up to its
`free` bits. -/
theorem realloc_cases {t : TLSF} {live : List (Nat × Nat)} {blocks : TLSFPool → List Nat}
    {lists : Nat → Nat → List Nat} (hI : Inv t live blocks lists) (p m n : Nat)
    (hl : (p, m) ∈ live) (h1 : 1 ≤ n) (h39 : n ≤ 2 ^ 39) :
    ∃ t' q, realloc t p n = some (t', q) ∧
      ((∃ pool b u pre post, p = b + 16 ∧ q = p ∧ pool ∈ t.memoryPools ∧
          blocks pool = pre ++ b :: post ∧ growsInPlace t pool b n ∧
          t' = u.withHeap (u.heap.setSize b
            ((t.heap (b + 16 + (t.heap b).size)).size + 16 + (t.heap b).size)) ∧
          LinkInv u (updLists lists
            (queryBitmapLevelForInsert (t.heap (b + 16 + (t.heap b).size)).size)
            ((lists (queryBitmapLevelForInsert (t.heap (b + 16 + (t.heap b).size)).size).firstLevel
              (queryBitmapLevelForInsert
                (t.heap (b + 16 + (t.heap b).size)).size).secondLevel).erase
                (b + 16 + (t.heap b).size))) ∧
          PhysEq t.heap u.heap ∧ u.memoryPools = t.memoryPools ∧
          (t.heap (b + 16 + (t.heap b).size)).size + 16 + (t.heap b).size < 2 ^ 31) ∨
        (∃ v G lv bl ls, Inv v lv bl ls ∧ t' = v.withFreeBits G)) := by
  obtain ⟨hp16, _, _, _⟩ := hI.live_block p m hl
  obtain ⟨b, rfl⟩ : ∃ b, p = b + 16 := ⟨p - 16, by omega⟩
  obtain ⟨pool, pre, post, u, _, hpool, hblocks, hfree, _, hI', _⟩ := free_spec hI b m hl
  have hbin : b ∈ blocks pool := by rw [hblocks]; simp
  by_cases hg : growsInPlace t pool b n
  · obtain ⟨v, _, hre, hL, hP, hpools, h31⟩ := realloc_grow_full hI hpool hbin n hg
    exact ⟨_, b + 16, hre, Or.inl ⟨pool, b, v, pre, post, rfl, rfl, hpool, hblocks, hg,
      rfl, hL, hP, hpools, h31⟩⟩
  · rw [realloc_move hI hpool hbin n hg hfree]
    obtain ⟨G, hG⟩ := alloc_withFreeBits u (fun z => (t.heap z).free) n
    obtain ⟨v, q, lv, bl, ls, ha, hIv⟩ := alloc_total_inv hI' n h1 h39
    rw [hG, ha]
    exact ⟨_, q, rfl, Or.inr ⟨v, G, lv, bl, ls, hIv, rfl⟩⟩

/-- The in-place growth of `realloc` keeps every pool tiled. -/
theorem grow_tiles {t u : TLSF} {live : List (Nat × Nat)} {blocks : TLSFPool → List Nat}
    {lists : Nat → Nat → List Nat} (hI : Inv t live blocks lists) {pool : TLSFPool}
    (hpool : pool ∈ t.memoryPools) {b : Nat} {pre post : List Nat}
    (hblocks : blocks pool = pre ++ b :: post)
    (hin : b + 16 + (t.heap b).size < pool.memptr + pool.capacity)
    (hP : PhysEq t.heap u.heap) (hpools : u.memoryPools = t.memoryPools)
    (h31 : (t.heap (b + 16 + (t.heap b).size)).size + 16 + (t.heap b).size < 2 ^ 31) :
    Tiles (u.withHeap (u.heap.setSize b
      ((t.heap (b + 16 + (t.heap b).size)).size + 16 + (t.heap b).size))) := by
  have hbin : b ∈ blocks pool := by rw [hblocks]; simp
  have hbb := hI.block_bounds hpool hbin
  intro pool' hpool'
  have hpool'' : pool' ∈ t.memoryPools := hpools ▸ hpool'
  by_cases hpp : pool' = pool
  · subst hpp
    by_cases hc : b + 16 + (t.heap b).size + 16 + (t.heap (b + 16 + (t.heap b).size)).size <
        pool'.memptr + pool'.capacity
    · refine tiles_of_seg ((u.heap.setSize b
          ((t.heap (b + 16 + (t.heap b).size)).size + 16 + (t.heap b).size)).setPrevPhyAlloc
          (b + 16 + (t.heap b).size + 16 + (t.heap (b + 16 + (t.heap b).size)).size) b) _ pool'
        (pre ++ b :: post.tail)
        (fun x => by simp only [withHeap_heap, setPrevPhyAlloc_size]) ?_
      refine grow_seg hI hpool hblocks hin _ (fun x => ?_) (fun x => ?_)
      · simp only [setPrevPhyAlloc_size, setSize_size, (hP x).1, toSize31_eq _ h31]
      · simp only [setPrevPhyAlloc_prevPhyAlloc, setSize_prevPhyAlloc, (hP x).2.2]
        by_cases hx : x = b + 16 + (t.heap b).size + 16 +
            (t.heap (b + 16 + (t.heap b).size)).size
        · rw [if_pos hx, if_pos ⟨hx, by omega⟩]
        · rw [if_neg hx, if_neg (fun h => hx h.1)]
    · refine tiles_of_seg (u.heap.setSize b
          ((t.heap (b + 16 + (t.heap b).size)).size + 16 + (t.heap b).size)) _ pool'
        (pre ++ b :: post.tail) (fun x => rfl) ?_
      refine grow_seg hI hpool hblocks hin _ (fun x => ?_) (fun x => ?_)
      · simp only [setSize_size, (hP x).1, toSize31_eq _ h31]
      · simp only [setSize_prevPhyAlloc, (hP x).2.2]
        rw [if_neg (fun h => by omega)]
  · refine tiles_of_seg (u.heap.setSize b
        ((t.heap (b + 16 + (t.heap b).size)).size + 16 + (t.heap b).size)) _ pool'
      (blocks pool') (fun x => rfl) ?_
    refine PSeg_congr _ _ _ _ _ _ (fun x hx => ?_) (hI.chain pool' hpool'')
    have hxb : x ≠ b := by
      rintro rfl
      exact hpp (hI.pool_unique hpool'' hpool hx hbin)
    simp only [setSize_size, setSize_prevPhyAlloc, if_neg hxb, (hP x).1, (hP x).2.2, and_self]

/-- The in-place growth of `realloc` keeps every listed block in the list of its class. -/
theorem grow_classified {t u : TLSF} {live : List (Nat × Nat)} {blocks : TLSFPool → List Nat}
    {lists : Nat → Nat → List Nat} (hI : Inv t live blocks lists) {pool : TLSFPool}
    (hpool : pool ∈ t.memoryPools) {b : Nat} (hbin : b ∈ blocks pool)
    (hbf : (t.heap b).free = false) (n M : Nat) (hg : growsInPlace t pool b n)
    (hL : LinkInv u (updLists lists
      (queryBitmapLevelForInsert (t.heap (b + 16 + (t.heap b).size)).size)
      ((lists (queryBitmapLevelForInsert (t.heap (b + 16 + (t.heap b).size)).size).firstLevel
        (queryBitmapLevelForInsert
          (t.heap (b + 16 + (t.heap b).size)).size).secondLevel).erase
          (b + 16 + (t.heap b).size))))
    (hP : PhysEq t.heap u.heap) :
    ListsClassified (u.withHeap (u.heap.setSize b M)) := by
  have hsin := hI.next_block hpool hbin hg.1.1
  have hlisted := hI.free_listed pool hpool _ hsin hg.1.2
  intro L x hx
  rw [(hL.withHeap _ (LinkEq_setSize _ _ _)).onFreeList_iff,
    mem_updLists_erase hI.link _ _ hlisted] at hx
  obtain ⟨_, hxf, hxc⟩ := hI.listed_free _ _ _ hx.1
  have hxb : x ≠ b := by
    rintro rfl
    rw [hbf] at hxf
    exact Bool.noConfusion hxf
  simp only [withHeap_heap, setSize_size, if_neg hxb, (hP x).1]
  exact hxc

theorem demoStale_reach : Reachable demoStale [(4176, 16)] :=
  Reachable.free 4112 48
    (Reachable.allocSome 16 4176
      (Reachable.allocSome 48 4112 (demoInit_reach 656 (by decide) (by decide)) (by decide)
        (by decide) rfl (by decide))
      (by decide) (by decide) rfl (by decide))
    (by decide) rfl

theorem demoChain_reach : Reachable demoChain [(5232, 16), (4112, 1025)] :=
  Reachable.free 5184 32
    (Reachable.allocSome 16 5232
      (Reachable.allocSome 32 5184
        (Reachable.allocSome 1025 4112 (demoInit_reach 2048 (by decide) (by decide))
          (by decide) (by decide) rfl (by decide))
        (by decide) (by decide) rfl (by decide))
      (by decide) (by decide) rfl (by decide))
    (by decide) rfl

theorem demoThree_reach : Reachable demoThree [(4176, 16), (4144, 16)] :=
  Reachable.free 4112 16
    (Reachable.allocSome 16 4176
      (Reachable.allocSome 16 4144
        (Reachable.allocSome 16 4112 (demoInit_reach 256 (by decide) (by decide))
          (by decide) (by decide) rfl (by decide))
        (by decide) (by decide) rfl (by decide))
      (by decide) (by decide) rfl (by decide))
    (by decide) rfl

/-! ## The claims, third part -/

/-- Claim C21.  The coalescing invariant: in every state reachable by `initialize`,
`alloc` and `free` with valid arguments, no block with `free = 1` has a physical successor
inside the same pool with `free = 1`.  In particular `free(p)` on a live pointer returns,
so that the assertion `!nextNextAlloc->free` of `insertFreeAllocation` does not fail, and
the invariant holds again afterwards. -/
theorem no_adjacent_free {t : TLSF} {live : List (Nat × Nat)} (hr : Reachable t live) :
    NoAdjacentFree t ∧
      ∀ p m, (p, m) ∈ live → ∃ t', TLSF.free t p = some t' ∧ NoAdjacentFree t' := by
  obtain ⟨blocks, lists, hI⟩ := reachable_inv hr
  refine ⟨hI.noAdjacentFree, ?_⟩
  intro p m hl
  obtain ⟨hp16, _, _, _⟩ := hI.live_block p m hl
  obtain ⟨b, rfl⟩ : ∃ b, p = b + 16 := ⟨p - 16, by omega⟩
  obtain ⟨_, _, _, u, _, _, _, hfree, _, hI', _⟩ := free_spec hI b m hl
  exact ⟨u, hfree, hI'.noAdjacentFree⟩

/-- Witness of C21: the scenario on the pool of 256 bytes before `free(p1)`, with the live
block at 4096 and the free block at 4240.  The call `free(4112)` returns, and the
coalescing invariant holds before and after it. -/
theorem no_adjacent_free_witness :
    Reachable demo7 [(4112, 128)] ∧ NoAdjacentFree demo7 ∧
      TLSF.free demo7 4112 = some demo8 ∧ NoAdjacentFree demo8 := by
  obtain ⟨h1, h2⟩ := no_adjacent_free demo7_reach
  obtain ⟨t', h3, h4⟩ := h2 4112 128 (by decide)
  rw [demo8_eq] at h3
  obtain rfl := Option.some.inj h3
  exact ⟨demo7_reach, h1, demo8_eq, h4⟩

/-- Claim C22.  Tiling is preserved by every public operation.  In a state that satisfies
the allocator invariant `Inv` (invariants 1 to 7 of the specification, for valid pools)
every pool is tiled, and each of `initialize` on a valid pool, `alloc` of a size
`1 ≤ n ≤ 2 ^ 39`, `free` of a live pointer and `realloc` of a live pointer to a size
`1 ≤ n ≤ 2 ^ 39` returns and ends in a state where for every pool the blocks reached from
the base by stepping `16 + size` end exactly at `base + capacity`, and the sum of
`16 + size` over the blocks of the pool is the capacity. -/
theorem tiling_preserved {t : TLSF} {live : List (Nat × Nat)}
    {blocks : TLSFPool → List Nat} {lists : Nat → Nat → List Nat}
    (hI : Inv t live blocks lists) :
    Tiles t ∧
    (∀ pool, ValidPool t pool → ∃ t', initializePool t pool = some (t', true) ∧ Tiles t') ∧
    (∀ n, 1 ≤ n → n ≤ 2 ^ 39 → ∃ t' p, alloc t n = some (t', p) ∧ Tiles t') ∧
    (∀ p m, (p, m) ∈ live → ∃ t', TLSF.free t p = some t' ∧ Tiles t') ∧
    (∀ p m n, (p, m) ∈ live → 1 ≤ n → n ≤ 2 ^ 39 →
      ∃ t' q, realloc t p n = some (t', q) ∧ Tiles t') := by
  refine ⟨hI.tiles, ?_, ?_, ?_, ?_⟩
  · intro pool hv
    obtain ⟨t', h, _, hI', _⟩ := init_spec hI pool hv
    exact ⟨t', h, hI'.tiles⟩
  · intro n h1 h39
    obtain ⟨t', p, _, _, _, h, hI'⟩ := alloc_total_inv hI n h1 h39
    exact ⟨t', p, h, hI'.tiles⟩
  · intro p m hl
    obtain ⟨hp16, _, _, _⟩ := hI.live_block p m hl
    obtain ⟨b, rfl⟩ : ∃ b, p = b + 16 := ⟨p - 16, by omega⟩
    obtain ⟨_, _, _, u, _, _, _, hfree, _, hI', _⟩ := free_spec hI b m hl
    exact ⟨u, hfree, hI'.tiles⟩
  · intro p m n hl h1 h39
    obtain ⟨t', q, hre, hcase⟩ := realloc_cases hI p m n hl h1 h39
    refine ⟨t', q, hre, ?_⟩
    rcases hcase with ⟨pool, b, u, pre, post, _, _, hpool, hblocks, hg, rfl, _, hP, hpools, h31⟩ |
      ⟨v, G, _, _, _, hIv, rfl⟩
    · exact grow_tiles hI hpool hblocks hg.1.1 hP hpools h31
    · exact hIv.tiles.of_sizes rfl (fun _ => rfl)

/-- Witness of C22: on the pool of 2048 bytes with the blocks 4096 (1056 bytes, live),
5168 (32 bytes, free), 5216 and 5248, `realloc(4112, 1100)` grows the first block in
place; the state before satisfies the invariant and the pool is tiled afterwards, by the
three blocks 4096, 5216 and 5248. -/
theorem tiling_preserved_witness :
    (∃ blocks lists, Inv demoChain [(5232, 16), (4112, 1025)] blocks lists) ∧
      realloc demoChain 4112 1100 = some (afterRealloc demoChain 4112 1100, 4112) ∧
      Tiles (afterRealloc demoChain 4112 1100) ∧
      walkPool (afterRealloc demoChain 4112 1100).heap (demoPool 2048) 4096 2048 =
        [4096, 5216, 5248] := by
  obtain ⟨blocks, lists, hI⟩ := reachable_inv demoChain_reach
  obtain ⟨t', q, h1, h2⟩ := (tiling_preserved hI).2.2.2.2 4112 1025 1100 (by decide)
    (by decide) (by decide)
  have h3 : realloc demoChain 4112 1100 = some (afterRealloc demoChain 4112 1100, 4112) := rfl
  rw [h3] at h1
  obtain ⟨rfl, rfl⟩ := Prod.mk.inj (Option.some.inj h1)
  exact ⟨⟨blocks, lists, hI⟩, h3, h2, by decide⟩

/-- Claim C23.  Class membership is preserved by every public operation.  In a state that
satisfies the allocator invariant `Inv` (invariants 1 to 7 of the specification, for valid
pools) every block on a free list is in the list of its class, and each of `initialize` on
a valid pool, `alloc` of a size `1 ≤ n ≤ 2 ^ 39`, `free` of a live pointer and `realloc` of
a live pointer to a size `1 ≤ n ≤ 2 ^ 39` returns and ends in a state where every block
reachable from `heads[fl][sl]` via `next_free` satisfies
`queryBitmapLevelForInsert(block.size) = (fl, sl)`. -/
theorem class_membership_preserved {t : TLSF} {live : List (Nat × Nat)}
    {blocks : TLSFPool → List Nat} {lists : Nat → Nat → List Nat}
    (hI : Inv t live blocks lists) :
    ListsClassified t ∧
    (∀ pool, ValidPool t pool →
      ∃ t', initializePool t pool = some (t', true) ∧ ListsClassified t') ∧
    (∀ n, 1 ≤ n → n ≤ 2 ^ 39 → ∃ t' p, alloc t n = some (t', p) ∧ ListsClassified t') ∧
    (∀ p m, (p, m) ∈ live → ∃ t', TLSF.free t p = some t' ∧ ListsClassified t') ∧
    (∀ p m n, (p, m) ∈ live → 1 ≤ n → n ≤ 2 ^ 39 →
      ∃ t' q, realloc t p n = some (t', q) ∧ ListsClassified t') := by
  refine ⟨hI.listsClassified, ?_, ?_, ?_, ?_⟩
  · intro pool hv
    obtain ⟨t', h, _, hI', _⟩ := init_spec hI pool hv
    exact ⟨t', h, hI'.listsClassified⟩
  · intro n h1 h39
    obtain ⟨t', p, _, _, _, h, hI'⟩ := alloc_total_inv hI n h1 h39
    exact ⟨t', p, h, hI'.listsClassified⟩
  · intro p m hl
    obtain ⟨hp16, _, _, _⟩ := hI.live_block p m hl
    obtain ⟨b, rfl⟩ : ∃ b, p = b + 16 := ⟨p - 16, by omega⟩
    obtain ⟨_, _, _, u, _, _, _, hfree, _, hI', _⟩ := free_spec hI b m hl
    exact ⟨u, hfree, hI'.listsClassified⟩
  · intro p m n hl h1 h39
    obtain ⟨t', q, hre, hcase⟩ := realloc_cases hI p m n hl h1 h39
    refine ⟨t', q, hre, ?_⟩
    rcases hcase with ⟨pool, b, u, pre, post, rfl, _, hpool, hblocks, hg, rfl, hL, hP, _, _⟩ |
      ⟨v, G, _, _, _, hIv, rfl⟩
    · have hbf := (hI.live_block _ m hl).2.2.1
      have eb : b + 16 - 16 = b := by omega
      rw [eb] at hbf
      exact grow_classified hI hpool (by rw [hblocks]; simp) hbf n _ hg hL hP
    · exact ListsClassified.of_free_bits_lists hIv G

/-- Witness of C23: on the pool of 256 bytes after `alloc(100)`, which returns 4112, the
state satisfies the invariant, and `realloc(4112, 80)` and `free(4112)` end in states
whose listed blocks are in the lists of their classes. -/
theorem class_membership_preserved_witness :
    ∃ blocks lists, Inv demo100 [(4112, 100)] blocks lists ∧ ListsClassified demo100 ∧
      (∃ t' q, realloc demo100 4112 80 = some (t', q) ∧ ListsClassified t') ∧
      ∃ t', TLSF.free demo100 4112 = some t' ∧ ListsClassified t' := by
  obtain ⟨blocks, lists, hI⟩ := reachable_inv demo100_reach
  obtain ⟨h1, _, _, h4, h5⟩ := class_membership_preserved hI
  exact ⟨blocks, lists, hI, h1, h5 4112 100 80 (by decide) (by decide) (by decide),
    h4 4112 100 (by decide)⟩

/-- The code at the failing input of claim C24.  On the pool of 256 bytes after three
calls `alloc(16)`, which return 4112, 4144 and 4176, and `free(4112)`, the call
`realloc(4176, 16)` returns 4112; afterwards the block at 4160, of 176 bytes, is the head
of the free list of class `(0, 10)` and its `free` bit is 0. -/
theorem realloc_leaves_free_bit_clear :
    Reachable demoThree [(4176, 16), (4144, 16)] ∧
      realloc demoThree 4176 16 = some (afterRealloc demoThree 4176 16, 4112) ∧
      walkPool (afterRealloc demoThree 4176 16).heap (demoPool 256) 4096 256 =
        [4096, 4128, 4160] ∧
      (afterRealloc demoThree 4176 16).allocationLinkTable 0 10 = 4160 ∧
      OnFreeList (afterRealloc demoThree 4176 16) ⟨0, 10⟩ 4160 ∧
      ((afterRealloc demoThree 4176 16).heap 4160).free = false :=
  ⟨demoThree_reach, rfl, by decide, by decide, by
    have h : (afterRealloc demoThree 4176 16).allocationLinkTable 0 10 = 4160 := by decide
    unfold OnFreeList
    rw [h]
    exact FreeReach.here 4160 (by decide), by decide⟩

/-- The code at the failing input of claim C25.  On the pool of 2048 bytes with the blocks
4096 (1056 bytes, live), 5168 (32 bytes, free) and 5216, `realloc(4112, 1100)` takes the
in-place branch and returns 4112; afterwards the block at 4096 has 1104 bytes, its
physical neighbour is the block at 5216, inside the pool, and the `prev_phys` of that
block is still 5168. -/
theorem realloc_grow_stale_back_link :
    Reachable demoChain [(5232, 16), (4112, 1025)] ∧
      growsInPlace demoChain (demoPool 2048) 4096 1100 ∧
      realloc demoChain 4112 1100 = some (afterRealloc demoChain 4112 1100, 4112) ∧
      walkPool (afterRealloc demoChain 4112 1100).heap (demoPool 2048) 4096 2048 =
        [4096, 5216, 5248] ∧
      4096 + 16 + ((afterRealloc demoChain 4112 1100).heap 4096).size = 5216 ∧
      ((afterRealloc demoChain 4112 1100).heap 5216).prevPhyAlloc = 5168 :=
  ⟨demoChain_reach, by decide, rfl, by decide, by decide, by decide⟩

/-- The code at the failing input of claim C26.  On the pool of 656 bytes with a free
block of 48 bytes in class `(0, 2)` and a free block of 544 bytes in class `(1, 0)`, the
index is consistent, no class `(0, j)` with `j ≥ 5` has its bit set, the class `(1, 0)` has
its bit set and is therefore the least class at or after `(0, 5)` with a set bit, and
`findLevelForSplit` started at `(0, 5)` returns the invalid level: the second level of
the first level 1 is scanned from 5, not from 0. -/
theorem findLevelForSplit_skips_class :
    Reachable demoStale [(4176, 16)] ∧ IndexConsistent demoStale ∧
      (∀ j, j < 32 → 5 ≤ j → (demoStale.secondLevelBitmap 0).testBit j = false) ∧
      (demoStale.secondLevelBitmap 1).testBit 0 = true ∧
      findLevelForSplit demoStale ⟨0, 5⟩ = some BitmapLevel.invalid ∧
      findSecondLevel demoStale 1 5 (32 - 5) = some none :=
  ⟨demoStale_reach, by decide, by decide, by decide, by decide, by decide⟩

/-- Claim C27.  The test `queryFreeStatus` agrees with the corrected test despite its
operator-precedence slip: in every index state in which bit `i` of the first-level bitmap
is set iff `second_bitmap[i] ≠ 0`, for every class `(fl, sl)` with `fl < 31` and `sl < 32`,
the source form `(!first_bitmap) & (1 << fl)` followed by the second-level test returns
`(first_bitmap & (1 << fl)) != 0 && (second_bitmap[fl] & (1 << sl)) != 0`. -/
theorem queryFreeStatus_corrected (t : TLSF)
    (hinv : ∀ i, i < 31 → (t.firstLevelBitmap.testBit i = true ↔ t.secondLevelBitmap i ≠ 0))
    (fl sl : Nat) (hfl : fl < 31) (hsl : sl < 32) :
    queryFreeStatus t ⟨fl, sl⟩ = some (queryFreeStatusCorrected t ⟨fl, sl⟩) := by
  unfold queryFreeStatus queryFreeStatusCorrected
  simp only [ge_iff_le, show ¬ 31 ≤ fl by omega, show ¬ 32 ≤ sl by omega, if_false]
  by_cases hs : t.secondLevelBitmap fl &&& (1 <<< sl) = 0
  · have e : (decide (t.firstLevelBitmap &&& (1 <<< fl) ≠ 0) &&
        decide (t.secondLevelBitmap fl &&& (1 <<< sl) ≠ 0)) = false := by simp [hs]
    rw [e]
    split_ifs <;> simp [hs]
  · have h2 : t.secondLevelBitmap fl ≠ 0 := by
      intro h0
      rw [h0, Nat.zero_and] at hs
      exact hs rfl
    have h1 := (hinv fl hfl).mpr h2
    have h1' := (and_shift_ne_zero_iff t.firstLevelBitmap fl).mpr h1
    have h0 : t.firstLevelBitmap ≠ 0 := by
      intro h0
      rw [h0, Nat.zero_and] at h1'
      exact h1' rfl
    have e : (0 : Nat) &&& (1 <<< fl) = 0 := Nat.zero_and _
    simp only [h0, if_false, e, ne_eq, not_true_eq_false]
    simp [hs, h1']

/-- Witness of C27: in the state after `initialize` on the pool of 256 bytes, the test of
the class `(0, 14)`, which holds the block of 240 bytes, returns `true`. -/
theorem queryFreeStatus_corrected_witness :
    queryFreeStatus (demoInit 256) ⟨0, 14⟩ = some true ∧
      queryFreeStatusCorrected (demoInit 256) ⟨0, 14⟩ = true := by
  have h := queryFreeStatus_corrected (demoInit 256)
    (fun i hi => (by decide : IndexConsistent (demoInit 256)).1 i hi) 0 14 (by decide) (by decide)
  have e : queryFreeStatusCorrected (demoInit 256) ⟨0, 14⟩ = true := by decide
  rw [e] at h
  exact ⟨h, e⟩

/-- Claim C28.  The minimum size of a class and the class of a request are inverse on class
minima: for every class `(fl, sl)` with `fl ≤ 22` and `sl < 32`,
`queryBitmapLevelForAlloc (queryLevelSize (fl, sl)) = (fl, sl)`; consequently
`queryAlignedLevelSize (queryAlignedLevelSize n) = queryAlignedLevelSize n` for every `n`
with `1 ≤ n < 2 ^ 31`. -/
theorem class_size_inverse (fl sl n : Nat) (hfl : fl ≤ 22) (hsl : sl < 32) (h1 : 1 ≤ n)
    (h31 : n < 2 ^ 31) :
    queryBitmapLevelForAlloc (queryLevelSize ⟨fl, sl⟩) = ⟨fl, sl⟩ ∧
      queryAlignedLevelSize (queryAlignedLevelSize n) = queryAlignedLevelSize n := by
  refine ⟨alloc_levelSize fl sl hfl hsl, ?_⟩
  have h39 : n ≤ 2 ^ 39 := by
    have : (2:Nat) ^ 31 ≤ 2 ^ 39 := by norm_num
    omega
  have hs := (alloc_class_spec n h1 h39).2.1
  have hf : (queryBitmapLevelForAlloc n).firstLevel ≤ 22 := by
    by_cases h512 : n ≤ 512
    · rw [alloc_small n h1 h512]
      exact Nat.zero_le _
    · obtain ⟨k, hk, hk64, hlo, hup⟩ := tlsf_fls_sizet_spec n (by omega) (by
        have : (2:Nat) ^ 31 < 2 ^ 64 := by norm_num
        omega)
      have hr := log_range n k 9 31 hlo hup (by norm_num; omega) h31
      rw [alloc_large n k hk (by omega) (by omega) hlo hup]
      dsimp only
      split_ifs <;> simp only <;> omega
  unfold queryAlignedLevelSize
  have e : queryBitmapLevelForAlloc n =
      ⟨(queryBitmapLevelForAlloc n).firstLevel, (queryBitmapLevelForAlloc n).secondLevel⟩ := rfl
  rw [e, alloc_levelSize _ _ hf (by omega)]

/-- Witness of C28: the class `(1, 0)` has the minimum size 528, whose class is `(1, 0)`,
and the request of 1000 bytes is rounded to 1008, which is rounded to itself. -/
theorem class_size_inverse_witness :
    queryLevelSize ⟨1, 0⟩ = 528 ∧ queryBitmapLevelForAlloc 528 = ⟨1, 0⟩ ∧
      queryAlignedLevelSize 1000 = 1008 ∧ queryAlignedLevelSize 1008 = 1008 := by
  have h := class_size_inverse 1 0 1000 (by decide) (by decide) (by decide) (by decide)
  have e1 : queryLevelSize ⟨1, 0⟩ = 528 := by decide
  have e2 : queryAlignedLevelSize 1000 = 1008 := by decide
  rw [e1, e2] at h
  exact ⟨e1, h.1, e2, h.2⟩

/-- Claim C29.  The in-place branch of `realloc`: in every reachable state, for a live
pointer `p` with block `b = p - 16` in `pool` whose physical successor `s` lies inside the
pool and is free, with `merged = s.size + 16 + b.size`, if `n ≤ merged` and
`merged < queryAlignedLevelSize n` then `realloc(p, n)` returns `p`; the state is the one
that `removeFreeAllocationAndUpdateBitmap(s)` yields (heads and bitmaps included) with
`b.size = merged`; no other `size`, no `free` bit and no `prev_phys` changes; the free
lists are those before without `s`; and the index is consistent. -/
theorem realloc_grow_postcondition {t : TLSF} {live : List (Nat × Nat)}
    (hr : Reachable t live) (p m n : Nat) (hl : (p, m) ∈ live) (pool : TLSFPool)
    (hpool : pool ∈ t.memoryPools) (hc : pool.contains (p - 16) = true)
    (hg : growsInPlace t pool (p - 16) n) :
    ∃ u t', removeFreeAllocationAndUpdateBitmap t (p - 16 + 16 + (t.heap (p - 16)).size) =
        some u ∧
      realloc t p n = some (t', p) ∧
      t'.firstLevelBitmap = u.firstLevelBitmap ∧
      t'.secondLevelBitmap = u.secondLevelBitmap ∧
      t'.allocationLinkTable = u.allocationLinkTable ∧
      t'.memoryPools = t.memoryPools ∧
      (∀ x, (t'.heap x).size = if x = p - 16 then
        (t.heap (p - 16 + 16 + (t.heap (p - 16)).size)).size + 16 + (t.heap (p - 16)).size
        else (t.heap x).size) ∧
      (∀ x, (t'.heap x).free = (t.heap x).free) ∧
      (∀ x, (t'.heap x).prevPhyAlloc = (t.heap x).prevPhyAlloc) ∧
      (∀ L x, OnFreeList t' L x ↔
        (OnFreeList t L x ∧ x ≠ p - 16 + 16 + (t.heap (p - 16)).size)) ∧
      IndexConsistent t' := by
  obtain ⟨blocks, lists, hI⟩ := reachable_inv hr
  obtain ⟨hp16, ⟨pool', hpool', hbin'⟩, _, _⟩ := hI.live_block p m hl
  have hpp : pool = pool' :=
    hI.pool_of_contains hpool hpool' hc (hI.block_bounds hpool' hbin').2.2.2.2.2
  subst hpp
  obtain ⟨b, rfl⟩ : ∃ b, p = b + 16 := ⟨p - 16, by omega⟩
  have eb : b + 16 - 16 = b := by omega
  rw [eb] at hbin' hg ⊢
  obtain ⟨u, hrem, hre, hL, hP, hpools, h31⟩ := realloc_grow_full hI hpool hbin' n hg
  have hsin := hI.next_block hpool hbin' hg.1.1
  have hlisted := hI.free_listed pool hpool _ hsin hg.1.2
  refine ⟨u, _, hrem, hre, rfl, rfl, rfl, hpools, ?_, ?_, ?_, ?_,
    hL.indexConsistent.of_heap _⟩
  · intro x
    simp only [withHeap_heap, setSize_size, (hP x).1, toSize31_eq _ h31]
  · intro x
    simp only [withHeap_heap, setSize_free, (hP x).2.1]
  · intro x
    simp only [withHeap_heap, setSize_prevPhyAlloc, (hP x).2.2]
  · intro L x
    rw [(hL.withHeap _ (LinkEq_setSize _ _ _)).onFreeList_iff,
      mem_updLists_erase hI.link _ _ hlisted, hI.link.onFreeList_iff]

/-- Witness of C29: on a pool of 1152 bytes after `alloc(1025)`, which returns 4112, the
block at 4096 has 1056 bytes and its free successor at 5168 has 64 bytes;
`realloc(4112, 1130)` returns 4112, the block has 1136 bytes, and the successor, which
headed the list of class `(0, 3)`, is on no list. -/
theorem realloc_grow_postcondition_witness :
    Reachable demo1152 [(4112, 1025)] ∧ growsInPlace demo1152 (demoPool 1152) (4112 - 16) 1130 ∧
      OnFreeList demo1152 ⟨0, 3⟩ 5168 ∧
      ∃ t', realloc demo1152 4112 1130 = some (t', 4112) ∧ (t'.heap 4096).size = 1136 ∧
        ∀ L, ¬ OnFreeList t' L 5168 := by
  obtain ⟨u, t', _, h2, _, _, _, _, h7, _, _, h10, _⟩ :=
    realloc_grow_postcondition demo1152_reach 4112 1025 1130 (by decide) (demoPool 1152)
      (by decide) (by decide) (by decide)
  have e1 : 4112 - 16 + 16 + (demo1152.heap (4112 - 16)).size = 5168 := by decide
  have e2 : (demo1152.heap 5168).size + 16 + (demo1152.heap (4112 - 16)).size = 1136 := by
    decide
  rw [e1] at h7 h10
  rw [e2] at h7
  have h0 : OnFreeList demo1152 ⟨0, 3⟩ 5168 := by
    have h : demo1152.allocationLinkTable 0 3 = 5168 := by decide
    unfold OnFreeList
    rw [h]
    exact FreeReach.here 5168 (by decide)
  refine ⟨demo1152_reach, by decide, h0, t', h2, ?_, ?_⟩
  · have := h7 4096
    rw [if_pos (by decide)] at this
    exact this
  · intro L hx
    exact ((h10 L 5168).mp hx).2 rfl

/-- Claim C30, amended.  Class indices stay inside the tables: for every `n` with
`1 ≤ n ≤ 2 ^ 39`, `queryBitmapLevelForAlloc n` has `firstLevel ≤ 30` and
`secondLevel ≤ 31`, and no decrement of a 16-bit index wraps in its computation; for every
`s` with `16 ≤ s < 2 ^ 31`, `queryBitmapLevelForInsert s` has `firstLevel ≤ 22` and
`secondLevel ≤ 31`; in its computation the second decrement of the second-level index
wraps from 0 to `0xFFFF` exactly when `512 < s` and `q = (s - 2 ^ k) / (2 ^ k >> 5) = 1`
for `k = floor(log2 s)`, the mask `& (SLC - 1)` then yields the class `(k - 9, 31)`, and
for every other size no decrement wraps.  So both classes are inside the 31-entry
second-level bitmap and the 31 x 32 table of heads. -/
theorem class_indices_in_range (n s k : Nat) (h1 : 1 ≤ n) (h39 : n ≤ 2 ^ 39) (h16 : 16 ≤ s)
    (h31 : s < 2 ^ 31) (hlo : 2 ^ k ≤ s) (hup : s < 2 ^ (k + 1)) :
    ((queryBitmapLevelForAlloc n).firstLevel ≤ 30 ∧
      (queryBitmapLevelForAlloc n).secondLevel ≤ 31 ∧
      queryBitmapLevelForAllocChecked n = some (queryBitmapLevelForAlloc n) ∧
      (queryBitmapLevelForAlloc n).inTable = true) ∧
    ((queryBitmapLevelForInsert s).firstLevel ≤ 22 ∧
      (queryBitmapLevelForInsert s).secondLevel ≤ 31 ∧
      queryBitmapLevelForInsertChecked s =
        (if 512 < s ∧ (s - 2 ^ k) / (2 ^ k >>> 5) = 1 then none
          else some (queryBitmapLevelForInsert s)) ∧
      (512 < s → (s - 2 ^ k) / (2 ^ k >>> 5) = 1 →
        queryBitmapLevelForInsert s = ⟨k - 9, 31⟩) ∧
      (queryBitmapLevelForInsert s).inTable = true) := by
  obtain ⟨a1, a2, _⟩ := alloc_class_spec n h1 h39
  obtain ⟨b1, b2, _⟩ := insert_class_spec s h16 h31
  refine ⟨⟨a1, a2, alloc_checked n h1 h39, ?_⟩, b1, b2, insert_checked s k h16 h31 hlo hup, ?_,
    ?_⟩
  · rw [inTable_iff]; omega
  · intro h512 hq
    rw [insert_class_closed_form s k h16 h31 hlo hup, if_neg (by omega), if_neg (by omega),
      if_pos hq]
  · rw [inTable_iff]; omega

/-- Witness of C30: the request of 1000 bytes has the class `(1, 30)`, the block of 1000
bytes, with `k = 9` and `q = 30`, has the class `(1, 28)`, and no decrement wraps. -/
theorem class_indices_in_range_witness :
    queryBitmapLevelForAlloc 1000 = ⟨1, 30⟩ ∧
      queryBitmapLevelForAllocChecked 1000 = some (queryBitmapLevelForAlloc 1000) ∧
      queryBitmapLevelForInsert 1000 = ⟨1, 28⟩ ∧
      queryBitmapLevelForInsertChecked 1000 = some (queryBitmapLevelForInsert 1000) := by
  obtain ⟨⟨_, _, h3, _⟩, _, _, h6, _⟩ := class_indices_in_range 1000 1000 9 (by decide)
    (by decide) (by decide) (by decide) (by decide) (by decide)
  rw [if_neg (by decide)] at h6
  exact ⟨by decide, h3, by decide, h6⟩

/-- Counterexample to C30 as stated: for the block size 528, with `16 ≤ 528 < 2 ^ 31`, the
computation of `queryBitmapLevelForInsert` decrements the second-level index 0, which
wraps; the class returned is `(0, 31)`. -/
theorem insert_decrement_wraps :
    16 ≤ 528 ∧ 528 < 2 ^ 31 ∧ queryBitmapLevelForInsertChecked 528 = none ∧
      queryBitmapLevelForInsert 528 = ⟨0, 31⟩ ∧ dec16 0 = 65535 := by
  decide

/-! ## Ranks of classes and further lemmas -/

/-- The lexicographic order on classes with second-level indices below 32 is the order of
the ranks `32 * firstLevel + secondLevel`. -/
theorem le_iff_rank (a b : BitmapLevel) (ha : a.secondLevel < 32) (hb : b.secondLevel < 32) :
    a.le b ↔ a.firstLevel * 32 + a.secondLevel ≤ b.firstLevel * 32 + b.secondLevel := by
  unfold BitmapLevel.le
  omega

/-- The rank of the class of a block above `FLM`: with `k = floor(log2 s)` it is
`32 * (k - 9) + 30 + q` for the quotient `q = (s - 2 ^ k) / 2 ^ (k - 5)`. -/
theorem insert_rank_large (s : Nat) (h512 : 512 < s) (h31 : s < 2 ^ 31) :
    ∃ k q, 9 ≤ k ∧ k < 31 ∧ 2 ^ k ≤ s ∧ s < 2 ^ (k + 1) ∧ q = (s - 2 ^ k) / 2 ^ (k - 5) ∧
      q < 32 ∧ (queryBitmapLevelForInsert s).secondLevel < 32 ∧
      (queryBitmapLevelForInsert s).firstLevel * 32 + (queryBitmapLevelForInsert s).secondLevel =
        32 * (k - 9) + 30 + q := by
  obtain ⟨k, hk, hk64, hlo, hup⟩ := tlsf_fls_sizet_spec s (by omega) (by
    have : (2:Nat) ^ 31 ≤ 2 ^ 64 := by norm_num
    omega)
  obtain ⟨hr1, hr2⟩ := log_range s k 9 31 hlo hup (by norm_num; omega) h31
  have hq32 : (s - 2 ^ k) / 2 ^ (k - 5) < 32 := by
    rw [Nat.div_lt_iff_lt_mul (Nat.pow_pos (by norm_num))]
    have e : (2:Nat) ^ k = 32 * 2 ^ (k - 5) := by
      rw [show (32:Nat) = 2 ^ 5 by norm_num, ← Nat.pow_add]
      congr 1
      omega
    have e2 : (2:Nat) ^ (k + 1) = 2 * 2 ^ k := by rw [Nat.pow_succ]; omega
    omega
  refine ⟨k, (s - 2 ^ k) / 2 ^ (k - 5), hr1, hr2, hlo, hup, rfl, hq32, ?_⟩
  rw [insert_large s k hk h512 hk64 hlo hup]
  generalize (s - 2 ^ k) / 2 ^ (k - 5) = q at hq32 ⊢
  dsimp only
  split_ifs with h0 h1
  · simp only; omega
  · simp only; omega
  · simp only; omega

/-- The quotient `(k, q)` of a size grows with the size. -/
theorem log_quotient_mono (s1 s2 k1 k2 : Nat) (hle : s1 ≤ s2)
    (hlo1 : 2 ^ k1 ≤ s1)
    (hlo2 : 2 ^ k2 ≤ s2) (hup2 : s2 < 2 ^ (k2 + 1)) :
    k1 < k2 ∨ (k1 = k2 ∧ (s1 - 2 ^ k1) / 2 ^ (k1 - 5) ≤ (s2 - 2 ^ k2) / 2 ^ (k2 - 5)) := by
  have hk : k1 ≤ k2 := by
    by_contra hn
    have : (2:Nat) ^ (k2 + 1) ≤ 2 ^ k1 := Nat.pow_le_pow_right (by norm_num) (by omega)
    omega
  rcases Nat.lt_or_ge k1 k2 with h | h
  · exact Or.inl h
  · have e : k1 = k2 := by omega
    subst e
    exact Or.inr ⟨rfl, Nat.div_le_div_right (by omega)⟩

/-- The size that `realloc` compares with, for a request of at most 1024 bytes: the
request rounded up to a multiple of 16. -/
theorem aligned_small (n : Nat) (h1 : 1 ≤ n) (h2 : n ≤ 1024) :
    queryAlignedLevelSize n = (n + 15) / 16 * 16 := by
  unfold queryAlignedLevelSize
  by_cases h512 : n ≤ 512
  · rw [alloc_small n h1 h512, levelSize_zero _ (by omega)]
    omega
  · by_cases h1024 : n = 1024
    · subst h1024
      decide
    · obtain ⟨k, hk, hk64, hlo, hup⟩ := tlsf_fls_sizet_spec n (by omega) (by
        have : (2:Nat) ^ 31 ≤ 2 ^ 64 := by norm_num
        omega)
      obtain ⟨hr1, hr2⟩ := log_range n k 9 10 hlo hup (by norm_num; omega) (by norm_num; omega)
      have hk9 : k = 9 := by omega
      subst hk9
      rw [alloc_large n 9 hk (by omega) (by omega) hlo hup]
      generalize hq : (n + 2 ^ (9 - 5) - 1 - 2 ^ 9) / 2 ^ (9 - 5) = q
      norm_num at hq
      dsimp only
      have hq1 : 1 ≤ q := by omega
      have hq2 : q ≤ 32 := by omega
      rw [if_neg (by omega), levelSize_pos _ _ (by omega) (by omega) (by omega)]
      norm_num
      omega

theorem demoPair_reach : Reachable demoPair [(4208, 16), (4144, 16)] :=
  Reachable.free 4176 16
    (Reachable.free 4112 16
      (Reachable.allocSome 16 4208
        (Reachable.allocSome 16 4176
          (Reachable.allocSome 16 4144
            (Reachable.allocSome 16 4112 (demoInit_reach 256 (by decide) (by decide))
              (by decide) (by decide) rfl (by decide))
            (by decide) (by decide) rfl (by decide))
          (by decide) (by decide) rfl (by decide))
        (by decide) (by decide) rfl (by decide))
      (by decide) rfl)
    (by decide) rfl

/-- With pool capacities that are multiples of 16, every block has a size that is a
multiple of 16. -/
theorem Inv.size_mod {t : TLSF} {live : List (Nat × Nat)} {blocks : TLSFPool → List Nat}
    {lists : Nat → Nat → List Nat} (hI : Inv t live blocks lists) {pool : TLSFPool}
    (hpool : pool ∈ t.memoryPools) (hcap : pool.capacity % 16 = 0) {b : Nat}
    (hbin : b ∈ blocks pool) : (t.heap b).size % 16 = 0 := by
  have hbb := hI.block_bounds hpool hbin
  have ha := hI.align pool hpool b hbin
  by_cases hin : b + 16 + (t.heap b).size < pool.memptr + pool.capacity
  · have hn := hI.next_block hpool hbin hin
    have ha' := hI.align pool hpool _ hn
    omega
  · omega

/-- In a doubly linked segment every member other than the first is the `nextFreeAlloc`
of its `prevFreeAlloc`, which is a member too. -/
theorem DSeg_prev_link (h : Heap) (l : List Nat) :
    ∀ (prev a e : Nat), DSeg h prev a l e → ∀ x ∈ l, x ≠ a →
      (h x).prevFreeAlloc ∈ l ∧ (h (h x).prevFreeAlloc).nextFreeAlloc = x := by
  induction l with
  | nil => intro prev a e _ x hx; simp at hx
  | cons y ys ih =>
    intro prev a e hs x hx hxa
    obtain ⟨ha, _, _, hrest⟩ := hs
    subst ha
    rcases List.mem_cons.mp hx with rfl | hx
    · exact absurd rfl hxa
    · cases ys with
      | nil => simp at hx
      | cons z zs =>
        have hz : (h a).nextFreeAlloc = z := hrest.1
        have hzp : (h z).prevFreeAlloc = a := hrest.2.2.1
        by_cases hxz : x = z
        · subst hxz
          rw [hzp]
          exact ⟨List.mem_cons_self _ _, hz⟩
        · obtain ⟨h1, h2⟩ := ih a _ e hrest x hx (by rw [hz]; exact hxz)
          exact ⟨List.mem_cons_of_mem _ h1, h2⟩

/-! ## The claims, fourth part -/

/-- Claim C31.  Block sizes meet the precondition of the mappers: in every state reachable
by `initialize`, `alloc` and `free` whose pools all have a capacity that is a multiple of
16 and at least 32, every block of every pool, free or allocated, has a size that is a
multiple of 16 and at least `MinimiumAllocationSize = 16`.  The argument of every call of
`queryBitmapLevelForInsert` is the `size` field of a block of the state before or after
the operation, so the mapper is not called with a size below 16. -/
theorem block_sizes_aligned {t : TLSF} {live : List (Nat × Nat)} (hr : Reachable t live)
    (hcap : ∀ pool ∈ t.memoryPools, pool.capacity % 16 = 0 ∧ 32 ≤ pool.capacity) :
    ∀ pool ∈ t.memoryPools, ∀ b ∈ walkPool t.heap pool pool.memptr pool.capacity,
      (t.heap b).size % 16 = 0 ∧ MinimiumAllocationSize ≤ (t.heap b).size := by
  obtain ⟨blocks, lists, hI⟩ := reachable_inv hr
  intro pool hpool b hb
  rw [hI.walkPool_eq hpool _ (le_refl _)] at hb
  exact ⟨hI.size_mod hpool (hcap pool hpool).1 hb, (hI.block_bounds hpool hb).2.2.1⟩

/-- Witness of C31: the pool of 256 bytes after `alloc(128)`, `alloc(48)` and `alloc(16)`
holds the blocks 4096, 4240 and 4304, of 128, 48 and 32 bytes. -/
theorem block_sizes_aligned_witness :
    Reachable demo4 [(4320, 16), (4256, 48), (4112, 128)] ∧
      (∀ pool ∈ demo4.memoryPools, pool.capacity % 16 = 0 ∧ 32 ≤ pool.capacity) ∧
      walkPool demo4.heap (demoPool 256) 4096 256 = [4096, 4240, 4304] ∧
      ∀ pool ∈ demo4.memoryPools,
        ∀ b ∈ walkPool demo4.heap pool pool.memptr pool.capacity,
          (demo4.heap b).size % 16 = 0 ∧ MinimiumAllocationSize ≤ (demo4.heap b).size :=
  ⟨demo4_reach, by decide, by decide, block_sizes_aligned demo4_reach (by decide)⟩

/-- Claim C32.  A failed `alloc` changes nothing: in every state reachable by `initialize`,
`alloc` and `free`, for `1 ≤ n ≤ 2 ^ 39` the call `alloc(n)` returns, and when it returns
null the state after the call is the state before it: both bitmaps, the table of heads, and
every field of every header. -/
theorem failed_alloc_changes_nothing {t : TLSF} {live : List (Nat × Nat)}
    (hr : Reachable t live) (n : Nat) (h1 : 1 ≤ n) (h39 : n ≤ 2 ^ 39) :
    ∃ t' p, alloc t n = some (t', p) ∧
      (p = 0 → t' = t ∧ t'.firstLevelBitmap = t.firstLevelBitmap ∧
        t'.secondLevelBitmap = t.secondLevelBitmap ∧
        t'.allocationLinkTable = t.allocationLinkTable ∧ t'.heap = t.heap) := by
  obtain ⟨blocks, lists, hI⟩ := reachable_inv hr
  obtain ⟨t', p, _, _, _, h, _⟩ := alloc_total_inv hI n h1 h39
  refine ⟨t', p, h, ?_⟩
  rintro rfl
  obtain rfl := alloc_null_state h
  exact ⟨rfl, rfl, rfl, rfl, rfl⟩

/-- Witness of C32: on the pool of 256 bytes after `alloc(128)` and `alloc(48)`, the call
`alloc(56)` returns null and leaves the state as it was. -/
theorem failed_alloc_changes_nothing_witness :
    Reachable demo2 [(4256, 48), (4112, 128)] ∧ alloc demo2 56 = some (demo2, 0) ∧
      ∃ t' p, alloc demo2 56 = some (t', p) ∧
        (p = 0 → t' = demo2 ∧ t'.firstLevelBitmap = demo2.firstLevelBitmap ∧
          t'.secondLevelBitmap = demo2.secondLevelBitmap ∧
          t'.allocationLinkTable = demo2.allocationLinkTable ∧ t'.heap = demo2.heap) :=
  ⟨demo2_reach, demo3_eq,
    failed_alloc_changes_nothing demo2_reach 56 (by decide) (by decide)⟩

/-- Claim C33.  Live allocations are left alone: in every state reachable by `initialize`,
`alloc` and `free`, the calls `alloc(n)` with `1 ≤ n ≤ 2 ^ 39` and `free(p)` on a live
pointer return, and for every allocated block `x` of the state before the call, other than
the block given to `free`, the call changes neither the size nor the free bit, and leaves
`prev_phys` as it was or sets it to the header of the block that physically precedes `x`
after the call.  The block that `alloc` returns is free before the call, so it is not
among these blocks. -/
theorem live_blocks_left_alone {t : TLSF} {live : List (Nat × Nat)} (hr : Reachable t live) :
    (∀ n, 1 ≤ n → n ≤ 2 ^ 39 → ∃ t' p, alloc t n = some (t', p) ∧
      ∀ pool ∈ t.memoryPools, ∀ x ∈ walkPool t.heap pool pool.memptr pool.capacity,
        (t.heap x).free = false →
        x + 16 ≠ p ∧ (t'.heap x).size = (t.heap x).size ∧ (t'.heap x).free = false ∧
          ((t'.heap x).prevPhyAlloc = (t.heap x).prevPhyAlloc ∨
            PhysPredecessor t' pool (t'.heap x).prevPhyAlloc x)) ∧
    (∀ p m, (p, m) ∈ live → ∃ t', TLSF.free t p = some t' ∧
      ∀ pool ∈ t.memoryPools, ∀ x ∈ walkPool t.heap pool pool.memptr pool.capacity,
        (t.heap x).free = false → x + 16 ≠ p →
        (t'.heap x).size = (t.heap x).size ∧ (t'.heap x).free = false ∧
          ((t'.heap x).prevPhyAlloc = (t.heap x).prevPhyAlloc ∨
            PhysPredecessor t' pool (t'.heap x).prevPhyAlloc x)) := by
  obtain ⟨blocks, lists, hI⟩ := reachable_inv hr
  constructor
  · intro n h1 h39
    rcases alloc_spec hI n h1 h39 with ⟨h, _⟩ | ⟨t', b, C, rest, pool0, pre, post, h, hCT, hl,
      _, hpool0, hblocks, hpools, hle, hcase⟩
    · refine ⟨t, 0, h, ?_⟩
      intro pool hpool x hx hxf
      exact ⟨by omega, rfl, hxf, Or.inl rfl⟩
    · refine ⟨t', b + 16, h, ?_⟩
      intro pool hpool x hx hxf
      rw [hI.walkPool_eq hpool _ (le_refl _)] at hx
      have hbC : b ∈ lists C.firstLevel C.secondLevel := by rw [hl]; exact List.mem_cons_self _ _
      have hbf : (t.heap b).free = true := (hI.listed_free _ _ _ hbC).2.1
      have hxb : x ≠ b := by
        rintro rfl
        rw [hbf] at hxf
        exact Bool.noConfusion hxf
      have hbin : b ∈ blocks pool0 := by rw [hblocks]; simp
      refine ⟨by omega, ?_⟩
      rcases hcase with ⟨_, hP, _⟩ | ⟨_, hbig, hsize, hfree, hprev, hI'⟩
      · obtain ⟨e1, e2, e3⟩ := hP x
        rw [setFree_size] at e1
        rw [setFree_free, if_neg hxb] at e2
        rw [setFree_prevPhyAlloc] at e3
        exact ⟨e1, e2.trans hxf, Or.inl e3⟩
      · have hxr : x ≠ b + 16 + queryAlignedLevelSize n := by
          rintro rfl
          exact hI.interior_not_block hpool0 hbin (by omega) (by omega) pool hpool hx
        refine ⟨?_, ?_, ?_⟩
        · rw [hsize, if_neg hxb, if_neg hxr]
        · rw [hfree, if_neg hxb, if_neg hxr]
          exact hxf
        · rw [hprev, if_neg hxr]
          by_cases hc : x = b + 16 + (t.heap b).size ∧
              b + 16 + (t.heap b).size < pool0.memptr + pool0.capacity
          · rw [if_pos hc]
            right
            have hx0 : x ∈ blocks pool0 := by
              rw [hc.1]
              exact hI.next_block hpool0 hbin hc.2
            have hpp : pool = pool0 := hI.pool_unique hpool hpool0 hx hx0
            subst hpp
            refine ⟨?_, ?_⟩
            · rw [hI'.walkPool_eq (by rw [hpools]; exact hpool) _ (le_refl _)]
              simp
            · have hr1 : b + 16 + queryAlignedLevelSize n ≠ b := by omega
              rw [hsize, if_neg hr1, if_pos rfl, hc.1]
              omega
          · rw [if_neg hc]
            exact Or.inl rfl
  · intro p m hl
    obtain ⟨hp16, _, _, _⟩ := hI.live_block p m hl
    obtain ⟨b, rfl⟩ : ∃ b, p = b + 16 := ⟨p - 16, by omega⟩
    obtain ⟨pool0, pre, post, t', lists', hpool0, hblocks, hfree, hpools, hI', hsize, hfr, hprev,
      _, hmp, hms, _, _, hend⟩ := free_spec hI b m hl
    refine ⟨t', hfree, ?_⟩
    intro pool hpool x hx hxf hxp
    rw [hI.walkPool_eq hpool _ (le_refl _)] at hx
    have hxb : x ≠ b := by omega
    have hxm : x ≠ mergedStart t b := by
      unfold mergedStart
      split_ifs with hmg
      · rintro rfl
        rw [hmg.2] at hxf
        exact Bool.noConfusion hxf
      · exact hxb
    have hmin : mergedStart t b ∈ updBlocks blocks pool0
        ((if mergesPrev t b then pre.dropLast else pre) ++
          mergedStart t b :: (if mergesNext t pool0 b then post.tail else post)) pool0 := by
      simp
    have hpool0' : pool0 ∈ t'.memoryPools := by rw [hpools]; exact hpool0
    have hmb := hI'.block_bounds hpool0' hmin
    refine ⟨?_, ?_, ?_⟩
    · rw [hsize, if_neg hxm]
    · rw [hfr, if_neg hxb]
      exact hxf
    · rw [hprev]
      by_cases hc : x = mergedStart t b + 16 + mergedSize t pool0 b ∧
          mergedStart t b + 16 + mergedSize t pool0 b < pool0.memptr + pool0.capacity
      · rw [if_pos hc]
        right
        have hpp : pool = pool0 := by
          by_contra hne
          exact hI.not_mem_other hpool0 hpool hne (x := x) (by omega) hx
        subst hpp
        refine ⟨?_, ?_⟩
        · rw [hI'.walkPool_eq hpool0' _ (le_refl _)]
          exact hmin
        · rw [hsize, if_pos rfl, hc.1]
      · rw [if_neg hc]
        exact Or.inl rfl

/-- Witness of C33: on the pool of 256 bytes with the free block 4096 and the live blocks
4128 and 4160, `free(4144)` merges the block 4128 into 4096; the live block 4160 keeps its
size 16 and its free bit, and its `prev_phys` changes from 4128 to 4096, the header of the
merged block of 48 bytes that now precedes it. -/
theorem live_blocks_left_alone_witness :
    Reachable demoThree [(4176, 16), (4144, 16)] ∧
      (demoThree.heap 4160).prevPhyAlloc = 4128 ∧
      ∃ t', TLSF.free demoThree 4144 = some t' ∧ (t'.heap 4160).prevPhyAlloc = 4096 ∧
        (t'.heap 4096).size = 48 ∧
        ∀ pool ∈ demoThree.memoryPools,
          ∀ x ∈ walkPool demoThree.heap pool pool.memptr pool.capacity,
            (demoThree.heap x).free = false → x + 16 ≠ 4144 →
            (t'.heap x).size = (demoThree.heap x).size ∧ (t'.heap x).free = false ∧
              ((t'.heap x).prevPhyAlloc = (demoThree.heap x).prevPhyAlloc ∨
                PhysPredecessor t' pool (t'.heap x).prevPhyAlloc x) := by
  obtain ⟨t', h1, h2⟩ := (live_blocks_left_alone demoThree_reach).2 4144 16 (by decide)
  have h3 : TLSF.free demoThree 4144 = some (afterFree demoThree 4144) := rfl
  rw [h3] at h1
  obtain rfl := Option.some.inj h1
  exact ⟨demoThree_reach, by decide, _, h3, by decide, by decide, h2⟩

/-- Claim C34.  Free lists are well-formed doubly linked lists: in every state reachable
by `initialize`, `alloc` and `free`, for every class the chain from `heads[fl][sl]` via
`next_free` is a list without repetition that ends with null, hence finite and acyclic;
its head has `prev_free = null`; every other member `x` has its `prev_free` on the list
with `x.prev_free.next_free = x`; and every block with `free = 1` occurs exactly once on
the list of exactly one class. -/
theorem free_lists_well_formed {t : TLSF} {live : List (Nat × Nat)} (hr : Reachable t live) :
    (∀ L : BitmapLevel, ∃ l : List Nat, l.Nodup ∧ DSeg t.heap 0 (t.head L) l 0 ∧
      ∀ x, OnFreeList t L x ↔ x ∈ l) ∧
    (∀ L : BitmapLevel, t.head L ≠ 0 → (t.heap (t.head L)).prevFreeAlloc = 0) ∧
    (∀ (L : BitmapLevel) (x : Nat), OnFreeList t L x → x ≠ t.head L →
      OnFreeList t L (t.heap x).prevFreeAlloc ∧
        (t.heap (t.heap x).prevFreeAlloc).nextFreeAlloc = x) ∧
    (∀ pool ∈ t.memoryPools, ∀ b ∈ walkPool t.heap pool pool.memptr pool.capacity,
      (t.heap b).free = true →
      ∃ (L : BitmapLevel) (l : List Nat), L.inTable = true ∧ DSeg t.heap 0 (t.head L) l 0 ∧
        l.count b = 1 ∧ OnFreeList t L b ∧ ∀ L', OnFreeList t L' b → L' = L) := by
  obtain ⟨blocks, lists, hI⟩ := reachable_inv hr
  refine ⟨?_, ?_, ?_, ?_⟩
  · intro L
    exact ⟨lists L.firstLevel L.secondLevel, hI.link.nodup _ _, hI.link.seg _ _,
      fun x => hI.link.onFreeList_iff L x⟩
  · intro L hne
    have hseg := hI.link.seg L.firstLevel L.secondLevel
    cases hl : lists L.firstLevel L.secondLevel with
    | nil =>
      rw [hl] at hseg
      exact absurd hseg hne
    | cons a rest =>
      rw [hl] at hseg
      have ha : t.head L = a := hseg.1
      rw [ha]
      exact hseg.2.2.1
  · intro L x hx hxa
    rw [hI.link.onFreeList_iff] at hx ⊢
    exact DSeg_prev_link t.heap _ 0 _ 0 (hI.link.seg _ _) x hx hxa
  · intro pool hpool b hb hfree
    rw [hI.walkPool_eq hpool _ (le_refl _)] at hb
    have hmem := hI.free_listed pool hpool b hb hfree
    refine ⟨queryBitmapLevelForInsert (t.heap b).size, _, (hI.class_inTable hpool hb).1,
      hI.link.seg _ _, List.count_eq_one_of_mem (hI.link.nodup _ _) hmem,
      (hI.link.onFreeList_iff _ b).mpr hmem, ?_⟩
    intro L' hL'
    rw [hI.link.onFreeList_iff] at hL'
    obtain ⟨h1, h2⟩ := hI.link.disjoint _ _ _ _ b hL' hmem
    exact BitmapLevel.eq_of _ _ h1 h2

/-- Witness of C34: on the pool of 256 bytes with the two free blocks of 16 bytes 4160 and
4096, the list of class `(0, 0)` is 4160 followed by 4096; the head 4160 has no
predecessor, the block 4096 names 4160 as its predecessor, and 4160 names 4096 as its
successor. -/
theorem free_lists_well_formed_witness :
    Reachable demoPair [(4208, 16), (4144, 16)] ∧ demoPair.head ⟨0, 0⟩ = 4160 ∧
      (demoPair.heap 4160).nextFreeAlloc = 4096 ∧ (demoPair.heap 4096).nextFreeAlloc = 0 ∧
      (demoPair.heap 4160).prevFreeAlloc = 0 ∧ (demoPair.heap 4096).prevFreeAlloc = 4160 ∧
      (∃ l : List Nat, l.Nodup ∧ DSeg demoPair.heap 0 (demoPair.head ⟨0, 0⟩) l 0 ∧
        ∀ x, OnFreeList demoPair ⟨0, 0⟩ x ↔ x ∈ l) :=
  ⟨demoPair_reach, by decide, by decide, by decide, by decide, by decide,
    (free_lists_well_formed demoPair_reach).1 ⟨0, 0⟩⟩

/-- Claim C35, amended.  The class of a block grows with its size, except across the
boundary `FLM = 512`: for `16 ≤ s1 ≤ s2 < 2 ^ 31` the class of `s1` is lexicographically
at most the class of `s2` if and only if it is not the case that `s1 = 512` and
`512 < s2 < 528`.  In particular the mapper is monotone on the multiples of 16. -/
theorem insert_class_monotone (s1 s2 : Nat) (h16 : 16 ≤ s1) (hle : s1 ≤ s2) (h31 : s2 < 2 ^ 31) :
    (queryBitmapLevelForInsert s1).le (queryBitmapLevelForInsert s2) ↔
      ¬ (s1 = 512 ∧ 512 < s2 ∧ s2 < 528) := by
  by_cases hx : s1 = 512 ∧ 512 < s2 ∧ s2 < 528
  · obtain ⟨rfl, h2, h3⟩ := hx
    have e2 := insert_lt_544 s2 (by omega) (by omega)
    rw [if_neg (by omega), if_pos h3] at e2
    rw [insert_small 512 (by norm_num) (by norm_num), e2]
    constructor
    · intro h
      simp only [BitmapLevel.le] at h
      omega
    · intro h; exact absurd ⟨rfl, h2, h3⟩ h
  · refine ⟨fun _ => hx, fun _ => ?_⟩
    by_cases ha : s1 ≤ 512
    · by_cases hb : s2 ≤ 512
      · rw [insert_small s1 h16 ha, insert_small s2 (by omega) hb]
        right
        refine ⟨rfl, ?_⟩
        have := Nat.div_le_div_right (c := 16) hle
        show s1 / 16 - 1 ≤ s2 / 16 - 1
        omega
      · obtain ⟨k, q, hk9, hk31, hlo, hup, hq, hq32, hsl, hrank⟩ :=
          insert_rank_large s2 (by omega) h31
        rw [le_iff_rank _ _ (by rw [insert_small s1 h16 ha]; show s1 / 16 - 1 < 32; omega) hsl,
          hrank, insert_small s1 h16 ha]
        show 0 * 32 + (s1 / 16 - 1) ≤ 32 * (k - 9) + 30 + q
        by_cases h512 : s1 = 512
        · subst h512
          have h528 : 528 ≤ s2 := by
            by_contra hn
            exact hx ⟨rfl, by omega, by omega⟩
          by_cases hk : k = 9
          · subst hk
            have : 1 ≤ q := by
              rw [hq]
              norm_num
              omega
            omega
          · omega
        · omega
    · obtain ⟨k1, q1, hk9, hk31, hlo1, hup1, hq1, hq32, hsl1, hrank1⟩ :=
        insert_rank_large s1 (by omega) (by omega)
      obtain ⟨k2, q2, hk9', hk31', hlo2, hup2, hq2, hq32', hsl2, hrank2⟩ :=
        insert_rank_large s2 (by omega) h31
      rw [le_iff_rank _ _ hsl1 hsl2, hrank1, hrank2]
      rcases log_quotient_mono s1 s2 k1 k2 hle hlo1 hlo2 hup2 with h | ⟨h, hq⟩
      · omega
      · rw [← hq1, ← hq2] at hq
        omega

/-- Witness of C35: the blocks of 512 and 528 bytes are both filed in the class
`(0, 31)`. -/
theorem insert_class_monotone_witness :
    (16 ≤ 512 ∧ 512 ≤ 528 ∧ 528 < 2 ^ 31) ∧
      queryBitmapLevelForInsert 512 = ⟨0, 31⟩ ∧ queryBitmapLevelForInsert 528 = ⟨0, 31⟩ ∧
      (queryBitmapLevelForInsert 512).le (queryBitmapLevelForInsert 528) :=
  ⟨by decide, by decide, by decide,
    (insert_class_monotone 512 528 (by decide) (by decide) (by decide)).mpr (by decide)⟩

/-- Counterexample to C35 as stated: `512 ≤ 513`, the block of 512 bytes is filed in the
class `(0, 31)` and the block of 513 bytes in the lower class `(0, 30)`. -/
theorem insert_class_not_monotone :
    16 ≤ 512 ∧ 512 ≤ 513 ∧ 513 < 2 ^ 31 ∧
      queryBitmapLevelForInsert 512 = ⟨0, 31⟩ ∧ queryBitmapLevelForInsert 513 = ⟨0, 30⟩ ∧
      (queryBitmapLevelForInsert 513).lt (queryBitmapLevelForInsert 512) ∧
      ¬ (queryBitmapLevelForInsert 512).le (queryBitmapLevelForInsert 513) := by
  refine ⟨by decide, by decide, by decide, by decide, by decide, ?_, ?_⟩
  · rw [show queryBitmapLevelForInsert 513 = ⟨0, 30⟩ by decide,
      show queryBitmapLevelForInsert 512 = ⟨0, 31⟩ by decide]
    right
    exact ⟨rfl, by decide⟩
  · rw [show queryBitmapLevelForInsert 513 = ⟨0, 30⟩ by decide,
      show queryBitmapLevelForInsert 512 = ⟨0, 31⟩ by decide]
    simp [BitmapLevel.le]

/-- Claim C36.  The second removal in `splitAllocation` is a no-op: in every state
reachable by `initialize`, `alloc` and `free`, when `queryAllocationWithFreeLevel(level)`
has popped the head `b` and left the state `t1`, the call
`removeFreeAllocationAndUpdateBitmap(b, level)` that follows returns and leaves the state
`t1`: the table of heads, both bitmaps and every header are as they were after the pop. -/
theorem second_removal_noop {t : TLSF} {live : List (Nat × Nat)} (hr : Reachable t live)
    (level : BitmapLevel) (t1 : TLSF) (b : Nat)
    (hpop : queryAllocationWithFreeLevel t level = some (t1, b)) :
    removeFreeAllocationAndUpdateBitmapLevel t1 b level = some t1 := by
  obtain ⟨blocks, lists, hI⟩ := reachable_inv hr
  have hT : level.inTable = true := by
    by_contra hn
    unfold queryAllocationWithFreeLevel at hpop
    rw [if_pos hn] at hpop
    exact Option.noConfusion hpop
  have hne : t.head level ≠ 0 := by
    intro h0
    unfold queryAllocationWithFreeLevel at hpop
    rw [if_neg (by simp [hT])] at hpop
    simp only [h0, if_true] at hpop
    exact Option.noConfusion hpop
  have hseg := hI.link.seg level.firstLevel level.secondLevel
  cases hl : lists level.firstLevel level.secondLevel with
  | nil =>
    rw [hl] at hseg
    exact absurd hseg hne
  | cons a rest =>
    obtain ⟨t', hpop', _, _, _, hnoop⟩ := pop_spec hI.link level hT a rest hl
    rw [hpop'] at hpop
    obtain ⟨rfl, rfl⟩ := Prod.mk.inj (Option.some.inj hpop)
    exact hnoop

/-- Witness of C36: on the pool of 256 bytes with the two free blocks of 16 bytes 4160 and
4096 on the list of class `(0, 0)`, the pop returns 4160, whose `nextFreeAlloc` still names
4096, and the removal that follows leaves the state of the pop. -/
theorem second_removal_noop_witness :
    Reachable demoPair [(4208, 16), (4144, 16)] ∧ demoPair.head ⟨0, 0⟩ = 4160 ∧
      ∃ t1, queryAllocationWithFreeLevel demoPair ⟨0, 0⟩ = some (t1, 4160) ∧
        t1.head ⟨0, 0⟩ = 4096 ∧ (t1.heap 4160).nextFreeAlloc = 4096 ∧
        removeFreeAllocationAndUpdateBitmapLevel t1 4160 ⟨0, 0⟩ = some t1 :=
  ⟨demoPair_reach, by decide,
    ((queryAllocationWithFreeLevel demoPair ⟨0, 0⟩).map Prod.fst).getD demoPair, rfl,
    by decide, by decide, second_removal_noop demoPair_reach ⟨0, 0⟩ _ 4160 rfl⟩

/-- Claim C37.  The in-place branch of `realloc` is not taken for small requests.  For
`1 ≤ n ≤ 1024` no multiple `m` of 16 satisfies `m ≥ n` and `m < queryAlignedLevelSize n`;
hence, when the size of the block of `p` and the size of its physical successor are
multiples of 16, `realloc(p, n)` is the coalescing insertion of the block followed by
`alloc(n)`. -/
theorem realloc_small_moves (t : TLSF) (p n : Nat) (pool : TLSFPool)
    (hloc : locatePool t (Heap.fromPtr p) = some pool) (h1 : 1 ≤ n) (h2 : n ≤ 1024)
    (hb : (t.heap (Heap.fromPtr p)).size % 16 = 0)
    (hs : (t.heap (t.heap.nextPhyAllocation (Heap.fromPtr p))).size % 16 = 0) :
    (∀ m, m % 16 = 0 → ¬ (m ≥ n ∧ m < queryAlignedLevelSize n)) ∧
      realloc t p n =
        (insertFreeAllocation t (Heap.fromPtr p) true (some pool)).bind
          (fun u => alloc u n) := by
  have hnum : ∀ m, m % 16 = 0 → ¬ (m ≥ n ∧ m < queryAlignedLevelSize n) := by
    intro m hm
    rw [aligned_small n h1 h2]
    omega
  refine ⟨hnum, ?_⟩
  unfold realloc
  simp only [hloc]
  by_cases hnext : t.heap.nextPhyAllocation (Heap.fromPtr p) ≥ pool.endPtr
  · rw [if_pos hnext, if_neg (by simp)]
    cases insertFreeAllocation t (Heap.fromPtr p) true (some pool) <;> rfl
  · rw [if_neg hnext, if_neg]
    · cases insertFreeAllocation t (Heap.fromPtr p) true (some pool) <;> rfl
    · rintro ⟨_, hc⟩
      refine hnum _ ?_ hc
      unfold add64
      simp only [AllocHeader.TrueSize]
      omega

/-- Witness of C37: on the pool of 256 bytes after `alloc(128)`, the block of 4112 has 128
bytes and its successor is free with 96 bytes; `realloc(4112, 100)` does not grow in place
although the merged size 240 exceeds 100. -/
theorem realloc_small_moves_witness :
    (∀ m, m % 16 = 0 → ¬ (m ≥ 100 ∧ m < queryAlignedLevelSize 100)) ∧
      realloc demo1 4112 100 =
        (insertFreeAllocation demo1 (Heap.fromPtr 4112) true (some (demoPool 256))).bind
          (fun u => alloc u 100) :=
  realloc_small_moves demo1 4112 100 (demoPool 256) (by decide) (by decide) (by decide)
    (by decide) (by decide)

end ugi
